import Mathlib

/-!
# gotray/got: toolchain provisioning

A shallow embedding of the provisioning code of `cmd/internal/install`
(`python.go`, `archive.go`) together with the properties proved about it.

Go strings are modelled as lists of characters, Go byte slices as lists of
natural numbers below 256.  Library functions of the Go standard library
(`strings`, `path/filepath`, `crypto/sha1`, `encoding/hex`) are modelled from
their documented behaviour on a Unix system (path separator `/`).
-/

namespace Got

/-- A Go string, as the list of its characters. -/
abbrev Str := List Char

/-- A Go byte slice. -/
abbrev Bytes := List Nat

/-! ## `strings` -/

/-- Go `strings.HasPrefix(s, p)`. -/
def hasPrefix (s p : Str) : Bool := p.isPrefixOf s

/-- Go `strings.HasSuffix(s, suf)`. -/
def hasSuffix (s suf : Str) : Bool := suf.isSuffixOf s

/-- Go `strings.TrimPrefix(s, p)`. -/
def trimPrefix (s p : Str) : Str := if hasPrefix s p then s.drop p.length else s

/-- Go `strings.Contains(s, sub)`. -/
def contains (s sub : Str) : Bool := decide (sub <:+: s)

/-- Go `strings.Split(s, sep)` for a separator of one character. -/
def split (sep : Char) : Str → List Str
  | [] => [[]]
  | c :: cs =>
    if c = sep then [] :: split sep cs
    else
      match split sep cs with
      | [] => [[c]]
      | seg :: rest => (c :: seg) :: rest

/-- Go `strings.Join(elems, sep)`. -/
def joinWith (sep : Str) : List Str → Str
  | [] => []
  | [e] => e
  | e :: es => e ++ sep ++ joinWith sep es

/-- Go slice expression `s[:n]` for a signed index `n`; it panics (`none`)
when `n` is negative or exceeds the length. -/
def sliceTo (s : List α) (n : Int) : Option (List α) :=
  if 0 ≤ n ∧ n ≤ s.length then some (s.take n.toNat) else none

/-- Go conversion `[]byte(s)`: the UTF-8 encoding of one character. -/
def utf8Bytes (c : Char) : Bytes :=
  let n := c.toNat
  if n < 0x80 then [n]
  else if n < 0x800 then [0xC0 + n / 64, 0x80 + n % 64]
  else if n < 0x10000 then [0xE0 + n / 4096, 0x80 + n / 64 % 64, 0x80 + n % 64]
  else [0xF0 + n / 262144, 0x80 + n / 4096 % 64, 0x80 + n / 64 % 64, 0x80 + n % 64]

/-- Go conversion `[]byte(s)`. -/
def toBytes (s : Str) : Bytes := s.flatMap utf8Bytes

/-! ## `path/filepath` (Unix) -/

/-- State of `filepath.Clean` between two path elements: the number of leading
`..` elements already written and the ordinary elements written after them,
last one first. -/
structure CleanState where
  ups : Nat
  stack : List Str
deriving DecidableEq, Repr

/-- The `switch` of the main loop of `filepath.Clean`, taken for one path
element `e`: empty and `.` elements are dropped, `..` removes the last
ordinary element when there is one, is kept when the path is not rooted, and
is dropped at the root; every other element is written. -/
def cleanStep (rooted : Bool) (st : CleanState) (e : Str) : CleanState :=
  if e = [] ∨ e = ".".toList then st
  else if e = "..".toList then
    match st.stack with
    | _ :: rest => { st with stack := rest }
    | [] => if rooted then st else { st with ups := st.ups + 1 }
  else { st with stack := e :: st.stack }

/-- Go `filepath.Clean(path)`. -/
def clean (path : Str) : Str :=
  let rooted := hasPrefix path "/".toList
  let st := (split '/' path).foldl (cleanStep rooted) ⟨0, []⟩
  let out := (if rooted then "/".toList else [])
    ++ joinWith "/".toList (List.replicate st.ups "..".toList ++ st.stack.reverse)
  if out = [] then ".".toList else out

/-- An ordinary path element: not empty, without separator, neither `.` nor `..`. -/
def plainName (f : Str) : Prop := '/' ∉ f ∧ f ≠ [] ∧ f ≠ ".".toList ∧ f ≠ "..".toList

instance : DecidablePred plainName := fun f => by
  unfold plainName
  infer_instance

/-- Go `filepath.Join(elems...)`: leading empty elements are ignored, the rest
is joined with the separator and cleaned; the result is empty when every
element is empty. -/
def join (elems : List Str) : Str :=
  match elems.dropWhile (fun e => decide (e = [])) with
  | [] => []
  | rest => clean (joinWith "/".toList rest)

/-- The part of a path up to and including its last separator. -/
def upToLastSep (path : Str) : Str :=
  (path.reverse.dropWhile (fun c => decide (c ≠ '/'))).reverse

/-- Go `filepath.Dir(path)`. -/
def dir (path : Str) : Str := clean (upToLastSep path)

/-- The backward scan of `filepath.Ext` over the reversed path; `acc` is the
part already scanned. -/
def extScan : Str → Str → Str
  | [], _ => []
  | c :: cs, acc =>
    if c = '/' then []
    else if c = '.' then c :: acc
    else extScan cs (c :: acc)

/-- Go `filepath.Ext(path)`: the suffix beginning at the final dot of the
final element of the path, empty if there is no dot. -/
def ext (path : Str) : Str := extScan path.reverse []

/-! ## `crypto/sha1` and `encoding/hex` -/

/-- Rotation to the left of a 32-bit word. -/
def rotl32 (x n : Nat) : Nat := ((x <<< n) ||| (x >>> (32 - n))) % 2 ^ 32

/-- Big-endian bytes of a number, `k` bytes wide. -/
def bigEndian (k x : Nat) : Bytes :=
  (List.range k).map fun i => x / 256 ^ (k - 1 - i) % 256

/-- The number a list of bytes denotes, big-endian. -/
def fromBigEndian (bs : Bytes) : Nat := bs.foldl (fun acc b => acc * 256 + b) 0

/-- SHA-1 padding: a one bit, zeros up to 56 modulo 64 bytes, the bit length on 64 bits. -/
def sha1Pad (msg : Bytes) : Bytes :=
  msg ++ [0x80] ++ List.replicate ((55 + 64 - msg.length % 64) % 64) 0
    ++ bigEndian 8 (8 * msg.length % 2 ^ 64)

/-- The 80-word message schedule of one 64-byte block. -/
def sha1Schedule (block : Bytes) : List Nat :=
  let w16 := (List.range 16).map fun i => fromBigEndian ((block.drop (4 * i)).take 4)
  (List.range 64).foldl (fun w j =>
    let i := j + 16
    w ++ [rotl32 (w.getD (i - 3) 0 ^^^ w.getD (i - 8) 0 ^^^ w.getD (i - 14) 0
      ^^^ w.getD (i - 16) 0) 1]) w16

/-- The five chaining words of SHA-1. -/
structure Sha1State where
  a : Nat
  b : Nat
  c : Nat
  d : Nat
  e : Nat
deriving DecidableEq, Repr

/-- One of the 80 rounds of the SHA-1 compression function. -/
def sha1Round (w : List Nat) (s : Sha1State) (i : Nat) : Sha1State :=
  let f :=
    if i < 20 then (s.b &&& s.c) ||| ((s.b ^^^ 0xFFFFFFFF) &&& s.d)
    else if i < 40 then s.b ^^^ s.c ^^^ s.d
    else if i < 60 then (s.b &&& s.c) ||| (s.b &&& s.d) ||| (s.c &&& s.d)
    else s.b ^^^ s.c ^^^ s.d
  let k :=
    if i < 20 then 0x5A827999
    else if i < 40 then 0x6ED9EBA1
    else if i < 60 then 0x8F1BBCDC
    else 0xCA62C1D6
  { a := (rotl32 s.a 5 + f + s.e + k + w.getD i 0) % 2 ^ 32
    b := s.a
    c := rotl32 s.b 30
    d := s.c
    e := s.d }

/-- The SHA-1 compression function on one 64-byte block. -/
def sha1Block (h : Sha1State) (block : Bytes) : Sha1State :=
  let r := (List.range 80).foldl (sha1Round (sha1Schedule block)) h
  { a := (h.a + r.a) % 2 ^ 32
    b := (h.b + r.b) % 2 ^ 32
    c := (h.c + r.c) % 2 ^ 32
    d := (h.d + r.d) % 2 ^ 32
    e := (h.e + r.e) % 2 ^ 32 }

/-- Go `sha1.Sum`: the 20-byte SHA-1 digest (FIPS 180-4). -/
def sha1 (msg : Bytes) : Bytes :=
  let padded := sha1Pad msg
  let h := (List.range (padded.length / 64)).foldl
    (fun h i => sha1Block h ((padded.drop (64 * i)).take 64))
    ⟨0x67452301, 0xEFCDAB89, 0x98BADCFE, 0x10325476, 0xC3D2E1F0⟩
  bigEndian 4 h.a ++ bigEndian 4 h.b ++ bigEndian 4 h.c ++ bigEndian 4 h.d ++ bigEndian 4 h.e

/-- The table `hextable` of `encoding/hex`. -/
def hexDigit (n : Nat) : Char := "0123456789abcdef".toList.getD n '0'

/-- The characters `encoding/hex` writes. -/
def hexChars : Str := "0123456789abcdef".toList

/-- Go `hex.EncodeToString`. -/
def hexEncode (bs : Bytes) : Str := bs.flatMap fun b => [hexDigit (b / 16), hexDigit (b % 16)]

/-! ## `getPythonURL` (python.go) -/

/-- The constant `baseURL` up to its `%s` verb. -/
def baseURL : Str :=
  "https://github.com/indygreg/python-build-standalone/releases/download/".toList

/-- The struct `pythonBuild`. -/
structure pythonBuild where
  arch : Str := []
  os : Str := []
  variant : Str := []
  debug : Bool := false
  shared : Bool := false
  fullPack : Bool := false
deriving DecidableEq, Repr

/-- The map literal `archMap` of `getPythonURL`, as a lookup. -/
def archMap (arch : Str) : Option Str :=
  if arch = "amd64".toList then some "x86_64".toList
  else if arch = "arm64".toList then some "aarch64".toList
  else if arch = "386".toList then some "i686".toList
  else none

/-- The variant chosen in the `darwin` and `linux` cases of `getPythonURL`. -/
def unixVariant (freeThreaded debug : Bool) : Str :=
  if freeThreaded then
    "freethreaded".toList ++ (if debug then "+debug".toList else "+pgo".toList)
  else
    (if debug then "debug".toList else "pgo".toList)

/-- The `switch os` of `getPythonURL`: fills in `os`, `shared` and `variant`,
or `none` in the `default` case. -/
def selectBuild (build : pythonBuild) (os : Str) (freeThreaded : Bool) : Option pythonBuild :=
  if os = "darwin".toList then
    some { build with os := "apple-darwin".toList, variant := unixVariant freeThreaded build.debug }
  else if os = "linux".toList then
    some { build with os := "unknown-linux-gnu".toList, variant := unixVariant freeThreaded build.debug }
  else if os = "windows".toList then
    some { build with
      os := "pc-windows-msvc".toList
      shared := true
      variant := if freeThreaded then "freethreaded+pgo".toList else "pgo".toList }
  else none

/-- The file name built at the end of `getPythonURL`. -/
def buildFilename (version buildDate : Str) (build : pythonBuild) : Str :=
  let filename := "cpython-".toList ++ version ++ "+".toList ++ buildDate ++ "-".toList
    ++ build.arch ++ "-".toList ++ build.os
  let filename := if build.shared then filename ++ "-shared".toList else filename
  let filename := filename ++ "-".toList ++ build.variant
  let filename := if build.fullPack then filename ++ "-full".toList else filename
  filename ++ ".tar.zst".toList

/-- Go `getPythonURL`; the empty string signals an unsupported platform. -/
def getPythonURL (version buildDate arch os : Str) (freeThreaded debug : Bool) : Str :=
  match archMap arch with
  | none => []
  | some pythonArch =>
    let build : pythonBuild := { arch := pythonArch, fullPack := true, debug := debug }
    match selectBuild build os freeThreaded with
    | none => []
    | some build =>
      baseURL ++ buildDate ++ "/".toList ++ buildFilename version buildDate build

/-! ## The download cache (archive.go) -/

/-- Go `getFullExtension`: `.tar.gz` and `.tar.zst` are tried first, then `filepath.Ext`. -/
def getFullExtension (filename : Str) : Str :=
  if hasSuffix filename ".tar.gz".toList then ".tar.gz".toList
  else if hasSuffix filename ".tar.zst".toList then ".tar.zst".toList
  else ext filename

/-- The hash `urlHash` of `downloadFileWithCache`: the first 8 characters of
the hexadecimal SHA-1 digest of the URL. -/
def urlHash (url : Str) : Option Str := sliceTo (hexEncode (sha1 (toBytes url))) 8

/-- The name `cachedFilename` computed by `downloadFileWithCache`; `none`
stands for a run-time panic of an index or slice expression. -/
def cachedFilename (url : Str) : Option Str :=
  match (split '/' url).getLast? with
  | none => none
  | some filename =>
    match urlHash url with
    | none => none
    | some h =>
      let ext := getFullExtension filename
      match sliceTo filename ((filename.length : Int) - (ext.length : Int)) with
      | none => none
      | some baseFilename => some (baseFilename ++ "-".toList ++ h ++ ext)

/-- What the installer observes of the machine it runs on. -/
structure Machine where
  /-- The result of `os.UserHomeDir`, `none` when it fails. -/
  homeDir : Option Str
  /-- Whether `os.MkdirAll(path, 0755)` succeeds. -/
  mkdirAll : Str → Bool
  /-- Whether `os.Stat(path)` succeeds. -/
  stat : Str → Bool
  /-- Whether the transfer of the URL into the path (temporary file, HTTP GET,
  copy, rename) succeeds. -/
  fetch : Str → Str → Bool

/-- A machine on which every call succeeds and every path exists. -/
def machineAllOk : Machine :=
  { homeDir := some "/home/u".toList
    mkdirAll := fun _ => true
    stat := fun _ => true
    fetch := fun _ _ => true }

/-- The errors of `downloadFileWithCache`. -/
inductive DownloadError
  | noHomeDir
  | cacheDirCreation
  | indexOutOfRange
  | transfer
deriving DecidableEq, Repr

/-- Go `getCacheDir`. -/
def getCacheDir (m : Machine) : Except DownloadError Str :=
  match m.homeDir with
  | none => .error .noHomeDir
  | some homeDir =>
    let cacheDir := join [homeDir, ".gopy".toList, "cache".toList]
    if m.mkdirAll cacheDir then .ok cacheDir else .error .cacheDirCreation

/-- Go `downloadFileWithCache`: the path of the cached file. -/
def downloadFileWithCache (m : Machine) (url : Str) : Except DownloadError Str :=
  match getCacheDir m with
  | .error e => .error e
  | .ok cacheDir =>
    match cachedFilename url with
    | none => .error .indexOutOfRange
    | some name =>
      let cachedFile := join [cacheDir, name]
      if m.stat cachedFile then .ok cachedFile
      else if m.fetch url cachedFile then .ok cachedFile
      else .error .transfer

/-- The extractor call in which `downloadAndExtract` ends. -/
inductive ExtractorCall
  | extractZip (zipFile destDir : Str)
  | extractTarGz (tarFile destDir : Str)
  | extractTarZst (src dst trimPrefix : Str) (verbose : Bool)
deriving DecidableEq, Repr

/-- The errors `downloadAndExtract` returns itself. -/
inductive DispatchError
  | downloading (cause : DownloadError)
  | creatingDirectory
  | unsupportedFileExtension
deriving DecidableEq, Repr

/-- Go `downloadAndExtract`, up to the call of the extractor it selects. -/
def downloadAndExtract (m : Machine) (url dir trimPrefix : Str) (verbose : Bool) :
    Except DispatchError ExtractorCall :=
  match downloadFileWithCache m url with
  | .error e => .error (.downloading e)
  | .ok path =>
    if !m.mkdirAll dir then .error .creatingDirectory
    else if hasSuffix path ".zip".toList then .ok (.extractZip path dir)
    else if hasSuffix path ".tar.gz".toList then .ok (.extractTarGz path dir)
    else if hasSuffix path ".tar.zst".toList then .ok (.extractTarZst path dir trimPrefix verbose)
    else .error .unsupportedFileExtension

/-- The suffixes `downloadAndExtract` knows an extractor for. -/
def archiveSuffixes : List Str := [".zip".toList, ".tar.gz".toList, ".tar.zst".toList]

/-! ## The extractors (archive.go) -/

/-- The flags of `os.OpenFile` the extractors use. -/
structure OpenFlags where
  /-- `O_RDWR` instead of `O_WRONLY`. -/
  readWrite : Bool
  /-- `O_CREATE`. -/
  create : Bool
  /-- `O_TRUNC`. -/
  trunc : Bool
deriving DecidableEq, Repr

/-- A call of package `os` or `io` made by an extractor. -/
inductive FsCall
  | mkdirAll (path : Str) (perm : Nat)
  | openFile (path : Str) (flags : OpenFlags) (perm : Nat)
  /-- The call `io.Copy(file, src)` into the file just opened at `path`. -/
  | copy (path : Str) (data : Bytes)
  | removeAll (path : Str)
  | symlink (target path : Str)
  | link (target path : Str)
deriving DecidableEq, Repr

/-- A call together with whether the extractor checks its error (and returns
it) or ignores it. -/
structure Step where
  call : FsCall
  checked : Bool
deriving DecidableEq, Repr

/-- An interpretation of the calls over a state `σ`: the state after the call
and whether the call succeeded. -/
abbrev OS (σ : Type) := FsCall → σ → σ × Bool

/-- Runs the steps in order; the first checked call that fails ends the run
and is returned as the error. -/
def run (os : OS σ) : List Step → σ → σ × Option FsCall
  | [], s => (s, none)
  | st :: rest, s =>
    match os st.call s with
    | (s', true) => run os rest s'
    | (s', false) => if st.checked then (s', some st.call) else run os rest s'

/-- An entry `*zip.File` of an opened zip archive. -/
structure ZipFile where
  name : Str
  /-- The value of `f.FileInfo().IsDir()`. -/
  isDir : Bool
  /-- The value of `f.Mode()`. -/
  mode : Nat
  data : Bytes
deriving DecidableEq, Repr

/-- The field `Typeflag` of a tar header. -/
inductive TypeFlag
  | dir
  | reg
  | symlink
  | link
  /-- Any other type flag (device, FIFO, extended header, ...). -/
  | other (flag : Char)
deriving DecidableEq, Repr

/-- A tar entry: the fields of `*tar.Header` the extractors read and the content. -/
structure TarEntry where
  name : Str
  typeflag : TypeFlag
  mode : Nat
  linkname : Str
  data : Bytes
deriving DecidableEq, Repr

/-- The flags `os.O_WRONLY|os.O_CREATE|os.O_TRUNC` of `extractZip` and `extractTarGz`. -/
def flagsCreateTrunc : OpenFlags := { readWrite := false, create := true, trunc := true }

/-- The flags `os.O_CREATE|os.O_RDWR` of `extractTarZst`. -/
def flagsCreateRdwr : OpenFlags := { readWrite := true, create := true, trunc := false }

/-- The destination path `extractZip` and `extractTarGz` compute for an entry
name, `none` when the entry is skipped. -/
def goDestPath (destDir name : Str) : Option Str :=
  if name = "go/".toList ∨ name = "go".toList then none
  else some (join [destDir, trimPrefix name "go/".toList])

/-- The body of the loop of `extractZip` for one file of the archive, whose
content is taken to be readable (`f.Open` succeeds).  The error of `MkdirAll`
for a directory entry is not checked. -/
def extractZipSteps (destDir : Str) (f : ZipFile) : List Step :=
  match goDestPath destDir f.name with
  | none => []
  | some destPath =>
    if f.isDir then [⟨.mkdirAll destPath f.mode, false⟩]
    else
      [⟨.mkdirAll (dir destPath) 0o755, true⟩,
       ⟨.openFile destPath flagsCreateTrunc f.mode, true⟩,
       ⟨.copy destPath f.data, true⟩]

/-- Go `extractZip` on the files of the opened archive. -/
def extractZip (os : OS σ) (files : List ZipFile) (destDir : Str) (s : σ) : σ × Option FsCall :=
  run os (files.flatMap (extractZipSteps destDir)) s

/-- The body of the loop of `extractTarGz` for one entry. -/
def extractTarGzSteps (destDir : Str) (e : TarEntry) : List Step :=
  match goDestPath destDir e.name with
  | none => []
  | some destPath =>
    match e.typeflag with
    | .dir => [⟨.mkdirAll destPath e.mode, true⟩]
    | .reg =>
      [⟨.mkdirAll (dir destPath) 0o755, true⟩,
       ⟨.openFile destPath flagsCreateTrunc e.mode, true⟩,
       ⟨.copy destPath e.data, true⟩]
    | _ => []

/-- Go `extractTarGz` on the entries of the decompressed archive. -/
def extractTarGz (os : OS σ) (entries : List TarEntry) (destDir : Str) (s : σ) :
    σ × Option FsCall :=
  run os (entries.flatMap (extractTarGzSteps destDir)) s

/-- The destination path `extractTarZst` computes for an entry name, `none`
when the entry is skipped. -/
def zstDestPath (dst trimPrefix name : Str) : Option Str :=
  if trimPrefix ≠ [] then
    if !hasPrefix name trimPrefix then none
    else
      let name := Got.trimPrefix name trimPrefix
      if name = [] then none else some (join [dst, name])
  else some (join [dst, name])

/-- The body of the loop of `extractTarZst` for one entry. -/
def extractTarZstSteps (dst trimPrefix : Str) (e : TarEntry) : List Step :=
  match zstDestPath dst trimPrefix e.name with
  | none => []
  | some path =>
    match e.typeflag with
    | .dir => [⟨.mkdirAll path e.mode, true⟩]
    | .reg =>
      [⟨.mkdirAll (dir path) 0o755, true⟩,
       ⟨.openFile path flagsCreateRdwr e.mode, true⟩,
       ⟨.copy path e.data, true⟩]
    | .symlink =>
      [⟨.mkdirAll (dir path) 0o755, true⟩,
       ⟨.removeAll path, true⟩,
       ⟨.symlink e.linkname path, true⟩]
    | .link =>
      [⟨.mkdirAll (dir path) 0o755, true⟩,
       ⟨.removeAll path, true⟩,
       ⟨.link (join [dst, Got.trimPrefix e.linkname "python/install/".toList]) path, true⟩]
    | .other _ => []

/-- Go `extractTarZst` on the entries of the decompressed archive. -/
def extractTarZst (os : OS σ) (entries : List TarEntry) (dst trimPrefix : Str) (s : σ) :
    σ × Option FsCall :=
  run os (entries.flatMap (extractTarZstSteps dst trimPrefix)) s

/-! ### A file system for the calls of the extractors -/

/-- A node of the file system. -/
inductive Node
  | dir (perm : Nat)
  | file (perm : Nat) (data : Bytes)
  | symlink (target : Str)
deriving DecidableEq, Repr

/-- A file system: the node at each (cleaned) path. -/
abbrev FS := Str → Option Node

/-- The path itself, its directory, the directory of that, and so on up to
the root or the current directory. -/
def ancestors (path : Str) : List Str := List.iterate dir path (path.length + 1)

/-- Whether the node at a path, if any, is a directory. -/
def FS.dirOrAbsent (fs : FS) (path : Str) : Bool :=
  match fs path with
  | none => true
  | some (.dir _) => true
  | some _ => false

/-- Whether the node at a path is a directory. -/
def FS.isDir (fs : FS) (path : Str) : Bool :=
  match fs path with
  | some (.dir _) => true
  | _ => false

/-- The effect of a call on the file system and whether it succeeds.
`MkdirAll` fails when the path or one of its ancestors is not a directory and
otherwise creates the missing ones; `OpenFile` fails on a directory or a
symbolic link, and on a missing file unless `O_CREATE` is given and the parent
is a directory, and empties an existing file only under `O_TRUNC`; `io.Copy`
writes the data from offset 0 of the file just opened, over what is there;
`RemoveAll` removes the path and all below it; `Symlink` and `Link` need a
free path in a directory, and `Link` a regular file as target, which the new
path then holds as well. -/
def fsCall : OS FS
  | .mkdirAll path perm, fs =>
    if (ancestors path).all fs.dirOrAbsent then
      (fun q => if q ∈ ancestors path ∧ fs q = none then some (.dir perm) else fs q, true)
    else (fs, false)
  | .openFile path flags perm, fs =>
    match fs path with
    | some (.file p d) => (Function.update fs path (some (.file p (if flags.trunc then [] else d))), true)
    | some _ => (fs, false)
    | none =>
      if flags.create ∧ fs.isDir (dir path) then (Function.update fs path (some (.file perm [])), true)
      else (fs, false)
  | .copy path data, fs =>
    match fs path with
    | some (.file p d) => (Function.update fs path (some (.file p (data ++ d.drop data.length))), true)
    | _ => (fs, false)
  | .removeAll path, fs => (fun q => if path ∈ ancestors q then none else fs q, true)
  | .symlink target path, fs =>
    if fs path = none ∧ fs.isDir (dir path) then
      (Function.update fs path (some (.symlink target)), true)
    else (fs, false)
  | .link target path, fs =>
    match fs target with
    | some (.file p d) =>
      if fs path = none ∧ fs.isDir (dir path) then (Function.update fs path (some (.file p d)), true)
      else (fs, false)
    | _ => (fs, false)

/-- A file system with the directories `/` and `/d` and the five-byte file `/d/f`. -/
def exampleFS : FS := fun q =>
  if q = "/".toList then some (.dir 0o755)
  else if q = "/d".toList then some (.dir 0o755)
  else if q = "/d/f".toList then some (.file 0o644 [1, 2, 3, 4, 5])
  else none

/-! ## `updatePkgConfig` (python.go) -/

/-- Go `strings.ReplaceAll(s, old, new)` for a non-empty `old`, scanning at most
`fuel` characters: every non-overlapping occurrence of `old`, leftmost first,
is replaced. -/
def replaceAllAux (old new : Str) : Nat → Str → Str
  | 0, s => s
  | _, [] => []
  | fuel + 1, c :: cs =>
    if hasPrefix (c :: cs) old then new ++ replaceAllAux old new fuel ((c :: cs).drop old.length)
    else c :: replaceAllAux old new fuel cs

/-- Go `strings.ReplaceAll(s, old, new)`; for an empty `old` the replacement is
inserted before every character and at the end. -/
def replaceAll (s old new : Str) : Str :=
  if old = [] then new ++ s.flatMap (fun c => c :: new)
  else replaceAllAux old new s.length s

/-- A node of the pkg-config directory. -/
inductive DirNode
  | file (content : Str)
  | subdir
deriving DecidableEq, Repr

/-- The pkg-config directory: its entries by name, each name at most once.
The path `filepath.Join(pkgConfigDir, name)` of an entry is represented by its
name. -/
abbrev Directory := List (Str × DirNode)

/-- A pkg-config directory with the two free-threaded descriptors of Python 3.13
and one other file. -/
def exampleThreadedDir : Directory :=
  [("python-3.13t.pc".toList, .file "prefix=/install\nLibs: -lpython3t\n".toList),
   ("python-3.13t-embed.pc".toList, .file "prefix=/install\nLibs: -lpython313t\n".toList),
   ("README".toList, .file "pkg-config files".toList)]

/-- A pkg-config directory with only the two descriptors of Python 3.13. -/
def examplePlainDir : Directory :=
  [("python-3.13.pc".toList, .file "prefix=/install\nLibs: -lpython3\n".toList),
   ("python-3.13-embed.pc".toList, .file "prefix=/install\nLibs: -lpython313\n".toList)]

/-- Go `os.ReadFile` on an entry of the directory. -/
def Directory.readFile (d : Directory) (name : Str) : Option Str :=
  match d.lookup name with
  | some (.file content) => some content
  | _ => none

/-- Replaces the node of an entry that exists, and appends the entry otherwise. -/
def Directory.set (name : Str) (node : DirNode) : Directory → Directory
  | [] => [(name, node)]
  | (n, x) :: rest => if n = name then (name, node) :: rest else (n, x) :: Directory.set name node rest

/-- Go `os.WriteFile` on an entry of the directory; it fails on a subdirectory. -/
def Directory.writeFile (d : Directory) (name content : Str) : Option Directory :=
  match d.lookup name with
  | some .subdir => none
  | _ => some (Directory.set name (.file content) d)

/-- Go `os.ReadDir`: the name and `IsDir()` of every entry, sorted by name. -/
def readDir (d : Directory) : List (Str × Bool) :=
  (d.map fun e => (e.1, decide (e.2 = .subdir))).insertionSort (fun a b => a.1 ≤ b.1)

/-- The common beginning `^python-(\d+\.\d+)` of the two patterns: the text of
the group and the rest of the name after it. -/
def splitVersion (name : Str) : Option (Str × Str) :=
  if hasPrefix name "python-".toList then
    let major := (name.drop 7).takeWhile Char.isDigit
    match (name.drop 7).dropWhile Char.isDigit with
    | '.' :: rest =>
      let minor := rest.takeWhile Char.isDigit
      if major ≠ [] ∧ minor ≠ [] then some (major ++ '.' :: minor, rest.dropWhile Char.isDigit)
      else none
    | _ => none
  else none

/-- The patterns `^python-(\d+\.\d+)t?\.pc$` and `^python-(\d+\.\d+)t?-embed\.pc$`,
which differ in the text `tail` after the optional `t`: the submatch of the
group when the name matches. -/
def matchVersioned (tail name : Str) : Option Str :=
  match splitVersion name with
  | some (version, rest) => if rest = 't' :: tail ∨ rest = tail then some version else none
  | none => none

/-- The expression `normalPattern.FindStringSubmatch(name)`, reduced to its group. -/
def normalPattern (name : Str) : Option Str := matchVersioned ".pc".toList name

/-- The expression `embedPattern.FindStringSubmatch(name)`, reduced to its group. -/
def embedPattern (name : Str) : Option Str := matchVersioned "-embed.pc".toList name

/-- The errors of `updatePkgConfig`. -/
inductive PkgConfigError
  | readDir
  | readFile
  | updateFile
  | writeNoT
  | writeCopy
deriving DecidableEq, Repr

/-- The closure `writePC` of `updatePkgConfig`; `absPath` is the absolute path
of the Python root. -/
def writePC (absPath : Str) (d : Directory) (name content : Str) : Option Directory :=
  d.writeFile name (replaceAll content "prefix=/install".toList ("prefix=".toList ++ absPath))

/-- The branch of `updatePkgConfig` for a name that matches one of the two
patterns with group `version`: the non-`t` copy is written at once when the
name has the `t` marker, and the names of the aliases are returned. -/
def versionedCopies (absPath : Str) (d : Directory) (name content version marker : Str)
    (noTTail aliasT aliasPlain : Str) : Except PkgConfigError (Directory × List Str) :=
  if contains name marker then
    match writePC absPath d ("python-".toList ++ version ++ noTTail) content with
    | none => .error .writeNoT
    | some d => .ok (d, [aliasT, aliasPlain])
  else .ok (d, [aliasPlain])

/-- The final loop of the body, writing every copy.  Go ranges over the map
`copies` in an unspecified order; the copies have different names and the same
content, so the directory reached when every write succeeds does not depend on
the order, and the copies are written here in the order they were added. -/
def writeCopies (absPath content : Str) : List Str → Directory → Except PkgConfigError Directory
  | [], d => .ok d
  | copyName :: rest, d =>
    match writePC absPath d copyName content with
    | none => .error .writeCopy
    | some d => writeCopies absPath content rest d

/-- The `if matches := pattern.FindStringSubmatch(name); matches != nil` block
of the body, `pat` being the group of the match if any. -/
def patternCopies (absPath : Str) (d : Directory) (name content : Str) (pat : Option Str)
    (marker noTTail aliasT aliasPlain : Str) : Except PkgConfigError (Directory × List Str) :=
  match pat with
  | some version =>
    versionedCopies absPath d name content version marker noTTail aliasT aliasPlain
  | none => .ok (d, [])

/-- The body of the loop of `updatePkgConfig` for one directory entry. -/
def updateEntry (absPath : Str) (d : Directory) (entry : Str × Bool) :
    Except PkgConfigError Directory :=
  let name := entry.1
  if !entry.2 && hasSuffix name ".pc".toList then
    match d.readFile name with
    | none => .error .readFile
    | some content =>
      match writePC absPath d name content with
      | none => .error .updateFile
      | some d =>
        match patternCopies absPath d name content (normalPattern name) "t.pc".toList
          ".pc".toList "python3t.pc".toList "python3.pc".toList with
        | .error e => .error e
        | .ok (d, copies1) =>
          match patternCopies absPath d name content (embedPattern name) "t-embed.pc".toList
            "-embed.pc".toList "python3t-embed.pc".toList "python3-embed.pc".toList with
          | .error e => .error e
          | .ok (d, copies2) => writeCopies absPath content (copies1 ++ copies2) d
  else .ok d

/-- The loop of `updatePkgConfig` over the entries read at the start. -/
def updateEntries (absPath : Str) : List (Str × Bool) → Directory → Except PkgConfigError Directory
  | [], d => .ok d
  | entry :: rest, d =>
    match updateEntry absPath d entry with
    | .error e => .error e
    | .ok d => updateEntries absPath rest d

/-- Go `updatePkgConfig` on the pkg-config directory of the project (`none`
when it cannot be read), `absPath` being the absolute path of the Python root. -/
def updatePkgConfig (absPath : Str) (pkgConfigDir : Option Directory) :
    Except PkgConfigError Directory :=
  match pkgConfigDir with
  | none => .error .readDir
  | some d => updateEntries absPath (readDir d) d

/-- The test of the loop of `updatePkgConfig` on a directory entry. -/
def isPcEntry (entry : Str × Bool) : Bool := !entry.2 && hasSuffix entry.1 ".pc".toList

/-- The names written for one pattern: the non-`t` copy and the two aliases
when the name has the marker, the plain alias otherwise, none without a match. -/
def patternNames (name : Str) (pat : Option Str) (marker noTTail aliasT aliasPlain : Str) :
    List Str :=
  match pat with
  | some version =>
    if contains name marker then ["python-".toList ++ version ++ noTTail, aliasT, aliasPlain]
    else [aliasPlain]
  | none => []

/-- The names written by the body of the loop of `updatePkgConfig` for a
descriptor name: the descriptor itself, then the copies of the two patterns. -/
def writtenNames (name : Str) : List Str :=
  name ::
    (patternNames name (normalPattern name) "t.pc".toList ".pc".toList "python3t.pc".toList
        "python3.pc".toList
      ++ patternNames name (embedPattern name) "t-embed.pc".toList "-embed.pc".toList
        "python3t-embed.pc".toList "python3-embed.pc".toList)

/-- The directory `d` is `d0` with the node `P` written under exactly the names of `W`. -/
def WrittenExactly (P : DirNode) (d0 d : Directory) (W : List Str) : Prop :=
  ∀ k, d.lookup k = if k ∈ W then some P else d0.lookup k

/-- The content `writePC` writes for a descriptor content. -/
def patched (absPath content : Str) : Str :=
  replaceAll content "prefix=/install".toList ("prefix=".toList ++ absPath)

/-- The name `python-X.Y<tail>` of a versioned descriptor. -/
def pcName (X Y tail : Str) : Str := "python-".toList ++ X ++ '.' :: Y ++ tail

/-- A version `X.Y`: two non-empty runs of decimal digits. -/
def isVersion (X Y : Str) : Prop :=
  X ≠ [] ∧ Y ≠ [] ∧ (∀ c ∈ X, c.isDigit = true) ∧ (∀ c ∈ Y, c.isDigit = true)

instance (X Y : Str) : Decidable (isVersion X Y) := by
  unfold isVersion
  infer_instance

/-! ### The file name of a Python build as the specification words it -/

/-- The architectures `getPythonURL` supports. -/
def supportedArchs : List Str := ["amd64".toList, "arm64".toList, "386".toList]

/-- The operating systems `getPythonURL` supports. -/
def supportedOSs : List Str := ["darwin".toList, "linux".toList, "windows".toList]

/-- Specification: the architecture token `A`. -/
def specArchToken (arch : Str) : Str :=
  if arch = "amd64".toList then "x86_64".toList
  else if arch = "arm64".toList then "aarch64".toList
  else "i686".toList

/-- Specification: the operating-system triplet `O`. -/
def specOSToken (os : Str) : Str :=
  if os = "darwin".toList then "apple-darwin".toList
  else if os = "linux".toList then "unknown-linux-gnu".toList
  else "pc-windows-msvc".toList

/-- Specification: the linking token `S`. -/
def specSharedToken (os : Str) : Str :=
  if os = "windows".toList then "-shared".toList else []

/-- Specification: the variant token `V`. -/
def specVariantToken (os : Str) (freeThreaded debug : Bool) : Str :=
  if os = "windows".toList then
    (if freeThreaded then "freethreaded+pgo".toList else "pgo".toList)
  else
    match freeThreaded, debug with
    | false, false => "pgo".toList
    | false, true => "debug".toList
    | true, false => "freethreaded+pgo".toList
    | true, true => "freethreaded+debug".toList

/-- Specification: the file name `F` of the build. -/
def specFilename (version buildDate arch os : Str) (freeThreaded debug : Bool) : Str :=
  "cpython-".toList ++ version ++ "+".toList ++ buildDate ++ "-".toList ++ specArchToken arch
    ++ "-".toList ++ specOSToken os ++ specSharedToken os ++ "-".toList
    ++ specVariantToken os freeThreaded debug ++ "-full.tar.zst".toList

/-! ## `Dependencies` (deps.go) and `installPythonEnv` (python.go) -/

/-- Runs the calls of a list in order over an interpretation `exec` of them,
each with the flag whether its error is checked; the first checked call that
fails ends the run and its error is returned. -/
def failFast {κ σ ε : Type} (exec : κ → σ → σ × Option ε) : List (κ × Bool) → σ → σ × Option ε
  | [], s => (s, none)
  | (k, checked) :: rest, s =>
    match exec k s with
    | (s, none) => failFast exec rest s
    | (s, some e) => if checked then (s, some e) else failFast exec rest s

/-- The interpretation that only records the calls made, the outcome of each
being given. -/
def logCalls {κ ε : Type} (outcome : κ → Option ε) : κ → List κ → List κ × Option ε :=
  fun k log => (log ++ [k], outcome k)

/-- The calls `Dependencies` makes. -/
inductive DepStep
  | installTinyPkgConfig
  | installMingw
  | installGo
  | setBuildEnv
  | installGoDeps
  | installPythonEnv
deriving DecidableEq, Repr

/-- Go `Dependencies` over an interpretation `step` of the functions it calls;
`goos` is `runtime.GOOS`.  `env.SetBuildEnv` returns no error. -/
def Dependencies {σ ε : Type} (goos : Str) (step : DepStep → σ → σ × Option ε) (s : σ) :
    σ × Option ε :=
  match step .installTinyPkgConfig s with
  | (s, some err) => (s, some err)
  | (s, none) =>
    match (if goos = "windows".toList then step .installMingw s else (s, none)) with
    | (s, some err) => (s, some err)
    | (s, none) =>
      match step .installGo s with
      | (s, some err) => (s, some err)
      | (s, none) =>
        match step .installGoDeps (step .setBuildEnv s).1 with
        | (s, some err) => (s, some err)
        | (s, none) =>
          match step .installPythonEnv s with
          | (s, some err) => (s, some err)
          | (s, none) => (s, none)

/-- The order of the calls of `Dependencies`, as the specification gives it,
with `env.SetBuildEnv` (whose result is not an error) between the Go steps. -/
def dependenciesPlan (goos : Str) : List (DepStep × Bool) :=
  [(.installTinyPkgConfig, true)]
    ++ (if goos = "windows".toList then [(.installMingw, true)] else [])
    ++ [(.installGo, true), (.setBuildEnv, false), (.installGoDeps, true),
        (.installPythonEnv, true)]

/-- Go `env.GetPythonRoot`. -/
def getPythonRoot (projectPath : Str) : Str :=
  join [projectPath, ".deps".toList, "python".toList]

/-- Go `env.GetPythonLibDir`. -/
def getPythonLibDir (projectPath : Str) : Str := join [getPythonRoot projectPath, "lib".toList]

/-- Go `env.GetPythonPkgConfigDir`. -/
def getPythonPkgConfigDir (projectPath : Str) : Str :=
  join [getPythonLibDir projectPath, "pkgconfig".toList]

/-- The calls `installPythonEnv` makes after it has printed its message. -/
inductive InstallOp
  | removeAll (path : Str)
  | downloadAndExtract (url dir trimPrefix : Str)
  | updateMacOSDylibs (pythonDir : Str)
  | genWinPyPkgConfig (pythonRoot pkgConfigDir : Str)
  | updatePkgConfig (projectPath : Str)
  | runPip
  | getPythonPath
  /-- The call `env.WriteEnvFile` with the path the previous call returned. -/
  | writeEnvFile (projectPath pythonHome : Str)
deriving DecidableEq, Repr

/-- The errors `installPythonEnv` returns. -/
inductive InstallError (ε : Type)
  | removingExisting (cause : ε)
  | unsupportedPlatform
  /-- The error of one of the later calls, wrapped or as it is. -/
  | failed (op : InstallOp) (cause : ε)
deriving Repr

/-- The calls of `installPythonEnv` after the URL has been resolved. -/
def installSteps (goos projectPath url : Str) : List InstallOp :=
  let pythonRoot := getPythonRoot projectPath
  [.downloadAndExtract url pythonRoot "python/install".toList]
    ++ (if goos = "darwin".toList then [.updateMacOSDylibs pythonRoot] else [])
    ++ (if goos = "windows".toList then
          [.genWinPyPkgConfig pythonRoot (getPythonPkgConfigDir projectPath)] else [])
    ++ [.updatePkgConfig projectPath, .runPip, .getPythonPath,
        .writeEnvFile projectPath pythonRoot]

/-- The run of the later calls of `installPythonEnv`: each error is returned. -/
def runInstall {σ ε : Type} (exec : InstallOp → σ → σ × Option ε) :
    List InstallOp → σ → σ × Option (InstallError ε)
  | [], s => (s, none)
  | op :: rest, s =>
    match exec op s with
    | (s, some err) => (s, some (.failed op err))
    | (s, none) => runInstall exec rest s

/-- Go `installPythonEnv` over an interpretation `exec` of the calls it makes;
`goos` and `goarch` are `runtime.GOOS` and `runtime.GOARCH`. -/
def installPythonEnv {σ ε : Type} (exec : InstallOp → σ → σ × Option ε)
    (goos goarch projectPath version buildDate : Str) (freeThreaded debug : Bool) (s : σ) :
    σ × Option (InstallError ε) :=
  match exec (.removeAll (getPythonRoot projectPath)) s with
  | (s, some err) => (s, some (.removingExisting err))
  | (s, none) =>
    let url := getPythonURL version buildDate goarch goos freeThreaded debug
    if url = [] then (s, some .unsupportedPlatform)
    else runInstall exec (installSteps goos projectPath url) s

/-- The supported tuples of `getPythonURL` with a Unix operating system. -/
def unixTuples : List (Str × Str × Bool × Bool) :=
  supportedArchs.flatMap fun a =>
    ["darwin".toList, "linux".toList].flatMap fun o =>
      [(a, o, false, false), (a, o, false, true), (a, o, true, false), (a, o, true, true)]

/-- The part of the file name of a Python build after the version and the date. -/
def buildTail (t : Str × Str × Bool × Bool) : Str :=
  specArchToken t.1 ++ "-".toList ++ specOSToken t.2.1 ++ specSharedToken t.2.1 ++ "-".toList
    ++ specVariantToken t.2.1 t.2.2.1 t.2.2.2 ++ "-full.tar.zst".toList

/-- A file system with the directories `/`, `/home` and `/home/u`. -/
def exampleHomeFS : FS := fun q =>
  if q = "/".toList then some (.dir 0o755)
  else if q = "/home".toList then some (.dir 0o755)
  else if q = "/home/u".toList then some (.dir 0o755)
  else none

/-- A file system with an installed Python root `/d/.deps/python` holding the
file `f`. -/
def exampleInstalledFS : FS := fun q =>
  if q = "/".toList then some (.dir 0o755)
  else if q = "/d".toList then some (.dir 0o755)
  else if q = "/d/.deps".toList then some (.dir 0o755)
  else if q = "/d/.deps/python".toList then some (.dir 0o755)
  else if q = "/d/.deps/python/f".toList then some (.file 0o644 [1])
  else none

/-- The calls of `installPythonEnv` on a file system of which only `os.RemoveAll`
is carried out; every other call succeeds and changes nothing. -/
def removeOnly : InstallOp → FS → FS × Option Unit
  | .removeAll path, fs => ((fsCall (.removeAll path) fs).1, none)
  | _, fs => (fs, none)

/-! ## `downloadFileWithCache` with its effects (archive.go) -/

/-- The outcome of `http.Get`: an error of the transport, or a response with
its status code and body. -/
inductive HttpResult
  | transportError
  | response (status : Nat) (body : Bytes)
deriving DecidableEq, Repr

/-- What the surroundings decide during one call of `downloadFileWithCache`. -/
structure CallEnv where
  /-- The result of `os.UserHomeDir`, `none` when it fails. -/
  homeDir : Option Str
  /-- The numbers `os.CreateTemp` draws for the name of the temporary file, in
  the order it tries them. -/
  random : List Nat
  /-- The outcome of `http.Get` on a URL. -/
  get : Str → HttpResult
  /-- When `io.Copy` fails: the number of bytes written before the error. -/
  copyError : Option Nat
  /-- Whether `os.Rename` fails for a reason outside the file system modelled. -/
  renameError : Bool

/-- The file system and the HTTP requests made so far. -/
structure World where
  /-- The files and directories. -/
  fs : FS
  /-- The URLs requested with `http.Get`, oldest first. -/
  requests : List Str

/-- The errors of `downloadFileWithCache`, by the place they arise at. -/
inductive FetchError
  | noHomeDir
  | cacheDirCreation
  | indexOutOfRange
  | createTemp
  | transport
  | badStatus (status : Nat)
  | write
  | rename
deriving DecidableEq, Repr

/-- Go `joinPath` of package `os`. -/
def joinPath (dir name : Str) : Str :=
  if dir.getLast? = some '/' then dir ++ name else dir ++ "/".toList ++ name

/-- The name `os.CreateTemp(dir, "download-*")` tries for the number drawn. -/
def tempName (dir : Str) (r : Nat) : Str := joinPath dir ("download-".toList ++ Nat.toDigits 10 r)

/-- Go `os.CreateTemp(dir, "download-*")`: the names are tried in the order of
the numbers drawn, a name that exists is passed over, and the first other name
is opened with `O_RDWR|O_CREATE|O_EXCL` and mode 0600; the result is the path
of the file created, `none` on an error. -/
def createTemp (dir : Str) : List Nat → FS → FS × Option Str
  | [], fs => (fs, none)
  | r :: rest, fs =>
    if (fs (tempName dir r)).isSome then createTemp dir rest fs
    else
      match fsCall (.openFile (tempName dir r) flagsCreateRdwr 0o600) fs with
      | (fs, true) => (fs, some (tempName dir r))
      | (fs, false) => (fs, none)

/-- Go `os.Rename` for a file: it fails when the old path holds nothing or the
new path holds a directory, and otherwise moves the node, over what the new
path holds. -/
def rename (oldpath newpath : Str) (fails : Bool) (fs : FS) : FS × Bool :=
  if fails then (fs, false)
  else
    match fs oldpath with
    | none => (fs, false)
    | some n =>
      match fs newpath with
      | some (.dir _) => (fs, false)
      | _ => (Function.update (Function.update fs oldpath none) newpath (some n), true)

/-- Go `os.Remove` of a path that holds no directory: what the path holds, if
anything, is removed. -/
def remove (path : Str) (fs : FS) : FS :=
  match fs path with
  | some (.dir _) => fs
  | _ => Function.update fs path none

/-- Go `getCacheDir` on a file system. -/
def getCacheDirFS (homeDir : Option Str) (fs : FS) : FS × Except FetchError Str :=
  match homeDir with
  | none => (fs, .error .noHomeDir)
  | some homeDir =>
    let cacheDir := join [homeDir, ".gopy".toList, "cache".toList]
    match fsCall (.mkdirAll cacheDir 0o755) fs with
    | (fs, true) => (fs, .ok cacheDir)
    | (fs, false) => (fs, .error .cacheDirCreation)

/-- Go `downloadFileWithCache` with its effects on the file system and the
network: `os.Stat` succeeds when the path holds something, the request is
recorded when `http.Get` is called, and the deferred `os.Remove(tmpPath)` runs
on every return after the temporary file was created. -/
def downloadFileWithCacheFS (e : CallEnv) (url : Str) (w : World) : World × Except FetchError Str :=
  match getCacheDirFS e.homeDir w.fs with
  | (fs, .error err) => (⟨fs, w.requests⟩, .error err)
  | (fs, .ok cacheDir) =>
    match cachedFilename url with
    | none => (⟨fs, w.requests⟩, .error .indexOutOfRange)
    | some name =>
      let cachedFile := join [cacheDir, name]
      if (fs cachedFile).isSome then (⟨fs, w.requests⟩, .ok cachedFile)
      else
        match createTemp cacheDir (e.random.take 10000) fs with
        | (fs, none) => (⟨fs, w.requests⟩, .error .createTemp)
        | (fs, some tmpPath) =>
          let requests := w.requests ++ [url]
          match e.get url with
          | .transportError => (⟨remove tmpPath fs, requests⟩, .error .transport)
          | .response status body =>
            if status ≠ 200 then (⟨remove tmpPath fs, requests⟩, .error (.badStatus status))
            else
              match e.copyError with
              | some k =>
                (⟨remove tmpPath (fsCall (.copy tmpPath (body.take k)) fs).1, requests⟩,
                  .error .write)
              | none =>
                match rename tmpPath cachedFile e.renameError
                    (fsCall (.copy tmpPath body) fs).1 with
                | (fs, false) => (⟨remove tmpPath fs, requests⟩, .error .rename)
                | (fs, true) => (⟨remove tmpPath fs, requests⟩, .ok cachedFile)

/-- The surroundings of a call in which the home directory is `/home/u`, the
number drawn is 7 and the server answers every request with status 200 and the
body `[1, 2, 3]`. -/
def exampleEnv : CallEnv :=
  { homeDir := some "/home/u".toList
    random := [7]
    get := fun _ => .response 200 [1, 2, 3]
    copyError := none
    renameError := false }

/-- The URL of the examples. -/
def exampleURL : Str := "https://h/a.zip".toList

/-- The cache path of `exampleURL` under the home directory `/home/u`. -/
def exampleCachePath : Str := "/home/u/.gopy/cache/a-3cbdcad9.zip".toList

/-- The file system `exampleHomeFS` with the cache directory and, in it, the
cached file of `exampleURL`. -/
def exampleCachedFS : FS := fun q =>
  if q = "/home/u/.gopy".toList then some (.dir 0o755)
  else if q = "/home/u/.gopy/cache".toList then some (.dir 0o755)
  else if q = exampleCachePath then some (.file 0o600 [1, 2, 3])
  else exampleHomeFS q

/-- The surroundings `exampleEnv` with a server that answers with status 404. -/
def exampleEnvNotFound : CallEnv :=
  { homeDir := some "/home/u".toList
    random := [7]
    get := fun _ => .response 404 []
    copyError := none
    renameError := false }

/-- A URL whose cached name is `download-72240362`, the SHA-1 digest of the URL
beginning with the hexadecimal digits 72240362. -/
def exampleDigitsURL : Str := "https://h/88/download".toList

/-- The surroundings `exampleEnv` in which the number drawn for the temporary
file is 72240362. -/
def exampleEnvDigits : CallEnv :=
  { homeDir := some "/home/u".toList
    random := [72240362]
    get := fun _ => .response 200 [1, 2, 3]
    copyError := none
    renameError := false }

/-! ## The environment file (env.go) -/

/-- Go `unicode.IsSpace`. -/
def isSpace (c : Char) : Bool :=
  let n := c.toNat
  (9 ≤ n && n ≤ 13) || n = 0x20 || n = 0x85 || n = 0xA0 || n = 0x1680
    || (0x2000 ≤ n && n ≤ 0x200a) || n = 0x2028 || n = 0x2029 || n = 0x202f || n = 0x205f
    || n = 0x3000

/-- Go `strings.TrimSpace(s)`. -/
def trimSpace (s : Str) : Str := ((s.dropWhile isSpace).reverse.dropWhile isSpace).reverse

/-- Go `strings.SplitN(s, sep, n)` for a separator of one character and
`n ≥ 0`: at most `n` parts, the last one being the rest not split. -/
def splitN (sep : Char) : Nat → Str → List Str
  | 0, _ => []
  | 1, s => [s]
  | n + 2, s =>
    match s.span (fun c => decide (c ≠ sep)) with
    | (a, []) => [a]
    | (a, _ :: rest) => a :: splitN sep (n + 1) rest

/-- Go `GetDepsDir`. -/
def getDepsDir (projectPath : Str) : Str := join [projectPath, ".deps".toList]

/-- Go `GetEnvConfigPath`. -/
def getEnvConfigPath (projectPath : Str) : Str := join [getDepsDir projectPath, "env.txt".toList]

/-- Go `GetPythonBinDir`, with `runtime.GOOS` as a parameter; the paths are
joined as on Unix. -/
def getPythonBinDir (goos projectPath : Str) : Str :=
  if goos = "windows".toList then join [getPythonRoot projectPath]
  else join [getPythonRoot projectPath, "bin".toList]

/-- The text files: the content of each, read as a string, and whether
`os.WriteFile` succeeds on the path. -/
structure TextFS where
  /-- The content of the file at a path, `none` when it cannot be read. -/
  content : Str → Option Str
  /-- Whether the file at a path can be written. -/
  writable : Str → Bool

/-- The errors of `WriteEnvFile` and `ReadEnvFile`. -/
inductive EnvFileError
  | write
  | read
deriving DecidableEq, Repr

/-- A Go `map[string]string`. -/
abbrev EnvMap := Str → Option Str

/-- The lines `WriteEnvFile` prepares. -/
def envVars (goos projectPath pythonHome pythonPath : Str) : List Str :=
  [ "PYTHONPATH=".toList ++ trimSpace pythonPath,
    "PYTHONHOME=".toList ++ pythonHome,
    "PATH=".toList ++ getPythonBinDir goos projectPath ]

/-- Go `WriteEnvFile`; the result `none` is the nil error. -/
def WriteEnvFile (goos projectPath pythonHome pythonPath : Str) (fs : TextFS) :
    TextFS × Option EnvFileError :=
  let envFile := getEnvConfigPath projectPath
  if fs.writable envFile then
    (⟨Function.update fs.content envFile
        (some (joinWith "\n".toList (envVars goos projectPath pythonHome pythonPath))),
      fs.writable⟩, none)
  else (fs, some .write)

/-- The loop body of `ReadEnvFile`: the entry of one line. -/
def readEnvLine (envs : EnvMap) (line : Str) : EnvMap :=
  match splitN '=' 2 line with
  | [key, value] => Function.update envs key (some value)
  | _ => envs

/-- The map `ReadEnvFile` builds from the content of the file. -/
def parseEnv (content : Str) : EnvMap :=
  (split '\n' (trimSpace content)).foldl readEnvLine (fun _ => none)

/-- Go `ReadEnvFile`. -/
def ReadEnvFile (projectDir : Str) (fs : TextFS) : Except EnvFileError EnvMap :=
  match fs.content (getEnvConfigPath projectDir) with
  | none => .error .read
  | some content => .ok (parseEnv content)

/-- The line of the environment file for an entry. -/
def envLine (entry : Str × Str) : Str := entry.1 ++ "=".toList ++ entry.2

/-- A store of text files without any file, in which every path can be written. -/
def emptyTextFS : TextFS := { content := fun _ => none, writable := fun _ => true }

/-- The entries `A=1` and `B=x=y` of the examples, the second value holding `=`. -/
def exampleEntries : List (Str × Str) := [("A".toList, "1".toList), ("B".toList, "x=y".toList)]

/-- The map of `exampleEntries`. -/
def exampleEnvMap : EnvMap := fun k =>
  if k = "A".toList then some "1".toList
  else if k = "B".toList then some "x=y".toList
  else none

/-- A store of text files in which the environment file of the project `/p`
holds the lines of `exampleEntries`, the second entry first. -/
def exampleTextFS : TextFS :=
  { content := fun q => if q = "/p/.deps/env.txt".toList then some "B=x=y\nA=1".toList else none
    writable := fun _ => true }

/-! ## The absolute path of the Python root -/

/-- Go `filepath.Abs` on Unix; `wd` is the result of `os.Getwd`, `none` when it
fails. -/
def abs (wd : Option Str) (path : Str) : Option Str :=
  if hasPrefix path "/".toList then some (clean path)
  else
    match wd with
    | none => none
    | some wd => some (join [wd, path])

/-- The path `absPath` of `updatePkgConfig`: `filepath.Abs` of the Python root
of the project. -/
def pythonAbsPath (wd : Option Str) (projectPath : Str) : Option Str :=
  abs wd (getPythonRoot projectPath)

/-- The placeholder `prefix=/install` of the descriptors. -/
def placeholder : Str := "prefix=/install".toList

/-! ## Paths below a directory -/

/-- Whether a cleaned path is the directory `root` or lies below it. -/
def within (root path : Str) : Bool :=
  path = root || hasPrefix path (if hasSuffix root "/".toList then root else root ++ "/".toList)

/-- A zip archive with the single file `../x`. -/
def exampleEscapeZip : List ZipFile := [⟨"../x".toList, false, 0o644, [1]⟩]

/-- A tar archive with the single regular file `../x`. -/
def exampleEscapeTar : List TarEntry := [⟨"../x".toList, .reg, 0o644, [], [1]⟩]

/-! ## The arguments of the Go command (rungo/run.go) -/

/-- The flags of the `switch` of `FindPackageIndex`: those that take a value. -/
def valueFlags : List Str :=
  ["-o".toList, "-p".toList, "-asmflags".toList, "-buildmode".toList, "-compiler".toList,
    "-gccgoflags".toList, "-gcflags".toList, "-installsuffix".toList, "-ldflags".toList,
    "-mod".toList, "-modfile".toList, "-pkgdir".toList, "-tags".toList, "-toolexec".toList]

/-- The loop of `FindPackageIndex` from the index `i` on; the list holds the
arguments `args[i:]`. -/
def findPackageIndexFrom : Nat → List Str → Int
  | _, [] => -1
  | i, [arg] => if hasPrefix arg "-".toList then -1 else (i : Int)
  | i, arg :: value :: rest =>
    if hasPrefix arg "-".toList then
      if arg ∈ valueFlags then findPackageIndexFrom (i + 2) rest
      else findPackageIndexFrom (i + 1) (value :: rest)
    else (i : Int)

/-- Go `FindPackageIndex`. -/
def FindPackageIndex (args : List Str) : Int := findPackageIndexFrom 0 args

/-- A well-formed flag group: one argument beginning with `-` that takes no
value, or a flag that takes a value followed by one argument. -/
def flagGroup (g : List Str) : Prop :=
  (∃ a, g = [a] ∧ hasPrefix a "-".toList = true ∧ a ∉ valueFlags)
    ∨ (∃ a v, g = [a, v] ∧ a ∈ valueFlags)

/-- The statement `ldflags += " " + existingFlags` under its test
`ldflags != ""`, with the trimmed value. -/
def addLdflags (ldflags existingFlags : Str) : Str :=
  if ldflags ≠ [] then ldflags ++ " ".toList ++ trimSpace existingFlags else ldflags

/-- The loop of `ProcessArgsWithLDFlags` over the arguments not yet read, with
the variables `ldflags` and `result`. -/
def processArgsLoop : List Str → Str → List Str → Str × List Str
  | [], ldflags, result => (ldflags, result)
  | [arg], ldflags, result =>
    if hasPrefix arg "-ldflags=".toList || decide (arg = "-ldflags".toList) then
      if hasPrefix arg "-ldflags=".toList then
        (addLdflags ldflags (trimPrefix arg "-ldflags=".toList), result)
      else (addLdflags ldflags [], result)
    else (ldflags, result ++ [arg])
  | arg :: value :: rest, ldflags, result =>
    if hasPrefix arg "-ldflags=".toList || decide (arg = "-ldflags".toList) then
      if hasPrefix arg "-ldflags=".toList then
        processArgsLoop (value :: rest)
          (addLdflags ldflags (trimPrefix arg "-ldflags=".toList)) result
      else processArgsLoop rest (addLdflags ldflags value) result
    else processArgsLoop (value :: rest) ldflags (result ++ [arg])

/-- The part of the flags `ProcessArgsWithLDFlags` adds for the run-time search
path of the Python library, by `runtime.GOOS`. -/
def rpathFlags (goos projectRoot : Str) : Str :=
  if goos = "darwin".toList ∨ goos = "linux".toList then
    " -extldflags \x27-Wl,-rpath,".toList ++ getPythonLibDir projectRoot ++ "\x27".toList
  else if goos = "windows".toList then []
  else " -extldflags \x27-Wl,-rpath=".toList ++ getPythonLibDir projectRoot ++ "\x27".toList

/-- The flags `ProcessArgsWithLDFlags` prepares before its loop. -/
def ownLdflags (goos projectRoot : Str) : Str :=
  "-X \x27github.com/gotray/got.ProjectRoot=".toList ++ projectRoot ++ "\x27".toList
    ++ rpathFlags goos projectRoot

/-- Go `ProcessArgsWithLDFlags`, with `runtime.GOOS` as a parameter; the two
last parameters are not used by the function. -/
def ProcessArgsWithLDFlags (goos : Str) (args : List Str)
    (projectRoot _pythonPath _pythonHome : Str) : List Str :=
  let out := processArgsLoop args (ownLdflags goos projectRoot) []
  ["-ldflags".toList, out.1] ++ out.2

/-- Whether an argument is an ldflags option, in the one-argument or the
two-argument form. -/
def isLdflagsOption (arg : Str) : Bool :=
  hasPrefix arg "-ldflags=".toList || decide (arg = "-ldflags".toList)

/-- The values of the ldflags options of an argument list, in input order: the
text after `-ldflags=`, or the argument after `-ldflags` (the empty string when
there is none). -/
def ldflagsValues : List Str → List Str
  | [] => []
  | [arg] =>
    if hasPrefix arg "-ldflags=".toList then [arg.drop 9]
    else if arg = "-ldflags".toList then [[]]
    else []
  | arg :: value :: rest =>
    if hasPrefix arg "-ldflags=".toList then arg.drop 9 :: ldflagsValues (value :: rest)
    else if arg = "-ldflags".toList then value :: ldflagsValues rest
    else ldflagsValues (value :: rest)

/-- The arguments of a list that are neither an ldflags option nor the value
one consumes, in input order. -/
def otherArgs : List Str → List Str
  | [] => []
  | [arg] => if isLdflagsOption arg then [] else [arg]
  | arg :: value :: rest =>
    if hasPrefix arg "-ldflags=".toList then otherArgs (value :: rest)
    else if arg = "-ldflags".toList then otherArgs rest
    else arg :: otherArgs (value :: rest)

/-- A zip archive with the directory entry `f` and the file `g`. -/
def exampleDirZip : List ZipFile :=
  [⟨"f".toList, true, 0o755, []⟩, ⟨"g".toList, false, 0o644, [7]⟩]

/-- A tar archive with the directory entry `f` and the regular file `g`. -/
def exampleDirTar : List TarEntry :=
  [⟨"f".toList, .dir, 0o755, [], []⟩, ⟨"g".toList, .reg, 0o644, [], [7]⟩]

/-! ## The URLs of Go and tiny-pkg-config (golang.go, tiny_pkg_config.go) -/

/-- Go `getGoURL`, with `runtime.GOOS` and `runtime.GOARCH` as parameters; the
empty string signals an unsupported platform. -/
def getGoURL (goos goarch version : Str) : Str :=
  let osExt : Option (Str × Str) :=
    if goos = "windows".toList then some ("windows".toList, "zip".toList)
    else if goos = "darwin".toList then some ("darwin".toList, "tar.gz".toList)
    else if goos = "linux".toList then some ("linux".toList, "tar.gz".toList)
    else none
  match osExt with
  | none => []
  | some (os, ext) =>
    let arch : Option Str :=
      if goarch = "amd64".toList then some "amd64".toList
      else if goarch = "386".toList then some "386".toList
      else if goarch = "arm64".toList then some "arm64".toList
      else none
    match arch with
    | none => []
    | some arch =>
      "https://go.dev/dl/go".toList ++ version ++ ".".toList ++ os ++ "-".toList ++ arch
        ++ ".".toList ++ ext

/-- Go `strings.ToUpper` on a string of ASCII characters. -/
def toUpper (s : Str) : Str := s.map Char.toUpper

/-- The URL `downloadURL` of `installTinyPkgConfig`, with `runtime.GOOS` and
`runtime.GOARCH` as parameters; `none` stands for the panic of `goos[:1]` on an
empty `goos`. -/
def tinyPkgConfigURL (goos arch version : Str) : Option Str :=
  if goos = [] then none
  else
    let osName := toUpper (goos.take 1) ++ goos.drop 1
    let archName := if arch = "amd64".toList then "x86_64".toList else arch
    let ext := if osName = "Windows".toList then ".zip".toList else ".tar.gz".toList
    let filename := "tiny-pkg-config_".toList ++ osName ++ "_".toList ++ archName ++ ext
    some ("https://github.com/cpunion/tiny-pkg-config/releases/download/".toList ++ version
      ++ "/".toList ++ filename)

/-! ## `ReadEnv` (env.go) -/

/-- Go `GeneratePythonEnv`: the entries of the map literal it returns;
`envPath` is the value of `os.Getenv("PATH")`, and the paths are joined as on
Unix. -/
def GeneratePythonEnv (goos envPath pythonHome pythonPath : Str) : List (Str × Str) :=
  let path :=
    if goos = "windows".toList then join [pythonHome] ++ ";".toList ++ envPath
    else join [pythonHome, "bin".toList] ++ ":".toList ++ envPath
  [("PYTHONHOME".toList, pythonHome), ("PYTHONPATH".toList, pythonPath), ("PATH".toList, path)]

/-- The errors of `ReadEnv`. -/
inductive ReadEnvError
  | readFile (cause : EnvFileError)
  | pythonHomeNotSet
  | pythonPathNotSet
deriving DecidableEq, Repr

/-- Go `ReadEnv`, with `runtime.GOOS` and the value of the variable `PATH` of
the process as parameters. -/
def ReadEnv (goos envPath projectDir : Str) (fs : TextFS) : Except ReadEnvError EnvMap :=
  match ReadEnvFile projectDir fs with
  | .error err => .error (.readFile err)
  | .ok envs =>
    match envs "PYTHONHOME".toList with
    | none => .error .pythonHomeNotSet
    | some pythonHome =>
      match envs "PYTHONPATH".toList with
      | none => .error .pythonPathNotSet
      | some pythonPath =>
        .ok ((GeneratePythonEnv goos envPath pythonHome pythonPath).foldl
          (fun (m : EnvMap) (p : Str × Str) => Function.update m p.1 (some p.2)) envs)

/-! ## `PythonEnv.Python` (pyenv.go) -/

/-- A character of the class `[\d.]` of the interpreter pattern. -/
def isDigitOrDot (c : Char) : Bool := c.isDigit || c = '.'

/-- The string itself and, when it ends in `suf`, the string without `suf`:
the ways an optional `suf` at the end of a match can be read. -/
def stripOptional (suf s : Str) : List Str :=
  s :: (if hasSuffix s suf then [s.take (s.length - suf.length)] else [])

/-- Whether a string matches `[\d.]*t?$`, or `[\d.]*t?(?:\.exe)?$` on Windows. -/
def matchPythonTail (windows : Bool) (r : Str) : Bool :=
  ((if windows then stripOptional ".exe".toList r else [r]).flatMap
    (stripOptional "t".toList)).any (fun c => c.all isDigitOrDot)

/-- The pattern of `PythonEnv.Python`: `^python3?[\d.]*t?$`, and
`^python3?[\d.]*t?(?:\.exe)?$` on Windows. -/
def pythonPattern (goos name : Str) : Bool :=
  let windows := decide (goos = "windows".toList)
  hasPrefix name "python".toList
    && (matchPythonTail windows (name.drop 6)
      || (hasPrefix (name.drop 6) "3".toList && matchPythonTail windows (name.drop 7)))

/-- The struct `PythonEnv`. -/
structure PythonEnv where
  Root : Str
deriving DecidableEq, Repr

/-- The errors of `PythonEnv.Python`. -/
inductive PythonError
  | readDir
  | notFound
deriving DecidableEq, Repr

/-- The directory `PythonEnv.Python` reads. -/
def PythonEnv.binDir (e : PythonEnv) (goos : Str) : Str :=
  if goos ≠ "windows".toList then join [e.Root, "bin".toList] else e.Root

/-- The loop of `PythonEnv.Python`: the first entry, in the order of
`os.ReadDir`, that is no directory and whose name matches the pattern. -/
def pythonEntry (goos : Str) (d : Directory) : Option (Str × Bool) :=
  (readDir d).find? (fun entry => !entry.2 && pythonPattern goos entry.1)

/-- Go `PythonEnv.Python`, with `runtime.GOOS` as a parameter; `dirs` gives the
directory at a path, `none` when `os.ReadDir` fails. -/
def PythonEnv.Python (e : PythonEnv) (goos : Str) (dirs : Str → Option Directory) :
    Except PythonError Str :=
  match dirs (e.binDir goos) with
  | none => .error .readDir
  | some d =>
    match pythonEntry goos d with
    | some entry => .ok (join [e.binDir goos, entry.1])
    | none => .error .notFound

/-- A binary directory with the free-threaded interpreter `python3.13t`, the
interpreter `python3.13` and the program `pip3`. -/
def exampleBinDir : Directory :=
  [("python3.13t".toList, .file []), ("pip3".toList, .file []), ("python3.13".toList, .file [])]

/-- A pkg-config directory with the four descriptors of Python 3.13, with and
without free threading. -/
def exampleBothDir : Directory :=
  [("python-3.13.pc".toList, .file "prefix=/install\nLibs: -lpython3.13\n".toList),
   ("python-3.13t.pc".toList, .file "prefix=/install\nLibs: -lpython3.13t\n".toList),
   ("python-3.13-embed.pc".toList, .file "prefix=/install\nLibs: -lpython313\n".toList),
   ("python-3.13t-embed.pc".toList, .file "prefix=/install\nLibs: -lpython313t\n".toList)]

/-- A pkg-config directory with the two normal descriptors of Python 3.13 and
the descriptor of Python 3.14. -/
def exampleTwoVersionsDir : Directory :=
  [("python-3.13.pc".toList, .file "prefix=/install\nLibs: -lpython3.13\n".toList),
   ("python-3.13t.pc".toList, .file "prefix=/install\nLibs: -lpython3.13t\n".toList),
   ("python-3.14.pc".toList, .file "prefix=/install\nLibs: -lpython3.14\n".toList)]

/-- A pkg-config directory with the descriptor of Python 3.13, which has no
placeholder, and a file `python3.pc` of its own, which has it. -/
def exampleAliasDir : Directory :=
  [("python-3.13.pc".toList, .file "Libs: -lpython3.13\n".toList),
   ("python3.pc".toList, .file "prefix=/install\n".toList)]

/-! ## Lemmas on strings -/

theorem split_ne_nil (sep : Char) (s : Str) : split sep s ≠ [] := by
  induction s with
  | nil => simp [split]
  | cons c cs ih =>
    unfold split
    split_ifs
    · simp
    · cases h : split sep cs <;> simp

theorem split_of_not_mem (sep : Char) (s : Str) (h : sep ∉ s) : split sep s = [s] := by
  induction s with
  | nil => rfl
  | cons c cs ih =>
    have hc : c ≠ sep := fun e => h (by simp [e])
    have hcs : sep ∉ cs := fun e => h (by simp [e])
    simp [split, hc, ih hcs]

theorem split_append_sep (sep : Char) (a b : Str) :
    split sep (a ++ sep :: b) = split sep a ++ split sep b := by
  induction a with
  | nil => simp [split]
  | cons c cs ih =>
    by_cases hc : c = sep
    · simp [split, hc, ih]
    · simp only [List.cons_append, split, hc, if_false]
      rw [List.append_eq, ih]
      cases h : split sep cs with
      | nil => exact absurd h (split_ne_nil sep cs)
      | cons seg rest => simp

theorem getLast?_split_append_sep (sep : Char) (a b : Str) (h : sep ∉ b) :
    (split sep (a ++ sep :: b)).getLast? = some b := by
  rw [split_append_sep, split_of_not_mem sep b h]
  simp

/-! ## Properties of `getPythonURL` -/

theorem getPythonURL_eq_spec (version buildDate arch os : Str) (freeThreaded debug : Bool)
    (ha : arch ∈ supportedArchs) (ho : os ∈ supportedOSs) :
    getPythonURL version buildDate arch os freeThreaded debug
      = baseURL ++ buildDate ++ "/".toList
          ++ specFilename version buildDate arch os freeThreaded debug := by
  simp only [supportedArchs, supportedOSs, List.mem_cons, List.mem_singleton,
    List.not_mem_nil, or_false] at ha ho
  rcases ha with rfl | rfl | rfl <;> rcases ho with rfl | rfl | rfl <;>
    cases freeThreaded <;> cases debug <;>
    simp [getPythonURL, archMap, selectBuild, buildFilename, unixVariant, specFilename,
      specArchToken, specOSToken, specSharedToken, specVariantToken]

theorem not_mem_specFilename (version buildDate arch os : Str) (freeThreaded debug : Bool)
    (hv : '/' ∉ version) (hb : '/' ∉ buildDate) :
    '/' ∉ specFilename version buildDate arch os freeThreaded debug := by
  have h1 : '/' ∉ specArchToken arch := by
    unfold specArchToken; split_ifs <;> decide
  have h2 : '/' ∉ specOSToken os := by
    unfold specOSToken; split_ifs <;> decide
  have h3 : '/' ∉ specSharedToken os := by
    unfold specSharedToken; split_ifs <;> decide
  have h4 : '/' ∉ specVariantToken os freeThreaded debug := by
    unfold specVariantToken; cases freeThreaded <;> cases debug <;> split_ifs <;> decide
  have h5 : '/' ∉ "cpython-".toList := by decide
  have h6 : '/' ∉ "+".toList := by decide
  have h7 : '/' ∉ "-".toList := by decide
  have h8 : '/' ∉ "-full.tar.zst".toList := by decide
  simp only [specFilename, List.mem_append, not_or]
  exact ⟨⟨⟨⟨⟨⟨⟨⟨⟨⟨⟨h5, hv⟩, h6⟩, hb⟩, h7⟩, h1⟩, h7⟩, h2⟩, h3⟩, h7⟩, h4⟩, h8⟩

/-- C1: for a version and build date without `/` and a supported architecture
and operating system, `getPythonURL` returns the release URL of the build date
followed by `/` and the file name `F` the specification describes, and `F` is
the last `/`-separated segment of the result. -/
theorem getPythonURL_supported (version buildDate arch os : Str) (freeThreaded debug : Bool)
    (hv : '/' ∉ version) (hb : '/' ∉ buildDate)
    (ha : arch ∈ supportedArchs) (ho : os ∈ supportedOSs) :
    getPythonURL version buildDate arch os freeThreaded debug
        = "https://github.com/indygreg/python-build-standalone/releases/download/".toList
          ++ buildDate ++ "/".toList
          ++ specFilename version buildDate arch os freeThreaded debug
      ∧ (split '/' (getPythonURL version buildDate arch os freeThreaded debug)).getLast?
        = some (specFilename version buildDate arch os freeThreaded debug) := by
  have h := getPythonURL_eq_spec version buildDate arch os freeThreaded debug ha ho
  refine ⟨h, ?_⟩
  rw [h]
  have e : baseURL ++ buildDate ++ "/".toList
      ++ specFilename version buildDate arch os freeThreaded debug
      = (baseURL ++ buildDate) ++ '/' :: specFilename version buildDate arch os freeThreaded debug := by
    simp
  rw [e]
  exact getLast?_split_append_sep '/' _ _
    (not_mem_specFilename version buildDate arch os freeThreaded debug hv hb)

/-- Witness of C1: the first case of `TestGetPythonURL`. -/
theorem getPythonURL_supported_witness :
    getPythonURL "3.13.0".toList "20241016".toList "arm64".toList "darwin".toList true true
        = "https://github.com/indygreg/python-build-standalone/releases/download/".toList
          ++ "20241016".toList ++ "/".toList
          ++ specFilename "3.13.0".toList "20241016".toList "arm64".toList "darwin".toList true true
      ∧ (split '/' (getPythonURL "3.13.0".toList "20241016".toList "arm64".toList
          "darwin".toList true true)).getLast?
        = some (specFilename "3.13.0".toList "20241016".toList "arm64".toList
          "darwin".toList true true) :=
  getPythonURL_supported "3.13.0".toList "20241016".toList "arm64".toList "darwin".toList
    true true (by decide) (by decide) (by decide) (by decide)

theorem hasSuffix_iff (s suf : Str) : hasSuffix s suf = true ↔ suf <:+ s := by
  simp [hasSuffix]

theorem hasPrefix_iff (s p : Str) : hasPrefix s p = true ↔ p <+: s := by
  simp [hasPrefix]

/-- C2: `getPythonURL` returns the empty string exactly when the architecture
or the operating system is not supported, and for a supported pair the result
is not empty and ends with `.tar.zst`. -/
theorem getPythonURL_empty_iff (version buildDate arch os : Str) (freeThreaded debug : Bool) :
    (getPythonURL version buildDate arch os freeThreaded debug = []
        ↔ arch ∉ supportedArchs ∨ os ∉ supportedOSs)
      ∧ (arch ∈ supportedArchs ∧ os ∈ supportedOSs →
          getPythonURL version buildDate arch os freeThreaded debug ≠ []
          ∧ hasSuffix (getPythonURL version buildDate arch os freeThreaded debug)
              ".tar.zst".toList = true) := by
  have key : arch ∈ supportedArchs ∧ os ∈ supportedOSs →
      getPythonURL version buildDate arch os freeThreaded debug ≠ []
      ∧ hasSuffix (getPythonURL version buildDate arch os freeThreaded debug)
          ".tar.zst".toList = true := by
    rintro ⟨ha, ho⟩
    rw [getPythonURL_eq_spec version buildDate arch os freeThreaded debug ha ho]
    refine ⟨by simp [baseURL], ?_⟩
    rw [hasSuffix_iff]
    refine ⟨baseURL ++ buildDate ++ "/".toList ++ ("cpython-".toList ++ version ++ "+".toList
      ++ buildDate ++ "-".toList ++ specArchToken arch ++ "-".toList ++ specOSToken os
      ++ specSharedToken os ++ "-".toList ++ specVariantToken os freeThreaded debug
      ++ "-full".toList), ?_⟩
    simp [specFilename]
  refine ⟨⟨fun h => ?_, fun h => ?_⟩, key⟩
  · by_contra hcon
    push_neg at hcon
    exact (key hcon).1 h
  · by_cases ha : arch ∈ supportedArchs
    · have ho : os ∉ supportedOSs := h.resolve_left (not_not.mpr ha)
      simp only [supportedOSs, List.mem_cons, List.mem_singleton, List.not_mem_nil, or_false,
        not_or] at ho
      unfold getPythonURL
      cases archMap arch with
      | none => rfl
      | some a =>
        simp only [selectBuild, if_neg ho.1, if_neg ho.2.1, if_neg ho.2.2]
    · simp only [supportedArchs, List.mem_cons, List.mem_singleton, List.not_mem_nil, or_false,
        not_or] at ha
      simp only [getPythonURL, archMap, if_neg ha.1, if_neg ha.2.1, if_neg ha.2.2]

/-! ## The cache file name -/

theorem not_mem_of_mem_split (sep : Char) (s : Str) : ∀ seg ∈ split sep s, sep ∉ seg := by
  induction s with
  | nil => simp [split]
  | cons c cs ih =>
    by_cases hc : c = sep
    · simp only [split, hc, if_true, List.mem_cons]
      rintro seg (rfl | h)
      · simp
      · exact ih seg h
    · simp only [split, hc, if_false]
      cases h : split sep cs with
      | nil => exact absurd h (split_ne_nil sep cs)
      | cons seg rest =>
        rw [h] at ih
        simp only [List.mem_cons]
        rintro x (rfl | hx)
        · have := ih seg (by simp)
          simp only [List.mem_cons, not_or]
          exact ⟨fun e => hc e.symm, this⟩
        · exact ih x (by simp [hx])

theorem getLast?_split (sep : Char) (s : Str) :
    ∃ name, (split sep s).getLast? = some name ∧ sep ∉ name := by
  cases h : (split sep s).getLast? with
  | none => exact absurd (List.getLast?_eq_none_iff.mp h) (split_ne_nil sep s)
  | some name => exact ⟨name, rfl, not_mem_of_mem_split sep s name (List.mem_of_getLast?_eq_some h)⟩

theorem extScan_suffix (r acc : Str) : extScan r acc <:+ r.reverse ++ acc := by
  induction r generalizing acc with
  | nil => simp [extScan]
  | cons c cs ih =>
    unfold extScan
    split_ifs with h1 h2
    · exact List.nil_suffix
    · simp only [List.reverse_cons, List.append_assoc, List.singleton_append]
      exact List.suffix_append _ _
    · have := ih (c :: acc)
      simpa using this

theorem ext_suffix (path : Str) : ext path <:+ path := by
  have := extScan_suffix path.reverse []
  simpa [ext] using this

/-- The extension is empty, or a dot followed by characters other than `.` and `/`. -/
theorem extScan_shape (r acc : Str) (hdot : '.' ∉ acc) (hsep : '/' ∉ acc) :
    extScan r acc = [] ∨ ∃ e, extScan r acc = '.' :: e ∧ '.' ∉ e ∧ '/' ∉ e := by
  induction r generalizing acc with
  | nil => simp [extScan]
  | cons c cs ih =>
    unfold extScan
    split_ifs with h1 h2
    · exact Or.inl rfl
    · exact Or.inr ⟨acc, by rw [h2], hdot, hsep⟩
    · apply ih
      · simp only [List.mem_cons, not_or]
        exact ⟨fun e => h2 e.symm, hdot⟩
      · simp only [List.mem_cons, not_or]
        exact ⟨fun e => h1 e.symm, hsep⟩

theorem ext_shape (path : Str) :
    ext path = [] ∨ ∃ e, ext path = '.' :: e ∧ '.' ∉ e ∧ '/' ∉ e :=
  extScan_shape path.reverse [] (by simp) (by simp)

theorem getFullExtension_suffix (name : Str) : getFullExtension name <:+ name := by
  unfold getFullExtension
  split_ifs with h1 h2
  · exact (hasSuffix_iff _ _).mp h1
  · exact (hasSuffix_iff _ _).mp h2
  · exact ext_suffix name

theorem take_append_of_suffix {α : Type} (e name : List α) (h : e <:+ name) :
    name.take (name.length - e.length) ++ e = name := by
  obtain ⟨t, rfl⟩ := h
  simp

theorem length_sha1 (msg : Bytes) : (sha1 msg).length = 20 := by
  simp [sha1, bigEndian]

theorem length_hexEncode (bs : Bytes) : (hexEncode bs).length = 2 * bs.length := by
  induction bs with
  | nil => rfl
  | cons b bs ih =>
    have : hexEncode (b :: bs) = hexDigit (b / 16) :: hexDigit (b % 16) :: hexEncode bs := by
      simp [hexEncode]
    rw [this]
    simp only [List.length_cons, ih]
    omega

theorem hexDigit_mem (n : Nat) : hexDigit n ∈ hexChars := by
  by_cases h : n < 16
  · interval_cases n <;> decide
  · have : hexDigit n = '0' := by
      unfold hexDigit
      exact List.getD_eq_default _ _ (by simpa using h)
    rw [this]
    decide

theorem mem_hexEncode (bs : Bytes) : ∀ c ∈ hexEncode bs, c ∈ hexChars := by
  intro c hc
  simp only [hexEncode, List.mem_flatMap, List.mem_cons, List.not_mem_nil, or_false] at hc
  obtain ⟨b, -, rfl | rfl⟩ := hc
  · exact hexDigit_mem _
  · exact hexDigit_mem _

set_option maxRecDepth 100000 in
/-- The model of SHA-1 on the test vector `abc` of FIPS 180. -/
theorem sha1_abc :
    hexEncode (sha1 (toBytes "abc".toList)) = "a9993e364706816aba3e25717850c26c9cd0d89d".toList := by
  decide

theorem urlHash_eq (url : Str) :
    urlHash url = some ((hexEncode (sha1 (toBytes url))).take 8)
      ∧ ((hexEncode (sha1 (toBytes url))).take 8).length = 8
      ∧ ∀ c ∈ (hexEncode (sha1 (toBytes url))).take 8, c ∈ hexChars := by
  have hl : (hexEncode (sha1 (toBytes url))).length = 40 := by
    rw [length_hexEncode, length_sha1]
  refine ⟨?_, ?_, ?_⟩
  · simp [urlHash, sliceTo, hl]
  · simp [hl]
  · intro c hc
    exact mem_hexEncode _ c (List.mem_of_mem_take hc)

theorem cachedFilename_of_getLast? (url name : Str) (hn : (split '/' url).getLast? = some name) :
    cachedFilename url
      = some (name.take (name.length - (getFullExtension name).length) ++ "-".toList
          ++ (hexEncode (sha1 (toBytes url))).take 8 ++ getFullExtension name) := by
  have hle : (getFullExtension name).length ≤ name.length :=
    (getFullExtension_suffix name).length_le
  have hs : sliceTo name ((name.length : Int) - ((getFullExtension name).length : Int))
      = some (name.take (name.length - (getFullExtension name).length)) := by
    unfold sliceTo
    rw [if_pos (by omega)]
    congr 2
    omega
  simp only [cachedFilename, hn, (urlHash_eq url).1, hs]

/-- C3: the cache file name is `base + "-" + h + ext`, where `name` is the last
`/`-separated segment of the URL, `ext = getFullExtension(name)`, `base` is
`name` without its trailing `ext` and `h` is the first 8 hexadecimal characters
of the SHA-1 digest of the URL; a name ending in `.tar.gz` or `.tar.zst` keeps
that whole suffix after the digest, and `base + ext` is the original name. -/
theorem cachedFilename_eq (url : Str) :
    ∃ name base ext h : Str,
      (split '/' url).getLast? = some name
      ∧ ext = getFullExtension name
      ∧ base ++ ext = name
      ∧ h = (hexEncode (sha1 (toBytes url))).take 8
      ∧ h.length = 8
      ∧ (∀ c ∈ h, c ∈ "0123456789abcdef".toList)
      ∧ cachedFilename url = some (base ++ "-".toList ++ h ++ ext)
      ∧ (hasSuffix name ".tar.gz".toList = true → ext = ".tar.gz".toList)
      ∧ (hasSuffix name ".tar.zst".toList = true → ext = ".tar.zst".toList) := by
  obtain ⟨name, hn, -⟩ := getLast?_split '/' url
  refine ⟨name, name.take (name.length - (getFullExtension name).length),
    getFullExtension name, (hexEncode (sha1 (toBytes url))).take 8, hn, rfl,
    take_append_of_suffix _ _ (getFullExtension_suffix name), rfl, (urlHash_eq url).2.1,
    (urlHash_eq url).2.2, cachedFilename_of_getLast? url name hn, ?_, ?_⟩
  · intro h
    unfold getFullExtension
    rw [if_pos h]
  · intro h
    have h' : hasSuffix name ".tar.gz".toList = false := by
      by_contra hc
      rw [Bool.not_eq_false, hasSuffix_iff] at hc
      rw [hasSuffix_iff] at h
      rcases List.suffix_or_suffix_of_suffix hc h with h1 | h1
      · exact absurd h1 (by decide)
      · exact absurd h1 (by decide)
    unfold getFullExtension
    rw [if_neg (Bool.eq_false_iff.mp h'), if_pos h]

/-! ## The choice of the extractor -/

theorem not_archive_prefix_hex (suf : Str) (hs : suf ∈ archiveSuffixes) (c : Char)
    (hc : c ∈ hexChars) (rest : Str) : ¬ suf.reverse <+: c :: rest := by
  simp only [archiveSuffixes, List.mem_cons, List.mem_singleton, List.not_mem_nil, or_false] at hs
  rcases hs with rfl | rfl | rfl <;> intro h <;> simp at h <;>
    · obtain ⟨rfl, -⟩ := h
      exact absurd hc (by decide)

theorem archive_prefix_ext (suf : Str) (hs : suf ∈ archiveSuffixes) (er : Str)
    (hdot : '.' ∉ er) (c : Char) (hc : c ∈ hexChars) (rest : Str)
    (h : suf.reverse <+: er ++ '.' :: c :: rest) : suf.reverse = er ++ ['.'] := by
  simp only [archiveSuffixes, List.mem_cons, List.mem_singleton, List.not_mem_nil, or_false] at hs
  rcases hs with rfl | rfl | rfl
  · rcases er with _ | ⟨a, _ | ⟨b, _ | ⟨d, _ | ⟨e, t⟩⟩⟩⟩ <;> simp at h hdot ⊢
    · exact h
    · exact absurd h.2.2.2 hdot.2.2.2.1
  · rcases er with _ | ⟨a, _ | ⟨b, _ | ⟨d, t⟩⟩⟩ <;> simp at h hdot ⊢
    · obtain ⟨-, -, rfl, -⟩ := h
      exact absurd hc (by decide)
    · exact absurd h.2.2.1 hdot.2.2.1
  · rcases er with _ | ⟨a, _ | ⟨b, _ | ⟨d, _ | ⟨e, t⟩⟩⟩⟩ <;> simp at h hdot ⊢
    · obtain ⟨-, -, -, rfl, -⟩ := h
      exact absurd hc (by decide)
    · exact absurd h.2.2.2.1 hdot.2.2.2.1

theorem archiveSuffixes_eq_of_suffix :
    ∀ a ∈ archiveSuffixes, ∀ b ∈ archiveSuffixes, a <:+ b → a = b := by
  decide

theorem archiveSuffixes_eq_of_common (a b l : Str) (ha : a ∈ archiveSuffixes)
    (hb : b ∈ archiveSuffixes) (h1 : a <:+ l) (h2 : b <:+ l) : a = b := by
  rcases List.suffix_or_suffix_of_suffix h1 h2 with h | h
  · exact archiveSuffixes_eq_of_suffix a ha b hb h
  · exact (archiveSuffixes_eq_of_suffix b hb a ha h).symm

theorem ext_of_zip_suffix (name : Str) (h : ".zip".toList <:+ name) : ext name = ".zip".toList := by
  obtain ⟨t, rfl⟩ := h
  simp [ext, extScan]

theorem getFullExtension_mem_of_suffix (name suf : Str) (hs : suf ∈ archiveSuffixes)
    (h : suf <:+ name) : getFullExtension name ∈ archiveSuffixes := by
  unfold getFullExtension
  split_ifs with h1 h2
  · decide
  · decide
  · simp only [archiveSuffixes, List.mem_cons, List.mem_singleton, List.not_mem_nil,
      or_false] at hs
    rcases hs with rfl | rfl | rfl
    · rw [ext_of_zip_suffix name h]
      decide
    · exact absurd ((hasSuffix_iff _ _).mpr h) h1
    · exact absurd ((hasSuffix_iff _ _).mpr h) h2

theorem getFullExtension_cases (name : Str) :
    getFullExtension name ∈ archiveSuffixes ∨ getFullExtension name = []
      ∨ ∃ e, getFullExtension name = '.' :: e ∧ '.' ∉ e := by
  unfold getFullExtension
  split_ifs with h1 h2
  · exact Or.inl (by decide)
  · exact Or.inl (by decide)
  · rcases ext_shape name with h | ⟨e, he, hd, -⟩
    · exact Or.inr (Or.inl h)
    · exact Or.inr (Or.inr ⟨e, he, hd⟩)

/-- The cached file name ends in an archive suffix exactly when the name it
was made from does. -/
theorem archive_suffix_cached_iff (name h suf : Str) (hs : suf ∈ archiveSuffixes)
    (hh : h ≠ []) (hhex : ∀ c ∈ h, c ∈ hexChars) :
    suf <:+ name.take (name.length - (getFullExtension name).length) ++ "-".toList ++ h
        ++ getFullExtension name
      ↔ suf <:+ name := by
  have hsuf := getFullExtension_suffix name
  set e := getFullExtension name with he
  set base := name.take (name.length - e.length) with hbase
  have hend : e <:+ base ++ "-".toList ++ h ++ e := List.suffix_append _ _
  obtain ⟨c, hr, hrc⟩ : ∃ c hr, h.reverse = c :: hr := by
    cases hrev : h.reverse with
    | nil => exact absurd (List.reverse_eq_nil_iff.mp hrev) hh
    | cons c hr => exact ⟨c, hr, rfl⟩
  have hchex : c ∈ hexChars := hhex c (by
    have : c ∈ h.reverse := by rw [hrc]; simp
    simpa using this)
  by_cases hmem : e ∈ archiveSuffixes
  · constructor
    · intro hf
      rw [archiveSuffixes_eq_of_common suf e _ hs hmem hf hend]
      exact hsuf
    · intro hn
      rw [archiveSuffixes_eq_of_common suf e _ hs hmem hn hsuf]
      exact hend
  · constructor
    · intro hf
      exfalso
      rw [← List.reverse_prefix] at hf
      rcases getFullExtension_cases name with h0 | hnil | ⟨e', hdot', hnd⟩
      · exact hmem h0
      · rw [← he] at hnil
        have : (base ++ "-".toList ++ h ++ e).reverse = c :: (hr ++ '-' :: base.reverse) := by
          simp [hnil, hrc]
        rw [this] at hf
        exact not_archive_prefix_hex suf hs c hchex _ hf
      · rw [← he] at hdot'
        have : (base ++ "-".toList ++ h ++ e).reverse
            = e'.reverse ++ '.' :: c :: (hr ++ '-' :: base.reverse) := by
          simp [hdot', hrc]
        rw [this] at hf
        have h2 := archive_prefix_ext suf hs e'.reverse (by simpa using hnd) c hchex _ hf
        have h3 : suf = e := by
          have := congrArg List.reverse h2
          simpa [hdot'] using this
        exact hmem (h3 ▸ hs)
    · intro hn
      exact absurd (getFullExtension_mem_of_suffix name suf hs hn) hmem

/-! ## `filepath.Clean` and `filepath.Join` on a final ordinary element -/

theorem joinWith_append_singleton (sep : Str) (L : List Str) (f : Str) :
    joinWith sep (L ++ [f]) = if L = [] then f else joinWith sep L ++ sep ++ f := by
  induction L with
  | nil => simp [joinWith]
  | cons e es ih =>
    cases es with
    | nil => simp [joinWith]
    | cons e2 es2 =>
      simp only [List.cons_append, joinWith, List.append_eq] at ih ⊢
      rw [ih]
      simp

theorem cleanStep_plain (rooted : Bool) (st : CleanState) (f : Str) (hf : plainName f) :
    cleanStep rooted st f = { st with stack := f :: st.stack } := by
  obtain ⟨-, h1, h2, h3⟩ := hf
  unfold cleanStep
  rw [if_neg (by simp only [not_or]; exact ⟨h1, h2⟩), if_neg h3]

theorem hasPrefix_sep_of_not_mem (f : Str) (hf : '/' ∉ f) : hasPrefix f "/".toList = false := by
  cases f with
  | nil => rfl
  | cons c cs =>
    have : '/' ≠ c := fun e => hf (by rw [e]; exact List.mem_cons_self _ _)
    simp [hasPrefix, List.isPrefixOf, this]

theorem clean_plain (f : Str) (hf : plainName f) : clean f = f := by
  have hs : split '/' f = [f] := split_of_not_mem '/' f hf.1
  have hp := hasPrefix_sep_of_not_mem f hf.1
  simp only [clean, hs, hp, List.foldl_cons, List.foldl_nil, cleanStep_plain _ _ f hf]
  simp [joinWith, hf.2.1]

theorem clean_append_plain (cd f : Str) (hf : plainName f) :
    ∃ X, clean (cd ++ '/' :: f) = X ++ f ∧ (X = [] ∨ ∃ Y, X = Y ++ ['/']) := by
  have hs : split '/' (cd ++ '/' :: f) = split '/' cd ++ [f] := by
    rw [split_append_sep, split_of_not_mem '/' f hf.1]
  simp only [clean, hs, List.foldl_append, List.foldl_cons, List.foldl_nil,
    cleanStep_plain _ _ f hf]
  set rooted := hasPrefix (cd ++ '/' :: f) "/".toList
  set st := List.foldl (cleanStep rooted) ⟨0, []⟩ (split '/' cd)
  set pre : Str := if rooted = true then "/".toList else []
  have hpre : pre = [] ∨ pre = ['/'] := by
    simp only [pre]
    split_ifs
    · exact Or.inr rfl
    · exact Or.inl rfl
  have hL : List.replicate st.ups "..".toList ++ (f :: st.stack).reverse
      = (List.replicate st.ups "..".toList ++ st.stack.reverse) ++ [f] := by
    simp
  rw [hL, joinWith_append_singleton]
  set L := List.replicate st.ups "..".toList ++ st.stack.reverse
  by_cases hLn : L = []
  · rw [if_pos hLn, if_neg (by simp [hf.2.1])]
    refine ⟨pre, rfl, ?_⟩
    rcases hpre with h | h
    · exact Or.inl h
    · exact Or.inr ⟨[], by simp [h]⟩
  · rw [if_neg hLn, if_neg (by simp [hf.2.1])]
    refine ⟨pre ++ joinWith "/".toList L ++ ['/'], by simp, Or.inr ⟨_, rfl⟩⟩

theorem join_pair_plain (cd f : Str) (hf : plainName f) :
    ∃ X, join [cd, f] = X ++ f ∧ (X = [] ∨ ∃ Y, X = Y ++ ['/']) := by
  by_cases hcd : cd = []
  · refine ⟨[], ?_, Or.inl rfl⟩
    simp [join, hcd, List.dropWhile, hf.2.1, joinWith, clean_plain f hf]
  · have : join [cd, f] = clean (cd ++ '/' :: f) := by
      simp [join, List.dropWhile, hcd, joinWith]
    rw [this]
    exact clean_append_plain cd f hf

theorem suffix_join_pair_iff (cd f suf : Str) (hf : plainName f)
    (hlen : suf.length ≤ f.length) : suf <:+ join [cd, f] ↔ suf <:+ f := by
  obtain ⟨X, hX, -⟩ := join_pair_plain cd f hf
  rw [hX]
  constructor
  · intro h
    exact List.suffix_of_suffix_length_le h (List.suffix_append X f) hlen
  · intro h
    exact h.trans (List.suffix_append X f)

theorem cachedFilename_plain (url name f : Str) (hn : (split '/' url).getLast? = some name)
    (hf : cachedFilename url = some f) :
    plainName f ∧ 8 ≤ f.length ∧ ∀ suf ∈ archiveSuffixes, (suf <:+ f ↔ suf <:+ name) := by
  have hsep : '/' ∉ name := by
    obtain ⟨n, h1, h2⟩ := getLast?_split '/' url
    rw [hn] at h1
    cases h1
    exact h2
  obtain ⟨-, hlen, hhex⟩ := urlHash_eq url
  rw [cachedFilename_of_getLast? url name hn] at hf
  cases hf
  set h := (hexEncode (sha1 (toBytes url))).take 8
  have hne : h ≠ [] := by
    intro e
    rw [e] at hlen
    simp at hlen
  have hdash : '-' ∈ name.take (name.length - (getFullExtension name).length) ++ "-".toList ++ h
      ++ getFullExtension name := by
    simp
  refine ⟨⟨?_, ?_, ?_, ?_⟩, ?_, ?_⟩
  · simp only [List.mem_append, not_or]
    refine ⟨⟨⟨fun hm => hsep (List.mem_of_mem_take hm), by decide⟩, fun hm => ?_⟩,
      fun hm => hsep ((getFullExtension_suffix name).subset hm)⟩
    exact absurd (hhex _ hm) (by decide)
  · intro e
    rw [e] at hdash
    exact absurd hdash (by decide)
  · intro e
    rw [e] at hdash
    exact absurd hdash (by decide)
  · intro e
    rw [e] at hdash
    exact absurd hdash (by decide)
  · simp only [List.length_append, hlen]
    omega
  · intro suf hs
    exact archive_suffix_cached_iff name h suf hs hne hhex

theorem downloadFileWithCache_ok (m : Machine) (url path : Str)
    (h : downloadFileWithCache m url = .ok path) :
    ∃ cacheDir f, cachedFilename url = some f ∧ path = join [cacheDir, f] := by
  unfold downloadFileWithCache at h
  cases hc : getCacheDir m with
  | error e => simp [hc] at h
  | ok cacheDir =>
    cases hf : cachedFilename url with
    | none => simp [hc, hf] at h
    | some f =>
      simp only [hc, hf] at h
      refine ⟨cacheDir, f, rfl, ?_⟩
      split_ifs at h <;> cases h <;> rfl

theorem hasSuffix_cached_path (m : Machine) (url path name suf : Str)
    (hn : (split '/' url).getLast? = some name)
    (h : downloadFileWithCache m url = .ok path) (hs : suf ∈ archiveSuffixes) :
    hasSuffix path suf = hasSuffix name suf := by
  obtain ⟨cacheDir, f, hf, rfl⟩ := downloadFileWithCache_ok m url path h
  obtain ⟨hp, hlen, hiff⟩ := cachedFilename_plain url name f hn hf
  have hl : suf.length ≤ f.length := by
    have : suf.length ≤ 8 := by
      simp only [archiveSuffixes, List.mem_cons, List.mem_singleton, List.not_mem_nil,
        or_false] at hs
      rcases hs with rfl | rfl | rfl <;> decide
    omega
  rw [Bool.eq_iff_iff, hasSuffix_iff, hasSuffix_iff, suffix_join_pair_iff cacheDir f suf hp hl]
  exact hiff suf hs

/-- C4: `downloadAndExtract` selects the extractor by the suffix of the cached
file path, and that suffix is the one of the last `/`-separated segment of the
URL: once the download and the creation of the directory have succeeded, a
segment ending in `.zip` gives `extractZip`, else one ending in `.tar.gz` gives
`extractTarGz`, else one ending in `.tar.zst` gives `extractTarZst`, and any
other segment gives the error of an unsupported file extension; for such a
segment the function returns an error, and no extractor is run, on every
machine. -/
theorem downloadAndExtract_selects (m : Machine) (url dir trimPrefix : Str) (verbose : Bool)
    (name : Str) (hn : (split '/' url).getLast? = some name) :
    (∀ path, downloadFileWithCache m url = .ok path → m.mkdirAll dir = true →
        downloadAndExtract m url dir trimPrefix verbose
          = if hasSuffix name ".zip".toList then .ok (.extractZip path dir)
            else if hasSuffix name ".tar.gz".toList then .ok (.extractTarGz path dir)
            else if hasSuffix name ".tar.zst".toList then
              .ok (.extractTarZst path dir trimPrefix verbose)
            else .error .unsupportedFileExtension)
      ∧ (hasSuffix name ".zip".toList = false → hasSuffix name ".tar.gz".toList = false →
          hasSuffix name ".tar.zst".toList = false →
          ∃ e, downloadAndExtract m url dir trimPrefix verbose = .error e) := by
  have main : ∀ path, downloadFileWithCache m url = .ok path → m.mkdirAll dir = true →
      downloadAndExtract m url dir trimPrefix verbose
        = if hasSuffix name ".zip".toList then .ok (.extractZip path dir)
          else if hasSuffix name ".tar.gz".toList then .ok (.extractTarGz path dir)
          else if hasSuffix name ".tar.zst".toList then
            .ok (.extractTarZst path dir trimPrefix verbose)
          else .error .unsupportedFileExtension := by
    intro path hdl hmk
    have h1 := hasSuffix_cached_path m url path name ".zip".toList hn hdl (by decide)
    have h2 := hasSuffix_cached_path m url path name ".tar.gz".toList hn hdl (by decide)
    have h3 := hasSuffix_cached_path m url path name ".tar.zst".toList hn hdl (by decide)
    unfold downloadAndExtract
    simp only [hdl, hmk, h1, h2, h3, Bool.not_true, Bool.false_eq_true, if_false]
  refine ⟨main, fun h1 h2 h3 => ?_⟩
  cases hdl : downloadFileWithCache m url with
  | error e => exact ⟨.downloading e, by simp [downloadAndExtract, hdl]⟩
  | ok path =>
    cases hmk : m.mkdirAll dir with
    | false => exact ⟨.creatingDirectory, by simp [downloadAndExtract, hdl, hmk]⟩
    | true =>
      refine ⟨.unsupportedFileExtension, ?_⟩
      rw [main path hdl hmk, h1, h2, h3]
      simp

set_option maxRecDepth 100000 in
/-- Witness of C4: a URL whose last segment is `x.zip`. -/
theorem downloadAndExtract_selects_witness :
    (split '/' "https://x.org/a/x.zip".toList).getLast? = some "x.zip".toList
      ∧ downloadAndExtract machineAllOk "https://x.org/a/x.zip".toList "/dest".toList [] false
        = .ok (.extractZip "/home/u/.gopy/cache/x-085e0da4.zip".toList "/dest".toList) := by
  refine ⟨by decide, ?_⟩
  have h := (downloadAndExtract_selects machineAllOk "https://x.org/a/x.zip".toList
    "/dest".toList [] false "x.zip".toList (by decide)).1
    "/home/u/.gopy/cache/x-085e0da4.zip".toList (by rfl) (by rfl)
  rw [h]
  rfl

/-! ## The paths of the extractors -/

theorem trimPrefix_append (p r : Str) : trimPrefix (p ++ r) p = r := by
  have : hasPrefix (p ++ r) p = true := (hasPrefix_iff _ _).mpr (List.prefix_append p r)
  simp [trimPrefix, this]

theorem goDestPath_go (D r : Str) (hr : r ≠ []) :
    goDestPath D ("go/".toList ++ r) = some (join [D, r]) := by
  have h1 : "go/".toList ++ r ≠ "go/".toList := by
    intro e
    have := congrArg List.length e
    simp at this
    exact hr this
  have h2 : "go/".toList ++ r ≠ "go".toList := by
    intro e
    have := congrArg List.length e
    simp at this
  unfold goDestPath
  rw [if_neg (by simp only [not_or]; exact ⟨h1, h2⟩), trimPrefix_append]

theorem goDestPath_root (D name : Str) (h : name = "go".toList ∨ name = "go/".toList) :
    goDestPath D name = none := by
  unfold goDestPath
  rw [if_pos h.symm]

/-- The calls of `extractZip` and `extractTarGz` for an entry named
`"go/" + r`, with `r` not empty: the destination path is `filepath.Join(D, r)`,
a directory entry calls `MkdirAll` on it and a regular-file entry opens and
writes it after the directory of the path; an entry named `go` or `go/` makes
no call at all. -/
theorem go_entry_remap (D r : Str) (hr : r ≠ []) :
    goDestPath D ("go/".toList ++ r) = some (join [D, r])
      ∧ (∀ mode data, extractZipSteps D ⟨"go/".toList ++ r, true, mode, data⟩
          = [⟨.mkdirAll (join [D, r]) mode, false⟩])
      ∧ (∀ mode data, extractZipSteps D ⟨"go/".toList ++ r, false, mode, data⟩
          = [⟨.mkdirAll (dir (join [D, r])) 0o755, true⟩,
             ⟨.openFile (join [D, r]) flagsCreateTrunc mode, true⟩,
             ⟨.copy (join [D, r]) data, true⟩])
      ∧ (∀ mode linkname data,
          extractTarGzSteps D ⟨"go/".toList ++ r, .dir, mode, linkname, data⟩
          = [⟨.mkdirAll (join [D, r]) mode, true⟩])
      ∧ (∀ mode linkname data,
          extractTarGzSteps D ⟨"go/".toList ++ r, .reg, mode, linkname, data⟩
          = [⟨.mkdirAll (dir (join [D, r])) 0o755, true⟩,
             ⟨.openFile (join [D, r]) flagsCreateTrunc mode, true⟩,
             ⟨.copy (join [D, r]) data, true⟩])
      ∧ (∀ name, name = "go".toList ∨ name = "go/".toList →
          (∀ isDir mode data, extractZipSteps D ⟨name, isDir, mode, data⟩ = [])
          ∧ ∀ typeflag mode linkname data,
              extractTarGzSteps D ⟨name, typeflag, mode, linkname, data⟩ = []) := by
  have h := goDestPath_go D r hr
  refine ⟨h, ?_, ?_, ?_, ?_, ?_⟩
  · intro mode data
    simp only [extractZipSteps, h, if_true]
  · intro mode data
    simp only [extractZipSteps, h, Bool.false_eq_true, if_false]
  · intro mode linkname data
    simp only [extractTarGzSteps, h]
  · intro mode linkname data
    simp only [extractTarGzSteps, h]
  · intro name hname
    have h0 := goDestPath_root D name hname
    refine ⟨fun isDir mode data => ?_, fun typeflag mode linkname data => ?_⟩
    · simp only [extractZipSteps, h0]
    · simp only [extractTarGzSteps, h0]

/-- The calls for the entry `go/bin/tool` under `/dest` are on `/dest/bin/tool`. -/
theorem go_entry_remap_witness :
    "bin/tool".toList ≠ []
      ∧ goDestPath "/dest".toList "go/bin/tool".toList = some "/dest/bin/tool".toList
      ∧ extractZipSteps "/dest".toList ⟨"go/bin/tool".toList, false, 0o755, [1, 2]⟩
          = [⟨.mkdirAll "/dest/bin".toList 0o755, true⟩,
             ⟨.openFile "/dest/bin/tool".toList flagsCreateTrunc 0o755, true⟩,
             ⟨.copy "/dest/bin/tool".toList [1, 2], true⟩]
      ∧ extractTarGzSteps "/dest".toList ⟨"go/".toList, .dir, 0o755, [], []⟩ = [] := by
  have h := go_entry_remap "/dest".toList "bin/tool".toList (by decide)
  have hj : join ["/dest".toList, "bin/tool".toList] = "/dest/bin/tool".toList := by decide
  have hd : dir "/dest/bin/tool".toList = "/dest/bin".toList := by decide
  refine ⟨by decide, ?_, ?_, ?_⟩
  · exact h.1.trans (congrArg some hj)
  · have := h.2.2.1 0o755 [1, 2]
    rw [hj, hd] at this
    exact this
  · exact (h.2.2.2.2.2 "go/".toList (Or.inr rfl)).2 .dir 0o755 [] []

/-- The calls of `extractTarZst` for one entry: with a non-empty `trimPrefix`
an entry whose name does not begin with the prefix, or equals it, makes no
call, and any other entry gets the path `filepath.Join(dst, name without the
prefix)`; with an empty `trimPrefix` every entry gets the path
`filepath.Join(dst, name)`.  The calls of a directory, regular file, symbolic
link or hard link entry are on the path it gets. -/
theorem zst_entry_remap (dst p : Str) (e : TarEntry) :
    (p ≠ [] → ¬ p <+: e.name →
        zstDestPath dst p e.name = none ∧ extractTarZstSteps dst p e = [])
      ∧ (p ≠ [] → e.name = p →
        zstDestPath dst p e.name = none ∧ extractTarZstSteps dst p e = [])
      ∧ (p ≠ [] → p <+: e.name → e.name ≠ p →
        zstDestPath dst p e.name = some (join [dst, e.name.drop p.length]))
      ∧ zstDestPath dst [] e.name = some (join [dst, e.name])
      ∧ (∀ path, zstDestPath dst p e.name = some path →
          (e.typeflag = .dir → extractTarZstSteps dst p e = [⟨.mkdirAll path e.mode, true⟩])
          ∧ (e.typeflag = .reg → extractTarZstSteps dst p e
              = [⟨.mkdirAll (dir path) 0o755, true⟩,
                 ⟨.openFile path flagsCreateRdwr e.mode, true⟩,
                 ⟨.copy path e.data, true⟩])
          ∧ (e.typeflag = .symlink → extractTarZstSteps dst p e
              = [⟨.mkdirAll (dir path) 0o755, true⟩,
                 ⟨.removeAll path, true⟩,
                 ⟨.symlink e.linkname path, true⟩])
          ∧ (e.typeflag = .link → extractTarZstSteps dst p e
              = [⟨.mkdirAll (dir path) 0o755, true⟩,
                 ⟨.removeAll path, true⟩,
                 ⟨.link (join [dst, trimPrefix e.linkname "python/install/".toList]) path,
                   true⟩])) := by
  refine ⟨fun hp hn => ?_, fun hp hn => ?_, fun hp hpre hn => ?_, ?_, fun path hpath => ?_⟩
  · have h1 : hasPrefix e.name p = false := by
      rw [Bool.eq_false_iff, Ne, hasPrefix_iff]
      exact hn
    have h2 : zstDestPath dst p e.name = none := by
      simp only [zstDestPath, hp, ne_eq, not_false_eq_true, if_true, h1, Bool.not_false]
    exact ⟨h2, by simp only [extractTarZstSteps, h2]⟩
  · have h1 : hasPrefix e.name p = true := by
      rw [hasPrefix_iff, hn]
    have h3 : trimPrefix e.name p = [] := by
      unfold trimPrefix
      rw [if_pos h1, hn]
      simp
    have h2 : zstDestPath dst p e.name = none := by
      simp only [zstDestPath, hp, ne_eq, not_false_eq_true, if_true, h1, Bool.not_true,
        Bool.false_eq_true, if_false, h3]
    exact ⟨h2, by simp only [extractTarZstSteps, h2]⟩
  · have h1 : hasPrefix e.name p = true := (hasPrefix_iff _ _).mpr hpre
    have h3 : trimPrefix e.name p = e.name.drop p.length := by
      simp [trimPrefix, h1]
    have h4 : e.name.drop p.length ≠ [] := by
      obtain ⟨t, ht⟩ := hpre
      rw [← ht] at hn ⊢
      simp only [List.drop_left']
      intro h
      apply hn
      rw [h, List.append_nil]
    simp only [zstDestPath, hp, ne_eq, not_false_eq_true, if_true, h1, Bool.not_true,
      Bool.false_eq_true, if_false, h3, h4]
  · simp [zstDestPath]
  · refine ⟨fun h => ?_, fun h => ?_, fun h => ?_, fun h => ?_⟩ <;>
      simp only [extractTarZstSteps, hpath, h]

/-- The paths for the prefix `python/install` on three entry names, and for the
empty prefix. -/
theorem zst_entry_remap_witness :
    zstDestPath "/dst".toList "python/install".toList "python/build/x".toList = none
      ∧ zstDestPath "/dst".toList "python/install".toList "python/install".toList = none
      ∧ zstDestPath "/dst".toList "python/install".toList "python/install/bin/x".toList
          = some "/dst/bin/x".toList
      ∧ zstDestPath "/dst".toList [] "python/install/bin/x".toList
          = some "/dst/python/install/bin/x".toList := by
  refine ⟨?_, ?_, ?_, ?_⟩
  · exact ((zst_entry_remap "/dst".toList "python/install".toList
      ⟨"python/build/x".toList, .reg, 0o644, [], []⟩).1 (by decide) (by decide)).1
  · exact ((zst_entry_remap "/dst".toList "python/install".toList
      ⟨"python/install".toList, .dir, 0o755, [], []⟩).2.1 (by decide) rfl).1
  · exact ((zst_entry_remap "/dst".toList "python/install".toList
      ⟨"python/install/bin/x".toList, .reg, 0o644, [], []⟩).2.2.1 (by decide) (by decide)
      (by decide)).trans (by decide)
  · exact ((zst_entry_remap "/dst".toList "python/install".toList
      ⟨"python/install/bin/x".toList, .reg, 0o644, [], []⟩).2.2.2.1).trans (by decide)

/-- The calls of `extractTarZst` for a hard-link entry whose link target is
`"python/install/" + r`, at the path the entry gets: `MkdirAll` of the
directory of the path, `RemoveAll` of the path, `Link` to
`filepath.Join(dst, r)`. -/
theorem zst_hardlink_retarget (dst p r path : Str) (e : TarEntry)
    (ht : e.typeflag = .link) (hl : e.linkname = "python/install/".toList ++ r)
    (hpath : zstDestPath dst p e.name = some path) :
    extractTarZstSteps dst p e
      = [⟨.mkdirAll (dir path) 0o755, true⟩,
         ⟨.removeAll path, true⟩,
         ⟨.link (join [dst, r]) path, true⟩] := by
  simp only [extractTarZstSteps, hpath, ht, hl, trimPrefix_append]

/-- The calls for the link `python/install/lib/y.so` to `python/install/lib/x.so`
are those for the link `/dst/lib/y.so` to `/dst/lib/x.so`. -/
theorem zst_hardlink_retarget_witness :
    extractTarZstSteps "/dst".toList "python/install".toList
        ⟨"python/install/lib/y.so".toList, .link, 0o644, "python/install/lib/x.so".toList, []⟩
      = [⟨.mkdirAll "/dst/lib".toList 0o755, true⟩,
         ⟨.removeAll "/dst/lib/y.so".toList, true⟩,
         ⟨.link "/dst/lib/x.so".toList "/dst/lib/y.so".toList, true⟩] :=
  (zst_hardlink_retarget "/dst".toList "python/install".toList "lib/x.so".toList
    "/dst/lib/y.so".toList
    ⟨"python/install/lib/y.so".toList, .link, 0o644, "python/install/lib/x.so".toList, []⟩
    rfl (by decide) (by decide)).trans (by decide)

/-! ## Writing a regular file over an existing one -/

/-- The three calls every extractor makes for a regular file, run on a file
system that has a file at the path: when no call fails, the file holds the
data followed by what the opening left beyond the length of the data. -/
theorem run_write_existing (fs : FS) (path : Str) (perm : Nat) (old data : Bytes)
    (flags : OpenFlags) (mode : Nat) (h : fs path = some (.file perm old)) :
    (run fsCall [⟨.mkdirAll (dir path) 0o755, true⟩, ⟨.openFile path flags mode, true⟩,
        ⟨.copy path data, true⟩] fs).2 = none →
      (run fsCall [⟨.mkdirAll (dir path) 0o755, true⟩, ⟨.openFile path flags mode, true⟩,
        ⟨.copy path data, true⟩] fs).1 path
        = some (.file perm (data ++ (if flags.trunc then [] else old).drop data.length)) := by
  by_cases hall : (ancestors (dir path)).all fs.dirOrAbsent = true
  · intro _
    simp [run, fsCall, hall, h]
  · intro hr
    simp [run, fsCall, hall] at hr

/-- In `extractZip` a regular file written over an existing file replaces its content. -/
theorem extractZip_overwrite (fs : FS) (destDir path : Str) (f : ZipFile) (perm : Nat)
    (old : Bytes) (hp : goDestPath destDir f.name = some path) (hd : f.isDir = false)
    (h : fs path = some (.file perm old))
    (hok : (extractZip fsCall [f] destDir fs).2 = none) :
    (extractZip fsCall [f] destDir fs).1 path = some (.file perm f.data) := by
  have hs : extractZip fsCall [f] destDir fs
      = run fsCall [⟨.mkdirAll (dir path) 0o755, true⟩,
          ⟨.openFile path flagsCreateTrunc f.mode, true⟩, ⟨.copy path f.data, true⟩] fs := by
    simp [extractZip, extractZipSteps, hp, hd]
  rw [hs] at hok ⊢
  rw [run_write_existing fs path perm old f.data flagsCreateTrunc f.mode h hok]
  simp [flagsCreateTrunc]

/-- In `extractTarGz` a regular file written over an existing file replaces its content. -/
theorem extractTarGz_overwrite (fs : FS) (destDir path : Str) (e : TarEntry) (perm : Nat)
    (old : Bytes) (hp : goDestPath destDir e.name = some path) (ht : e.typeflag = .reg)
    (h : fs path = some (.file perm old))
    (hok : (extractTarGz fsCall [e] destDir fs).2 = none) :
    (extractTarGz fsCall [e] destDir fs).1 path = some (.file perm e.data) := by
  have hs : extractTarGz fsCall [e] destDir fs
      = run fsCall [⟨.mkdirAll (dir path) 0o755, true⟩,
          ⟨.openFile path flagsCreateTrunc e.mode, true⟩, ⟨.copy path e.data, true⟩] fs := by
    simp [extractTarGz, extractTarGzSteps, hp, ht]
  rw [hs] at hok ⊢
  rw [run_write_existing fs path perm old e.data flagsCreateTrunc e.mode h hok]
  simp [flagsCreateTrunc]

/-- In `extractTarZst` a regular file written over an existing file keeps the
bytes of the old content beyond the length of the new one. -/
theorem extractTarZst_overwrite (fs : FS) (dst p path : Str) (e : TarEntry) (perm : Nat)
    (old : Bytes) (hp : zstDestPath dst p e.name = some path) (ht : e.typeflag = .reg)
    (h : fs path = some (.file perm old))
    (hok : (extractTarZst fsCall [e] dst p fs).2 = none) :
    (extractTarZst fsCall [e] dst p fs).1 path
      = some (.file perm (e.data ++ old.drop e.data.length)) := by
  have hs : extractTarZst fsCall [e] dst p fs
      = run fsCall [⟨.mkdirAll (dir path) 0o755, true⟩,
          ⟨.openFile path flagsCreateRdwr e.mode, true⟩, ⟨.copy path e.data, true⟩] fs := by
    simp [extractTarZst, extractTarZstSteps, hp, ht]
  rw [hs] at hok ⊢
  rw [run_write_existing fs path perm old e.data flagsCreateRdwr e.mode h hok]
  simp [flagsCreateRdwr]

/-- C8, at the failing input: on a file system where `/d/f` holds the five bytes
1 2 3 4 5, extracting a regular file `f` with the two bytes 9 9 into `/d`
succeeds in all three extractors; `extractZip` and `extractTarGz` leave exactly
9 9 in `/d/f`, while `extractTarZst` leaves 9 9 3 4 5. -/
theorem extractTarZst_keeps_old_tail :
    (extractZip fsCall [⟨"f".toList, false, 0o644, [9, 9]⟩] "/d".toList exampleFS).2 = none
      ∧ (extractZip fsCall [⟨"f".toList, false, 0o644, [9, 9]⟩] "/d".toList exampleFS).1
          "/d/f".toList = some (.file 0o644 [9, 9])
      ∧ (extractTarGz fsCall [⟨"f".toList, .reg, 0o644, [], [9, 9]⟩] "/d".toList exampleFS).2
          = none
      ∧ (extractTarGz fsCall [⟨"f".toList, .reg, 0o644, [], [9, 9]⟩] "/d".toList exampleFS).1
          "/d/f".toList = some (.file 0o644 [9, 9])
      ∧ (extractTarZst fsCall [⟨"f".toList, .reg, 0o644, [], [9, 9]⟩] "/d".toList []
          exampleFS).2 = none
      ∧ (extractTarZst fsCall [⟨"f".toList, .reg, 0o644, [], [9, 9]⟩] "/d".toList []
          exampleFS).1 "/d/f".toList = some (.file 0o644 [9, 9, 3, 4, 5]) := by
  decide

/-! ## The names of the pkg-config descriptors -/

theorem span_digits (X Z : Str) (hX : ∀ c ∈ X, c.isDigit = true)
    (hZ : Z = [] ∨ ∃ c t, Z = c :: t ∧ c.isDigit = false) :
    (X ++ Z).takeWhile Char.isDigit = X ∧ (X ++ Z).dropWhile Char.isDigit = Z := by
  have h1 : Z.takeWhile Char.isDigit = [] ∧ Z.dropWhile Char.isDigit = Z := by
    rcases hZ with rfl | ⟨c, t, rfl, hc⟩
    · simp
    · simp [List.takeWhile, List.dropWhile, hc]
  rw [List.takeWhile_append_of_pos hX, List.dropWhile_append_of_pos hX, h1.1, h1.2]
  simp

theorem splitVersion_pcName (X Y rest : Str) (hv : isVersion X Y)
    (hrest : rest = [] ∨ ∃ c t, rest = c :: t ∧ c.isDigit = false) :
    splitVersion (pcName X Y rest) = some (X ++ '.' :: Y, rest) := by
  obtain ⟨hX0, hY0, hX, hY⟩ := hv
  have hp : hasPrefix (pcName X Y rest) "python-".toList = true := by
    rw [hasPrefix_iff]
    exact ⟨X ++ '.' :: Y ++ rest, by simp [pcName]⟩
  have hd : (pcName X Y rest).drop 7 = X ++ ('.' :: (Y ++ rest)) := by
    simp [pcName]
  have h1 := span_digits X ('.' :: (Y ++ rest)) hX (Or.inr ⟨'.', _, rfl, by decide⟩)
  have h2 := span_digits Y rest hY hrest
  unfold splitVersion
  rw [if_pos hp]
  simp only [hd, h1.1, h1.2, h2.1, h2.2]
  rw [if_pos ⟨hX0, hY0⟩]

theorem matchVersioned_pcName (tail X Y rest : Str) (hv : isVersion X Y)
    (hrest : rest = [] ∨ ∃ c t, rest = c :: t ∧ c.isDigit = false) :
    matchVersioned tail (pcName X Y rest)
      = if rest = 't' :: tail ∨ rest = tail then some (X ++ '.' :: Y) else none := by
  unfold matchVersioned
  rw [splitVersion_pcName X Y rest hv hrest]

theorem hasSuffix_pcName (X Y tail suf : Str) (h : suf <:+ tail) :
    hasSuffix (pcName X Y tail) suf = true := by
  rw [hasSuffix_iff]
  exact h.trans (List.suffix_append _ _)

theorem not_digit_of_mem (c : Char) (l : Str) (hc : c.isDigit = false) (hl : ∀ x ∈ l, x.isDigit = true) :
    c ∉ l := by
  intro h
  rw [hl c h] at hc
  exact absurd hc (by decide)

/-- The letter `t` occurs in `python-X.Y<tail>` only in `python` when the tail
has none, so a marker `t.` or `t-` does not occur in the name. -/
theorem contains_marker_pcName (X Y tail : Str) (c : Char) (m : Str) (hv : isVersion X Y)
    (ht : 't' ∉ tail) (hc : c ≠ 'h') :
    contains (pcName X Y tail) ('t' :: c :: m) = false := by
  obtain ⟨-, -, hX, hY⟩ := hv
  have hnot : 't' ∉ 'h' :: 'o' :: 'n' :: '-' :: (X ++ '.' :: Y ++ tail) := by
    simp only [List.mem_append, List.mem_cons, not_or]
    exact ⟨by decide, by decide, by decide, by decide,
      ⟨not_digit_of_mem 't' X (by decide) hX, by decide,
        not_digit_of_mem 't' Y (by decide) hY⟩, ht⟩
  have e : pcName X Y tail
      = 'p' :: 'y' :: 't' :: 'h' :: 'o' :: 'n' :: '-' :: (X ++ '.' :: Y ++ tail) := by
    simp [pcName]
  simp only [contains, decide_eq_false_iff_not]
  rw [e]
  intro h
  rcases List.infix_cons_iff.mp h with h1 | h1
  · exact absurd (List.cons_prefix_cons.mp h1).1 (by decide)
  rcases List.infix_cons_iff.mp h1 with h2 | h2
  · exact absurd (List.cons_prefix_cons.mp h2).1 (by decide)
  rcases List.infix_cons_iff.mp h2 with h3 | h3
  · exact hc (List.cons_prefix_cons.mp (List.cons_prefix_cons.mp h3).2).1
  · exact hnot (h3.subset (List.mem_cons_self _ _))

theorem contains_tail_pcName (X Y tail marker : Str) (h : marker <:+ tail) :
    contains (pcName X Y tail) marker = true := by
  simp only [contains, decide_eq_true_eq]
  exact (h.trans (List.suffix_append _ _)).isInfix

/-! ## The pkg-config directory -/

theorem lookup_set (k name : Str) (node : DirNode) (d : Directory) :
    (Directory.set name node d).lookup k = if k = name then some node else d.lookup k := by
  induction d with
  | nil =>
    by_cases h : k = name
    · simp [Directory.set, h]
    · have hb : (k == name) = false := by simpa using h
      simp [Directory.set, List.lookup, h, hb]
  | cons e rest ih =>
    obtain ⟨n, x⟩ := e
    by_cases hn : n = name
    · subst hn
      by_cases h : k = n
      · simp [Directory.set, h]
      · have hb : (k == n) = false := by simpa using h
        simp [Directory.set, List.lookup, h, hb]
    · by_cases hk : k = n
      · subst hk
        simp [Directory.set, hn]
      · have hb : (k == n) = false := by simpa using hk
        simp only [Directory.set, hn, if_false, List.lookup, ih, hb]

theorem writeFile_lookup (d d' : Directory) (name content : Str)
    (h : d.writeFile name content = some d') (k : Str) :
    d'.lookup k = if k = name then some (.file content) else d.lookup k := by
  unfold Directory.writeFile at h
  split at h
  · cases h
  · cases h
    exact lookup_set k name _ d

theorem writePC_lookup (absPath : Str) (d d' : Directory) (name content : Str)
    (h : writePC absPath d name content = some d') (k : Str) :
    d'.lookup k = if k = name then some (.file (patched absPath content)) else d.lookup k :=
  writeFile_lookup d d' name _ h k

theorem WrittenExactly.congr {P : DirNode} {d0 d : Directory} {W W' : List Str}
    (h : WrittenExactly P d0 d W) (hW : ∀ k, k ∈ W ↔ k ∈ W') : WrittenExactly P d0 d W' := by
  intro k
  rw [h k]
  by_cases hk : k ∈ W
  · rw [if_pos hk, if_pos ((hW k).mp hk)]
  · rw [if_neg hk, if_neg (fun h' => hk ((hW k).mpr h'))]

theorem WrittenExactly.writePC {absPath content : Str} {d0 d d' : Directory} {W : List Str}
    (h : WrittenExactly (.file (patched absPath content)) d0 d W) (name : Str)
    (hw : writePC absPath d name content = some d') :
    WrittenExactly (.file (patched absPath content)) d0 d' (name :: W) := by
  intro k
  rw [writePC_lookup absPath d d' name content hw k, h k]
  by_cases h1 : k = name
  · rw [if_pos h1, if_pos (by rw [h1]; exact List.mem_cons_self _ _)]
  · rw [if_neg h1]
    by_cases h2 : k ∈ W
    · rw [if_pos h2, if_pos (List.mem_cons_of_mem _ h2)]
    · rw [if_neg h2, if_neg]
      intro h3
      rcases List.mem_cons.mp h3 with h4 | h4
      · exact h1 h4
      · exact h2 h4

theorem WrittenExactly.writeCopies {absPath content : Str} {d0 : Directory} (names : List Str) :
    ∀ {d d' : Directory} {W : List Str},
      WrittenExactly (.file (patched absPath content)) d0 d W →
      Got.writeCopies absPath content names d = .ok d' →
      WrittenExactly (.file (patched absPath content)) d0 d' (names ++ W) := by
  induction names with
  | nil =>
    intro d d' W h hw
    simp only [Got.writeCopies] at hw
    cases hw
    exact h
  | cons n rest ih =>
    intro d d' W h hw
    simp only [Got.writeCopies] at hw
    cases hw1 : Got.writePC absPath d n content with
    | none => rw [hw1] at hw; cases hw
    | some d1 =>
      rw [hw1] at hw
      refine (ih (h.writePC n hw1) hw).congr (fun k => ?_)
      simp only [List.mem_append, List.mem_cons]
      tauto

theorem WrittenExactly.patternCopies {absPath content : Str} {d0 d d' : Directory}
    {W : List Str} (h : WrittenExactly (.file (patched absPath content)) d0 d W)
    (name : Str) (pat : Option Str) (marker noTTail aliasT aliasPlain : Str)
    (copies : List Str)
    (hp : Got.patternCopies absPath d name content pat marker noTTail aliasT aliasPlain
      = .ok (d', copies)) :
    ∃ W', WrittenExactly (.file (patched absPath content)) d0 d' W'
      ∧ ∀ k, (k ∈ copies ∨ k ∈ W')
          ↔ (k ∈ patternNames name pat marker noTTail aliasT aliasPlain ∨ k ∈ W) := by
  cases pat with
  | none =>
    simp only [Got.patternCopies] at hp
    cases hp
    exact ⟨W, h, fun k => by simp [patternNames]⟩
  | some version =>
    simp only [Got.patternCopies, versionedCopies] at hp
    by_cases hc : contains name marker = true
    · rw [if_pos hc] at hp
      cases hw : Got.writePC absPath d ("python-".toList ++ version ++ noTTail) content with
      | none => rw [hw] at hp; cases hp
      | some d1 =>
        rw [hw] at hp
        cases hp
        refine ⟨_, h.writePC _ hw, fun k => ?_⟩
        simp only [patternNames, hc, if_true, List.mem_cons, List.mem_singleton,
          List.not_mem_nil, or_false]
        tauto
    · rw [if_neg hc] at hp
      cases hp
      refine ⟨W, h, fun k => ?_⟩
      simp only [patternNames, hc, if_false, List.mem_cons, List.mem_singleton,
        List.not_mem_nil, or_false, Bool.false_eq_true]

theorem updateEntry_skip (absPath : Str) (d : Directory) (entry : Str × Bool)
    (h : isPcEntry entry = false) : updateEntry absPath d entry = .ok d := by
  unfold isPcEntry at h
  unfold updateEntry
  simp only [h, Bool.false_eq_true, if_false]

/-- The effect of the body of the loop on a descriptor: the content read is
written, patched, under every name of `writtenNames`, and no other entry changes. -/
theorem updateEntry_lookup (absPath : Str) (d d' : Directory) (entry : Str × Bool)
    (hpc : isPcEntry entry = true) (h : updateEntry absPath d entry = .ok d') :
    ∃ content, d.readFile entry.1 = some content
      ∧ WrittenExactly (.file (patched absPath content)) d d' (writtenNames entry.1) := by
  unfold isPcEntry at hpc
  unfold updateEntry at h
  simp only [hpc, if_true] at h
  cases hr : d.readFile entry.1 with
  | none => rw [hr] at h; cases h
  | some content =>
    refine ⟨content, rfl, ?_⟩
    simp only [hr] at h
    have h0 : WrittenExactly (.file (patched absPath content)) d d [] := fun k => by simp
    cases hw : writePC absPath d entry.1 content with
    | none => rw [hw] at h; cases h
    | some d1 =>
      simp only [hw] at h
      have h1 := h0.writePC entry.1 hw
      cases hp1 : patternCopies absPath d1 entry.1 content (normalPattern entry.1)
        "t.pc".toList ".pc".toList "python3t.pc".toList "python3.pc".toList with
      | error e => rw [hp1] at h; cases h
      | ok r1 =>
        obtain ⟨d2, copies1⟩ := r1
        simp only [hp1] at h
        obtain ⟨W2, h2, m2⟩ := h1.patternCopies _ _ _ _ _ _ _ hp1
        cases hp2 : patternCopies absPath d2 entry.1 content (embedPattern entry.1)
          "t-embed.pc".toList "-embed.pc".toList "python3t-embed.pc".toList
          "python3-embed.pc".toList with
        | error e => rw [hp2] at h; cases h
        | ok r2 =>
          obtain ⟨d3, copies2⟩ := r2
          simp only [hp2] at h
          obtain ⟨W3, h3, m3⟩ := h2.patternCopies _ _ _ _ _ _ _ hp2
          refine (h3.writeCopies _ h).congr (fun k => ?_)
          have a2 := m2 k
          have a3 := m3 k
          simp only [writtenNames, List.mem_append, List.mem_cons, List.not_mem_nil,
            or_false] at a2 a3 ⊢
          tauto

theorem updateEntries_filter (absPath : Str) (L : List (Str × Bool)) (d : Directory) :
    updateEntries absPath L d = updateEntries absPath (L.filter isPcEntry) d := by
  induction L generalizing d with
  | nil => rfl
  | cons e rest ih =>
    by_cases he : isPcEntry e = true
    · rw [List.filter_cons_of_pos he]
      simp only [updateEntries]
      cases updateEntry absPath d e with
      | error x => rfl
      | ok d1 => exact ih d1
    · rw [List.filter_cons_of_neg he]
      simp only [updateEntries, updateEntry_skip absPath d e (Bool.eq_false_iff.mpr he)]
      exact ih d

theorem mem_of_lookup (d : Directory) (n : Str) (x : DirNode) (h : d.lookup n = some x) :
    (n, x) ∈ d := by
  induction d with
  | nil => simp at h
  | cons e rest ih =>
    obtain ⟨n0, x0⟩ := e
    by_cases hn : n = n0
    · subst hn
      simp only [List.lookup_cons_self, Option.some.injEq] at h
      rw [h]
      exact List.mem_cons_self _ _
    · have hb : (n == n0) = false := by simpa using hn
      simp only [List.lookup, hb] at h
      exact List.mem_cons_of_mem _ (ih h)

theorem lookup_of_mem (d : Directory) (n : Str) (x : DirNode) (hnd : (d.map Prod.fst).Nodup)
    (h : (n, x) ∈ d) : d.lookup n = some x := by
  induction d with
  | nil => simp at h
  | cons e rest ih =>
    obtain ⟨n0, x0⟩ := e
    simp only [List.map_cons, List.nodup_cons] at hnd
    rcases List.mem_cons.mp h with h1 | h1
    · cases h1
      exact List.lookup_cons_self
    · have hn : n ≠ n0 := by
        intro e
        apply hnd.1
        rw [← e]
        exact List.mem_map_of_mem Prod.fst h1
      have hb : (n == n0) = false := by simpa using hn
      simp only [List.lookup, hb]
      exact ih hnd.2 h1

theorem eq_pair_of_nodup {α : Type} (L : List α) (a b : α) (hab : a ≠ b) (hnd : L.Nodup)
    (ha : a ∈ L) (hb : b ∈ L) (hall : ∀ x ∈ L, x = a ∨ x = b) :
    L = [a, b] ∨ L = [b, a] := by
  match L, hnd, ha, hb, hall with
  | [], _, ha, _, _ => simp at ha
  | [x], _, ha, hb, _ =>
    simp only [List.mem_singleton] at ha hb
    exact absurd (ha.trans hb.symm) hab
  | [x, y], hnd, ha, hb, hall =>
    have hxy : x ≠ y := by
      intro e
      simp [e] at hnd
    have hx := hall x (by simp)
    have hy := hall y (by simp)
    rcases hx with rfl | rfl <;> rcases hy with rfl | rfl
    · exact absurd rfl hxy
    · exact Or.inl rfl
    · exact Or.inr rfl
    · exact absurd rfl hxy
  | x :: y :: z :: t, hnd, _, _, hall =>
    exfalso
    have hx := hall x (by simp)
    have hy := hall y (by simp)
    have hz := hall z (by simp)
    simp only [List.nodup_cons, List.mem_cons, not_or] at hnd
    obtain ⟨⟨hxy, hxz, -⟩, ⟨hyz, -⟩, -⟩ := hnd
    rcases hx with rfl | rfl <;> rcases hy with rfl | rfl <;> rcases hz with rfl | rfl <;>
      first
        | exact hxy rfl
        | exact hxz rfl
        | exact hyz rfl

/-- The descriptors `updatePkgConfig` handles when the directory holds two
`.pc` files: the two of them, in either order. -/
theorem pc_entries_pair (d : Directory) (a b ca cb : Str) (hab : a ≠ b)
    (hnd : (d.map Prod.fst).Nodup)
    (ha : d.lookup a = some (.file ca)) (hb : d.lookup b = some (.file cb))
    (hsa : hasSuffix a ".pc".toList = true) (hsb : hasSuffix b ".pc".toList = true)
    (hothers : ∀ n c, d.lookup n = some (.file c) → hasSuffix n ".pc".toList = true →
      n = a ∨ n = b) :
    (readDir d).filter isPcEntry = [(a, false), (b, false)]
      ∨ (readDir d).filter isPcEntry = [(b, false), (a, false)] := by
  have hmem : ∀ x, x ∈ (readDir d).filter isPcEntry
      ↔ ∃ n c, (n, DirNode.file c) ∈ d ∧ hasSuffix n ".pc".toList = true ∧ x = (n, false) := by
    intro x
    simp only [List.mem_filter, readDir, List.mem_insertionSort, List.mem_map, isPcEntry]
    constructor
    · rintro ⟨⟨⟨n, node⟩, hin, rfl⟩, hx⟩
      simp only [Bool.and_eq_true, Bool.not_eq_true', decide_eq_false_iff_not] at hx
      cases node with
      | subdir => exact absurd rfl hx.1
      | file c => exact ⟨n, c, hin, hx.2, by simp⟩
    · rintro ⟨n, c, hin, hs, rfl⟩
      refine ⟨⟨(n, .file c), hin, by simp⟩, ?_⟩
      rw [hs]
      rfl
  apply eq_pair_of_nodup
  · intro e
    exact hab (congrArg Prod.fst e)
  · apply List.Nodup.filter
    have h1 : (d.map fun e => (e.1, decide (e.2 = DirNode.subdir))).Nodup := by
      apply List.Nodup.of_map Prod.fst
      simpa [List.map_map, Function.comp_def] using hnd
    exact (List.perm_insertionSort _ _).nodup_iff.mpr h1
  · exact (hmem _).mpr ⟨a, ca, mem_of_lookup d a _ ha, hsa, rfl⟩
  · exact (hmem _).mpr ⟨b, cb, mem_of_lookup d b _ hb, hsb, rfl⟩
  · intro x hx
    obtain ⟨n, c, hin, hs, rfl⟩ := (hmem x).mp hx
    rcases hothers n c (lookup_of_mem d n _ hnd hin) hs with h | h
    · exact Or.inl (by rw [h])
    · exact Or.inr (by rw [h])

theorem updateEntries_pair (absPath : Str) (d d' : Directory) (a b ca cb : Str)
    (hsa : hasSuffix a ".pc".toList = true) (hsb : hasSuffix b ".pc".toList = true)
    (hra : d.lookup a = some (.file ca)) (hrb : d.lookup b = some (.file cb))
    (hdisj : ∀ k, k ∈ writtenNames a → k ∉ writtenNames b)
    (h : updateEntries absPath [(a, false), (b, false)] d = .ok d') (k : Str) :
    d'.lookup k
      = if k ∈ writtenNames a then some (.file (patched absPath ca))
        else if k ∈ writtenNames b then some (.file (patched absPath cb))
        else d.lookup k := by
  have hpa : isPcEntry (a, false) = true := by simp only [isPcEntry, hsa]; rfl
  have hpb : isPcEntry (b, false) = true := by simp only [isPcEntry, hsb]; rfl
  simp only [updateEntries] at h
  cases h1 : updateEntry absPath d (a, false) with
  | error e => rw [h1] at h; cases h
  | ok d1 =>
    simp only [h1] at h
    cases h2 : updateEntry absPath d1 (b, false) with
    | error e => simp only [h2] at h; cases h
    | ok d2 =>
      simp only [h2, Except.ok.injEq] at h
      subst h
      obtain ⟨ca', hca, wa⟩ := updateEntry_lookup absPath d d1 (a, false) hpa h1
      obtain ⟨cb', hcb, wb⟩ := updateEntry_lookup absPath d1 d2 (b, false) hpb h2
      have ea : ca' = ca := by
        simp only [Directory.readFile, hra, Option.some.injEq] at hca
        exact hca.symm
      have hb_in : b ∈ writtenNames b := List.mem_cons_self _ _
      have hb_out : b ∉ writtenNames a := fun hin => hdisj b hin hb_in
      have eb : cb' = cb := by
        simp only [Directory.readFile, wa b, if_neg hb_out, hrb, Option.some.injEq] at hcb
        exact hcb.symm
      subst ea
      subst eb
      rw [wb k, wa k]
      by_cases hka : k ∈ writtenNames a
      · rw [if_neg (hdisj k hka), if_pos hka, if_pos hka]
      · rw [if_neg hka, if_neg hka]

/-- The result of `updatePkgConfig` on a directory whose `.pc` files are two
descriptors that write disjoint sets of names. -/
theorem updatePkgConfig_two (absPath : Str) (d d' : Directory) (a b ca cb : Str)
    (hnd : (d.map Prod.fst).Nodup)
    (hsa : hasSuffix a ".pc".toList = true) (hsb : hasSuffix b ".pc".toList = true)
    (hra : d.lookup a = some (.file ca)) (hrb : d.lookup b = some (.file cb))
    (hothers : ∀ n c, d.lookup n = some (.file c) → hasSuffix n ".pc".toList = true →
      n = a ∨ n = b)
    (hdisj : ∀ k, k ∈ writtenNames a → k ∉ writtenNames b)
    (h : updatePkgConfig absPath (some d) = .ok d') (k : Str) :
    d'.lookup k
      = if k ∈ writtenNames a then some (.file (patched absPath ca))
        else if k ∈ writtenNames b then some (.file (patched absPath cb))
        else d.lookup k := by
  have hab : a ≠ b := by
    intro e
    exact hdisj a (List.mem_cons_self _ _) (by rw [e]; exact List.mem_cons_self _ _)
  simp only [updatePkgConfig] at h
  rw [updateEntries_filter] at h
  rcases pc_entries_pair d a b ca cb hab hnd hra hrb hsa hsb hothers with hl | hl
  · rw [hl] at h
    exact updateEntries_pair absPath d d' a b ca cb hsa hsb hra hrb hdisj h k
  · rw [hl] at h
    have hdisj' : ∀ k, k ∈ writtenNames b → k ∉ writtenNames a :=
      fun k hb ha => hdisj k ha hb
    rw [updateEntries_pair absPath d d' b a cb ca hsb hsa hrb hra hdisj' h k]
    by_cases hka : k ∈ writtenNames a
    · rw [if_neg (hdisj k hka), if_pos hka, if_pos hka]
    · rw [if_neg hka, if_neg hka]

theorem pcName_eq (X Y tail : Str) :
    "python-".toList ++ (X ++ '.' :: Y) ++ tail = pcName X Y tail := by
  simp [pcName]

theorem normalPattern_pcName (X Y : Str) (hv : isVersion X Y) :
    normalPattern (pcName X Y "t.pc".toList) = some (X ++ '.' :: Y)
      ∧ normalPattern (pcName X Y ".pc".toList) = some (X ++ '.' :: Y)
      ∧ normalPattern (pcName X Y "t-embed.pc".toList) = none
      ∧ normalPattern (pcName X Y "-embed.pc".toList) = none := by
  unfold normalPattern
  refine ⟨?_, ?_, ?_, ?_⟩
  · rw [matchVersioned_pcName _ X Y "t.pc".toList hv (Or.inr ⟨'t', ".pc".toList, rfl, by decide⟩),
      if_pos (by decide)]
  · rw [matchVersioned_pcName _ X Y ".pc".toList hv (Or.inr ⟨'.', "pc".toList, rfl, by decide⟩),
      if_pos (by decide)]
  · rw [matchVersioned_pcName _ X Y "t-embed.pc".toList hv (Or.inr ⟨'t', "-embed.pc".toList, rfl, by decide⟩),
      if_neg (by decide)]
  · rw [matchVersioned_pcName _ X Y "-embed.pc".toList hv (Or.inr ⟨'-', "embed.pc".toList, rfl, by decide⟩),
      if_neg (by decide)]

theorem embedPattern_pcName (X Y : Str) (hv : isVersion X Y) :
    embedPattern (pcName X Y "t.pc".toList) = none
      ∧ embedPattern (pcName X Y ".pc".toList) = none
      ∧ embedPattern (pcName X Y "t-embed.pc".toList) = some (X ++ '.' :: Y)
      ∧ embedPattern (pcName X Y "-embed.pc".toList) = some (X ++ '.' :: Y) := by
  unfold embedPattern
  refine ⟨?_, ?_, ?_, ?_⟩
  · rw [matchVersioned_pcName _ X Y "t.pc".toList hv (Or.inr ⟨'t', ".pc".toList, rfl, by decide⟩),
      if_neg (by decide)]
  · rw [matchVersioned_pcName _ X Y ".pc".toList hv (Or.inr ⟨'.', "pc".toList, rfl, by decide⟩),
      if_neg (by decide)]
  · rw [matchVersioned_pcName _ X Y "t-embed.pc".toList hv (Or.inr ⟨'t', "-embed.pc".toList, rfl, by decide⟩),
      if_pos (by decide)]
  · rw [matchVersioned_pcName _ X Y "-embed.pc".toList hv (Or.inr ⟨'-', "embed.pc".toList, rfl, by decide⟩),
      if_pos (by decide)]

theorem writtenNames_pcName (X Y : Str) (hv : isVersion X Y) :
    writtenNames (pcName X Y "t.pc".toList)
        = [pcName X Y "t.pc".toList, pcName X Y ".pc".toList, "python3t.pc".toList,
            "python3.pc".toList]
      ∧ writtenNames (pcName X Y ".pc".toList)
        = [pcName X Y ".pc".toList, "python3.pc".toList]
      ∧ writtenNames (pcName X Y "t-embed.pc".toList)
        = [pcName X Y "t-embed.pc".toList, pcName X Y "-embed.pc".toList,
            "python3t-embed.pc".toList, "python3-embed.pc".toList]
      ∧ writtenNames (pcName X Y "-embed.pc".toList)
        = [pcName X Y "-embed.pc".toList, "python3-embed.pc".toList] := by
  obtain ⟨n1, n2, n3, n4⟩ := normalPattern_pcName X Y hv
  obtain ⟨e1, e2, e3, e4⟩ := embedPattern_pcName X Y hv
  have c1 : contains (pcName X Y "t.pc".toList) "t.pc".toList = true :=
    contains_tail_pcName X Y _ _ List.suffix_rfl
  have c2 : contains (pcName X Y ".pc".toList) "t.pc".toList = false :=
    contains_marker_pcName X Y ".pc".toList '.' "pc".toList hv (by decide) (by decide)
  have c3 : contains (pcName X Y "t-embed.pc".toList) "t-embed.pc".toList = true :=
    contains_tail_pcName X Y _ _ List.suffix_rfl
  have c4 : contains (pcName X Y "-embed.pc".toList) "t-embed.pc".toList = false :=
    contains_marker_pcName X Y "-embed.pc".toList '-' "embed.pc".toList hv (by decide)
      (by decide)
  refine ⟨?_, ?_, ?_, ?_⟩
  · simp only [writtenNames, patternNames, n1, e1, c1, if_true, List.append_nil, pcName_eq]
  · simp only [writtenNames, patternNames, n2, e2, c2, Bool.false_eq_true, if_false,
      List.append_nil]
  · simp only [writtenNames, patternNames, n3, e3, c3, if_true, List.nil_append, pcName_eq]
  · simp only [writtenNames, patternNames, n4, e4, c4, Bool.false_eq_true, if_false,
      List.nil_append]

theorem ne_of_pattern {f : Str → Option Str} {a b v : Str} (ha : f a = some v)
    (hb : f b = none) : a ≠ b := by
  intro e
  rw [e, hb] at ha
  cases ha

theorem ne_of_bool {f : Str → Bool} {a b : Str} (ha : f a = true) (hb : f b = false) :
    a ≠ b := by
  intro e
  rw [e, hb] at ha
  cases ha

theorem contains_pcName (X Y : Str) (hv : isVersion X Y) :
    contains (pcName X Y "t.pc".toList) "t.pc".toList = true
      ∧ contains (pcName X Y ".pc".toList) "t.pc".toList = false
      ∧ contains (pcName X Y "t-embed.pc".toList) "t-embed.pc".toList = true
      ∧ contains (pcName X Y "-embed.pc".toList) "t-embed.pc".toList = false :=
  ⟨contains_tail_pcName X Y _ _ List.suffix_rfl,
    contains_marker_pcName X Y ".pc".toList '.' "pc".toList hv (by decide) (by decide),
    contains_tail_pcName X Y _ _ List.suffix_rfl,
    contains_marker_pcName X Y "-embed.pc".toList '-' "embed.pc".toList hv (by decide)
      (by decide)⟩

/-- The names written for a normal descriptor (with or without `t`) and those
written for an embed descriptor are all different, and so are the threaded
names from the names written for the descriptors without `t`. -/
theorem pcNames_distinct (X Y : Str) (hv : isVersion X Y) :
    (∀ a ∈ [pcName X Y "t.pc".toList, pcName X Y ".pc".toList, "python3t.pc".toList,
          "python3.pc".toList],
      ∀ b ∈ [pcName X Y "t-embed.pc".toList, pcName X Y "-embed.pc".toList,
          "python3t-embed.pc".toList, "python3-embed.pc".toList], a ≠ b)
      ∧ (∀ a ∈ [pcName X Y "t.pc".toList, "python3t.pc".toList],
          ∀ b ∈ [pcName X Y ".pc".toList, "python3.pc".toList], a ≠ b)
      ∧ (∀ a ∈ [pcName X Y "t-embed.pc".toList, "python3t-embed.pc".toList],
          ∀ b ∈ [pcName X Y "-embed.pc".toList, "python3-embed.pc".toList], a ≠ b) := by
  obtain ⟨n1, n2, n3, n4⟩ := normalPattern_pcName X Y hv
  obtain ⟨e1, e2, e3, e4⟩ := embedPattern_pcName X Y hv
  obtain ⟨c1, c2, c3, c4⟩ := contains_pcName X Y hv
  have na1 : normalPattern "python3t.pc".toList = none := by decide
  have na2 : normalPattern "python3.pc".toList = none := by decide
  have na3 : normalPattern "python3t-embed.pc".toList = none := by decide
  have na4 : normalPattern "python3-embed.pc".toList = none := by decide
  have ea1 : embedPattern "python3t.pc".toList = none := by decide
  have ea2 : embedPattern "python3.pc".toList = none := by decide
  have ea3 : embedPattern "python3t-embed.pc".toList = none := by decide
  have ea4 : embedPattern "python3-embed.pc".toList = none := by decide
  refine ⟨?_, ?_, ?_⟩
  · intro a ha b hb
    simp only [List.mem_cons, List.mem_singleton, List.not_mem_nil, or_false] at ha hb
    rcases ha with rfl | rfl | rfl | rfl <;> rcases hb with rfl | rfl | rfl | rfl
    · exact ne_of_pattern n1 n3
    · exact ne_of_pattern n1 n4
    · exact ne_of_pattern n1 na3
    · exact ne_of_pattern n1 na4
    · exact ne_of_pattern n2 n3
    · exact ne_of_pattern n2 n4
    · exact ne_of_pattern n2 na3
    · exact ne_of_pattern n2 na4
    · exact (ne_of_pattern e3 ea1).symm
    · exact (ne_of_pattern e4 ea1).symm
    · decide
    · decide
    · exact (ne_of_pattern e3 ea2).symm
    · exact (ne_of_pattern e4 ea2).symm
    · decide
    · decide
  · intro a ha b hb
    simp only [List.mem_cons, List.mem_singleton, List.not_mem_nil, or_false] at ha hb
    rcases ha with rfl | rfl <;> rcases hb with rfl | rfl
    · exact @ne_of_bool (fun s => contains s "t.pc".toList) _ _ c1 c2
    · exact ne_of_pattern n1 na2
    · exact (ne_of_pattern n2 na1).symm
    · decide
  · intro a ha b hb
    simp only [List.mem_cons, List.mem_singleton, List.not_mem_nil, or_false] at ha hb
    rcases ha with rfl | rfl <;> rcases hb with rfl | rfl
    · exact @ne_of_bool (fun s => contains s "t-embed.pc".toList) _ _ c3 c4
    · exact ne_of_pattern e3 ea4
    · exact (ne_of_pattern e4 ea3).symm
    · decide

/-! ## The patch keeps a library reference -/

theorem infix_of_infix_append (lib old s : Str) (c : Char) (t : Str) (hl : lib = c :: t)
    (hc : c ∉ old) (h : lib <:+: old ++ s) : lib <:+: s := by
  induction old with
  | nil => simpa using h
  | cons o os ih =>
    rw [List.cons_append] at h
    rcases List.infix_cons_iff.mp h with h1 | h1
    · rw [hl, List.cons_prefix_cons] at h1
      exact absurd (by rw [h1.1]; exact List.mem_cons_self _ _) hc
    · exact ih (fun hm => hc (List.mem_cons_of_mem _ hm)) h1

theorem replaceAllAux_lib (new s : Str) (k : Nat) :
    replaceAllAux "prefix=/install".toList new (k + 10) ("-lpython3t".toList ++ s)
      = "-lpython3t".toList ++ replaceAllAux "prefix=/install".toList new k s := by
  simp [replaceAllAux, hasPrefix]

theorem replaceAllAux_keeps_lib (new : Str) (fuel : Nat) (s : Str) (hf : s.length ≤ fuel)
    (h : "-lpython3t".toList <:+: s) :
    "-lpython3t".toList <:+: replaceAllAux "prefix=/install".toList new fuel s := by
  induction fuel using Nat.strong_induction_on generalizing s with
  | _ fuel ih =>
    cases s with
    | nil =>
      have := List.eq_nil_of_infix_nil h
      exact absurd this (by decide)
    | cons c cs =>
      obtain ⟨n, rfl⟩ : ∃ n, fuel = n + 1 := by
        cases fuel with
        | zero => simp at hf
        | succ n => exact ⟨n, rfl⟩
      simp only [List.length_cons, Nat.add_le_add_iff_right] at hf
      by_cases hp : hasPrefix (c :: cs) "prefix=/install".toList = true
      · simp only [replaceAllAux, hp, if_true]
        obtain ⟨t, ht⟩ := (hasPrefix_iff _ _).mp hp
        have hd : (c :: cs).drop "prefix=/install".toList.length = t := by
          rw [← ht]
          exact List.drop_left' rfl
        rw [hd]
        have hlen : t.length ≤ n := by
          have := congrArg List.length ht
          have h15 : "prefix=/install".toList.length = 15 := rfl
          simp only [List.length_append, List.length_cons, h15] at this
          omega
        have hin : "-lpython3t".toList <:+: t := by
          rw [← ht] at h
          exact infix_of_infix_append _ _ t '-' "lpython3t".toList rfl (by decide) h
        exact (ih n (Nat.lt_succ_self n) t hlen hin).trans (List.suffix_append _ _).isInfix
      · simp only [replaceAllAux, hp, if_false]
        have hp' : hasPrefix (c :: cs) "prefix=/install".toList = false :=
          Bool.eq_false_iff.mpr hp
        rcases List.infix_cons_iff.mp h with h1 | h1
        · obtain ⟨t, ht⟩ := h1
          have hlen : 10 + t.length = cs.length + 1 := by
            have := congrArg List.length ht
            have h10 : "-lpython3t".toList.length = 10 := rfl
            simp only [List.length_append, List.length_cons, h10] at this
            omega
          obtain ⟨m, rfl⟩ : ∃ m, n = m + 9 := ⟨n - 9, by omega⟩
          have e := replaceAllAux_lib new t m
          rw [ht] at e
          simp only [replaceAllAux, hp', Bool.false_eq_true, if_false] at e
          rw [e]
          exact (List.prefix_append _ _).isInfix
        · exact (ih n (Nat.lt_succ_self n) cs hf h1).trans (List.suffix_cons _ _).isInfix

/-- A reference to the library `-lpython3t` in a descriptor is still there
after the prefix has been patched. -/
theorem patched_keeps_lib (absPath content : Str)
    (h : contains content "-lpython3t".toList = true) :
    contains (patched absPath content) "-lpython3t".toList = true := by
  simp only [contains, decide_eq_true_eq] at h ⊢
  unfold patched replaceAll
  rw [if_neg (by decide)]
  exact replaceAllAux_keeps_lib _ _ _ (le_refl _) h

/-! ## The aliases of the pkg-config descriptors -/

/-- C9: when the `.pc` files of the pkg-config directory are exactly the
free-threaded descriptors `python-X.Yt.pc` and `python-X.Yt-embed.pc`, a
successful `updatePkgConfig` leaves `python3t.pc`, `python3.pc` and
`python-X.Y.pc` with the patched content of `python-X.Yt.pc`, and
`python3t-embed.pc`, `python3-embed.pc` and `python-X.Y-embed.pc` with the
patched content of `python-X.Yt-embed.pc`; a reference `-lpython3t` of the
original is in the patched content, hence in every alias. -/
theorem updatePkgConfig_freeThreaded (absPath X Y cN cE : Str) (d d' : Directory)
    (hv : isVersion X Y) (hnd : (d.map Prod.fst).Nodup)
    (hN : d.lookup (pcName X Y "t.pc".toList) = some (.file cN))
    (hE : d.lookup (pcName X Y "t-embed.pc".toList) = some (.file cE))
    (hpc : ∀ n c, d.lookup n = some (.file c) → hasSuffix n ".pc".toList = true →
      n = pcName X Y "t.pc".toList ∨ n = pcName X Y "t-embed.pc".toList)
    (hok : updatePkgConfig absPath (some d) = .ok d') :
    d'.lookup "python3t.pc".toList = some (.file (patched absPath cN))
      ∧ d'.lookup "python3.pc".toList = some (.file (patched absPath cN))
      ∧ d'.lookup (pcName X Y ".pc".toList) = some (.file (patched absPath cN))
      ∧ d'.lookup "python3t-embed.pc".toList = some (.file (patched absPath cE))
      ∧ d'.lookup "python3-embed.pc".toList = some (.file (patched absPath cE))
      ∧ d'.lookup (pcName X Y "-embed.pc".toList) = some (.file (patched absPath cE))
      ∧ (contains cN "-lpython3t".toList = true →
          contains (patched absPath cN) "-lpython3t".toList = true)
      ∧ (contains cE "-lpython3t".toList = true →
          contains (patched absPath cE) "-lpython3t".toList = true) := by
  obtain ⟨wN, -, wE, -⟩ := writtenNames_pcName X Y hv
  obtain ⟨hdis, -, -⟩ := pcNames_distinct X Y hv
  have hdisj : ∀ k, k ∈ writtenNames (pcName X Y "t.pc".toList) →
      k ∉ writtenNames (pcName X Y "t-embed.pc".toList) := by
    intro k h1 h2
    rw [wN] at h1
    rw [wE] at h2
    exact hdis k h1 k h2 rfl
  have key := updatePkgConfig_two absPath d d' _ _ cN cE hnd
    (hasSuffix_pcName X Y _ _ (by decide)) (hasSuffix_pcName X Y _ _ (by decide))
    hN hE hpc hdisj hok
  have inN : ∀ k, k ∈ [pcName X Y "t.pc".toList, pcName X Y ".pc".toList,
      "python3t.pc".toList, "python3.pc".toList] →
      d'.lookup k = some (.file (patched absPath cN)) := by
    intro k hk
    rw [key k, if_pos (by rw [wN]; exact hk)]
  have inE : ∀ k, k ∈ [pcName X Y "t-embed.pc".toList, pcName X Y "-embed.pc".toList,
      "python3t-embed.pc".toList, "python3-embed.pc".toList] →
      d'.lookup k = some (.file (patched absPath cE)) := by
    intro k hk
    have hk' : k ∈ writtenNames (pcName X Y "t-embed.pc".toList) := by rw [wE]; exact hk
    rw [key k, if_neg (fun h => hdisj k h hk'), if_pos hk']
  refine ⟨inN _ ?_, inN _ ?_, inN _ ?_, inE _ ?_, inE _ ?_, inE _ ?_,
    patched_keeps_lib absPath cN, patched_keeps_lib absPath cE⟩
  · exact List.mem_cons_of_mem _ (List.mem_cons_of_mem _ (List.mem_cons_self _ _))
  · exact List.mem_cons_of_mem _ (List.mem_cons_of_mem _ (List.mem_cons_of_mem _
      (List.mem_cons_self _ _)))
  · exact List.mem_cons_of_mem _ (List.mem_cons_self _ _)
  · exact List.mem_cons_of_mem _ (List.mem_cons_of_mem _ (List.mem_cons_self _ _))
  · exact List.mem_cons_of_mem _ (List.mem_cons_of_mem _ (List.mem_cons_of_mem _
      (List.mem_cons_self _ _)))
  · exact List.mem_cons_of_mem _ (List.mem_cons_self _ _)

/-- Witness of C9: the free-threaded descriptors of Python 3.13. -/
theorem updatePkgConfig_freeThreaded_witness :
    isVersion "3".toList "13".toList
      ∧ ∃ d', updatePkgConfig "/abs/py".toList (some exampleThreadedDir) = .ok d'
        ∧ d'.lookup "python3t.pc".toList
            = some (.file "prefix=/abs/py\nLibs: -lpython3t\n".toList)
        ∧ d'.lookup "python3.pc".toList
            = some (.file "prefix=/abs/py\nLibs: -lpython3t\n".toList)
        ∧ d'.lookup "python-3.13.pc".toList
            = some (.file "prefix=/abs/py\nLibs: -lpython3t\n".toList)
        ∧ d'.lookup "python3t-embed.pc".toList
            = some (.file "prefix=/abs/py\nLibs: -lpython313t\n".toList)
        ∧ d'.lookup "python3-embed.pc".toList
            = some (.file "prefix=/abs/py\nLibs: -lpython313t\n".toList)
        ∧ d'.lookup "python-3.13-embed.pc".toList
            = some (.file "prefix=/abs/py\nLibs: -lpython313t\n".toList) := by
  have hok : updatePkgConfig "/abs/py".toList (some exampleThreadedDir)
      = .ok ((updatePkgConfig "/abs/py".toList (some exampleThreadedDir)).toOption.getD []) := by
    rfl
  have hpc : ∀ n c, exampleThreadedDir.lookup n = some (.file c) →
      hasSuffix n ".pc".toList = true →
      n = pcName "3".toList "13".toList "t.pc".toList
        ∨ n = pcName "3".toList "13".toList "t-embed.pc".toList := by
    intro n c h hs
    have hm := mem_of_lookup _ _ _ h
    simp only [exampleThreadedDir, List.mem_cons, Prod.mk.injEq, List.not_mem_nil,
      or_false] at hm
    rcases hm with ⟨rfl, -⟩ | ⟨rfl, -⟩ | ⟨rfl, -⟩
    · exact Or.inl (by decide)
    · exact Or.inr (by decide)
    · exact absurd hs (by decide)
  have h := updatePkgConfig_freeThreaded "/abs/py".toList "3".toList "13".toList
    "prefix=/install\nLibs: -lpython3t\n".toList
    "prefix=/install\nLibs: -lpython313t\n".toList exampleThreadedDir _
    (by decide) (by decide) (by decide) (by decide) hpc hok
  exact ⟨by decide, _, hok, h.1, h.2.1, h.2.2.1, h.2.2.2.1, h.2.2.2.2.1, h.2.2.2.2.2.1⟩

/-- C10: when the pkg-config directory holds only the descriptors
`python-X.Y.pc` and `python-X.Y-embed.pc`, a successful `updatePkgConfig`
leaves `python3.pc` with the patched content of the first and
`python3-embed.pc` with the patched content of the second, and none of
`python3t.pc`, `python3t-embed.pc`, `python-X.Yt.pc`, `python-X.Yt-embed.pc`
exists. -/
theorem updatePkgConfig_plain (absPath X Y cN cE : Str) (d d' : Directory)
    (hv : isVersion X Y) (hnd : (d.map Prod.fst).Nodup)
    (hN : d.lookup (pcName X Y ".pc".toList) = some (.file cN))
    (hE : d.lookup (pcName X Y "-embed.pc".toList) = some (.file cE))
    (honly : ∀ n, d.lookup n ≠ none →
      n = pcName X Y ".pc".toList ∨ n = pcName X Y "-embed.pc".toList)
    (hok : updatePkgConfig absPath (some d) = .ok d') :
    d'.lookup "python3.pc".toList = some (.file (patched absPath cN))
      ∧ d'.lookup "python3-embed.pc".toList = some (.file (patched absPath cE))
      ∧ d'.lookup "python3t.pc".toList = none
      ∧ d'.lookup "python3t-embed.pc".toList = none
      ∧ d'.lookup (pcName X Y "t.pc".toList) = none
      ∧ d'.lookup (pcName X Y "t-embed.pc".toList) = none := by
  obtain ⟨-, wN, -, wE⟩ := writtenNames_pcName X Y hv
  obtain ⟨hdis, hdn, hde⟩ := pcNames_distinct X Y hv
  have hdisj : ∀ k, k ∈ writtenNames (pcName X Y ".pc".toList) →
      k ∉ writtenNames (pcName X Y "-embed.pc".toList) := by
    intro k h1 h2
    rw [wN] at h1
    rw [wE] at h2
    simp only [List.mem_cons, List.mem_singleton, List.not_mem_nil, or_false] at h1 h2
    refine hdis k ?_ k ?_ rfl
    · simp only [List.mem_cons, List.mem_singleton, List.not_mem_nil, or_false]
      tauto
    · simp only [List.mem_cons, List.mem_singleton, List.not_mem_nil, or_false]
      tauto
  have key := updatePkgConfig_two absPath d d' _ _ cN cE hnd
    (hasSuffix_pcName X Y _ _ (by decide)) (hasSuffix_pcName X Y _ _ (by decide))
    hN hE (fun n c h _ => honly n (by rw [h]; exact Option.some_ne_none _)) hdisj hok
  have absent : ∀ k,
      k ∉ [pcName X Y ".pc".toList, "python3.pc".toList] →
      k ∉ [pcName X Y "-embed.pc".toList, "python3-embed.pc".toList] →
      d'.lookup k = none := by
    intro k h1 h2
    rw [key k, if_neg (by rw [wN]; exact h1), if_neg (by rw [wE]; exact h2)]
    by_contra hne
    rcases honly k hne with e | e
    · exact h1 (by rw [e]; exact List.mem_cons_self _ _)
    · exact h2 (by rw [e]; exact List.mem_cons_self _ _)
  have mem4 : ∀ (a b c e : Str) (l : List Str), a ∈ a :: b :: c :: e :: l
      ∧ b ∈ a :: b :: c :: e :: l ∧ c ∈ a :: b :: c :: e :: l
      ∧ e ∈ a :: b :: c :: e :: l := fun a b c e l =>
    ⟨List.mem_cons_self _ _, List.mem_cons_of_mem _ (List.mem_cons_self _ _),
      List.mem_cons_of_mem _ (List.mem_cons_of_mem _ (List.mem_cons_self _ _)),
      List.mem_cons_of_mem _ (List.mem_cons_of_mem _ (List.mem_cons_of_mem _
        (List.mem_cons_self _ _)))⟩
  obtain ⟨mN1, mN2, mN3, mN4⟩ := mem4 (pcName X Y "t.pc".toList) (pcName X Y ".pc".toList)
    "python3t.pc".toList "python3.pc".toList []
  obtain ⟨mE1, mE2, mE3, mE4⟩ := mem4 (pcName X Y "t-embed.pc".toList)
    (pcName X Y "-embed.pc".toList) "python3t-embed.pc".toList "python3-embed.pc".toList []
  have t2 : ∀ (a b : Str) (l : List Str), a ∈ a :: b :: l ∧ b ∈ a :: b :: l := fun a b l =>
    ⟨List.mem_cons_self _ _, List.mem_cons_of_mem _ (List.mem_cons_self _ _)⟩
  obtain ⟨tN1, tN2⟩ := t2 (pcName X Y "t.pc".toList) "python3t.pc".toList []
  obtain ⟨tE1, tE2⟩ := t2 (pcName X Y "t-embed.pc".toList) "python3t-embed.pc".toList []
  refine ⟨?_, ?_, absent _ ?_ ?_, absent _ ?_ ?_, absent _ ?_ ?_, absent _ ?_ ?_⟩
  · rw [key _, if_pos (by rw [wN]; exact List.mem_cons_of_mem _ (List.mem_cons_self _ _))]
  · have hk : "python3-embed.pc".toList ∈ writtenNames (pcName X Y "-embed.pc".toList) := by
      rw [wE]
      exact List.mem_cons_of_mem _ (List.mem_cons_self _ _)
    rw [key _, if_neg (fun h => hdisj _ h hk), if_pos hk]
  · exact fun h => hdn _ tN2 _ h rfl
  · intro h
    simp only [List.mem_cons, List.mem_singleton, List.not_mem_nil, or_false] at h
    rcases h with h | h
    · exact hdis _ mN3 _ mE2 h
    · exact hdis _ mN3 _ mE4 h
  · intro h
    simp only [List.mem_cons, List.mem_singleton, List.not_mem_nil, or_false] at h
    rcases h with h | h
    · exact hdis _ mN2 _ mE3 h.symm
    · exact hdis _ mN4 _ mE3 h.symm
  · exact fun h => hde _ tE2 _ h rfl
  · exact fun h => hdn _ tN1 _ h rfl
  · intro h
    simp only [List.mem_cons, List.mem_singleton, List.not_mem_nil, or_false] at h
    rcases h with h | h
    · exact hdis _ mN1 _ mE2 h
    · exact hdis _ mN1 _ mE4 h
  · intro h
    simp only [List.mem_cons, List.mem_singleton, List.not_mem_nil, or_false] at h
    rcases h with h | h
    · exact hdis _ mN2 _ mE1 h.symm
    · exact hdis _ mN4 _ mE1 h.symm
  · exact fun h => hde _ tE1 _ h rfl

/-- Witness of C10: the descriptors of Python 3.13. -/
theorem updatePkgConfig_plain_witness :
    isVersion "3".toList "13".toList
      ∧ ∃ d', updatePkgConfig "/abs/py".toList (some examplePlainDir) = .ok d'
        ∧ d'.lookup "python3.pc".toList
            = some (.file "prefix=/abs/py\nLibs: -lpython3\n".toList)
        ∧ d'.lookup "python3-embed.pc".toList
            = some (.file "prefix=/abs/py\nLibs: -lpython313\n".toList)
        ∧ d'.lookup "python3t.pc".toList = none
        ∧ d'.lookup "python3t-embed.pc".toList = none
        ∧ d'.lookup "python-3.13t.pc".toList = none
        ∧ d'.lookup "python-3.13t-embed.pc".toList = none := by
  have hok : updatePkgConfig "/abs/py".toList (some examplePlainDir)
      = .ok ((updatePkgConfig "/abs/py".toList (some examplePlainDir)).toOption.getD []) := by
    rfl
  have honly : ∀ n, examplePlainDir.lookup n ≠ none →
      n = pcName "3".toList "13".toList ".pc".toList
        ∨ n = pcName "3".toList "13".toList "-embed.pc".toList := by
    intro n h
    cases hl : examplePlainDir.lookup n with
    | none => exact absurd hl h
    | some x =>
      have hm := mem_of_lookup _ _ _ hl
      simp only [examplePlainDir, List.mem_cons, Prod.mk.injEq, List.not_mem_nil,
        or_false] at hm
      rcases hm with ⟨rfl, -⟩ | ⟨rfl, -⟩
      · exact Or.inl (by decide)
      · exact Or.inr (by decide)
  have h := updatePkgConfig_plain "/abs/py".toList "3".toList "13".toList
    "prefix=/install\nLibs: -lpython3\n".toList
    "prefix=/install\nLibs: -lpython313\n".toList examplePlainDir _
    (by decide) (by decide) (by decide) (by decide) honly hok
  exact ⟨by decide, _, hok, h.1, h.2.1, h.2.2.1, h.2.2.2.1, h.2.2.2.2.1, h.2.2.2.2.2⟩

/-! ## The variants of the Python build -/

/-- C18: on Windows, for a supported architecture, the file name of
`getPythonURL` has the token `-shared` and the variant `freethreaded+pgo` or
`pgo` according to `freeThreaded` alone, so the URL is the same with and
without `debug`. -/
theorem getPythonURL_windows (version buildDate arch : Str) (freeThreaded : Bool)
    (ha : arch ∈ supportedArchs) :
    getPythonURL version buildDate arch "windows".toList freeThreaded true
        = getPythonURL version buildDate arch "windows".toList freeThreaded false
      ∧ ∀ debug, getPythonURL version buildDate arch "windows".toList freeThreaded debug
          = "https://github.com/indygreg/python-build-standalone/releases/download/".toList
            ++ buildDate ++ "/cpython-".toList ++ version ++ "+".toList ++ buildDate
            ++ "-".toList ++ specArchToken arch ++ "-pc-windows-msvc".toList
            ++ "-shared".toList ++ "-".toList
            ++ (if freeThreaded then "freethreaded+pgo".toList else "pgo".toList)
            ++ "-full.tar.zst".toList := by
  have hform : ∀ debug, getPythonURL version buildDate arch "windows".toList freeThreaded debug
      = "https://github.com/indygreg/python-build-standalone/releases/download/".toList
        ++ buildDate ++ "/cpython-".toList ++ version ++ "+".toList ++ buildDate
        ++ "-".toList ++ specArchToken arch ++ "-pc-windows-msvc".toList
        ++ "-shared".toList ++ "-".toList
        ++ (if freeThreaded then "freethreaded+pgo".toList else "pgo".toList)
        ++ "-full.tar.zst".toList := by
    intro debug
    rw [getPythonURL_eq_spec version buildDate arch _ freeThreaded debug ha (by decide)]
    have h1 : specOSToken "windows".toList = "pc-windows-msvc".toList := by decide
    have h2 : specSharedToken "windows".toList = "-shared".toList := by decide
    have h3 : specVariantToken "windows".toList freeThreaded debug
        = if freeThreaded then "freethreaded+pgo".toList else "pgo".toList := by
      unfold specVariantToken
      rw [if_pos rfl]
    have h4 : "/cpython-".toList = "/".toList ++ "cpython-".toList := by decide
    have h5 : "-pc-windows-msvc".toList = "-".toList ++ "pc-windows-msvc".toList := by decide
    rw [specFilename, h1, h2, h3, h4, h5, baseURL]
    simp only [List.append_assoc]
  exact ⟨(hform true).trans (hform false).symm, hform⟩

/-- Witness of C18: the build of Python 3.13.0 for Windows on amd64. -/
theorem getPythonURL_windows_witness :
    getPythonURL "3.13.0".toList "20241016".toList "amd64".toList "windows".toList true true
      = getPythonURL "3.13.0".toList "20241016".toList "amd64".toList "windows".toList true false :=
  (getPythonURL_windows "3.13.0".toList "20241016".toList "amd64".toList true (by decide)).1

theorem getPythonURL_unix_tail (version buildDate : Str) (t : Str × Str × Bool × Bool)
    (ht : t ∈ unixTuples) :
    getPythonURL version buildDate t.1 t.2.1 t.2.2.1 t.2.2.2
      = (baseURL ++ buildDate ++ "/".toList ++ "cpython-".toList ++ version ++ "+".toList
          ++ buildDate ++ "-".toList) ++ buildTail t := by
  have ha : t.1 ∈ supportedArchs ∧ t.2.1 ∈ supportedOSs := by
    simp only [unixTuples, List.mem_flatMap, List.mem_cons, List.mem_singleton,
      List.not_mem_nil, or_false] at ht
    obtain ⟨a, ha, o, ho, h⟩ := ht
    have hos : o ∈ supportedOSs := by
      rcases ho with rfl | rfl <;> decide
    rcases h with rfl | rfl | rfl | rfl <;> exact ⟨ha, hos⟩
  rw [getPythonURL_eq_spec version buildDate t.1 t.2.1 t.2.2.1 t.2.2.2 ha.1 ha.2]
  simp only [specFilename, buildTail, List.append_assoc]

set_option maxRecDepth 100000 in
theorem buildTail_injective :
    ∀ t1 ∈ unixTuples, ∀ t2 ∈ unixTuples, buildTail t1 = buildTail t2 → t1 = t2 := by
  decide

/-- C19: for a fixed version and build date, two supported tuples
(arch, os, freeThreaded, debug) with os `darwin` or `linux` that give the same
URL are equal; the four variants are pairwise different. -/
theorem getPythonURL_injective (version buildDate : Str) (t1 t2 : Str × Str × Bool × Bool)
    (h1 : t1 ∈ unixTuples) (h2 : t2 ∈ unixTuples)
    (h : getPythonURL version buildDate t1.1 t1.2.1 t1.2.2.1 t1.2.2.2
      = getPythonURL version buildDate t2.1 t2.2.1 t2.2.2.1 t2.2.2.2) :
    t1 = t2
      ∧ ∀ f d f' d', unixVariant f d = unixVariant f' d' → f = f' ∧ d = d' := by
  refine ⟨?_, by decide⟩
  rw [getPythonURL_unix_tail version buildDate t1 h1,
    getPythonURL_unix_tail version buildDate t2 h2] at h
  exact buildTail_injective t1 h1 t2 h2 (List.append_cancel_left h)

/-- Witness of C19: the free-threaded and the debug build for Linux on amd64
have different URLs, both tuples being supported. -/
theorem getPythonURL_injective_witness :
    (("amd64".toList, "linux".toList, true, false) : Str × Str × Bool × Bool) ∈ unixTuples
      ∧ (("amd64".toList, "linux".toList, false, true) : Str × Str × Bool × Bool) ∈ unixTuples
      ∧ getPythonURL "3.13.0".toList "20241016".toList "amd64".toList "linux".toList true false
          ≠ getPythonURL "3.13.0".toList "20241016".toList "amd64".toList "linux".toList false true :=
  ⟨by decide, by decide, fun h => absurd
    (getPythonURL_injective "3.13.0".toList "20241016".toList
      ("amd64".toList, "linux".toList, true, false) ("amd64".toList, "linux".toList, false, true)
      (by decide) (by decide) h).1 (by decide)⟩

/-! ## The order of the installation steps -/

theorem Dependencies_eq_failFast {σ ε : Type} (goos : Str)
    (step : DepStep → σ → σ × Option ε) (s : σ) :
    Dependencies goos step s = failFast step (dependenciesPlan goos) s := by
  unfold Dependencies dependenciesPlan
  by_cases hw : goos = "windows".toList
  · simp only [hw, if_true, List.cons_append, List.nil_append, failFast]
    rcases step .installTinyPkgConfig s with ⟨s1, _ | e1⟩ <;> simp only [if_true]
    rcases step .installMingw s1 with ⟨s2, _ | e2⟩ <;> simp only [if_true]
    rcases step .installGo s2 with ⟨s3, _ | e3⟩ <;> simp only [if_true]
    rcases h4 : step .setBuildEnv s3 with ⟨s4, _ | e4⟩ <;>
      simp only [Bool.false_eq_true, if_false] <;>
      rcases step .installGoDeps s4 with ⟨s5, _ | e5⟩ <;> simp only [if_true] <;>
      rcases step .installPythonEnv s5 with ⟨s6, _ | e6⟩ <;> simp only [if_true]
  · simp only [hw, if_false, List.cons_append, List.nil_append, failFast]
    rcases step .installTinyPkgConfig s with ⟨s1, _ | e1⟩ <;> simp only [if_true]
    rcases step .installGo s1 with ⟨s3, _ | e3⟩ <;> simp only [if_true]
    rcases h4 : step .setBuildEnv s3 with ⟨s4, _ | e4⟩ <;>
      simp only [Bool.false_eq_true, if_false] <;>
      rcases step .installGoDeps s4 with ⟨s5, _ | e5⟩ <;> simp only [if_true] <;>
      rcases step .installPythonEnv s5 with ⟨s6, _ | e6⟩ <;> simp only [if_true]

/-- What a fail-fast run records: the calls made are a beginning of the plan;
the run succeeds exactly when every checked call does, and then all calls were
made; an error is the error of the first checked call that fails, which is the
last call made. -/
theorem failFast_log {κ ε : Type} (outcome : κ → Option ε) (plan : List (κ × Bool))
    (log : List κ) :
    (∃ made, (failFast (logCalls outcome) plan log).1 = log ++ made
        ∧ made <+: plan.map Prod.fst)
      ∧ ((failFast (logCalls outcome) plan log).2 = none
          ↔ ∀ p ∈ plan, p.2 = true → outcome p.1 = none)
      ∧ ((failFast (logCalls outcome) plan log).2 = none →
          (failFast (logCalls outcome) plan log).1 = log ++ plan.map Prod.fst)
      ∧ (∀ e, (failFast (logCalls outcome) plan log).2 = some e →
          ∃ pre k post, plan = pre ++ (k, true) :: post
            ∧ (failFast (logCalls outcome) plan log).1 = log ++ pre.map Prod.fst ++ [k]
            ∧ outcome k = some e
            ∧ ∀ p ∈ pre, p.2 = true → outcome p.1 = none) := by
  induction plan generalizing log with
  | nil =>
    refine ⟨⟨[], by simp [failFast], by simp⟩, by simp [failFast], by simp [failFast], ?_⟩
    intro e h
    simp [failFast] at h
  | cons p rest ih =>
    obtain ⟨k, checked⟩ := p
    obtain ⟨⟨made, hm1, hm2⟩, hnone, hall, hsome⟩ := ih (log ++ [k])
    cases ho : outcome k with
    | none =>
      have hstep : failFast (logCalls outcome) ((k, checked) :: rest) log
          = failFast (logCalls outcome) rest (log ++ [k]) := by
        simp only [failFast, logCalls, ho]
      rw [hstep]
      refine ⟨⟨k :: made, by rw [hm1]; simp, ?_⟩, ?_, ?_, ?_⟩
      · simpa using hm2
      · rw [hnone]
        constructor
        · intro h p hp
          rcases List.mem_cons.mp hp with rfl | hp
          · intro _
            exact ho
          · exact h p hp
        · intro h p hp
          exact h p (List.mem_cons_of_mem _ hp)
      · intro h
        rw [hall h]
        simp
      · intro e h
        obtain ⟨pre, k', post, hp, hl, ho', hpre⟩ := hsome e h
        refine ⟨(k, checked) :: pre, k', post, by rw [hp]; rfl, by rw [hl]; simp, ho', ?_⟩
        intro p hp'
        rcases List.mem_cons.mp hp' with rfl | hp'
        · intro _
          exact ho
        · exact hpre p hp'
    | some e0 =>
      cases checked with
      | true =>
        have hstep : failFast (logCalls outcome) ((k, true) :: rest) log
            = (log ++ [k], some e0) := by
          simp only [failFast, logCalls, ho, if_true]
        rw [hstep]
        refine ⟨⟨[k], rfl, by simp⟩, ?_, ?_, ?_⟩
        · constructor
          · intro h
            cases h
          · intro h
            have := h (k, true) (List.mem_cons_self _ _) rfl
            rw [ho] at this
            cases this
        · intro h
          cases h
        · intro e h
          simp only [Option.some.injEq] at h
          subst h
          exact ⟨[], k, rest, rfl, by simp, ho, by simp⟩
      | false =>
        have hstep : failFast (logCalls outcome) ((k, false) :: rest) log
            = failFast (logCalls outcome) rest (log ++ [k]) := by
          simp only [failFast, logCalls, ho, Bool.false_eq_true, if_false]
        rw [hstep]
        refine ⟨⟨k :: made, by rw [hm1]; simp, ?_⟩, ?_, ?_, ?_⟩
        · simpa using hm2
        · rw [hnone]
          constructor
          · intro h p hp
            rcases List.mem_cons.mp hp with rfl | hp
            · intro hc
              cases hc
            · exact h p hp
          · intro h p hp
            exact h p (List.mem_cons_of_mem _ hp)
        · intro h
          rw [hall h]
          simp
        · intro e h
          obtain ⟨pre, k', post, hp, hl, ho', hpre⟩ := hsome e h
          refine ⟨(k, false) :: pre, k', post, by rw [hp]; rfl, by rw [hl]; simp, ho', ?_⟩
          intro p hp'
          rcases List.mem_cons.mp hp' with rfl | hp'
          · intro hc
            cases hc
          · exact hpre p hp'

/-- C14: `Dependencies` makes its calls in the order tiny-pkg-config, mingw
(on Windows only), Go, the build environment, the Go dependencies, the Python
environment, stopping at the first that fails: the calls made are a beginning
of that list, the result is `nil` exactly when every installation step
succeeds, and an error is the error of the last call made, before which every
step succeeded. -/
theorem Dependencies_fail_fast {ε : Type} (goos : Str) (outcome : DepStep → Option ε) :
    Dependencies goos (logCalls outcome) []
        = failFast (logCalls outcome) (dependenciesPlan goos) []
      ∧ (dependenciesPlan goos).map Prod.fst
          = (if goos = "windows".toList
              then [.installTinyPkgConfig, .installMingw, .installGo, .setBuildEnv,
                .installGoDeps, .installPythonEnv]
              else [.installTinyPkgConfig, .installGo, .setBuildEnv, .installGoDeps,
                .installPythonEnv])
      ∧ (Dependencies goos (logCalls outcome) []).1 <+: (dependenciesPlan goos).map Prod.fst
      ∧ ((Dependencies goos (logCalls outcome) []).2 = none
          ↔ ∀ k ∈ (dependenciesPlan goos).map Prod.fst, k ≠ .setBuildEnv → outcome k = none)
      ∧ ((Dependencies goos (logCalls outcome) []).2 = none →
          (Dependencies goos (logCalls outcome) []).1 = (dependenciesPlan goos).map Prod.fst)
      ∧ (∀ e, (Dependencies goos (logCalls outcome) []).2 = some e →
          ∃ pre k post, (dependenciesPlan goos).map Prod.fst = pre ++ k :: post
            ∧ (Dependencies goos (logCalls outcome) []).1 = pre ++ [k]
            ∧ outcome k = some e
            ∧ ∀ k' ∈ pre, k' ≠ .setBuildEnv → outcome k' = none) := by
  have hchk : ∀ p ∈ dependenciesPlan goos, (p.2 = true ↔ p.1 ≠ .setBuildEnv) := by
    intro p hp
    unfold dependenciesPlan at hp
    split_ifs at hp <;>
      simp only [List.cons_append, List.nil_append, List.mem_cons, List.mem_singleton,
        List.not_mem_nil, or_false] at hp <;>
      rcases hp with rfl | rfl | rfl | rfl | rfl | rfl <;> simp
  obtain ⟨⟨made, hm1, hm2⟩, hnone, hall, hsome⟩ :=
    failFast_log outcome (dependenciesPlan goos) []
  rw [Dependencies_eq_failFast]
  refine ⟨rfl, ?_, ?_, ?_, ?_, ?_⟩
  · unfold dependenciesPlan
    split_ifs <;> rfl
  · rw [hm1]
    simpa using hm2
  · rw [hnone]
    constructor
    · intro h k hk hne
      obtain ⟨p, hp, rfl⟩ := List.mem_map.mp hk
      exact h p hp ((hchk p hp).mpr hne)
    · intro h p hp hc
      exact h p.1 (List.mem_map_of_mem _ hp) ((hchk p hp).mp hc)
  · intro h
    rw [hall h]
    simp
  · intro e h
    obtain ⟨pre, k, post, hp, hl, ho, hpre⟩ := hsome e h
    refine ⟨pre.map Prod.fst, k, post.map Prod.fst, by rw [hp]; simp, by rw [hl]; simp, ho, ?_⟩
    intro k' hk' hne
    obtain ⟨p, hp', rfl⟩ := List.mem_map.mp hk'
    have hmem : p ∈ dependenciesPlan goos := by
      rw [hp]
      exact List.mem_append_left _ hp'
    exact hpre p hp' ((hchk p hmem).mpr hne)

/-! ## The first action of `installPythonEnv` -/

theorem runInstall_log {ε : Type} (outcome : InstallOp → Option ε) (ops : List InstallOp)
    (log : List InstallOp) :
    ∃ made, (runInstall (logCalls outcome) ops log).1 = log ++ made := by
  induction ops generalizing log with
  | nil => exact ⟨[], by simp [runInstall]⟩
  | cons op rest ih =>
    cases ho : outcome op with
    | none =>
      obtain ⟨made, hm⟩ := ih (log ++ [op])
      exact ⟨op :: made, by simp only [runInstall, logCalls, ho, hm]; simp⟩
    | some e => exact ⟨[op], by simp only [runInstall, logCalls, ho]⟩

theorem mem_ancestors_self (path : Str) : path ∈ ancestors path := by
  unfold ancestors
  rw [List.iterate]
  exact List.mem_cons_self _ _

/-- C20: `installPythonEnv` first removes the Python root of the project.  When
the removal fails, its error is returned and no other call is made; when it
succeeds on an unsupported platform, the result is the error of the unsupported
platform and no other call is made; otherwise the later calls run on the state
the removal left.  On a file system nothing is left at the Python root or below
it after the removal. -/
theorem installPythonEnv_removes_first {σ ε : Type} (exec : InstallOp → σ → σ × Option ε)
    (goos goarch projectPath version buildDate : Str) (freeThreaded debug : Bool) (s : σ) :
    (∀ s' err, exec (.removeAll (getPythonRoot projectPath)) s = (s', some err) →
        installPythonEnv exec goos goarch projectPath version buildDate freeThreaded debug s
          = (s', some (.removingExisting err)))
      ∧ (∀ s', exec (.removeAll (getPythonRoot projectPath)) s = (s', none) →
          getPythonURL version buildDate goarch goos freeThreaded debug = [] →
          installPythonEnv exec goos goarch projectPath version buildDate freeThreaded debug s
            = (s', some .unsupportedPlatform))
      ∧ (∀ s', exec (.removeAll (getPythonRoot projectPath)) s = (s', none) →
          getPythonURL version buildDate goarch goos freeThreaded debug ≠ [] →
          installPythonEnv exec goos goarch projectPath version buildDate freeThreaded debug s
            = runInstall exec (installSteps goos projectPath
                (getPythonURL version buildDate goarch goos freeThreaded debug)) s')
      ∧ (∀ outcome : InstallOp → Option ε,
          (∃ made, (installPythonEnv (logCalls outcome) goos goarch projectPath version
              buildDate freeThreaded debug []).1
            = .removeAll (getPythonRoot projectPath) :: made)
          ∧ ((outcome (.removeAll (getPythonRoot projectPath)) ≠ none
              ∨ getPythonURL version buildDate goarch goos freeThreaded debug = []) →
            (installPythonEnv (logCalls outcome) goos goarch projectPath version buildDate
              freeThreaded debug []).1 = [.removeAll (getPythonRoot projectPath)]))
      ∧ (∀ (onFS : InstallOp → FS → FS × Option ε) (fs : FS),
          onFS (.removeAll (getPythonRoot projectPath)) fs
            = ((fsCall (.removeAll (getPythonRoot projectPath)) fs).1, none) →
          getPythonURL version buildDate goarch goos freeThreaded debug = [] →
          (installPythonEnv onFS goos goarch projectPath version buildDate freeThreaded debug fs).2
              = some .unsupportedPlatform
            ∧ ∀ q, getPythonRoot projectPath ∈ ancestors q →
              (installPythonEnv onFS goos goarch projectPath version buildDate freeThreaded
                debug fs).1 q = none) := by
  refine ⟨?_, ?_, ?_, ?_, ?_⟩
  · intro s' err h
    simp only [installPythonEnv, h]
  · intro s' h hu
    simp only [installPythonEnv, h, hu, if_true]
  · intro s' h hu
    simp only [installPythonEnv, h, hu, if_false]
  · intro outcome
    cases ho : outcome (.removeAll (getPythonRoot projectPath)) with
    | some e =>
      have : installPythonEnv (logCalls outcome) goos goarch projectPath version buildDate
          freeThreaded debug []
          = ([.removeAll (getPythonRoot projectPath)], some (.removingExisting e)) := by
        simp only [installPythonEnv, logCalls, ho, List.nil_append]
      rw [this]
      exact ⟨⟨[], rfl⟩, fun _ => rfl⟩
    | none =>
      by_cases hu : getPythonURL version buildDate goarch goos freeThreaded debug = []
      · have : installPythonEnv (logCalls outcome) goos goarch projectPath version buildDate
            freeThreaded debug []
            = ([.removeAll (getPythonRoot projectPath)], some .unsupportedPlatform) := by
          simp only [installPythonEnv, logCalls, ho, List.nil_append, hu, if_true]
        rw [this]
        exact ⟨⟨[], rfl⟩, fun _ => rfl⟩
      · have : installPythonEnv (logCalls outcome) goos goarch projectPath version buildDate
            freeThreaded debug []
            = runInstall (logCalls outcome) (installSteps goos projectPath
                (getPythonURL version buildDate goarch goos freeThreaded debug))
                [.removeAll (getPythonRoot projectPath)] := by
          simp only [installPythonEnv, logCalls, ho, List.nil_append, hu, if_false]
        rw [this]
        obtain ⟨made, hm⟩ := runInstall_log outcome (installSteps goos projectPath
          (getPythonURL version buildDate goarch goos freeThreaded debug))
          [.removeAll (getPythonRoot projectPath)]
        refine ⟨⟨made, by rw [hm]; rfl⟩, ?_⟩
        rintro (h | h)
        · exact absurd rfl h
        · exact absurd h hu
  · intro onFS fs h hu
    have : installPythonEnv onFS goos goarch projectPath version buildDate freeThreaded debug fs
        = ((fsCall (.removeAll (getPythonRoot projectPath)) fs).1, some .unsupportedPlatform) := by
      simp only [installPythonEnv, h, hu, if_true]
    rw [this]
    refine ⟨rfl, fun q hq => ?_⟩
    simp only [fsCall, hq, if_true]

/-- Witness of C20: on FreeBSD, a platform without a build, the installation in
the project `/d` of a file system holding `/d/.deps/python/f` removes that file
and returns the error of the unsupported platform. -/
theorem installPythonEnv_removes_first_witness :
    exampleInstalledFS "/d/.deps/python/f".toList = some (.file 0o644 [1])
      ∧ (installPythonEnv removeOnly "freebsd".toList "amd64".toList "/d".toList
          "3.13.0".toList "20241016".toList false false exampleInstalledFS).2
          = some .unsupportedPlatform
      ∧ (installPythonEnv removeOnly "freebsd".toList "amd64".toList "/d".toList
          "3.13.0".toList "20241016".toList false false exampleInstalledFS).1
          "/d/.deps/python/f".toList = none :=
  ⟨by decide,
    ((installPythonEnv_removes_first removeOnly "freebsd".toList "amd64".toList "/d".toList
      "3.13.0".toList "20241016".toList false false exampleInstalledFS).2.2.2.2
      removeOnly exampleInstalledFS rfl (by decide)).1,
    ((installPythonEnv_removes_first removeOnly "freebsd".toList "amd64".toList "/d".toList
      "3.13.0".toList "20241016".toList false false exampleInstalledFS).2.2.2.2
      removeOnly exampleInstalledFS rfl (by decide)).2 "/d/.deps/python/f".toList (by decide)⟩

/-- C17, at the failing input: with the home directory `/home/u`, `getCacheDir`
returns `/home/u/.gopy/cache` and creates that directory, whereas
`filepath.Join("/home/u", ".got", "cache")` is `/home/u/.got/cache`, where
nothing is created. -/
theorem getCacheDir_gopy :
    getCacheDir machineAllOk = .ok "/home/u/.gopy/cache".toList
      ∧ join ["/home/u".toList, ".got".toList, "cache".toList] = "/home/u/.got/cache".toList
      ∧ "/home/u/.gopy/cache".toList ≠ "/home/u/.got/cache".toList
      ∧ (fsCall (.mkdirAll "/home/u/.gopy/cache".toList 0o755) exampleHomeFS).2 = true
      ∧ (fsCall (.mkdirAll "/home/u/.gopy/cache".toList 0o755) exampleHomeFS).1
          "/home/u/.gopy/cache".toList = some (.dir 0o755)
      ∧ (fsCall (.mkdirAll "/home/u/.gopy/cache".toList 0o755) exampleHomeFS).1
          "/home/u/.got/cache".toList = none := by
  refine ⟨rfl, by decide, by decide, by decide, by decide, by decide⟩

/-- The path `getCacheDir` returns when the home directory is known and the
cache directory can be made. -/
theorem getCacheDir_eq (m : Machine) (H : Str) (hh : m.homeDir = some H)
    (hm : m.mkdirAll (join [H, ".gopy".toList, "cache".toList]) = true) :
    getCacheDir m = .ok (join [H, ".gopy".toList, "cache".toList]) := by
  simp only [getCacheDir, hh, hm, if_true]

/-! ## The download cache and its effects -/

theorem mkdirAll_ok (path : Str) (perm : Nat) (fs fs1 : FS)
    (h : fsCall (.mkdirAll path perm) fs = (fs1, true)) :
    (∀ q ∈ ancestors path, ∃ m, fs1 q = some (.dir m)) ∧ (∀ q, fs q ≠ none → fs1 q = fs q) := by
  simp only [fsCall] at h
  by_cases hall : (ancestors path).all fs.dirOrAbsent = true
  · rw [if_pos hall] at h
    simp only [Prod.mk.injEq, and_true] at h
    subst h
    refine ⟨fun q hq => ?_, fun q hq => ?_⟩
    · by_cases hn : fs q = none
      · exact ⟨perm, by simp only [hq, hn, and_self, if_true]⟩
      · have hd := List.all_eq_true.mp hall q hq
        simp only [hn, and_false, if_false]
        unfold FS.dirOrAbsent at hd
        cases hfq : fs q with
        | none => exact absurd hfq hn
        | some n =>
          cases n with
          | dir m => exact ⟨m, rfl⟩
          | file p d => simp [hfq] at hd
          | symlink t => simp [hfq] at hd
    · simp only [hq, and_false, if_false]
  · rw [if_neg hall] at h
    simp at h

theorem mkdirAll_again (path : Str) (perm : Nat) (fs : FS)
    (h : ∀ q ∈ ancestors path, ∃ m, fs q = some (.dir m)) :
    fsCall (.mkdirAll path perm) fs = (fs, true) := by
  simp only [fsCall]
  have hall : (ancestors path).all fs.dirOrAbsent = true := by
    rw [List.all_eq_true]
    intro q hq
    obtain ⟨m, hm⟩ := h q hq
    simp [FS.dirOrAbsent, hm]
  rw [if_pos hall]
  congr 1
  funext q
  by_cases hq : q ∈ ancestors path
  · obtain ⟨m, hm⟩ := h q hq
    simp [hm]
  · simp [hq]

theorem createTemp_some (dir : Str) (rs : List Nat) (fs fs2 : FS) (tmp : Str)
    (h : createTemp dir rs fs = (fs2, some tmp)) :
    fs tmp = none ∧ fs2 = Function.update fs tmp (some (.file 0o600 []))
      ∧ ∃ r ∈ rs, tmp = tempName dir r := by
  induction rs with
  | nil => simp [createTemp] at h
  | cons r rest ih =>
    unfold createTemp at h
    by_cases hex : (fs (tempName dir r)).isSome = true
    · rw [if_pos hex] at h
      obtain ⟨h1, h2, r', hr', h3⟩ := ih h
      exact ⟨h1, h2, r', List.mem_cons_of_mem _ hr', h3⟩
    · rw [if_neg hex] at h
      have hn : fs (tempName dir r) = none := by
        cases hf : fs (tempName dir r) with
        | none => rfl
        | some n => simp [hf] at hex
      simp only [fsCall, hn, flagsCreateRdwr] at h
      by_cases hd : fs.isDir (Got.dir (tempName dir r)) = true
      · simp only [hd, and_self, if_true, Prod.mk.injEq, Option.some.injEq] at h
        obtain ⟨h1, h2⟩ := h
        subst h2
        exact ⟨hn, h1.symm, r, List.mem_cons_self _ _, rfl⟩
      · simp [hd] at h

theorem createTemp_none (dir : Str) (rs : List Nat) (fs fs2 : FS)
    (h : createTemp dir rs fs = (fs2, none)) : fs2 = fs := by
  induction rs with
  | nil =>
    simp only [createTemp, Prod.mk.injEq, and_true] at h
    exact h.symm
  | cons r rest ih =>
    unfold createTemp at h
    by_cases hex : (fs (tempName dir r)).isSome = true
    · rw [if_pos hex] at h
      exact ih h
    · rw [if_neg hex] at h
      have hn : fs (tempName dir r) = none := by
        cases hf : fs (tempName dir r) with
        | none => rfl
        | some n => simp [hf] at hex
      simp only [fsCall, hn, flagsCreateRdwr] at h
      by_cases hd : fs.isDir (Got.dir (tempName dir r)) = true
      · simp [hd] at h
      · have hd2 : fs.isDir (Got.dir (tempName dir r)) = false := by
          cases hx : fs.isDir (Got.dir (tempName dir r)) with
          | false => rfl
          | true => exact absurd hx hd
        simp only [hd2, Bool.false_eq_true, and_false, if_false, Prod.mk.injEq, and_true] at h
        exact h.symm

theorem cachedFilename_some (url : Str) : ∃ f, cachedFilename url = some f := by
  obtain ⟨name, hn, -⟩ := getLast?_split '/' url
  exact ⟨_, cachedFilename_of_getLast? url name hn⟩

theorem rename_false (a b : Str) (fails : Bool) (fs fs2 : FS)
    (h : rename a b fails fs = (fs2, false)) : fs2 = fs := by
  unfold rename at h
  cases fails with
  | true =>
    simp only [if_true, Prod.mk.injEq, and_true] at h
    exact h.symm
  | false =>
    simp only [Bool.false_eq_true, if_false] at h
    cases ha : fs a with
    | none =>
      simp only [ha, Prod.mk.injEq, and_true] at h
      exact h.symm
    | some n =>
      simp only [ha] at h
      cases hb : fs b with
      | none => simp [hb] at h
      | some m =>
        cases m with
        | dir p =>
          simp only [hb, Prod.mk.injEq, and_true] at h
          exact h.symm
        | file p d => simp [hb] at h
        | symlink t => simp [hb] at h

theorem rename_true (a b : Str) (fails : Bool) (fs fs2 : FS)
    (h : rename a b fails fs = (fs2, true)) :
    ∃ n, fs a = some n ∧ fs2 = Function.update (Function.update fs a none) b (some n) := by
  unfold rename at h
  cases fails with
  | true => simp at h
  | false =>
    simp only [Bool.false_eq_true, if_false] at h
    cases ha : fs a with
    | none => simp [ha] at h
    | some n =>
      simp only [ha] at h
      refine ⟨n, rfl, ?_⟩
      cases hb : fs b with
      | none =>
        simp only [hb, Prod.mk.injEq, and_true] at h
        exact h.symm
      | some m =>
        cases m with
        | dir p => simp [hb] at h
        | file p d =>
          simp only [hb, Prod.mk.injEq, and_true] at h
          exact h.symm
        | symlink t =>
          simp only [hb, Prod.mk.injEq, and_true] at h
          exact h.symm

theorem remove_created (tmp : Str) (fs : FS) (p : Nat) (d : Bytes) (h : fs tmp = none) :
    remove tmp (Function.update fs tmp (some (.file p d))) = fs := by
  unfold remove
  simp only [Function.update_same, Function.update_idem]
  funext q
  by_cases hq : q = tmp
  · subst hq
    simp [h]
  · simp [Function.update_noteq hq]

theorem copy_created (tmp : Str) (fs : FS) (p : Nat) (data : Bytes) :
    (fsCall (.copy tmp data) (Function.update fs tmp (some (.file p [])))).1
      = Function.update fs tmp (some (.file p data)) := by
  simp only [fsCall, Function.update_same, Function.update_idem, List.drop_nil, List.append_nil]

theorem getCacheDirFS_ok (homeDir : Option Str) (fs fs1 : FS) (cacheDir : Str)
    (h : getCacheDirFS homeDir fs = (fs1, .ok cacheDir)) :
    ∃ H, homeDir = some H ∧ cacheDir = join [H, ".gopy".toList, "cache".toList]
      ∧ fsCall (.mkdirAll cacheDir 0o755) fs = (fs1, true) := by
  cases homeDir with
  | none => simp [getCacheDirFS] at h
  | some H =>
    unfold getCacheDirFS at h
    dsimp only at h
    rcases hm : fsCall (.mkdirAll (join [H, ".gopy".toList, "cache".toList]) 0o755) fs
      with ⟨fs2, _ | _⟩
    · rw [hm] at h
      simp at h
    · rw [hm] at h
      simp only [Prod.mk.injEq, Except.ok.injEq] at h
      obtain ⟨h1, h2⟩ := h
      subst h1 h2
      exact ⟨H, rfl, rfl, hm⟩

theorem getCacheDirFS_error (homeDir : Option Str) (fs fs1 : FS) (err : FetchError)
    (h : getCacheDirFS homeDir fs = (fs1, .error err)) :
    (err = .noHomeDir ∨ err = .cacheDirCreation) ∧ fs1 = fs := by
  cases homeDir with
  | none =>
    simp only [getCacheDirFS, Prod.mk.injEq, Except.error.injEq] at h
    exact ⟨Or.inl h.2.symm, h.1.symm⟩
  | some H =>
    unfold getCacheDirFS at h
    dsimp only at h
    have hfs : ∀ fs2, fsCall (.mkdirAll (join [H, ".gopy".toList, "cache".toList]) 0o755) fs
        = (fs2, false) → fs2 = fs := by
      intro fs2 h2
      simp only [fsCall] at h2
      split_ifs at h2
      · simp at h2
      · simp only [Prod.mk.injEq, and_true] at h2
        exact h2.symm
    rcases hm : fsCall (.mkdirAll (join [H, ".gopy".toList, "cache".toList]) 0o755) fs
      with ⟨fs2, _ | _⟩
    · rw [hm] at h
      simp only [Prod.mk.injEq, Except.error.injEq] at h
      exact ⟨Or.inr h.2.symm, h.1.symm.trans (hfs fs2 hm)⟩
    · rw [hm] at h
      simp at h

theorem remove_renamed (tmp path : Str) (fs1 : FS) (n : Node) (body : Bytes) (q : Str) :
    remove tmp (Function.update (Function.update (Function.update fs1 tmp (some n)) tmp none)
        path (some (.file 0o600 body))) q
      = if q = tmp then none else if q = path then some (.file 0o600 body) else fs1 q := by
  unfold remove
  by_cases htp : tmp = path
  · subst htp
    simp only [Function.update_same, Function.update_idem]
    by_cases hq : q = tmp
    · subst hq
      simp
    · simp [hq, Function.update_noteq hq]
  · rw [Function.update_noteq htp, Function.update_same]
    simp only [Function.update_idem]
    by_cases hq : q = tmp
    · subst hq
      simp
    · by_cases hp : q = path
      · subst hp
        simp [hq]
      · simp [hq, hp, Function.update_noteq hq, Function.update_noteq hp]

/-- A call of `downloadFileWithCache` that finds the cache path: the path is
returned and no request is made. -/
theorem downloadFileWithCacheFS_hit (e : CallEnv) (url : Str) (w : World) (fs1 : FS)
    (cacheDir name : Str) (hc : getCacheDirFS e.homeDir w.fs = (fs1, .ok cacheDir))
    (hn : cachedFilename url = some name) (hex : fs1 (join [cacheDir, name]) ≠ none) :
    downloadFileWithCacheFS e url w = (⟨fs1, w.requests⟩, .ok (join [cacheDir, name])) := by
  have hs : (fs1 (join [cacheDir, name])).isSome = true := by
    cases hf : fs1 (join [cacheDir, name]) with
    | none => exact absurd hf hex
    | some n => rfl
  simp only [downloadFileWithCacheFS, hc, hn, hs, if_true]

/-- A call of `downloadFileWithCache` that does not find the cache path: what
a result without error means, and what the state is after an error. -/
theorem downloadFileWithCacheFS_miss (e : CallEnv) (url : Str) (w w1 : World) (fs1 : FS)
    (cacheDir name : Str) (res : Except FetchError Str)
    (hc : getCacheDirFS e.homeDir w.fs = (fs1, .ok cacheDir))
    (hn : cachedFilename url = some name) (hex : fs1 (join [cacheDir, name]) = none)
    (h : downloadFileWithCacheFS e url w = (w1, res)) :
    (res = .error .createTemp ∧ w1 = ⟨fs1, w.requests⟩)
      ∨ ∃ tmp, fs1 tmp = none ∧ (∃ r ∈ e.random, tmp = tempName cacheDir r)
          ∧ w1.requests = w.requests ++ [url]
          ∧ ((∃ err, res = .error err
                ∧ (err = .transport ∨ (∃ s, err = .badStatus s) ∨ err = .write ∨ err = .rename)
                ∧ w1.fs = fs1)
              ∨ (∃ body, res = .ok (join [cacheDir, name]) ∧ e.get url = .response 200 body
                  ∧ e.copyError = none
                  ∧ ∀ q, w1.fs q = if q = tmp then none
                      else if q = join [cacheDir, name] then some (.file 0o600 body)
                      else fs1 q)) := by
  have hs : (fs1 (join [cacheDir, name])).isSome = false := by rw [hex]; rfl
  simp only [downloadFileWithCacheFS, hc, hn, hs, Bool.false_eq_true, if_false] at h
  rcases hct : createTemp cacheDir (e.random.take 10000) fs1 with ⟨fs2, _ | tmp⟩
  · left
    have := createTemp_none _ _ _ _ hct
    subst this
    simp only [hct, Prod.mk.injEq] at h
    exact ⟨h.2.symm, h.1.symm⟩
  · right
    obtain ⟨ht1, ht2, r, hr, ht3⟩ := createTemp_some _ _ _ _ _ hct
    subst ht2
    simp only [hct] at h
    refine ⟨tmp, ht1, ⟨r, List.mem_of_mem_take hr, ht3⟩, ?_⟩
    cases hg : e.get url with
    | transportError =>
      simp only [hg, Prod.mk.injEq] at h
      obtain ⟨h1, h2⟩ := h
      subst h1 h2
      exact ⟨rfl, Or.inl ⟨_, rfl, Or.inl rfl, remove_created tmp fs1 _ _ ht1⟩⟩
    | response status body =>
      simp only [hg] at h
      by_cases hst : status = 200
      · subst hst
        simp only [ne_eq, not_true_eq_false, if_false] at h
        cases hce : e.copyError with
        | some k =>
          simp only [hce, Prod.mk.injEq] at h
          obtain ⟨h1, h2⟩ := h
          subst h1 h2
          refine ⟨rfl, Or.inl ⟨_, rfl, Or.inr (Or.inr (Or.inl rfl)), ?_⟩⟩
          simp only [copy_created]
          exact remove_created tmp fs1 _ _ ht1
        | none =>
          simp only [hce, copy_created] at h
          rcases hrn : rename tmp (join [cacheDir, name]) e.renameError
            (Function.update fs1 tmp (some (.file 0o600 body))) with ⟨fs3, _ | _⟩
          · have := rename_false _ _ _ _ _ hrn
            subst this
            simp only [hrn, Prod.mk.injEq] at h
            obtain ⟨h1, h2⟩ := h
            subst h1 h2
            exact ⟨rfl, Or.inl ⟨_, rfl, Or.inr (Or.inr (Or.inr rfl)),
              remove_created tmp fs1 _ _ ht1⟩⟩
          · obtain ⟨n, hn1, hn2⟩ := rename_true _ _ _ _ _ hrn
            rw [Function.update_same] at hn1
            cases hn1
            subst hn2
            simp only [hrn, Prod.mk.injEq] at h
            obtain ⟨h1, h2⟩ := h
            subst h1 h2
            exact ⟨rfl, Or.inr ⟨body, rfl, rfl, rfl, fun q => remove_renamed tmp _ fs1 _ body q⟩⟩
      · simp only [ne_eq, hst, not_false_eq_true, if_true, Prod.mk.injEq] at h
        obtain ⟨h1, h2⟩ := h
        subst h1 h2
        exact ⟨rfl, Or.inl ⟨_, rfl, Or.inr (Or.inl ⟨status, rfl⟩), remove_created tmp fs1 _ _ ht1⟩⟩

theorem getCacheDirFS_again (H : Str) (fs : FS)
    (h : ∀ q ∈ ancestors (join [H, ".gopy".toList, "cache".toList]), ∃ m, fs q = some (.dir m)) :
    getCacheDirFS (some H) fs = (fs, .ok (join [H, ".gopy".toList, "cache".toList])) := by
  unfold getCacheDirFS
  dsimp only
  rw [mkdirAll_again _ _ _ h]

/-- C16: when `downloadFileWithCache` returns an error of the transport, of
the HTTP status, of the writing or of the renaming, the cache path was looked
up without success, the temporary file was created, and in the state returned
the file system is the one the making of the cache directory left: the cache
path holds nothing, the path of the temporary file holds nothing, and nothing
that existed before the call is lost. -/
theorem downloadFileWithCacheFS_error (e : CallEnv) (url : Str) (w w1 : World)
    (err : FetchError) (h : downloadFileWithCacheFS e url w = (w1, .error err))
    (hmiss : err = .transport ∨ (∃ s, err = .badStatus s) ∨ err = .write ∨ err = .rename) :
    ∃ H name tmp,
      e.homeDir = some H ∧ cachedFilename url = some name
        ∧ (∃ r ∈ e.random, tmp = tempName (join [H, ".gopy".toList, "cache".toList]) r)
        ∧ w1.fs = (fsCall (.mkdirAll (join [H, ".gopy".toList, "cache".toList]) 0o755) w.fs).1
        ∧ w1.fs (join [join [H, ".gopy".toList, "cache".toList], name]) = none
        ∧ w1.fs tmp = none
        ∧ (∀ q, w.fs q ≠ none → w1.fs q = w.fs q)
        ∧ w1.requests = w.requests ++ [url] := by
  rcases hc : getCacheDirFS e.homeDir w.fs with ⟨fs1, err1 | cacheDir⟩
  · have h2 := h
    simp only [downloadFileWithCacheFS, hc, Prod.mk.injEq, Except.error.injEq] at h2
    rcases (getCacheDirFS_error _ _ _ _ hc).1 with h3 | h3 <;>
      rw [h3] at h2 <;> rw [← h2.2] at hmiss <;> simp at hmiss
  · obtain ⟨H, hH, hcd, hmk⟩ := getCacheDirFS_ok _ _ _ _ hc
    obtain ⟨name, hn⟩ := cachedFilename_some url
    by_cases hex : fs1 (join [cacheDir, name]) = none
    · rcases downloadFileWithCacheFS_miss e url w w1 fs1 cacheDir name _ hc hn hex h with
        ⟨h1, -⟩ | ⟨tmp, ht, hr, hreq, hres⟩
      · simp only [Except.error.injEq] at h1
        rw [h1] at hmiss
        simp at hmiss
      · rcases hres with ⟨err2, -, -, hfs⟩ | ⟨body, h1, -⟩
        · subst hcd
          refine ⟨H, name, tmp, hH, hn, hr, ?_, ?_, ?_, ?_, hreq⟩
          · rw [hfs, hmk]
          · rw [hfs]
            exact hex
          · rw [hfs]
            exact ht
          · intro q hq
            rw [hfs]
            exact (mkdirAll_ok _ _ _ _ hmk).2 q hq
        · simp at h1
    · rw [downloadFileWithCacheFS_hit e url w fs1 cacheDir name hc hn hex] at h
      simp at h

/-- Two calls of `downloadFileWithCache` with the same URL
and home directory, the first returning a path without error and nothing
touched in between.  The path is the cache path of the URL.  When the first
call finds the cache path, no request is made in either call; when it does
not, the first call makes exactly one request and, the temporary file not
being the cache path itself, the second call makes none.  The second call
returns the same path and leaves the state as it is.  In general a call that
finds the cache path returns it without a request. -/
theorem downloadFileWithCacheFS_twice (e1 e2 : CallEnv) (url : Str) (w w1 : World) (path : Str)
    (hhome : e2.homeDir = e1.homeDir)
    (h : downloadFileWithCacheFS e1 url w = (w1, .ok path)) :
    (∃ H name, e1.homeDir = some H ∧ cachedFilename url = some name
        ∧ path = join [join [H, ".gopy".toList, "cache".toList], name])
      ∧ ((getCacheDirFS e1.homeDir w.fs).1 path ≠ none →
          w1.requests = w.requests ∧ downloadFileWithCacheFS e2 url w1 = (w1, .ok path))
      ∧ ((getCacheDirFS e1.homeDir w.fs).1 path = none →
          w1.requests = w.requests ++ [url]
            ∧ ((∀ r ∈ e1.random, ∀ cacheDir,
                  (getCacheDirFS e1.homeDir w.fs).2 = .ok cacheDir → tempName cacheDir r ≠ path) →
                w1.fs path ≠ none ∧ downloadFileWithCacheFS e2 url w1 = (w1, .ok path)))
      ∧ (w.fs path ≠ none → (getCacheDirFS e1.homeDir w.fs).1 path ≠ none)
      ∧ (∀ (e : CallEnv) (w0 : World) (fs0 : FS) (cacheDir name : Str),
          getCacheDirFS e.homeDir w0.fs = (fs0, .ok cacheDir) → cachedFilename url = some name →
          fs0 (join [cacheDir, name]) ≠ none →
          downloadFileWithCacheFS e url w0 = (⟨fs0, w0.requests⟩, .ok (join [cacheDir, name]))) := by
  rcases hc : getCacheDirFS e1.homeDir w.fs with ⟨fs1, err1 | cacheDir⟩
  · simp [downloadFileWithCacheFS, hc] at h
  obtain ⟨H, hH, hcd, hmk⟩ := getCacheDirFS_ok _ _ _ _ hc
  obtain ⟨name, hn⟩ := cachedFilename_some url
  obtain ⟨hdirs, hkeep⟩ := mkdirAll_ok _ _ _ _ hmk
  have hsecond : ∀ fs2 : FS, (∀ q, fs1 q ≠ none → fs2 q = fs1 q) → fs2 path ≠ none →
      path = join [cacheDir, name] → ∀ reqs,
      downloadFileWithCacheFS e2 url ⟨fs2, reqs⟩ = (⟨fs2, reqs⟩, .ok path) := by
    intro fs2 hfs hp hpath reqs
    have hc2 : getCacheDirFS e2.homeDir fs2 = (fs2, .ok cacheDir) := by
      rw [hhome, hH, hcd]
      apply getCacheDirFS_again
      intro q hq
      rw [← hcd] at hq
      obtain ⟨m, hm⟩ := hdirs q hq
      exact ⟨m, by rw [hfs q (by rw [hm]; simp), hm]⟩
    rw [hpath] at hp ⊢
    exact downloadFileWithCacheFS_hit e2 url ⟨fs2, reqs⟩ fs2 cacheDir name hc2 hn hp
  by_cases hex : fs1 (join [cacheDir, name]) = none
  · rcases downloadFileWithCacheFS_miss e1 url w w1 fs1 cacheDir name _ hc hn hex h with
      ⟨h1, -⟩ | ⟨tmp, ht, ⟨r, hr, htr⟩, hreq, hres⟩
    · simp at h1
    rcases hres with ⟨err2, h1, -⟩ | ⟨body, h1, -, -, hfs⟩
    · simp at h1
    simp only [Except.ok.injEq] at h1
    refine ⟨⟨H, name, hH, hn, by rw [h1, hcd]⟩, ?_, ?_, ?_, ?_⟩
    · intro hne
      rw [h1] at hne
      exact absurd hex hne
    · intro _
      refine ⟨hreq, fun hne => ?_⟩
      have htp : join [cacheDir, name] ≠ tmp := by
        rw [htr]
        exact fun heq => hne r hr cacheDir rfl (by rw [h1]; exact heq.symm)
      have hp1 : w1.fs path = some (.file 0o600 body) := by
        rw [hfs, h1, if_neg htp, if_pos rfl]
      have hp2 : w1.fs path ≠ none := by rw [hp1]; simp
      refine ⟨hp2, ?_⟩
      have := hsecond w1.fs (fun q hq => ?_) hp2 h1 w1.requests
      · exact this
      · have hq1 : q ≠ tmp := fun heq => hq (by rw [heq]; exact ht)
        have hq2 : q ≠ join [cacheDir, name] := fun heq => hq (by rw [heq]; exact hex)
        rw [hfs, if_neg hq1, if_neg hq2]
    · intro hne
      exact absurd (hkeep path hne ▸ hex ▸ (by rw [h1])) hne
    · intro e w0 fs0 cd nm h1 h2 h3
      exact downloadFileWithCacheFS_hit e url w0 fs0 cd nm h1 h2 h3
  · rw [downloadFileWithCacheFS_hit e1 url w fs1 cacheDir name hc hn hex] at h
    simp only [Prod.mk.injEq, Except.ok.injEq] at h
    obtain ⟨h1, h2⟩ := h
    subst h1
    refine ⟨⟨H, name, hH, hn, by rw [← h2, hcd]⟩, ?_, ?_, ?_, ?_⟩
    · intro _
      exact ⟨rfl, hsecond fs1 (fun _ _ => rfl) (by rw [← h2]; exact hex) h2.symm _⟩
    · intro hne
      rw [← h2] at hne
      exact absurd hne hex
    · intro _
      rw [← h2]
      exact hex
    · intro e w0 fs0 cd nm h1 h2 h3
      exact downloadFileWithCacheFS_hit e url w0 fs0 cd nm h1 h2 h3

set_option maxRecDepth 100000 in
/-- Witness of C16: the server answers with status 404; afterwards neither the
cache path nor the temporary file `download-7` exists, and one request was
made. -/
theorem downloadFileWithCacheFS_error_witness :
    (downloadFileWithCacheFS exampleEnvNotFound exampleURL ⟨exampleHomeFS, []⟩).2
        = .error (.badStatus 404)
      ∧ (downloadFileWithCacheFS exampleEnvNotFound exampleURL ⟨exampleHomeFS, []⟩).1.fs
          exampleCachePath = none
      ∧ (downloadFileWithCacheFS exampleEnvNotFound exampleURL ⟨exampleHomeFS, []⟩).1.fs
          "/home/u/.gopy/cache/download-7".toList = none
      ∧ (downloadFileWithCacheFS exampleEnvNotFound exampleURL ⟨exampleHomeFS, []⟩).1.requests
          = [exampleURL] := by
  obtain ⟨H, name, tmp, hH, hn, ⟨r, hr, htmp⟩, -, hp, ht, -, hreq⟩ :=
    downloadFileWithCacheFS_error exampleEnvNotFound exampleURL ⟨exampleHomeFS, []⟩
      (downloadFileWithCacheFS exampleEnvNotFound exampleURL ⟨exampleHomeFS, []⟩).1
      (.badStatus 404) (Prod.ext rfl rfl) (Or.inr (Or.inl ⟨404, rfl⟩))
  have hH2 : H = "/home/u".toList := (Option.some.inj hH).symm
  have hn2 : name = "a-3cbdcad9.zip".toList :=
    (Option.some.inj ((rfl : cachedFilename exampleURL = some "a-3cbdcad9.zip".toList).symm.trans
      hn)).symm
  have hr2 : r = 7 := List.mem_singleton.mp hr
  subst hH2 hn2 hr2
  have e1 : join [join ["/home/u".toList, ".gopy".toList, "cache".toList],
      "a-3cbdcad9.zip".toList] = exampleCachePath := by decide
  have e2 : tempName (join ["/home/u".toList, ".gopy".toList, "cache".toList]) 7
      = "/home/u/.gopy/cache/download-7".toList := by decide
  rw [e1] at hp
  rw [e2] at htmp
  subst htmp
  exact ⟨rfl, hp, ht, hreq⟩

set_option maxRecDepth 100000 in
/-- A cache that holds the file of the URL before the first of two calls:
both calls return the cache path and no request at all is made. -/
theorem downloadFileWithCacheFS_twice_cached :
    (downloadFileWithCacheFS exampleEnv exampleURL ⟨exampleCachedFS, []⟩).2
        = .ok exampleCachePath
      ∧ (downloadFileWithCacheFS exampleEnv exampleURL
          (downloadFileWithCacheFS exampleEnv exampleURL ⟨exampleCachedFS, []⟩).1).2
        = .ok exampleCachePath
      ∧ (downloadFileWithCacheFS exampleEnv exampleURL
          (downloadFileWithCacheFS exampleEnv exampleURL ⟨exampleCachedFS, []⟩).1).1.requests.length
        = 0 :=
  ⟨rfl, rfl, rfl⟩

set_option maxRecDepth 100000 in
/-- Two calls from a file system without the cache directory: the first call
makes the one request and the second returns the same path without a
request. -/
theorem downloadFileWithCacheFS_twice_witness :
    (downloadFileWithCacheFS exampleEnv exampleURL ⟨exampleHomeFS, []⟩).2 = .ok exampleCachePath
      ∧ (downloadFileWithCacheFS exampleEnv exampleURL ⟨exampleHomeFS, []⟩).1.requests
          = [exampleURL]
      ∧ downloadFileWithCacheFS exampleEnv exampleURL
          (downloadFileWithCacheFS exampleEnv exampleURL ⟨exampleHomeFS, []⟩).1
        = ((downloadFileWithCacheFS exampleEnv exampleURL ⟨exampleHomeFS, []⟩).1,
            .ok exampleCachePath) := by
  have h := (downloadFileWithCacheFS_twice exampleEnv exampleEnv exampleURL ⟨exampleHomeFS, []⟩
    (downloadFileWithCacheFS exampleEnv exampleURL ⟨exampleHomeFS, []⟩).1 exampleCachePath rfl
    (Prod.ext rfl rfl)).2.2.1 (by decide)
  refine ⟨rfl, h.1, (h.2 ?_).2⟩
  intro r hr cacheDir hcd
  have hr2 : r = 7 := List.mem_singleton.mp hr
  have hc2 : cacheDir = "/home/u/.gopy/cache".toList :=
    (Except.ok.inj ((rfl : (getCacheDirFS exampleEnv.homeDir exampleHomeFS).2
      = .ok "/home/u/.gopy/cache".toList).symm.trans hcd)).symm
  subst hr2 hc2
  decide

set_option maxRecDepth 100000 in
/-- C15, at the failing input: the temporary file can be the cache path itself.
For `exampleDigitsURL` and the number 72240362 drawn by `os.CreateTemp` both
are `download-72240362`.  The first call then returns the cache path without
error, the deferred `os.Remove` deletes the file just put there, nothing is at
the path returned, and the second call with the same URL makes a second
request. -/
theorem downloadFileWithCacheFS_same_name :
    cachedFilename exampleDigitsURL = some "download-72240362".toList
      ∧ tempName "/home/u/.gopy/cache".toList 72240362
          = "/home/u/.gopy/cache/download-72240362".toList
      ∧ (downloadFileWithCacheFS exampleEnvDigits exampleDigitsURL ⟨exampleHomeFS, []⟩).2
          = .ok "/home/u/.gopy/cache/download-72240362".toList
      ∧ (downloadFileWithCacheFS exampleEnvDigits exampleDigitsURL ⟨exampleHomeFS, []⟩).1.fs
          "/home/u/.gopy/cache/download-72240362".toList = none
      ∧ (downloadFileWithCacheFS exampleEnvDigits exampleDigitsURL
          (downloadFileWithCacheFS exampleEnvDigits exampleDigitsURL ⟨exampleHomeFS, []⟩).1).1.requests
          = [exampleDigitsURL, exampleDigitsURL] :=
  ⟨rfl, rfl, rfl, rfl, rfl⟩

/-! ## The environment file -/

theorem mem_of_mem_split (sep : Char) (s : Str) :
    ∀ seg ∈ split sep s, ∀ c ∈ seg, c ∈ s := by
  induction s with
  | nil => simp [split]
  | cons c cs ih =>
    by_cases hc : c = sep
    · intro seg hseg x hx
      simp only [split, hc, if_true, List.mem_cons] at hseg
      rcases hseg with h | h
      · subst h
        simp at hx
      · exact List.mem_cons_of_mem _ (ih seg h x hx)
    · intro seg hseg x hx
      simp only [split, hc, if_false] at hseg
      cases hsp : split sep cs with
      | nil => exact absurd hsp (split_ne_nil sep cs)
      | cons s0 rest =>
        rw [hsp] at hseg ih
        simp only [List.mem_cons] at hseg
        rcases hseg with h | h
        · subst h
          rcases List.mem_cons.mp hx with h2 | h2
          · rw [h2]
            exact List.mem_cons_self _ _
          · exact List.mem_cons_of_mem _ (ih s0 (List.mem_cons_self _ _) x h2)
        · exact List.mem_cons_of_mem _ (ih seg (List.mem_cons_of_mem _ h) x hx)

theorem mem_joinWith (sep : Str) (xs : List Str) (c : Char) (h : c ∈ joinWith sep xs) :
    c ∈ sep ∨ ∃ x ∈ xs, c ∈ x := by
  induction xs with
  | nil => simp [joinWith] at h
  | cons e es ih =>
    cases es with
    | nil =>
      simp only [joinWith] at h
      exact Or.inr ⟨e, List.mem_cons_self _ _, h⟩
    | cons e2 es2 =>
      simp only [joinWith, List.mem_append] at h
      rcases h with (h | h) | h
      · exact Or.inr ⟨e, List.mem_cons_self _ _, h⟩
      · exact Or.inl h
      · rcases ih h with h2 | ⟨x, hx, hc⟩
        · exact Or.inl h2
        · exact Or.inr ⟨x, List.mem_cons_of_mem _ hx, hc⟩

theorem cleanStep_stack (rooted : Bool) (st : CleanState) (e : Str) :
    ∀ x ∈ (cleanStep rooted st e).stack, x ∈ st.stack ∨ x = e := by
  intro x hx
  unfold cleanStep at hx
  by_cases h1 : e = [] ∨ e = ".".toList
  · rw [if_pos h1] at hx
    exact Or.inl hx
  · rw [if_neg h1] at hx
    by_cases h2 : e = "..".toList
    · rw [if_pos h2] at hx
      cases hs : st.stack with
      | nil =>
        rw [hs] at hx
        cases rooted <;> simp [hs] at hx
      | cons a rest =>
        rw [hs] at hx
        exact Or.inl (List.mem_cons_of_mem _ hx)
    · rw [if_neg h2] at hx
      rcases List.mem_cons.mp hx with h | h
      · exact Or.inr h
      · exact Or.inl h

theorem foldl_cleanStep_stack (rooted : Bool) (es : List Str) (st : CleanState) :
    ∀ x ∈ (es.foldl (cleanStep rooted) st).stack, x ∈ st.stack ∨ x ∈ es := by
  induction es generalizing st with
  | nil => exact fun x hx => Or.inl hx
  | cons e rest ih =>
    intro x hx
    rcases ih (cleanStep rooted st e) x hx with h | h
    · rcases cleanStep_stack rooted st e x h with h2 | h2
      · exact Or.inl h2
      · exact Or.inr (by rw [h2]; exact List.mem_cons_self _ _)
    · exact Or.inr (List.mem_cons_of_mem _ h)

/-- The characters of a cleaned path are those of the path, the separator and
the dot. -/
theorem mem_clean (path : Str) (c : Char) (h : c ∈ clean path) :
    c = '/' ∨ c = '.' ∨ c ∈ path := by
  unfold clean at h
  simp only at h
  by_cases h0 : ((if hasPrefix path "/".toList = true then "/".toList else [])
      ++ joinWith "/".toList (List.replicate
        ((split '/' path).foldl (cleanStep (hasPrefix path "/".toList)) ⟨0, []⟩).ups "..".toList
        ++ ((split '/' path).foldl (cleanStep (hasPrefix path "/".toList)) ⟨0, []⟩).stack.reverse)) = []
  · rw [if_pos h0] at h
    right; left
    exact List.mem_singleton.mp h
  · rw [if_neg h0] at h
    rcases List.mem_append.mp h with h2 | h2
    · left
      by_cases hr : hasPrefix path "/".toList = true
      · rw [if_pos hr] at h2
        exact List.mem_singleton.mp h2
      · rw [if_neg hr] at h2
        simp at h2
    · rcases mem_joinWith _ _ _ h2 with h3 | ⟨x, hx, hc⟩
      · left
        exact List.mem_singleton.mp h3
      · rcases List.mem_append.mp hx with h4 | h4
        · right; left
          rw [List.eq_of_mem_replicate h4] at hc
          have : c ∈ ['.', '.'] := hc
          simpa using this
        · right; right
          rcases foldl_cleanStep_stack _ _ _ x (List.mem_reverse.mp h4) with h5 | h5
          · simp at h5
          · exact mem_of_mem_split '/' path x h5 c hc

theorem mem_join (es : List Str) (c : Char) (h : c ∈ join es) :
    c = '/' ∨ c = '.' ∨ ∃ e ∈ es, c ∈ e := by
  unfold join at h
  cases hd : es.dropWhile (fun e => decide (e = [])) with
  | nil => simp [hd] at h
  | cons a rest =>
    rw [hd] at h
    simp only at h
    rcases mem_clean _ c h with h1 | h1 | h1
    · exact Or.inl h1
    · exact Or.inr (Or.inl h1)
    · rcases mem_joinWith _ _ _ h1 with h2 | ⟨x, hx, hc⟩
      · left
        simpa using h2
      · right; right
        have : x ∈ es := (List.dropWhile_suffix _).subset (by rw [hd]; exact hx)
        exact ⟨x, this, hc⟩

theorem join_snoc_plain (es : List Str) (f : Str) (hf : plainName f) :
    ∃ X, join (es ++ [f]) = X ++ f ∧ (X = [] ∨ ∃ Y, X = Y ++ ['/']) := by
  have hfne : f ≠ [] := hf.2.1
  have hdrop : (es ++ [f]).dropWhile (fun e => decide (e = []))
      = es.dropWhile (fun e => decide (e = [])) ++ [f] := by
    induction es with
    | nil => simp [List.dropWhile, hfne]
    | cons e rest ih =>
      by_cases he : e = []
      · simp only [List.cons_append, List.dropWhile, he, decide_True]
        exact ih
      · simp [List.dropWhile, he]
  unfold join
  rw [hdrop]
  cases hL : es.dropWhile (fun e => decide (e = [])) with
  | nil =>
    refine ⟨[], ?_, Or.inl rfl⟩
    simp only [List.nil_append, joinWith]
    exact clean_plain f hf
  | cons a rest =>
    have : joinWith "/".toList (a :: rest ++ [f])
        = joinWith "/".toList (a :: rest) ++ '/' :: f := by
      rw [joinWith_append_singleton, if_neg (by simp)]
      simp
    simp only [List.cons_append] at this ⊢
    rw [this]
    exact clean_append_plain _ f hf

theorem trimSpace_id (s : Str) (a : Char) (t Z : Str) (c : Char) (h1 : s = a :: t)
    (ha : isSpace a = false) (h2 : s = Z ++ [c]) (hc : isSpace c = false) : trimSpace s = s := by
  unfold trimSpace
  have e1 : s.dropWhile isSpace = s := by
    rw [h1]
    simp [List.dropWhile, ha]
  rw [e1]
  have e2 : s.reverse.dropWhile isSpace = s.reverse := by
    rw [h2]
    simp [List.dropWhile, hc]
  rw [e2, List.reverse_reverse]

theorem split_joinWith (sep : Char) (lines : List Str) (hne : lines ≠ [])
    (h : ∀ l ∈ lines, sep ∉ l) : split sep (joinWith [sep] lines) = lines := by
  induction lines with
  | nil => exact absurd rfl hne
  | cons l rest ih =>
    cases rest with
    | nil =>
      simp only [joinWith]
      exact split_of_not_mem sep l (h l (List.mem_cons_self _ _))
    | cons l2 rest2 =>
      have e : joinWith [sep] (l :: l2 :: rest2) = l ++ sep :: joinWith [sep] (l2 :: rest2) := by
        simp [joinWith]
      rw [e, split_append_sep, split_of_not_mem sep l (h l (List.mem_cons_self _ _)),
        ih (by simp) (fun x hx => h x (List.mem_cons_of_mem _ hx))]
      rfl

theorem span_sep (sep : Char) (k v : Str) (hk : sep ∉ k) :
    (k ++ sep :: v).span (fun c => decide (c ≠ sep)) = (k, sep :: v) := by
  rw [List.span_eq_take_drop]
  induction k with
  | nil => simp [List.takeWhile, List.dropWhile]
  | cons c cs ih =>
    have hc : c ≠ sep := fun e => hk (by rw [e]; exact List.mem_cons_self _ _)
    have ih2 := ih (fun e => hk (List.mem_cons_of_mem _ e))
    simp only [Prod.mk.injEq] at ih2
    simp only [List.cons_append, List.takeWhile_cons, List.dropWhile_cons, hc, ne_eq,
      not_false_eq_true, decide_True, if_true, ih2.1, ih2.2]

theorem span_none (sep : Char) (s : Str) (hs : sep ∉ s) :
    s.span (fun c => decide (c ≠ sep)) = (s, []) := by
  rw [List.span_eq_take_drop]
  induction s with
  | nil => rfl
  | cons c cs ih =>
    have hc : c ≠ sep := fun e => hs (by rw [e]; exact List.mem_cons_self _ _)
    have ih2 := ih (fun e => hs (List.mem_cons_of_mem _ e))
    simp only [Prod.mk.injEq] at ih2
    simp only [List.takeWhile_cons, List.dropWhile_cons, hc, ne_eq, not_false_eq_true,
      decide_True, if_true, ih2.1, ih2.2]

/-- A line is split at its first `=`: the key is what stands before it, the
value everything after it. -/
theorem readEnvLine_entry (envs : EnvMap) (k v : Str) (hk : '=' ∉ k) :
    readEnvLine envs (k ++ "=".toList ++ v) = Function.update envs k (some v) := by
  have e : k ++ "=".toList ++ v = k ++ '=' :: v := by simp
  rw [e]
  simp only [readEnvLine, splitN, span_sep '=' k v hk]

/-- A line without `=` adds no entry. -/
theorem readEnvLine_plain (envs : EnvMap) (line : Str) (h : '=' ∉ line) :
    readEnvLine envs line = envs := by
  simp only [readEnvLine, splitN, span_none '=' line h]

theorem foldl_readEnvLine (entries : List (Str × Str)) (h : ∀ p ∈ entries, '=' ∉ p.1)
    (envs : EnvMap) :
    (entries.map envLine).foldl readEnvLine envs
      = entries.foldl (fun (m : EnvMap) (p : Str × Str) => Function.update m p.1 (some p.2)) envs := by
  induction entries generalizing envs with
  | nil => rfl
  | cons p rest ih =>
    simp only [List.map_cons, List.foldl_cons, envLine]
    rw [readEnvLine_entry envs p.1 p.2 (h p (List.mem_cons_self _ _))]
    exact ih (fun q hq => h q (List.mem_cons_of_mem _ hq)) _

theorem foldl_update_iff (entries : List (Str × Str))
    (hfun : ∀ k v v2, (k, v) ∈ entries → (k, v2) ∈ entries → v = v2) (k v : Str) :
    (entries.foldl (fun (m : EnvMap) (p : Str × Str) => Function.update m p.1 (some p.2)) (fun _ => none) : EnvMap) k
        = some v ↔ (k, v) ∈ entries := by
  induction entries using List.reverseRecOn with
  | nil => simp
  | append_singleton init p ih =>
    have ih2 := ih (fun k v v2 h1 h2 =>
      hfun k v v2 (List.mem_append_left _ h1) (List.mem_append_left _ h2))
    rw [List.foldl_append]
    simp only [List.foldl_cons, List.foldl_nil, List.mem_append, List.mem_singleton]
    by_cases hk : k = p.1
    · subst hk
      rw [Function.update_same]
      constructor
      · intro h
        right
        cases h
        rfl
      · intro h
        have hv : v = p.2 := hfun p.1 v p.2 (by
          rcases h with h | h
          · exact List.mem_append_left _ h
          · rw [h]
            exact List.mem_append_right _ (List.mem_singleton_self _))
          (List.mem_append_right _ (List.mem_singleton_self _))
        rw [hv]
    · rw [Function.update_noteq hk, ih2]
      constructor
      · exact fun h => Or.inl h
      · rintro (h | h)
        · exact h
        · exact absurd (congrArg Prod.fst h) hk

/-- What `ReadEnvFile` builds from the lines of a list of entries, none of
them with `=` in the key or a newline, when trimming leaves the text as it is. -/
theorem parseEnv_lines (entries : List (Str × Str))
    (h : ∀ p ∈ entries, '=' ∉ p.1 ∧ '\n' ∉ p.1 ∧ '\n' ∉ p.2)
    (htrim : trimSpace (joinWith "\n".toList (entries.map envLine))
      = joinWith "\n".toList (entries.map envLine)) :
    parseEnv (joinWith "\n".toList (entries.map envLine))
      = entries.foldl (fun (m : EnvMap) (p : Str × Str) => Function.update m p.1 (some p.2)) (fun _ => none) := by
  unfold parseEnv
  rw [htrim]
  cases entries with
  | nil =>
    have : split '\n' (joinWith "\n".toList (List.map envLine [])) = [[]] := rfl
    rw [this]
    simp only [List.foldl_cons, List.foldl_nil]
    exact readEnvLine_plain _ [] (by simp)
  | cons p rest =>
    have hs : split '\n' (joinWith "\n".toList ((p :: rest).map envLine))
        = (p :: rest).map envLine := by
      apply split_joinWith '\n' _ (by simp)
      intro l hl
      obtain ⟨q, hq, rfl⟩ := List.mem_map.mp hl
      obtain ⟨-, h2, h3⟩ := h q hq
      simp only [envLine, List.mem_append, not_or]
      exact ⟨⟨h2, by decide⟩, h3⟩
    rw [hs]
    exact foldl_readEnvLine _ (fun q hq => (h q hq).1) _

theorem mem_getPythonRoot (projectPath : Str) (c : Char) (h : c ∈ getPythonRoot projectPath) :
    c ∈ projectPath ∨ c ∈ "/.depsython".toList := by
  rcases mem_join _ c h with h1 | h1 | ⟨e, he, hc⟩
  · right; rw [h1]; decide
  · right; rw [h1]; decide
  · simp only [List.mem_cons, List.mem_singleton, List.not_mem_nil, or_false] at he
    rcases he with he | he | he
    · left; rw [← he]; exact hc
    · right
      rw [he] at hc
      have : c ∈ ['.', 'd', 'e', 'p', 's'] := hc
      revert this
      simp only [List.mem_cons, List.mem_singleton, List.not_mem_nil, or_false]
      rintro (h | h | h | h | h) <;> rw [h] <;> decide
    · right
      rw [he] at hc
      have : c ∈ ['p', 'y', 't', 'h', 'o', 'n'] := hc
      revert this
      simp only [List.mem_cons, List.mem_singleton, List.not_mem_nil, or_false]
      rintro (h | h | h | h | h | h) <;> rw [h] <;> decide

theorem getPythonRoot_python (projectPath : Str) :
    ∃ X, getPythonRoot projectPath = X ++ "python".toList ∧ (X = [] ∨ ∃ Y, X = Y ++ ['/']) :=
  join_snoc_plain [projectPath, ".deps".toList] "python".toList (by decide)

theorem newline_not_mem_getPythonBinDir (goos projectPath : Str) (h : '\n' ∉ projectPath) :
    '\n' ∉ getPythonBinDir goos projectPath := by
  intro hc
  have key : ∀ es : List Str, (∀ e ∈ es, e = getPythonRoot projectPath ∨ e = "bin".toList) →
      '\n' ∉ join es := by
    intro es hes hmem
    rcases mem_join _ _ hmem with h1 | h1 | ⟨e, he, hce⟩
    · exact absurd h1 (by decide)
    · exact absurd h1 (by decide)
    · rcases hes e he with h2 | h2
      · rw [h2] at hce
        rcases mem_getPythonRoot _ _ hce with h3 | h3
        · exact h h3
        · exact absurd h3 (by decide)
      · rw [h2] at hce
        exact absurd hce (by decide)
  unfold getPythonBinDir at hc
  by_cases hw : goos = "windows".toList
  · rw [if_pos hw] at hc
    exact key _ (by simp) hc
  · rw [if_neg hw] at hc
    exact key _ (by simp) hc

theorem getPythonBinDir_last (goos projectPath : Str) :
    ∃ Z, getPythonBinDir goos projectPath = Z ++ ['n'] := by
  unfold getPythonBinDir
  by_cases hw : goos = "windows".toList
  · rw [if_pos hw]
    obtain ⟨X, hX, hX2⟩ := getPythonRoot_python projectPath
    rw [hX]
    have hj : join [X ++ "python".toList] = clean (X ++ "python".toList) := by
      have hne : X ++ "python".toList ≠ [] := by simp
      simp [join, List.dropWhile, hne, joinWith]
    rw [hj]
    rcases hX2 with h | ⟨Y, h⟩
    · subst h
      rw [List.nil_append, clean_plain _ (by decide)]
      exact ⟨"pytho".toList, rfl⟩
    · subst h
      have e : Y ++ ['/'] ++ "python".toList = Y ++ '/' :: "python".toList := by simp
      rw [e]
      obtain ⟨X2, hX3, -⟩ := clean_append_plain Y "python".toList (by decide)
      rw [hX3]
      exact ⟨X2 ++ "pytho".toList, by simp⟩
  · rw [if_neg hw]
    obtain ⟨X, hX, -⟩ := join_snoc_plain [getPythonRoot projectPath] "bin".toList (by decide)
    have e : [getPythonRoot projectPath] ++ ["bin".toList]
        = [getPythonRoot projectPath, "bin".toList] := rfl
    rw [e] at hX
    rw [hX]
    exact ⟨X ++ "bi".toList, by simp⟩

theorem envVars_eq (goos projectPath pythonHome pythonPath : Str) :
    envVars goos projectPath pythonHome pythonPath
      = [("PYTHONPATH".toList, trimSpace pythonPath), ("PYTHONHOME".toList, pythonHome),
          ("PATH".toList, getPythonBinDir goos projectPath)].map envLine := by
  simp [envVars, envLine]

/-- C12: when the project path, the Python home and the trimmed Python path
hold no newline and the environment file can be written, `WriteEnvFile`
returns nil after writing the three lines `PYTHONPATH=`, `PYTHONHOME=` and
`PATH=` with the trimmed Python path, the Python home and the binary
directory, joined by newlines, into the environment file and nothing else, and
`ReadEnvFile` for the same project returns the map of exactly these three
entries. -/
theorem WriteEnvFile_ReadEnvFile (goos projectPath pythonHome pythonPath : Str) (fs : TextFS)
    (hp : '\n' ∉ projectPath) (hh : '\n' ∉ pythonHome) (hpp : '\n' ∉ trimSpace pythonPath)
    (hw : fs.writable (getEnvConfigPath projectPath) = true) :
    (WriteEnvFile goos projectPath pythonHome pythonPath fs).2 = none
      ∧ (WriteEnvFile goos projectPath pythonHome pythonPath fs).1.content
          (getEnvConfigPath projectPath)
        = some ("PYTHONPATH=".toList ++ trimSpace pythonPath ++ "\n".toList
            ++ ("PYTHONHOME=".toList ++ pythonHome ++ "\n".toList
            ++ ("PATH=".toList ++ getPythonBinDir goos projectPath)))
      ∧ (∀ q, q ≠ getEnvConfigPath projectPath →
          (WriteEnvFile goos projectPath pythonHome pythonPath fs).1.content q = fs.content q)
      ∧ ∃ m, ReadEnvFile projectPath (WriteEnvFile goos projectPath pythonHome pythonPath fs).1
            = .ok m
          ∧ ∀ k, m k = if k = "PYTHONPATH".toList then some (trimSpace pythonPath)
              else if k = "PYTHONHOME".toList then some pythonHome
              else if k = "PATH".toList then some (getPythonBinDir goos projectPath)
              else none := by
  have hW : WriteEnvFile goos projectPath pythonHome pythonPath fs
      = (⟨Function.update fs.content (getEnvConfigPath projectPath)
          (some (joinWith "\n".toList (envVars goos projectPath pythonHome pythonPath))),
          fs.writable⟩, none) := by
    simp only [WriteEnvFile, hw, if_true]
  rw [hW]
  refine ⟨rfl, ?_, ?_, ?_⟩
  · simp only [Function.update_same, envVars, joinWith]
  · intro q hq
    simp only [Function.update_noteq hq]
  · refine ⟨parseEnv (joinWith "\n".toList (envVars goos projectPath pythonHome pythonPath)),
      by simp only [ReadEnvFile, Function.update_same], ?_⟩
    obtain ⟨Z, hZ⟩ := getPythonBinDir_last goos projectPath
    have hbin := newline_not_mem_getPythonBinDir goos projectPath hp
    rw [envVars_eq]
    rw [parseEnv_lines]
    · intro k
      simp only [List.foldl_cons, List.foldl_nil]
      have d1 : "PYTHONPATH".toList ≠ "PYTHONHOME".toList := by decide
      have d2 : "PYTHONPATH".toList ≠ "PATH".toList := by decide
      have d3 : "PYTHONHOME".toList ≠ "PATH".toList := by decide
      by_cases h3 : k = "PATH".toList
      · rw [h3, Function.update_same, if_neg d2.symm, if_neg d3.symm, if_pos rfl]
      · rw [Function.update_noteq h3, if_neg h3]
        by_cases h2 : k = "PYTHONHOME".toList
        · rw [h2, Function.update_same, if_neg d1.symm, if_pos rfl]
        · rw [Function.update_noteq h2, if_neg h2]
          by_cases h1 : k = "PYTHONPATH".toList
          · rw [h1, Function.update_same, if_pos rfl]
          · rw [Function.update_noteq h1, if_neg h1]
    · intro p hp2
      simp only [List.mem_cons, List.mem_singleton, List.not_mem_nil, or_false] at hp2
      rcases hp2 with h | h | h <;> subst h
      · exact ⟨(by decide : '=' ∉ "PYTHONPATH".toList), (by decide : '\n' ∉ "PYTHONPATH".toList),
          hpp⟩
      · exact ⟨(by decide : '=' ∉ "PYTHONHOME".toList), (by decide : '\n' ∉ "PYTHONHOME".toList),
          hh⟩
      · exact ⟨(by decide : '=' ∉ "PATH".toList), (by decide : '\n' ∉ "PATH".toList), hbin⟩
    · rw [← envVars_eq]
      apply trimSpace_id _ 'P'
        ("YTHONPATH=".toList ++ trimSpace pythonPath ++ "\n".toList
          ++ ("PYTHONHOME=".toList ++ pythonHome ++ "\n".toList ++ "PATH=".toList)
          ++ getPythonBinDir goos projectPath)
        ("PYTHONPATH=".toList ++ trimSpace pythonPath ++ "\n".toList
          ++ ("PYTHONHOME=".toList ++ pythonHome ++ "\n".toList ++ "PATH=".toList) ++ Z) 'n'
      · simp [envVars, joinWith]
      · decide
      · simp [envVars, joinWith, hZ]
      · decide

/-- Witness of C12: the project `/p` on Linux, a Python path with blanks around
it and with `=` in it. -/
theorem WriteEnvFile_ReadEnvFile_witness :
    ∃ m, ReadEnvFile "/p".toList (WriteEnvFile "linux".toList "/p".toList
          "/p/.deps/python".toList " /a=b:/c \n".toList emptyTextFS).1 = .ok m
      ∧ m "PYTHONPATH".toList = some "/a=b:/c".toList
      ∧ m "PYTHONHOME".toList = some "/p/.deps/python".toList
      ∧ m "PATH".toList = some "/p/.deps/python/bin".toList
      ∧ m "HOME".toList = none := by
  obtain ⟨m, hm, hk⟩ := (WriteEnvFile_ReadEnvFile "linux".toList "/p".toList
    "/p/.deps/python".toList " /a=b:/c \n".toList emptyTextFS (by decide) (by decide)
    (by decide) rfl).2.2.2
  refine ⟨m, hm, ?_, ?_, ?_, ?_⟩
  · rw [hk]
    decide
  · rw [hk]
    decide
  · rw [hk]
    decide
  · rw [hk]
    decide

theorem joinWith_head (sep : Str) (l : Str) (ls : List Str) (a : Char) (t : Str)
    (h : l = a :: t) : ∃ t2, joinWith sep (l :: ls) = a :: t2 := by
  cases ls with
  | nil => exact ⟨t, by simp [joinWith, h]⟩
  | cons l2 rest => exact ⟨t ++ sep ++ joinWith sep (l2 :: rest), by simp [joinWith, h]⟩

theorem joinWith_last (sep : Str) (init : List Str) (l Z : Str) (c : Char)
    (h : l = Z ++ [c]) : ∃ Z2, joinWith sep (init ++ [l]) = Z2 ++ [c] := by
  rw [joinWith_append_singleton]
  by_cases hi : init = []
  · rw [if_pos hi]
    exact ⟨Z, h⟩
  · rw [if_neg hi]
    exact ⟨joinWith sep init ++ sep ++ Z, by simp [h]⟩

/-- C13: for a map whose entries are listed, in any order, by a list of pairs
with keys that are not empty, hold neither `=` nor a newline and do not begin
with white space, and values that hold no newline and do not end in white
space: when the environment file holds one line `KEY=VALUE` per pair of the
list, joined by newlines, `ReadEnvFile` returns that map.  A line is split at
its first `=` only, and a line without `=` adds no entry. -/
theorem ReadEnvFile_of_lines (projectDir : Str) (fs : TextFS) (entries : List (Str × Str))
    (m : EnvMap) (hm : ∀ k v, m k = some v ↔ (k, v) ∈ entries)
    (hkv : ∀ p ∈ entries, p.1 ≠ [] ∧ '=' ∉ p.1 ∧ '\n' ∉ p.1 ∧ '\n' ∉ p.2)
    (hsp : ∀ p ∈ entries, (∀ c, p.1.head? = some c → isSpace c = false)
      ∧ (∀ c, p.2.getLast? = some c → isSpace c = false))
    (hfile : fs.content (getEnvConfigPath projectDir)
      = some (joinWith "\n".toList (entries.map envLine))) :
    ReadEnvFile projectDir fs = .ok m
      ∧ (∀ (envs : EnvMap) (k v : Str), '=' ∉ k →
          readEnvLine envs (k ++ "=".toList ++ v) = Function.update envs k (some v))
      ∧ (∀ (envs : EnvMap) (line : Str), '=' ∉ line → readEnvLine envs line = envs) := by
  refine ⟨?_, readEnvLine_entry, readEnvLine_plain⟩
  have htrim : trimSpace (joinWith "\n".toList (entries.map envLine))
      = joinWith "\n".toList (entries.map envLine) := by
    rcases List.eq_nil_or_concat entries with h | ⟨init, q, h⟩
    · subst h
      rfl
    · obtain ⟨Z, c, hZ, hc⟩ : ∃ Z c, envLine q = Z ++ [c] ∧ isSpace c = false := by
        have hq : q ∈ entries := by rw [h]; simp
        rcases List.eq_nil_or_concat q.2 with h2 | ⟨V, c, h2⟩
        · exact ⟨q.1, '=', by simp [envLine, h2], by decide⟩
        · refine ⟨q.1 ++ "=".toList ++ V, c, by simp [envLine, h2], (hsp q hq).2 c ?_⟩
          rw [h2]
          simp
      obtain ⟨Z2, hZ2⟩ := joinWith_last "\n".toList (init.map envLine) (envLine q) Z c hZ
      cases hent : entries with
      | nil => rw [hent] at h; simp at h
      | cons p rest =>
        have hp : p ∈ entries := by rw [hent]; exact List.mem_cons_self _ _
        obtain ⟨a, t, ha⟩ : ∃ a t, p.1 = a :: t := by
          cases h1 : p.1 with
          | nil => exact absurd h1 (hkv p hp).1
          | cons a t => exact ⟨a, t, rfl⟩
        have hsa : isSpace a = false := (hsp p hp).1 a (by rw [ha]; rfl)
        obtain ⟨t2, ht2⟩ := joinWith_head "\n".toList (envLine p) (rest.map envLine) a
          (t ++ "=".toList ++ p.2) (by simp [envLine, ha])
        rw [← hent]
        apply trimSpace_id _ a t2 Z2 c
        · rw [hent]
          exact ht2
        · exact hsa
        · rw [h, List.concat_eq_append, List.map_append]
          exact hZ2
        · exact hc
  have hparse := parseEnv_lines entries (fun p hp => ⟨(hkv p hp).2.1, (hkv p hp).2.2⟩) htrim
  simp only [ReadEnvFile, hfile, hparse]
  congr 1
  funext k
  apply Option.ext
  intro v
  have hfun : ∀ k v v2, (k, v) ∈ entries → (k, v2) ∈ entries → v = v2 := by
    intro k v v2 h1 h2
    have e1 := (hm k v).mpr h1
    have e2 := (hm k v2).mpr h2
    rw [e1] at e2
    exact Option.some.inj e2
  simp only [Option.mem_def]
  rw [foldl_update_iff entries hfun k v, hm k v]

/-- Witness of C13: the file lists `B=x=y` before `A=1`. -/
theorem ReadEnvFile_of_lines_witness :
    ReadEnvFile "/p".toList exampleTextFS = .ok exampleEnvMap
      ∧ exampleEnvMap "B".toList = some "x=y".toList := by
  refine ⟨(ReadEnvFile_of_lines "/p".toList exampleTextFS exampleEntries.reverse exampleEnvMap
    ?_ ?_ ?_ rfl).1, rfl⟩
  · intro k v
    have hl : exampleEntries.reverse
        = [("B".toList, "x=y".toList), ("A".toList, "1".toList)] := rfl
    rw [hl]
    simp only [List.mem_cons, List.mem_singleton, List.not_mem_nil, or_false, Prod.mk.injEq]
    unfold exampleEnvMap
    by_cases hA : k = "A".toList
    · rw [if_pos hA]
      constructor
      · intro h
        exact Or.inr ⟨hA, (Option.some.inj h).symm⟩
      · rintro (⟨h1, -⟩ | ⟨-, h2⟩)
        · rw [hA] at h1
          exact absurd h1 (by decide)
        · rw [h2]
    · rw [if_neg hA]
      by_cases hB : k = "B".toList
      · rw [if_pos hB]
        constructor
        · intro h
          exact Or.inl ⟨hB, (Option.some.inj h).symm⟩
        · rintro (⟨-, h2⟩ | ⟨h1, -⟩)
          · rw [h2]
          · exact absurd h1 hA
      · rw [if_neg hB]
        constructor
        · intro h
          cases h
        · rintro (⟨h1, -⟩ | ⟨h1, -⟩)
          · exact absurd h1 hB
          · exact absurd h1 hA
  · intro p hp
    have hl : exampleEntries.reverse
        = [("B".toList, "x=y".toList), ("A".toList, "1".toList)] := rfl
    rw [hl] at hp
    simp only [List.mem_cons, List.mem_singleton, List.not_mem_nil, or_false] at hp
    rcases hp with h | h <;> subst h <;> decide
  · intro p hp
    have hl : exampleEntries.reverse
        = [("B".toList, "x=y".toList), ("A".toList, "1".toList)] := rfl
    rw [hl] at hp
    simp only [List.mem_cons, List.mem_singleton, List.not_mem_nil, or_false] at hp
    rcases hp with h | h <;> subst h
    · refine ⟨fun c hc => ?_, fun c hc => ?_⟩
      · have : c = 'B' := (Option.some.inj hc).symm
        rw [this]
        decide
      · have : c = 'y' := (Option.some.inj hc).symm
        rw [this]
        decide
    · refine ⟨fun c hc => ?_, fun c hc => ?_⟩
      · have : c = 'A' := (Option.some.inj hc).symm
        rw [this]
        decide
      · have : c = '1' := (Option.some.inj hc).symm
        rw [this]
        decide

/-! ## The prefix written into the descriptors -/

theorem prefix_of_prefix_replaceAllAux (old new : Str) (p : Char) (new1 : Str)
    (hn : new = p :: new1) (fuel : Nat) (s r : Str) (hr : p ∉ r)
    (h : r <+: replaceAllAux old new fuel s) : r <+: s := by
  induction fuel generalizing s r with
  | zero =>
    simp only [replaceAllAux] at h
    exact h
  | succ n ih =>
    cases s with
    | nil =>
      simp only [replaceAllAux] at h
      exact h
    | cons c cs =>
      cases r with
      | nil => exact List.nil_prefix
      | cons x r1 =>
        simp only [replaceAllAux] at h
        by_cases hpre : hasPrefix (c :: cs) old = true
        · rw [if_pos hpre, hn, List.cons_append, List.cons_prefix_cons] at h
          exact absurd (by rw [h.1]; exact List.mem_cons_self _ _) hr
        · rw [if_neg hpre, List.cons_prefix_cons] at h
          rw [List.cons_prefix_cons]
          exact ⟨h.1, ih cs r1 (fun hm => hr (List.mem_cons_of_mem _ hm)) h.2⟩

theorem infix_append_cases {α : Type} (l a b : List α) (h : l <:+: a ++ b) :
    l <:+: a ∨ l <:+: b
      ∨ ∃ u v, l = u ++ v ∧ u ≠ [] ∧ v ≠ [] ∧ u <:+ a ∧ v <+: b := by
  induction a with
  | nil => exact Or.inr (Or.inl (by simpa using h))
  | cons x a1 ih =>
    rw [List.cons_append] at h
    rcases List.infix_cons_iff.mp h with h1 | h1
    · have hA : x :: a1 <+: x :: (a1 ++ b) := by
        rw [← List.cons_append]
        exact List.prefix_append _ _
      rcases List.prefix_or_prefix_of_prefix h1 hA with h2 | h2
      · exact Or.inl h2.isInfix
      · obtain ⟨v, hv⟩ := h2
        by_cases hv0 : v = []
        · left
          rw [← hv, hv0, List.append_nil]
        · right; right
          refine ⟨x :: a1, v, hv.symm, by simp, hv0, List.suffix_rfl, ?_⟩
          rw [← hv, ← List.cons_append] at h1
          exact (List.prefix_append_right_inj _).mp h1
    · rcases ih h1 with h2 | h2 | ⟨u, v, h3, h4, h5, h6, h7⟩
      · exact Or.inl (h2.trans (List.suffix_cons _ _).isInfix)
      · exact Or.inr (Or.inl h2)
      · exact Or.inr (Or.inr ⟨u, v, h3, h4, h5, h6.trans (List.suffix_cons _ _), h7⟩)

/-- After `strings.ReplaceAll` no occurrence of `old` is left, when `old` begins
with a character it holds only once, `new` begins with the same character and
neither holds `old` nor ends where `old` begins. -/
theorem replaceAllAux_no_old (old new : Str) (p : Char) (old1 new1 : Str)
    (ho : old = p :: old1) (hp : p ∉ old1) (hn : new = p :: new1)
    (h1 : ¬ old <:+: new)
    (h2 : ∀ u v, old = u ++ v → u ≠ [] → v ≠ [] → ¬ u <:+ new)
    (fuel : Nat) (s : Str) (hf : s.length ≤ fuel) :
    ¬ old <:+: replaceAllAux old new fuel s := by
  subst ho
  induction fuel using Nat.strong_induction_on generalizing s with
  | _ fuel ih =>
    cases s with
    | nil =>
      have : replaceAllAux (p :: old1) new fuel [] = [] := by
        cases fuel <;> rfl
      rw [this]
      intro h
      have := List.eq_nil_of_infix_nil h
      cases this
    | cons c cs =>
      obtain ⟨n, rfl⟩ : ∃ n, fuel = n + 1 := by
        cases fuel with
        | zero => simp at hf
        | succ n => exact ⟨n, rfl⟩
      simp only [List.length_cons, Nat.add_le_add_iff_right] at hf
      simp only [replaceAllAux]
      by_cases hpre : hasPrefix (c :: cs) (p :: old1) = true
      · rw [if_pos hpre]
        intro h
        have hlen : ((c :: cs).drop (p :: old1).length).length ≤ n := by
          simp only [List.length_cons, List.drop_succ_cons, List.length_drop]
          omega
        rcases infix_append_cases _ _ _ h with h3 | h3 | ⟨u, v, h4, h5, h6, h7, -⟩
        · exact h1 h3
        · exact ih n (Nat.lt_succ_self n) _ hlen h3
        · exact h2 u v h4 h5 h6 h7
      · rw [if_neg hpre]
        intro h
        rcases List.infix_cons_iff.mp h with h3 | h3
        · apply hpre
          rw [hasPrefix_iff]
          rw [List.cons_prefix_cons] at h3 ⊢
          exact ⟨h3.1, prefix_of_prefix_replaceAllAux _ new p new1 hn n cs old1 hp h3.2⟩
        · exact ih n (Nat.lt_succ_self n) cs hf h3

/-- After `strings.ReplaceAll` the text holds `new` when it held `old`. -/
theorem replaceAllAux_has_new (old new : Str) (hne : old ≠ []) (fuel : Nat) (s : Str)
    (hf : s.length ≤ fuel) (h : old <:+: s) : new <:+: replaceAllAux old new fuel s := by
  induction fuel using Nat.strong_induction_on generalizing s with
  | _ fuel ih =>
    cases s with
    | nil => exact absurd (List.eq_nil_of_infix_nil h) hne
    | cons c cs =>
      obtain ⟨n, rfl⟩ : ∃ n, fuel = n + 1 := by
        cases fuel with
        | zero => simp at hf
        | succ n => exact ⟨n, rfl⟩
      simp only [List.length_cons, Nat.add_le_add_iff_right] at hf
      simp only [replaceAllAux]
      by_cases hpre : hasPrefix (c :: cs) old = true
      · rw [if_pos hpre]
        exact (List.prefix_append _ _).isInfix
      · rw [if_neg hpre]
        rcases List.infix_cons_iff.mp h with h3 | h3
        · exact absurd ((hasPrefix_iff _ _).mpr h3) hpre
        · exact (ih n (Nat.lt_succ_self n) cs hf h3).trans (List.suffix_cons _ _).isInfix

theorem clean_snoc_python (X : Str) (hX : X = [] ∨ ∃ Y, X = Y ++ ['/']) :
    ∃ Z, clean (X ++ "python".toList) = Z ++ "python".toList := by
  rcases hX with h | ⟨Y, h⟩
  · subst h
    rw [List.nil_append, clean_plain _ (by decide)]
    exact ⟨[], rfl⟩
  · subst h
    have e : Y ++ ['/'] ++ "python".toList = Y ++ '/' :: "python".toList := by simp
    rw [e]
    obtain ⟨X2, hX2, -⟩ := clean_append_plain Y "python".toList (by decide)
    exact ⟨X2, hX2⟩

/-- The absolute path of the Python root ends in `python`. -/
theorem pythonAbsPath_python (wd : Option Str) (projectPath A : Str)
    (h : pythonAbsPath wd projectPath = some A) : ∃ Z, A = Z ++ "python".toList := by
  obtain ⟨X, hX, hX2⟩ := getPythonRoot_python projectPath
  unfold pythonAbsPath abs at h
  rw [hX] at h
  by_cases hr : hasPrefix (X ++ "python".toList) "/".toList = true
  · rw [if_pos hr] at h
    obtain ⟨Z, hZ⟩ := clean_snoc_python X hX2
    rw [hZ] at h
    exact ⟨Z, (Option.some.inj h).symm⟩
  · rw [if_neg hr] at h
    cases wd with
    | none => cases h
    | some w =>
      simp only [Option.some.injEq] at h
      have e : [w, X ++ "python".toList] = [w] ++ [X ++ "python".toList] := rfl
      by_cases hw : w = []
      · have hj : join [w, X ++ "python".toList] = clean (X ++ "python".toList) := by
          have hne : X ++ "python".toList ≠ [] := by simp
          simp [join, List.dropWhile, hw, hne, joinWith]
        rw [hj] at h
        obtain ⟨Z, hZ⟩ := clean_snoc_python X hX2
        exact ⟨Z, by rw [← h, hZ]⟩
      · have hj : join [w, X ++ "python".toList] = clean (w ++ "/".toList ++ X ++ "python".toList) := by
          simp [join, List.dropWhile, hw, joinWith]
        rw [hj] at h
        obtain ⟨Z, hZ⟩ := clean_snoc_python (w ++ "/".toList ++ X) (by
          rcases hX2 with h0 | ⟨Y, h0⟩
          · exact Or.inr ⟨w, by rw [h0]; simp⟩
          · exact Or.inr ⟨w ++ "/".toList ++ Y, by rw [h0]; simp⟩)
        exact ⟨Z, by rw [← h, hZ]⟩

theorem placeholder_no_straddle (Z : Str) (u v : Str) (h : placeholder = u ++ v) (hu : u ≠ [])
    (hv : v ≠ []) : ¬ u <:+ "prefix=".toList ++ (Z ++ "python".toList) := by
  intro hs
  have hmem : u ∈ placeholder.inits := (List.mem_inits _ _).mpr ⟨v, h.symm⟩
  have hne : u ≠ placeholder := by
    intro e
    rw [e] at h
    exact hv (by simpa using h)
  have hcases : "python".toList <:+ u ∨ u <:+ "python".toList := by
    have h2 : "python".toList <:+ "prefix=".toList ++ (Z ++ "python".toList) := by
      rw [← List.append_assoc]
      exact List.suffix_append _ _
    exact (List.suffix_or_suffix_of_suffix hs h2).symm
  have key : ∀ u ∈ placeholder.inits, u ≠ [] → u ≠ placeholder →
      ¬ ("python".toList <:+ u ∨ u <:+ "python".toList) := by decide
  exact key u hmem hu hne hcases

/-- The text `prefix=` followed by a path holds the placeholder exactly when the
path begins with `/install` or holds the placeholder itself. -/
theorem placeholder_infix_new (A : Str) :
    placeholder <:+: "prefix=".toList ++ A ↔ ("/install".toList <+: A ∨ placeholder <:+: A) := by
  constructor
  · intro h
    rcases infix_append_cases _ _ _ h with h1 | h1 | ⟨u, v, h2, h3, h4, h5, h6⟩
    · have := h1.length_le
      simp [placeholder] at this
    · exact Or.inr h1
    · left
      have hmem : u ∈ placeholder.inits := (List.mem_inits _ _).mpr ⟨v, h2.symm⟩
      have key : ∀ u ∈ placeholder.inits, u ≠ [] → u <:+ "prefix=".toList →
          u = "prefix=".toList := by decide
      have hu := key u hmem h3 h5
      subst hu
      have hv : v = "/install".toList := by
        have e : placeholder = "prefix=".toList ++ "/install".toList := rfl
        rw [e] at h2
        exact (List.append_cancel_left h2).symm
      rw [← hv]
      exact h6
  · rintro (⟨r, hr⟩ | h)
    · rw [← hr]
      exact ⟨[], r, by simp [placeholder]⟩
    · exact h.trans (List.suffix_append _ _).isInfix

/-- What the patch does to the placeholder: the content that held it holds the
new prefix afterwards, and the placeholder is left exactly when the new prefix
holds it. -/
theorem patched_placeholder (Z content : Str) (hc : placeholder <:+: content) :
    "prefix=".toList ++ (Z ++ "python".toList) <:+: patched (Z ++ "python".toList) content
      ∧ (placeholder <:+: patched (Z ++ "python".toList) content
          ↔ placeholder <:+: "prefix=".toList ++ (Z ++ "python".toList)) := by
  have hp : patched (Z ++ "python".toList) content
      = replaceAllAux placeholder ("prefix=".toList ++ (Z ++ "python".toList))
          content.length content := by
    unfold patched replaceAll
    rw [if_neg (by decide)]
    rfl
  rw [hp]
  have hnew := replaceAllAux_has_new placeholder ("prefix=".toList ++ (Z ++ "python".toList))
    (by decide) content.length content (le_refl _) hc
  refine ⟨hnew, fun h => ?_, fun h => h.trans hnew⟩
  by_contra hno
  exact replaceAllAux_no_old placeholder ("prefix=".toList ++ (Z ++ "python".toList)) 'p'
    "refix=/install".toList ("refix=".toList ++ (Z ++ "python".toList)) rfl (by decide) rfl hno
    (placeholder_no_straddle Z) content.length content (le_refl _) h

/-- The patch of one content: with `A` the absolute path of the Python root of
the project, a descriptor content that holds the placeholder `prefix=/install`
holds `prefix=` followed by `A` after the patch, and the placeholder is left in
it exactly when `A` begins with `/install` or holds the placeholder itself.
The patched content is what `writePC` stores, what the body of the loop leaves
in the descriptor it handles and, for a directory with the two free-threaded
descriptors, what `updatePkgConfig` leaves in the descriptor. -/
theorem updatePkgConfig_rewrite (wd : Option Str) (projectPath A content : Str)
    (hA : pythonAbsPath wd projectPath = some A)
    (hc : contains content "prefix=/install".toList = true) :
    contains (patched A content) ("prefix=".toList ++ A) = true
      ∧ (contains (patched A content) "prefix=/install".toList = true
          ↔ (hasPrefix A "/install".toList = true ∨ contains A "prefix=/install".toList = true))
      ∧ (∀ (d d' : Directory) (name : Str), writePC A d name content = some d' →
          d'.lookup name = some (.file (patched A content)))
      ∧ (∀ (d d' : Directory) (entry : Str × Bool), isPcEntry entry = true →
          d.readFile entry.1 = some content → updateEntry A d entry = .ok d' →
          d'.lookup entry.1 = some (.file (patched A content)))
      ∧ (∀ (X Y cE : Str) (d d' : Directory), isVersion X Y → (d.map Prod.fst).Nodup →
          d.lookup (pcName X Y "t.pc".toList) = some (.file content) →
          d.lookup (pcName X Y "t-embed.pc".toList) = some (.file cE) →
          (∀ n c, d.lookup n = some (.file c) → hasSuffix n ".pc".toList = true →
            n = pcName X Y "t.pc".toList ∨ n = pcName X Y "t-embed.pc".toList) →
          updatePkgConfig A (some d) = .ok d' →
          d'.lookup (pcName X Y "t.pc".toList) = some (.file (patched A content))) := by
  obtain ⟨Z, hZ⟩ := pythonAbsPath_python wd projectPath A hA
  subst hZ
  have hc2 : placeholder <:+: content := by
    simpa only [contains, decide_eq_true_eq] using hc
  obtain ⟨h1, h2⟩ := patched_placeholder Z content hc2
  refine ⟨?_, ?_, ?_, ?_, ?_⟩
  · simp only [contains, decide_eq_true_eq]
    exact h1
  · simp only [contains, decide_eq_true_eq, hasPrefix_iff]
    exact h2.trans (placeholder_infix_new _)
  · intro d d' name hw
    rw [writePC_lookup _ d d' name content hw name, if_pos rfl]
  · intro d d' entry hpc hr hu
    obtain ⟨c2, hr2, hW⟩ := updateEntry_lookup _ d d' entry hpc hu
    rw [hr] at hr2
    cases hr2
    have hmem : entry.1 ∈ writtenNames entry.1 := by
      unfold writtenNames
      exact List.mem_cons_self _ _
    rw [hW entry.1, if_pos hmem]
  · intro X Y cE d d' hv hnd hN hE hpc hok
    obtain ⟨wN, -, wE, -⟩ := writtenNames_pcName X Y hv
    obtain ⟨hdis, -, -⟩ := pcNames_distinct X Y hv
    have hdisj : ∀ k, k ∈ writtenNames (pcName X Y "t.pc".toList) →
        k ∉ writtenNames (pcName X Y "t-embed.pc".toList) := by
      intro k h3 h4
      rw [wN] at h3
      rw [wE] at h4
      exact hdis k h3 k h4 rfl
    have key := updatePkgConfig_two _ d d' _ _ content cE hnd
      (hasSuffix_pcName X Y _ _ (by decide)) (hasSuffix_pcName X Y _ _ (by decide))
      hN hE hpc hdisj hok
    have hmem : pcName X Y "t.pc".toList ∈ writtenNames (pcName X Y "t.pc".toList) := by
      unfold writtenNames
      exact List.mem_cons_self _ _
    rw [key _, if_pos hmem]

set_option maxRecDepth 100000 in
/-- The patch of one content for the project `/tmp/proj`. -/
theorem updatePkgConfig_rewrite_witness :
    pythonAbsPath (some "/".toList) "/tmp/proj".toList = some "/tmp/proj/.deps/python".toList
      ∧ contains (patched "/tmp/proj/.deps/python".toList "prefix=/install\nlibdir=x\n".toList)
          "prefix=/tmp/proj/.deps/python".toList = true
      ∧ contains (patched "/tmp/proj/.deps/python".toList "prefix=/install\nlibdir=x\n".toList)
          "prefix=/install".toList = false :=
  ⟨by decide,
    (updatePkgConfig_rewrite (some "/".toList) "/tmp/proj".toList "/tmp/proj/.deps/python".toList
      "prefix=/install\nlibdir=x\n".toList (by decide) (by decide)).1,
    Bool.eq_false_iff.mpr (fun h => absurd
      ((updatePkgConfig_rewrite (some "/".toList) "/tmp/proj".toList
        "/tmp/proj/.deps/python".toList "prefix=/install\nlibdir=x\n".toList (by decide)
        (by decide)).2.1.mp h) (by decide))⟩

set_option maxRecDepth 100000 in
/-- C11, counterexample: for the project `/install/proj` the absolute path of
the Python root begins with `/install`, and the patched descriptor
`prefix=/install/proj/.deps/python` still holds the placeholder
`prefix=/install`, also in the file `updatePkgConfig` leaves.  And in a
directory with `python-3.13.pc`, which has no placeholder, and a file
`python3.pc`, which has it, `updatePkgConfig` leaves `python3.pc` with the
content of `python-3.13.pc`, without the new prefix. -/
theorem updatePkgConfig_rewrite_left :
    pythonAbsPath (some "/".toList) "/install/proj".toList
        = some "/install/proj/.deps/python".toList
      ∧ contains "prefix=/install\n".toList "prefix=/install".toList = true
      ∧ patched "/install/proj/.deps/python".toList "prefix=/install\n".toList
          = "prefix=/install/proj/.deps/python\n".toList
      ∧ contains (patched "/install/proj/.deps/python".toList "prefix=/install\n".toList)
          "prefix=/install".toList = true
      ∧ (updatePkgConfig "/install/proj/.deps/python".toList (some exampleThreadedDir)).toOption.map
          (fun d => d.lookup "python-3.13t.pc".toList)
        = some (some (.file "prefix=/install/proj/.deps/python\nLibs: -lpython3t\n".toList))
      ∧ exampleAliasDir.lookup "python3.pc".toList = some (.file "prefix=/install\n".toList)
      ∧ (updatePkgConfig "/abs/py".toList (some exampleAliasDir)).toOption.map
          (fun d => d.lookup "python3.pc".toList)
        = some (some (.file "Libs: -lpython3.13\n".toList))
      ∧ contains "Libs: -lpython3.13\n".toList "prefix=/abs/py".toList = false := by
  refine ⟨by decide, by decide, by decide, by decide, by decide, by decide, by decide,
    by decide⟩

/-! ## The index expressions of `downloadFileWithCache` -/

/-- C26: for every URL the index expressions of `downloadFileWithCache` are in
range: the split of the URL at `/` is not empty, so it has a last element
`name`; `getFullExtension name` is a suffix of `name`, so the slice
`name[:len(name)-len(ext)]` is defined and `base + ext` is `name`; the slice
`[:8]` of the hexadecimal digest is defined; hence `cachedFilename` never
panics.  For the empty URL and for a URL ending in `/` the name is empty. -/
theorem cachedFilename_in_range (url : Str) :
    split '/' url ≠ []
      ∧ (∃ name, (split '/' url).getLast? = some name
          ∧ getFullExtension name <:+ name
          ∧ (getFullExtension name).length ≤ name.length
          ∧ sliceTo name ((name.length : Int) - ((getFullExtension name).length : Int))
              = some (name.take (name.length - (getFullExtension name).length))
          ∧ name.take (name.length - (getFullExtension name).length) ++ getFullExtension name
              = name)
      ∧ (∃ h, urlHash url = some h ∧ h.length = 8)
      ∧ (∃ f, cachedFilename url = some f)
      ∧ (split '/' ([] : Str)).getLast? = some []
      ∧ (∀ u : Str, (split '/' (u ++ "/".toList)).getLast? = some []) := by
  obtain ⟨name, hn, -⟩ := getLast?_split '/' url
  have hsuf := getFullExtension_suffix name
  have hle : (getFullExtension name).length ≤ name.length := hsuf.length_le
  refine ⟨split_ne_nil '/' url, ⟨name, hn, hsuf, hle, ?_, take_append_of_suffix _ _ hsuf⟩,
    ⟨_, (urlHash_eq url).1, (urlHash_eq url).2.1⟩,
    ⟨_, cachedFilename_of_getLast? url name hn⟩, rfl, ?_⟩
  · unfold sliceTo
    rw [if_pos (by omega)]
    congr 2
    omega
  · intro u
    exact getLast?_split_append_sep '/' u [] (by simp)

/-! ## Entries that leave the destination directory -/

set_option maxRecDepth 100000 in
/-- C27: the entry name `../x` under the destination `/d`: `extractZip` and
`extractTarGz` compute the path `/x` for it, and so does `extractTarZst`, also
for `python/install/../../x` with the trimmed `python/install/`; `/x` is not
`/d` and not below it, and each extractor creates the file `/x`. -/
theorem extractors_leave_dest :
    goDestPath "/d".toList "../x".toList = some "/x".toList
      ∧ zstDestPath "/d".toList [] "../x".toList = some "/x".toList
      ∧ zstDestPath "/d".toList "python/install/".toList "python/install/../../x".toList
          = some "/x".toList
      ∧ within "/d".toList "/x".toList = false
      ∧ "/d".toList ∉ ancestors "/x".toList
      ∧ exampleFS "/x".toList = none
      ∧ (extractZip fsCall exampleEscapeZip "/d".toList exampleFS).2 = none
      ∧ (extractZip fsCall exampleEscapeZip "/d".toList exampleFS).1 "/x".toList
          = some (.file 0o644 [1])
      ∧ (extractTarGz fsCall exampleEscapeTar "/d".toList exampleFS).1 "/x".toList
          = some (.file 0o644 [1])
      ∧ (extractTarZst fsCall exampleEscapeTar "/d".toList [] exampleFS).1 "/x".toList
          = some (.file 0o644 [1]) := by
  refine ⟨by decide, by decide, by decide, by decide, by decide, by decide, by decide,
    by decide, by decide, by decide⟩

/-! ## The arguments of the Go command -/

theorem findPackageIndexFrom_flag (i : Nat) (a : Str) (rest : List Str)
    (h1 : hasPrefix a "-".toList = true) (h2 : a ∉ valueFlags) :
    findPackageIndexFrom i (a :: rest) = findPackageIndexFrom (i + 1) rest := by
  cases rest with
  | nil => simp only [findPackageIndexFrom, h1, if_true]
  | cons v r => simp only [findPackageIndexFrom, h1, h2, if_true, if_false]

theorem hasPrefix_valueFlags (a : Str) (h : a ∈ valueFlags) : hasPrefix a "-".toList = true := by
  have key : ∀ x ∈ valueFlags, hasPrefix x "-".toList = true := by decide
  exact key a h

theorem findPackageIndexFrom_value (i : Nat) (a v : Str) (rest : List Str)
    (h : a ∈ valueFlags) :
    findPackageIndexFrom i (a :: v :: rest) = findPackageIndexFrom (i + 2) rest := by
  simp only [findPackageIndexFrom, hasPrefix_valueFlags a h, h, if_true]

theorem findPackageIndexFrom_groups (groups : List (List Str)) (hg : ∀ g ∈ groups, flagGroup g)
    (i : Nat) (tail : List Str) :
    findPackageIndexFrom i (groups.flatten ++ tail)
      = findPackageIndexFrom (i + groups.flatten.length) tail := by
  induction groups generalizing i with
  | nil => simp
  | cons g gs ih =>
    have ih2 := ih (fun x hx => hg x (List.mem_cons_of_mem _ hx))
    rcases hg g (List.mem_cons_self _ _) with ⟨a, rfl, h1, h2⟩ | ⟨a, v, rfl, h1⟩
    · have e : ([a] :: gs).flatten ++ tail = a :: (gs.flatten ++ tail) := by simp
      have l : ([a] :: gs).flatten.length = gs.flatten.length + 1 := by simp
      rw [e, l, findPackageIndexFrom_flag i a _ h1 h2, ih2]
      congr 1
      omega
    · have e : ([a, v] :: gs).flatten ++ tail = a :: v :: (gs.flatten ++ tail) := by simp
      have l : ([a, v] :: gs).flatten.length = gs.flatten.length + 2 := by simp
      rw [e, l, findPackageIndexFrom_value i a v _ h1, ih2]
      congr 1
      omega

theorem findPackageIndexFrom_range (n : Nat) (args : List Str) (hn : args.length ≤ n) (i : Nat) :
    findPackageIndexFrom i args = -1
      ∨ ∃ j : Nat, findPackageIndexFrom i args = ((i + j : Nat) : Int)
          ∧ ∃ a, args[j]? = some a ∧ hasPrefix a "-".toList = false := by
  induction n generalizing args i with
  | zero =>
    have : args = [] := List.length_eq_zero.mp (Nat.le_zero.mp hn)
    subst this
    exact Or.inl rfl
  | succ n ih =>
    match args, hn with
    | [], _ => exact Or.inl rfl
    | [arg], _ =>
      by_cases h : hasPrefix arg "-".toList = true
      · left
        simp only [findPackageIndexFrom, h, if_true]
      · right
        refine ⟨0, by simp only [findPackageIndexFrom, h, if_false]; rfl, arg, rfl,
          Bool.eq_false_iff.mpr h⟩
    | arg :: value :: rest, hn =>
      simp only [List.length_cons] at hn
      by_cases h : hasPrefix arg "-".toList = true
      · by_cases hv : arg ∈ valueFlags
        · rw [findPackageIndexFrom_value i arg value rest hv]
          rcases ih rest (by omega) (i + 2) with h1 | ⟨j, h1, a, h2, h3⟩
          · exact Or.inl h1
          · right
            refine ⟨j + 2, ?_, a, by simpa using h2, h3⟩
            rw [h1]
            congr 1
            omega
        · rw [findPackageIndexFrom_flag i arg _ h hv]
          rcases ih (value :: rest) (by simp only [List.length_cons]; omega) (i + 1) with
            h1 | ⟨j, h1, a, h2, h3⟩
          · exact Or.inl h1
          · right
            refine ⟨j + 1, ?_, a, by simpa using h2, h3⟩
            rw [h1]
            congr 1
            omega
      · right
        refine ⟨0, by simp only [findPackageIndexFrom, h, if_false]; rfl, arg, rfl,
          Bool.eq_false_iff.mpr h⟩

/-- C23: for a list of well-formed flag groups followed by an argument that
does not begin with `-` and by anything, `FindPackageIndex` is the number of
arguments in the groups; for the groups alone it is -1; for every input the
result is -1 or the index of an argument that does not begin with `-`. -/
theorem FindPackageIndex_groups (groups : List (List Str)) (pkg : Str) (rest : List Str)
    (hg : ∀ g ∈ groups, flagGroup g) (hp : hasPrefix pkg "-".toList = false) :
    FindPackageIndex (groups.flatten ++ [pkg] ++ rest) = (groups.flatten.length : Int)
      ∧ FindPackageIndex groups.flatten = -1
      ∧ ∀ args : List Str, FindPackageIndex args = -1
          ∨ ∃ j : Nat, FindPackageIndex args = (j : Int) ∧ j < args.length
              ∧ ∃ a, args[j]? = some a ∧ hasPrefix a "-".toList = false := by
  refine ⟨?_, ?_, ?_⟩
  · unfold FindPackageIndex
    rw [List.append_assoc, findPackageIndexFrom_groups groups hg 0 ([pkg] ++ rest), Nat.zero_add]
    cases rest with
    | nil => simp only [List.append_nil, findPackageIndexFrom, hp, Bool.false_eq_true, if_false]
    | cons r rs =>
      simp only [List.singleton_append, findPackageIndexFrom, hp, Bool.false_eq_true, if_false]
  · unfold FindPackageIndex
    have := findPackageIndexFrom_groups groups hg 0 []
    rw [List.append_nil] at this
    rw [this]
    rfl
  · intro args
    unfold FindPackageIndex
    rcases findPackageIndexFrom_range args.length args (le_refl _) 0 with h | ⟨j, h1, a, h2, h3⟩
    · exact Or.inl h
    · right
      refine ⟨j, by rw [h1, Nat.zero_add], ?_, a, h2, h3⟩
      by_contra hlt
      rw [List.getElem?_eq_none (by omega)] at h2
      cases h2

/-- Witness of C23: `-v -o out ./cmd -x`. -/
theorem FindPackageIndex_groups_witness :
    FindPackageIndex ["-v".toList, "-o".toList, "out".toList, "./cmd".toList, "-x".toList] = 3
      ∧ FindPackageIndex ["-v".toList, "-o".toList, "out".toList] = -1 :=
  ⟨(FindPackageIndex_groups [["-v".toList], ["-o".toList, "out".toList]] "./cmd".toList
      ["-x".toList] (by
        intro g hg
        simp only [List.mem_cons, List.mem_singleton, List.not_mem_nil, or_false] at hg
        rcases hg with rfl | rfl
        · exact Or.inl ⟨"-v".toList, rfl, by decide, by decide⟩
        · exact Or.inr ⟨"-o".toList, "out".toList, rfl, by decide⟩) (by decide)).1,
    (FindPackageIndex_groups [["-v".toList], ["-o".toList, "out".toList]] "./cmd".toList
      ["-x".toList] (by
        intro g hg
        simp only [List.mem_cons, List.mem_singleton, List.not_mem_nil, or_false] at hg
        rcases hg with rfl | rfl
        · exact Or.inl ⟨"-v".toList, rfl, by decide, by decide⟩
        · exact Or.inr ⟨"-o".toList, "out".toList, rfl, by decide⟩) (by decide)).2.1⟩

theorem addLdflags_ne_nil (l e : Str) (h : l ≠ []) :
    addLdflags l e = l ++ " ".toList ++ trimSpace e ∧ addLdflags l e ≠ [] := by
  unfold addLdflags
  rw [if_pos h]
  exact ⟨rfl, by simp [h]⟩

theorem isLdflagsOption_cases (arg : Str) :
    (hasPrefix arg "-ldflags=".toList = true ∧ arg ≠ "-ldflags".toList
        ∧ isLdflagsOption arg = true)
      ∨ (hasPrefix arg "-ldflags=".toList = false ∧ arg = "-ldflags".toList
        ∧ isLdflagsOption arg = true)
      ∨ (hasPrefix arg "-ldflags=".toList = false ∧ arg ≠ "-ldflags".toList
        ∧ isLdflagsOption arg = false) := by
  unfold isLdflagsOption
  by_cases h1 : hasPrefix arg "-ldflags=".toList = true
  · left
    refine ⟨h1, ?_, by rw [h1]; rfl⟩
    intro e
    rw [e] at h1
    exact absurd h1 (by decide)
  · have h1f : hasPrefix arg "-ldflags=".toList = false := Bool.eq_false_iff.mpr h1
    by_cases h2 : arg = "-ldflags".toList
    · right; left
      exact ⟨h1f, h2, by rw [h1f, Bool.false_or]; exact decide_eq_true h2⟩
    · right; right
      exact ⟨h1f, h2, by rw [h1f, Bool.false_or]; exact decide_eq_false h2⟩

theorem processArgsLoop_one (arg l : Str) (r : List Str) :
    processArgsLoop [arg] l r
      = if isLdflagsOption arg then
          (if hasPrefix arg "-ldflags=".toList then
            (addLdflags l (trimPrefix arg "-ldflags=".toList), r)
          else (addLdflags l [], r))
        else (l, r ++ [arg]) := by
  rw [processArgsLoop]
  rfl

theorem processArgsLoop_cons (arg value : Str) (rest : List Str) (l : Str) (r : List Str) :
    processArgsLoop (arg :: value :: rest) l r
      = if isLdflagsOption arg then
          (if hasPrefix arg "-ldflags=".toList then
            processArgsLoop (value :: rest) (addLdflags l (trimPrefix arg "-ldflags=".toList)) r
          else processArgsLoop rest (addLdflags l value) r)
        else processArgsLoop (value :: rest) l (r ++ [arg]) := by
  rw [processArgsLoop]
  rfl

theorem ldflagsValues_one (arg : Str) :
    ldflagsValues [arg]
      = if hasPrefix arg "-ldflags=".toList then [arg.drop 9]
        else if arg = "-ldflags".toList then [[]] else [] := by
  rw [ldflagsValues]

theorem ldflagsValues_cons (arg value : Str) (rest : List Str) :
    ldflagsValues (arg :: value :: rest)
      = if hasPrefix arg "-ldflags=".toList then arg.drop 9 :: ldflagsValues (value :: rest)
        else if arg = "-ldflags".toList then value :: ldflagsValues rest
        else ldflagsValues (value :: rest) := by
  rw [ldflagsValues]

theorem otherArgs_one (arg : Str) :
    otherArgs [arg] = if isLdflagsOption arg then [] else [arg] := by
  rw [otherArgs]

theorem otherArgs_cons (arg value : Str) (rest : List Str) :
    otherArgs (arg :: value :: rest)
      = if hasPrefix arg "-ldflags=".toList then otherArgs (value :: rest)
        else if arg = "-ldflags".toList then otherArgs rest
        else arg :: otherArgs (value :: rest) := by
  rw [otherArgs]

theorem trimPrefix_ldflags (arg : Str) (h : hasPrefix arg "-ldflags=".toList = true) :
    trimPrefix arg "-ldflags=".toList = arg.drop 9 := by
  unfold trimPrefix
  rw [if_pos h]
  rfl

theorem processArgsLoop_eq (n : Nat) (args : List Str) (hn : args.length ≤ n) (l : Str)
    (r : List Str) (hl : l ≠ []) :
    processArgsLoop args l r
      = (l ++ (ldflagsValues args).flatMap (fun v => " ".toList ++ trimSpace v),
          r ++ otherArgs args) := by
  induction n generalizing args l r with
  | zero =>
    have : args = [] := List.length_eq_zero.mp (Nat.le_zero.mp hn)
    subst this
    simp [processArgsLoop, ldflagsValues, otherArgs]
  | succ n ih =>
    match args, hn with
    | [], _ => simp [processArgsLoop, ldflagsValues, otherArgs]
    | [arg], _ =>
      rw [processArgsLoop_one, ldflagsValues_one, otherArgs_one]
      rcases isLdflagsOption_cases arg with ⟨h1, h2, h3⟩ | ⟨h1, h2, h3⟩ | ⟨h1, h2, h3⟩
      · rw [if_pos h3, if_pos h1, if_pos h1, if_pos h3, (addLdflags_ne_nil l _ hl).1,
          trimPrefix_ldflags arg h1]
        simp only [List.flatMap_cons, List.flatMap_nil, List.append_nil, List.append_assoc]
      · rw [if_pos h3, if_neg (by rw [h1]; decide), if_neg (by rw [h1]; decide), if_pos h2,
          if_pos h3, (addLdflags_ne_nil l _ hl).1]
        simp only [List.flatMap_cons, List.flatMap_nil, List.append_nil, List.append_assoc]
      · rw [if_neg (by rw [h3]; decide), if_neg (by rw [h1]; decide), if_neg h2,
          if_neg (by rw [h3]; decide)]
        simp only [List.flatMap_nil, List.append_nil]
    | arg :: value :: rest, hn =>
      simp only [List.length_cons] at hn
      rw [processArgsLoop_cons, ldflagsValues_cons, otherArgs_cons]
      rcases isLdflagsOption_cases arg with ⟨h1, h2, h3⟩ | ⟨h1, h2, h3⟩ | ⟨h1, h2, h3⟩
      · rw [if_pos h3, if_pos h1, if_pos h1, if_pos h1,
          ih (value :: rest) (by simp only [List.length_cons]; omega) _ r
            (addLdflags_ne_nil l _ hl).2, (addLdflags_ne_nil l _ hl).1,
          trimPrefix_ldflags arg h1]
        simp only [List.flatMap_cons, List.append_assoc]
      · rw [if_pos h3, if_neg (by rw [h1]; decide), if_neg (by rw [h1]; decide), if_pos h2,
          if_neg (by rw [h1]; decide), if_pos h2,
          ih rest (by omega) _ r (addLdflags_ne_nil l _ hl).2, (addLdflags_ne_nil l _ hl).1]
        simp only [List.flatMap_cons, List.append_assoc]
      · rw [if_neg (by rw [h3]; decide), if_neg (by rw [h1]; decide), if_neg h2,
          if_neg (by rw [h1]; decide), if_neg h2,
          ih (value :: rest) (by simp only [List.length_cons]; omega) l _ hl]
        simp only [List.append_assoc, List.singleton_append]

theorem otherArgs_spec (n : Nat) (args : List Str) (hn : args.length ≤ n) :
    (∀ a ∈ otherArgs args, isLdflagsOption a = false) ∧ (otherArgs args).Sublist args
      ∧ ((∀ a ∈ args, isLdflagsOption a = false) →
          otherArgs args = args ∧ ldflagsValues args = []) := by
  induction n generalizing args with
  | zero =>
    have : args = [] := List.length_eq_zero.mp (Nat.le_zero.mp hn)
    subst this
    simp [otherArgs, ldflagsValues]
  | succ n ih =>
    match args, hn with
    | [], _ => simp [otherArgs, ldflagsValues]
    | [arg], _ =>
      rw [ldflagsValues_one, otherArgs_one]
      rcases isLdflagsOption_cases arg with ⟨h1, h2, h3⟩ | ⟨h1, h2, h3⟩ | ⟨h1, h2, h3⟩
      · rw [if_pos h3]
        refine ⟨fun a ha => absurd ha (List.not_mem_nil _), List.nil_sublist _, fun hall => ?_⟩
        have := hall arg (List.mem_singleton_self _)
        rw [h3] at this
        cases this
      · rw [if_pos h3]
        refine ⟨fun a ha => absurd ha (List.not_mem_nil _), List.nil_sublist _, fun hall => ?_⟩
        have := hall arg (List.mem_singleton_self _)
        rw [h3] at this
        cases this
      · rw [if_neg (by rw [h3]; decide), if_neg (by rw [h1]; decide), if_neg h2]
        refine ⟨fun a ha => ?_, List.Sublist.refl _, fun _ => ⟨rfl, rfl⟩⟩
        rw [List.mem_singleton.mp ha]
        exact h3
    | arg :: value :: rest, hn =>
      simp only [List.length_cons] at hn
      obtain ⟨i1, i2, i3⟩ := ih (value :: rest) (by simp only [List.length_cons]; omega)
      obtain ⟨j1, j2, j3⟩ := ih rest (by omega)
      rw [ldflagsValues_cons, otherArgs_cons]
      rcases isLdflagsOption_cases arg with ⟨h1, h2, h3⟩ | ⟨h1, h2, h3⟩ | ⟨h1, h2, h3⟩
      · rw [if_pos h1, if_pos h1]
        refine ⟨i1, i2.cons _, fun hall => ?_⟩
        have := hall arg (List.mem_cons_self _ _)
        rw [h3] at this
        cases this
      · rw [if_neg (by rw [h1]; decide), if_pos h2, if_neg (by rw [h1]; decide), if_pos h2]
        refine ⟨j1, (j2.cons _).cons _, fun hall => ?_⟩
        have := hall arg (List.mem_cons_self _ _)
        rw [h3] at this
        cases this
      · rw [if_neg (by rw [h1]; decide), if_neg h2, if_neg (by rw [h1]; decide), if_neg h2]
        refine ⟨fun a ha => ?_, i2.cons₂ _, fun hall => ?_⟩
        · rcases List.mem_cons.mp ha with h | h
          · rw [h]
            exact h3
          · exact i1 a h
        · obtain ⟨k1, k2⟩ := i3 (fun a ha => hall a (List.mem_cons_of_mem _ ha))
          exact ⟨by rw [k1], k2⟩

/-- C22: `ProcessArgsWithLDFlags` returns `-ldflags`, then one string made of
the flag `-X` with the project root (followed by the flags of the run-time
search path the function adds for the operating system) and of the trimmed
values of the ldflags options of the input, each after a blank and in input
order, then the arguments that are neither an ldflags option nor a value one
consumed, in input order.  None of these arguments is an ldflags option, nor is
the combined string; without ldflags option in the input they are the input. -/
theorem ProcessArgsWithLDFlags_eq (goos : Str) (args : List Str)
    (projectRoot pythonPath pythonHome : Str) :
    ProcessArgsWithLDFlags goos args projectRoot pythonPath pythonHome
        = "-ldflags".toList
          :: (ownLdflags goos projectRoot
              ++ (ldflagsValues args).flatMap (fun v => " ".toList ++ trimSpace v))
          :: otherArgs args
      ∧ "-X \x27github.com/gotray/got.ProjectRoot=".toList ++ projectRoot ++ "\x27".toList
          <+: ownLdflags goos projectRoot
              ++ (ldflagsValues args).flatMap (fun v => " ".toList ++ trimSpace v)
      ∧ isLdflagsOption (ownLdflags goos projectRoot
          ++ (ldflagsValues args).flatMap (fun v => " ".toList ++ trimSpace v)) = false
      ∧ (∀ a ∈ otherArgs args, isLdflagsOption a = false)
      ∧ (otherArgs args).Sublist args
      ∧ ((∀ a ∈ args, isLdflagsOption a = false) →
          otherArgs args = args ∧ ldflagsValues args = [])
      ∧ (∀ (v : Str) (rest : List Str),
          ldflagsValues ("-ldflags".toList :: v :: rest) = v :: ldflagsValues rest
            ∧ otherArgs ("-ldflags".toList :: v :: rest) = otherArgs rest
            ∧ ldflagsValues (("-ldflags=".toList ++ v) :: rest) = v :: ldflagsValues rest
            ∧ otherArgs (("-ldflags=".toList ++ v) :: rest) = otherArgs rest)
      ∧ (∀ (a : Str) (rest : List Str), isLdflagsOption a = false →
          ldflagsValues (a :: rest) = ldflagsValues rest
            ∧ otherArgs (a :: rest) = a :: otherArgs rest) := by
  have hne : ownLdflags goos projectRoot ≠ [] := by simp [ownLdflags]
  obtain ⟨o1, o2, o3⟩ := otherArgs_spec args.length args (le_refl _)
  refine ⟨?_, ?_, ?_, o1, o2, o3, ?_, ?_⟩
  · unfold ProcessArgsWithLDFlags
    rw [processArgsLoop_eq args.length args (le_refl _) _ [] hne]
    simp
  · exact ⟨rpathFlags goos projectRoot
      ++ (ldflagsValues args).flatMap (fun v => " ".toList ++ trimSpace v),
      by simp only [ownLdflags, List.append_assoc]⟩
  · have key : ∀ t : Str, isLdflagsOption ('-' :: 'X' :: t) = false := by
      intro t
      unfold isLdflagsOption
      rw [Bool.or_eq_false_iff]
      constructor
      · rw [Bool.eq_false_iff]
        intro h
        obtain ⟨u, hu⟩ := (hasPrefix_iff _ _).mp h
        simp at hu
      · rw [decide_eq_false_iff_not]
        intro e
        simp at e
    have e : ownLdflags goos projectRoot
        ++ (ldflagsValues args).flatMap (fun v => " ".toList ++ trimSpace v)
        = '-' :: 'X' :: (" \x27github.com/gotray/got.ProjectRoot=".toList ++ projectRoot
            ++ "\x27".toList ++ rpathFlags goos projectRoot
            ++ (ldflagsValues args).flatMap (fun v => " ".toList ++ trimSpace v)) := by
      simp [ownLdflags]
    rw [e]
    exact key _
  · intro v rest
    have hp : hasPrefix ("-ldflags=".toList ++ v) "-ldflags=".toList = true := by
      rw [hasPrefix_iff]
      exact List.prefix_append _ _
    have hd : ("-ldflags=".toList ++ v).drop 9 = v := by
      have : "-ldflags=".toList.length = 9 := rfl
      rw [← this, List.drop_left]
    have hq : hasPrefix "-ldflags".toList "-ldflags=".toList = false := by decide
    refine ⟨?_, ?_, ?_, ?_⟩
    · rw [ldflagsValues_cons, if_neg (by rw [hq]; decide), if_pos rfl]
    · rw [otherArgs_cons, if_neg (by rw [hq]; decide), if_pos rfl]
    · cases rest with
      | nil => rw [ldflagsValues_one, if_pos hp, hd]; rfl
      | cons r rs => rw [ldflagsValues_cons, if_pos hp, hd]
    · cases rest with
      | nil =>
        rw [otherArgs_one, if_pos (by unfold isLdflagsOption; rw [hp]; rfl)]
        rfl
      | cons r rs => rw [otherArgs_cons, if_pos hp]
  · intro a rest h0
    rcases isLdflagsOption_cases a with ⟨h1, h2, h3⟩ | ⟨h1, h2, h3⟩ | ⟨h1, h2, h3⟩
    · rw [h3] at h0
      cases h0
    · rw [h3] at h0
      cases h0
    · cases rest with
      | nil =>
        rw [ldflagsValues_one, otherArgs_one, if_neg (by rw [h1]; decide), if_neg h2,
          if_neg (by rw [h3]; decide)]
        exact ⟨rfl, rfl⟩
      | cons r rs =>
        rw [ldflagsValues_cons, otherArgs_cons, if_neg (by rw [h1]; decide), if_neg h2,
          if_neg (by rw [h1]; decide), if_neg h2]
        exact ⟨rfl, rfl⟩

/-- Witness of C22: two ldflags options, one of each form, among other
arguments, on Linux. -/
theorem ProcessArgsWithLDFlags_eq_witness :
    ProcessArgsWithLDFlags "linux".toList
        ["-v".toList, "-ldflags".toList, " -s -w ".toList, "-ldflags=-X a=b".toList, ".".toList]
        "/p".toList [] []
      = ["-ldflags".toList,
          ("-X \x27github.com/gotray/got.ProjectRoot=/p\x27"
            ++ " -extldflags \x27-Wl,-rpath,/p/.deps/python/lib\x27 -s -w -X a=b").toList,
          "-v".toList, ".".toList] :=
  (ProcessArgsWithLDFlags_eq "linux".toList
    ["-v".toList, "-ldflags".toList, " -s -w ".toList, "-ldflags=-X a=b".toList, ".".toList]
    "/p".toList [] []).1.trans (by decide)

/-! ## A directory entry whose directory cannot be made -/

theorem run_cons_failed (os : OS σ) (st : Step) (rest : List Step) (s s1 : σ)
    (h : os st.call s = (s1, false)) :
    run os (st :: rest) s = if st.checked then (s1, some st.call) else run os rest s1 := by
  simp only [run, h]

/-- C21: when `os.MkdirAll` fails for a directory entry, `extractTarGz` and
`extractTarZst` return the error at once, whereas `extractZip` goes on with the
next entry as if nothing had happened.  In the example the directory `f` cannot
be made under `/d`, where `f` is a file: `extractZip` returns nil after writing
the next entry `g`, the two others return the error and do not write `g`. -/
theorem extractZip_ignores_mkdirAll_error :
    (∀ (σ : Type) (os : OS σ) (s s1 : σ) (destDir destPath : Str) (f : ZipFile)
        (rest : List ZipFile),
        goDestPath destDir f.name = some destPath → f.isDir = true →
        os (.mkdirAll destPath f.mode) s = (s1, false) →
        extractZip os (f :: rest) destDir s = extractZip os rest destDir s1)
      ∧ (∀ (σ : Type) (os : OS σ) (s s1 : σ) (destDir destPath : Str) (e : TarEntry)
          (rest : List TarEntry),
          goDestPath destDir e.name = some destPath → e.typeflag = .dir →
          os (.mkdirAll destPath e.mode) s = (s1, false) →
          extractTarGz os (e :: rest) destDir s = (s1, some (.mkdirAll destPath e.mode)))
      ∧ (∀ (σ : Type) (os : OS σ) (s s1 : σ) (dst trimPrefix path : Str) (e : TarEntry)
          (rest : List TarEntry),
          zstDestPath dst trimPrefix e.name = some path → e.typeflag = .dir →
          os (.mkdirAll path e.mode) s = (s1, false) →
          extractTarZst os (e :: rest) dst trimPrefix s = (s1, some (.mkdirAll path e.mode)))
      ∧ (fsCall (.mkdirAll "/d/f".toList 0o755) exampleFS).2 = false
      ∧ (extractZip fsCall exampleDirZip "/d".toList exampleFS).2 = none
      ∧ (extractZip fsCall exampleDirZip "/d".toList exampleFS).1 "/d/g".toList
          = some (.file 0o644 [7])
      ∧ (extractTarGz fsCall exampleDirTar "/d".toList exampleFS).2
          = some (.mkdirAll "/d/f".toList 0o755)
      ∧ (extractTarGz fsCall exampleDirTar "/d".toList exampleFS).1 "/d/g".toList = none
      ∧ (extractTarZst fsCall exampleDirTar "/d".toList [] exampleFS).2
          = some (.mkdirAll "/d/f".toList 0o755)
      ∧ (extractTarZst fsCall exampleDirTar "/d".toList [] exampleFS).1 "/d/g".toList = none := by
  refine ⟨?_, ?_, ?_, by decide, by decide, by decide, by decide, by decide, by decide,
    by decide⟩
  · intro σ os s s1 destDir destPath f rest h1 h2 h3
    unfold extractZip
    rw [List.flatMap_cons]
    have e : extractZipSteps destDir f = [⟨.mkdirAll destPath f.mode, false⟩] := by
      simp only [extractZipSteps, h1, h2, if_true]
    rw [e, List.singleton_append, run_cons_failed os _ _ s s1 h3]
    rfl
  · intro σ os s s1 destDir destPath e rest h1 h2 h3
    unfold extractTarGz
    rw [List.flatMap_cons]
    have e2 : extractTarGzSteps destDir e = [⟨.mkdirAll destPath e.mode, true⟩] := by
      simp only [extractTarGzSteps, h1, h2]
    rw [e2, List.singleton_append, run_cons_failed os _ _ s s1 h3]
    rfl
  · intro σ os s s1 dst trimPrefix path e rest h1 h2 h3
    unfold extractTarZst
    rw [List.flatMap_cons]
    have e2 : extractTarZstSteps dst trimPrefix e = [⟨.mkdirAll path e.mode, true⟩] := by
      simp only [extractTarZstSteps, h1, h2]
    rw [e2, List.singleton_append, run_cons_failed os _ _ s s1 h3]
    rfl

/-! ## The archive suffix of the URLs of the components -/

/-- A suffix without `/` of a string is a suffix of its last `/`-separated
segment. -/
theorem getLast?_split_suffix (sep : Char) (s suf : Str) (hs : suf <:+ s) (hsep : sep ∉ suf) :
    ∃ name, (split sep s).getLast? = some name ∧ suf <:+ name := by
  by_cases hmem : sep ∈ s
  · have hr : sep ∈ s.reverse := List.mem_reverse.mpr hmem
    obtain ⟨u, v, huv, hu⟩ := List.eq_append_cons_of_mem hr
    have hsplit : s = v.reverse ++ sep :: u.reverse := by
      have := congrArg List.reverse huv
      rw [List.reverse_reverse] at this
      rw [this]
      simp
    have hu2 : sep ∉ u.reverse := fun h => hu (List.mem_reverse.mp h)
    refine ⟨u.reverse, by rw [hsplit]; exact getLast?_split_append_sep sep _ _ hu2, ?_⟩
    have h1 : sep :: u.reverse <:+ s := by
      rw [hsplit]
      exact List.suffix_append _ _
    rcases List.suffix_or_suffix_of_suffix hs h1 with h2 | h2
    · rcases List.suffix_cons_iff.mp h2 with h3 | h3
      · rw [h3] at hsep
        exact absurd (List.mem_cons_self _ _) hsep
      · exact h3
    · exact absurd (h2.subset (List.mem_cons_self _ _)) hsep
  · exact ⟨s, by rw [split_of_not_mem sep s hmem]; rfl, hs⟩

/-- A URL that ends in an archive suffix: the cached file name ends in the same
suffix, and `downloadAndExtract` does not return the error of an unsupported
file extension. -/
theorem archive_url (url suf : Str) (hs : suf ∈ archiveSuffixes) (h : suf <:+ url) :
    (∃ f, cachedFilename url = some f ∧ suf <:+ f)
      ∧ ∀ (m : Machine) (dir trimPrefix : Str) (verbose : Bool),
          downloadAndExtract m url dir trimPrefix verbose ≠ .error .unsupportedFileExtension := by
  have hsep : '/' ∉ suf := by
    have key : ∀ x ∈ archiveSuffixes, '/' ∉ x := by decide
    exact key suf hs
  obtain ⟨name, hn, hsn⟩ := getLast?_split_suffix '/' url suf h hsep
  constructor
  · obtain ⟨f, hf⟩ := cachedFilename_some url
    exact ⟨f, hf, ((cachedFilename_plain url name f hn hf).2.2 suf hs).mpr hsn⟩
  · intro m dir trimPrefix verbose
    unfold downloadAndExtract
    cases hd : downloadFileWithCache m url with
    | error e =>
      simp only
      intro hc
      cases hc
    | ok path =>
      simp only
      have hp : hasSuffix path suf = true := by
        rw [hasSuffix_cached_path m url path name suf hn hd hs, hasSuffix_iff]
        exact hsn
      by_cases hmk : m.mkdirAll dir = true
      · simp only [hmk, Bool.not_true, Bool.false_eq_true, if_false]
        simp only [archiveSuffixes, List.mem_cons, List.mem_singleton, List.not_mem_nil,
          or_false] at hs
        split_ifs with h1 h2 h3
        · intro hc; cases hc
        · intro hc; cases hc
        · intro hc; cases hc
        · rcases hs with rfl | rfl | rfl
          · exact absurd hp h1
          · exact absurd hp h2
          · exact absurd hp h3
      · have : (!m.mkdirAll dir) = true := by
          cases hx : m.mkdirAll dir with
          | true => exact absurd hx hmk
          | false => rfl
        simp only [this, if_true]
        intro hc
        cases hc

theorem getPythonURL_suffix (version buildDate arch os : Str) (freeThreaded debug : Bool)
    (h : getPythonURL version buildDate arch os freeThreaded debug ≠ []) :
    ".tar.zst".toList <:+ getPythonURL version buildDate arch os freeThreaded debug := by
  unfold getPythonURL at h ⊢
  cases ha : archMap arch with
  | none => rw [ha] at h; exact absurd rfl h
  | some a =>
    simp only [ha] at h ⊢
    cases hb : selectBuild { arch := a, fullPack := true, debug := debug } os freeThreaded with
    | none => rw [hb] at h; exact absurd rfl h
    | some b =>
      simp only
      unfold buildFilename
      simp only [← List.append_assoc]
      exact List.suffix_append _ _

theorem getGoURL_suffix (goos goarch version : Str) (h : getGoURL goos goarch version ≠ []) :
    ∃ suf ∈ archiveSuffixes, suf <:+ getGoURL goos goarch version := by
  have key : ∀ (os ext arch : Str), ext = "zip".toList ∨ ext = "tar.gz".toList →
      ∃ suf ∈ archiveSuffixes, suf <:+ "https://go.dev/dl/go".toList ++ version ++ ".".toList
        ++ os ++ "-".toList ++ arch ++ ".".toList ++ ext := by
    intro os ext arch he
    rcases he with rfl | rfl
    · exact ⟨".zip".toList, by decide,
        ⟨"https://go.dev/dl/go".toList ++ version ++ ".".toList ++ os ++ "-".toList ++ arch,
          by simp⟩⟩
    · exact ⟨".tar.gz".toList, by decide,
        ⟨"https://go.dev/dl/go".toList ++ version ++ ".".toList ++ os ++ "-".toList ++ arch,
          by simp⟩⟩
  unfold getGoURL at h ⊢
  simp only at h ⊢
  generalize hgo : (if goos = "windows".toList then some ("windows".toList, "zip".toList)
      else if goos = "darwin".toList then some ("darwin".toList, "tar.gz".toList)
      else if goos = "linux".toList then some ("linux".toList, "tar.gz".toList)
      else none : Option (Str × Str)) = osExt at h ⊢
  cases osExt with
  | none => exact absurd rfl h
  | some p =>
    obtain ⟨os, ext⟩ := p
    have hext : ext = "zip".toList ∨ ext = "tar.gz".toList := by
      split_ifs at hgo <;> cases hgo
      · exact Or.inl rfl
      · exact Or.inr rfl
      · exact Or.inr rfl
    simp only at h ⊢
    generalize hga : (if goarch = "amd64".toList then some "amd64".toList
        else if goarch = "386".toList then some "386".toList
        else if goarch = "arm64".toList then some "arm64".toList
        else none : Option Str) = arch at h ⊢
    cases arch with
    | none => exact absurd rfl h
    | some a => exact key os ext a hext

theorem tinyPkgConfigURL_suffix (goos arch version url : Str)
    (h : tinyPkgConfigURL goos arch version = some url) :
    ∃ suf ∈ archiveSuffixes, suf <:+ url := by
  unfold tinyPkgConfigURL at h
  by_cases hg : goos = []
  · rw [if_pos hg] at h
    cases h
  · rw [if_neg hg] at h
    simp only [Option.some.injEq] at h
    rw [← h]
    by_cases hw : toUpper (goos.take 1) ++ goos.drop 1 = "Windows".toList
    · rw [if_pos hw]
      exact ⟨".zip".toList, by decide, by
        simp only [← List.append_assoc]
        exact List.suffix_append _ _⟩
    · rw [if_neg hw]
      exact ⟨".tar.gz".toList, by decide, by
        simp only [← List.append_assoc]
        exact List.suffix_append _ _⟩

/-- C25: a non-empty URL of `getPythonURL` or of `getGoURL` and the URL of
tiny-pkg-config, for every version, build date, architecture and operating
system, end in one of `.zip`, `.tar.gz`, `.tar.zst`; the cached file name of a
URL that ends so ends in the same suffix, and `downloadAndExtract` does not
return the error of an unsupported file extension for it, on any machine. -/
theorem component_urls_archive (version buildDate arch os : Str) (freeThreaded debug : Bool) :
    (∀ url, (url = getPythonURL version buildDate arch os freeThreaded debug
          ∨ url = getGoURL os arch version
          ∨ tinyPkgConfigURL os arch version = some url) → url ≠ [] →
        ∃ suf ∈ archiveSuffixes, suf <:+ url
          ∧ (∃ f, cachedFilename url = some f ∧ suf <:+ f)
          ∧ ∀ (m : Machine) (dir trimPrefix : Str) (verbose : Bool),
              downloadAndExtract m url dir trimPrefix verbose
                ≠ .error .unsupportedFileExtension)
      ∧ (getPythonURL version buildDate arch os freeThreaded debug ≠ [] →
          ".tar.zst".toList <:+ getPythonURL version buildDate arch os freeThreaded debug)
      ∧ (os ≠ [] → ∃ url, tinyPkgConfigURL os arch version = some url ∧ url ≠ []) := by
  refine ⟨?_, getPythonURL_suffix version buildDate arch os freeThreaded debug, ?_⟩
  · intro url hu hne
    have hsuf : ∃ suf ∈ archiveSuffixes, suf <:+ url := by
      rcases hu with h | h | h
      · rw [h] at hne ⊢
        exact ⟨".tar.zst".toList, by decide, getPythonURL_suffix _ _ _ _ _ _ hne⟩
      · rw [h] at hne ⊢
        exact getGoURL_suffix _ _ _ hne
      · exact tinyPkgConfigURL_suffix _ _ _ _ h
    obtain ⟨suf, hs, hsu⟩ := hsuf
    obtain ⟨h1, h2⟩ := archive_url url suf hs hsu
    exact ⟨suf, hs, hsu, h1, h2⟩
  · intro hos
    unfold tinyPkgConfigURL
    rw [if_neg hos]
    exact ⟨_, rfl, by simp⟩

set_option maxRecDepth 100000 in
/-- The URLs of the three components for the version `1/2.3` on Linux and
amd64, and the cached file name of each. -/
theorem component_urls_example :
    getGoURL "linux".toList "amd64".toList "1/2.3".toList
        = "https://go.dev/dl/go1/2.3.linux-amd64.tar.gz".toList
      ∧ tinyPkgConfigURL "linux".toList "amd64".toList "1/2.3".toList
        = some ("https://github.com/cpunion/tiny-pkg-config/releases/download/1/2.3/"
            ++ "tiny-pkg-config_Linux_x86_64.tar.gz").toList
      ∧ tinyPkgConfigURL "windows".toList "amd64".toList "v1".toList
        = some ("https://github.com/cpunion/tiny-pkg-config/releases/download/v1/"
            ++ "tiny-pkg-config_Windows_x86_64.zip").toList
      ∧ (cachedFilename (getGoURL "linux".toList "amd64".toList "1/2.3".toList)).map
          (fun f => hasSuffix f ".tar.gz".toList) = some true := by
  refine ⟨by decide, by decide, by decide, by decide⟩

/-- Witness of C25: the URL of Go 1.23.0 for Linux on amd64. -/
theorem component_urls_archive_witness :
    ∃ suf ∈ archiveSuffixes, suf <:+ getGoURL "linux".toList "amd64".toList "1.23.0".toList
      ∧ (∃ f, cachedFilename (getGoURL "linux".toList "amd64".toList "1.23.0".toList) = some f
          ∧ suf <:+ f)
      ∧ ∀ (m : Machine) (dir trimPrefix : Str) (verbose : Bool),
          downloadAndExtract m (getGoURL "linux".toList "amd64".toList "1.23.0".toList) dir
            trimPrefix verbose ≠ .error .unsupportedFileExtension :=
  (component_urls_archive "1.23.0".toList [] "amd64".toList "linux".toList false false).1 _
    (Or.inr (Or.inl rfl)) (by decide)

/-! ## `ReadEnv` -/

/-- C30: `ReadEnv` fails exactly when the environment file cannot be read or
the map read from it has no `PYTHONHOME` or no `PYTHONPATH`.  Otherwise the
result has `PYTHONHOME` and `PYTHONPATH` as in the file, `PATH` is the joined
binary directory of `PYTHONHOME`, the separator of path lists and the `PATH` of
the process, and every other key is as in the file. -/
theorem ReadEnv_spec (goos envPath projectDir : Str) (fs : TextFS) :
    ((∃ err, ReadEnv goos envPath projectDir fs = .error err)
        ↔ (fs.content (getEnvConfigPath projectDir) = none
            ∨ ∃ content, fs.content (getEnvConfigPath projectDir) = some content
                ∧ (parseEnv content "PYTHONHOME".toList = none
                    ∨ parseEnv content "PYTHONPATH".toList = none)))
      ∧ ∀ content pythonHome pythonPath,
          fs.content (getEnvConfigPath projectDir) = some content →
          parseEnv content "PYTHONHOME".toList = some pythonHome →
          parseEnv content "PYTHONPATH".toList = some pythonPath →
          ∃ m, ReadEnv goos envPath projectDir fs = .ok m
            ∧ m "PYTHONHOME".toList = some pythonHome
            ∧ m "PYTHONPATH".toList = some pythonPath
            ∧ m "PATH".toList
                = some (if goos = "windows".toList
                    then join [pythonHome] ++ ";".toList ++ envPath
                    else join [pythonHome, "bin".toList] ++ ":".toList ++ envPath)
            ∧ (∀ k, k ≠ "PATH".toList → m k = parseEnv content k)
            ∧ (∀ k, parseEnv content k ≠ none → m k ≠ none) := by
  have d1 : "PYTHONPATH".toList ≠ "PYTHONHOME".toList := by decide
  have d2 : "PYTHONPATH".toList ≠ "PATH".toList := by decide
  have d3 : "PYTHONHOME".toList ≠ "PATH".toList := by decide
  have hok : ∀ content pythonHome pythonPath,
      fs.content (getEnvConfigPath projectDir) = some content →
      parseEnv content "PYTHONHOME".toList = some pythonHome →
      parseEnv content "PYTHONPATH".toList = some pythonPath →
      ReadEnv goos envPath projectDir fs
        = .ok (Function.update (Function.update (Function.update (parseEnv content)
            "PYTHONHOME".toList (some pythonHome)) "PYTHONPATH".toList (some pythonPath))
            "PATH".toList (some (if goos = "windows".toList
              then join [pythonHome] ++ ";".toList ++ envPath
              else join [pythonHome, "bin".toList] ++ ":".toList ++ envPath))) := by
    intro content pythonHome pythonPath hc hh hp
    simp only [ReadEnv, ReadEnvFile, hc, hh, hp, GeneratePythonEnv, List.foldl_cons,
      List.foldl_nil]
  constructor
  · constructor
    · rintro ⟨err, herr⟩
      cases hc : fs.content (getEnvConfigPath projectDir) with
      | none => exact Or.inl rfl
      | some content =>
        right
        refine ⟨content, rfl, ?_⟩
        by_contra hcon
        rw [not_or] at hcon
        obtain ⟨pythonHome, hh⟩ := Option.ne_none_iff_exists'.mp hcon.1
        obtain ⟨pythonPath, hp⟩ := Option.ne_none_iff_exists'.mp hcon.2
        rw [hok content pythonHome pythonPath hc hh hp] at herr
        cases herr
    · rintro (hc | ⟨content, hc, hh | hp⟩)
      · exact ⟨.readFile .read, by simp only [ReadEnv, ReadEnvFile, hc]⟩
      · exact ⟨.pythonHomeNotSet, by simp only [ReadEnv, ReadEnvFile, hc, hh]⟩
      · cases hh : parseEnv content "PYTHONHOME".toList with
        | none => exact ⟨.pythonHomeNotSet, by simp only [ReadEnv, ReadEnvFile, hc, hh]⟩
        | some pythonHome =>
          exact ⟨.pythonPathNotSet, by simp only [ReadEnv, ReadEnvFile, hc, hh, hp]⟩
  · intro content pythonHome pythonPath hc hh hp
    refine ⟨_, hok content pythonHome pythonPath hc hh hp, ?_, ?_, ?_, ?_, ?_⟩
    · rw [Function.update_noteq d3, Function.update_noteq d1.symm, Function.update_same]
    · rw [Function.update_noteq d2, Function.update_same]
    · rw [Function.update_same]
    · intro k hk
      rw [Function.update_noteq hk]
      by_cases h2 : k = "PYTHONPATH".toList
      · rw [h2, Function.update_same, hp]
      · rw [Function.update_noteq h2]
        by_cases h1 : k = "PYTHONHOME".toList
        · rw [h1, Function.update_same, hh]
        · rw [Function.update_noteq h1]
    · intro k hk
      by_cases h3 : k = "PATH".toList
      · rw [h3, Function.update_same]
        exact Option.some_ne_none _
      · rw [Function.update_noteq h3]
        by_cases h2 : k = "PYTHONPATH".toList
        · rw [h2, Function.update_same]
          exact Option.some_ne_none _
        · rw [Function.update_noteq h2]
          by_cases h1 : k = "PYTHONHOME".toList
          · rw [h1, Function.update_same]
            exact Option.some_ne_none _
          · rw [Function.update_noteq h1]
            exact hk

set_option maxRecDepth 100000 in
/-- Witness of C30: the file `WriteEnvFile` writes for the project `/p` is read
with `PATH` replaced; a file without `PYTHONHOME` gives an error. -/
theorem ReadEnv_spec_witness :
    (∃ m, ReadEnv "linux".toList "/usr/bin".toList "/p".toList
          (WriteEnvFile "linux".toList "/p".toList "/opt/py".toList "/a:/b".toList
            emptyTextFS).1 = .ok m
        ∧ m "PYTHONHOME".toList = some "/opt/py".toList
        ∧ m "PYTHONPATH".toList = some "/a:/b".toList
        ∧ m "PATH".toList = some "/opt/py/bin:/usr/bin".toList)
      ∧ ∃ err, ReadEnv "linux".toList "/usr/bin".toList "/p".toList exampleTextFS
          = .error err := by
  constructor
  · obtain ⟨m, h1, h2, h3, h4, -, -⟩ := (ReadEnv_spec "linux".toList "/usr/bin".toList
      "/p".toList (WriteEnvFile "linux".toList "/p".toList "/opt/py".toList "/a:/b".toList
        emptyTextFS).1).2
      "PYTHONPATH=/a:/b\nPYTHONHOME=/opt/py\nPATH=/p/.deps/python/bin".toList
      "/opt/py".toList "/a:/b".toList (by decide) (by decide) (by decide)
    exact ⟨m, h1, h2, h3, by rw [h4]; decide⟩
  · exact (ReadEnv_spec "linux".toList "/usr/bin".toList "/p".toList exampleTextFS).1.mpr
      (Or.inr ⟨"B=x=y\nA=1".toList, by decide, Or.inl (by decide)⟩)

/-! ## The interpreter `PythonEnv.Python` returns -/

theorem readDir_sorted (d : Directory) :
    (readDir d).Sorted (fun a b => a.1 ≤ b.1) := by
  haveI : IsTotal (Str × Bool) (fun a b => a.1 ≤ b.1) := ⟨fun a b => le_total a.1 b.1⟩
  haveI : IsTrans (Str × Bool) (fun a b => a.1 ≤ b.1) := ⟨fun a b c h1 h2 => le_trans h1 h2⟩
  exact List.sorted_insertionSort _ _

theorem mem_readDir (d : Directory) (x : Str × Bool) :
    x ∈ readDir d ↔ ∃ n node, (n, node) ∈ d ∧ x = (n, decide (node = DirNode.subdir)) := by
  simp only [readDir, List.mem_insertionSort, List.mem_map]
  constructor
  · rintro ⟨⟨n, node⟩, h, rfl⟩
    exact ⟨n, node, h, rfl⟩
  · rintro ⟨n, node, h, rfl⟩
    exact ⟨(n, node), h, rfl⟩

theorem find?_sorted {α : Type} (r : α → α → Prop) (p : α → Bool) (l : List α)
    (hs : l.Sorted r) (hrefl : ∀ a, r a a) (x : α) (hx : l.find? p = some x) :
    x ∈ l ∧ p x = true ∧ ∀ y ∈ l, p y = true → r x y := by
  induction l with
  | nil => simp at hx
  | cons a t ih =>
    rw [List.sorted_cons] at hs
    by_cases hp : p a = true
    · rw [List.find?_cons_of_pos _ hp] at hx
      cases hx
      refine ⟨List.mem_cons_self _ _, hp, fun y hy _ => ?_⟩
      rcases List.mem_cons.mp hy with h | h
      · rw [h]
        exact hrefl _
      · exact hs.1 y h
    · rw [List.find?_cons_of_neg _ hp] at hx
      obtain ⟨h1, h2, h3⟩ := ih hs.2 hx
      refine ⟨List.mem_cons_of_mem _ h1, h2, fun y hy hpy => ?_⟩
      rcases List.mem_cons.mp hy with h | h
      · rw [h] at hpy
        exact absurd hpy hp
      · exact h3 y h hpy

theorem not_snoc_le (n : Str) (c : Char) : ¬ (n ++ [c] ≤ n) := by
  rw [not_le]
  have h : List.Lex (· < ·) (n ++ []) (n ++ [c]) := List.Lex.append_left _ List.Lex.nil n
  rw [List.append_nil] at h
  exact h

theorem pythonEntry_first (goos : Str) (d : Directory) (entry : Str × Bool)
    (h : pythonEntry goos d = some entry) :
    (∃ c, (entry.1, DirNode.file c) ∈ d) ∧ pythonPattern goos entry.1 = true
      ∧ ∀ n c, (n, DirNode.file c) ∈ d → pythonPattern goos n = true → entry.1 ≤ n := by
  obtain ⟨h1, h2, h3⟩ := find?_sorted (fun a b : Str × Bool => a.1 ≤ b.1)
    (fun x => !x.2 && pythonPattern goos x.1) (readDir d) (readDir_sorted d)
    (fun a => le_refl a.1) entry h
  simp only [Bool.and_eq_true, Bool.not_eq_true'] at h2
  obtain ⟨n, node, hn, he⟩ := (mem_readDir d entry).mp h1
  refine ⟨?_, h2.2, fun n2 c hc hp => ?_⟩
  · cases node with
    | file c =>
      rw [he]
      exact ⟨c, hn⟩
    | subdir =>
      rw [he] at h2
      simp at h2
  · have hm : (n2, false) ∈ readDir d :=
      (mem_readDir d _).mpr ⟨n2, .file c, hc, by simp⟩
    exact h3 (n2, false) hm (by simp [hp])

set_option maxRecDepth 100000 in
/-- C24: `PythonEnv.Python` returns the first entry in the order of file names
that is no directory and matches the pattern, with or without `t`.  In a binary
directory with `python3.13` and `python3.13t`, which both match, it returns
`python3.13`; in general, when `n` and `nt` are files of the directory and `n`
matches, the entry found is never `nt`. -/
theorem Python_first_in_order :
    pythonPattern "linux".toList "python3.13".toList = true
      ∧ pythonPattern "linux".toList "python3.13t".toList = true
      ∧ pythonPattern "linux".toList "pip3".toList = false
      ∧ PythonEnv.Python ⟨"/r".toList⟩ "linux".toList
          (fun q => if q = "/r/bin".toList then some exampleBinDir else none)
        = .ok "/r/bin/python3.13".toList
      ∧ (∀ (e : PythonEnv) (goos : Str) (dirs : Str → Option Directory) (d : Directory)
          (path : Str), dirs (e.binDir goos) = some d → e.Python goos dirs = .ok path →
          ∃ n, path = join [e.binDir goos, n] ∧ (∃ c, (n, DirNode.file c) ∈ d)
            ∧ pythonPattern goos n = true
            ∧ ∀ n2 c2, (n2, DirNode.file c2) ∈ d → pythonPattern goos n2 = true → n ≤ n2)
      ∧ (∀ (goos : Str) (d : Directory) (n c c2 : Str) (entry : Str × Bool),
          (n, DirNode.file c) ∈ d → (n ++ "t".toList, DirNode.file c2) ∈ d →
          pythonPattern goos n = true → pythonEntry goos d = some entry →
          entry.1 ≠ n ++ "t".toList) := by
  refine ⟨by decide, by decide, by decide, rfl, ?_, ?_⟩
  · intro e goos dirs d path hd hp
    unfold PythonEnv.Python at hp
    rw [hd] at hp
    cases hpe : pythonEntry goos d with
    | none =>
      simp only [hpe] at hp
      cases hp
    | some entry =>
      simp only [hpe, Except.ok.injEq] at hp
      obtain ⟨h1, h2, h3⟩ := pythonEntry_first goos d entry hpe
      exact ⟨entry.1, hp.symm, h1, h2, h3⟩
  · intro goos d n c c2 entry hn _ hp hpe heq
    obtain ⟨-, -, h3⟩ := pythonEntry_first goos d entry hpe
    have := h3 n c hn hp
    rw [heq] at this
    exact not_snoc_le n 't' this

/-- The pattern of `PythonEnv.Python` on some names. -/
theorem pythonPattern_examples :
    pythonPattern "linux".toList "python".toList = true
      ∧ pythonPattern "linux".toList "python3".toList = true
      ∧ pythonPattern "linux".toList "python3t".toList = true
      ∧ pythonPattern "linux".toList "pythont".toList = true
      ∧ pythonPattern "linux".toList "python3.13-config".toList = false
      ∧ pythonPattern "linux".toList "python3.exe".toList = false
      ∧ pythonPattern "windows".toList "python3.exe".toList = true
      ∧ pythonPattern "windows".toList "python3.13t.exe".toList = true
      ∧ pythonPattern "windows".toList "python.exe".toList = true
      ∧ pythonPattern "windows".toList "pythonw.exe".toList = false
      ∧ pythonPattern "windows".toList "python3".toList = true := by
  decide

/-! ## Patching a patched descriptor -/

theorem replaceAllAux_of_not_infix (old new : Str) (fuel : Nat) (s : Str)
    (h : ¬ old <:+: s) : replaceAllAux old new fuel s = s := by
  induction fuel generalizing s with
  | zero => simp only [replaceAllAux]
  | succ n ih =>
    cases s with
    | nil => simp only [replaceAllAux]
    | cons c cs =>
      have hpre : ¬ hasPrefix (c :: cs) old = true := fun hp =>
        h ((hasPrefix_iff _ _).mp hp).isInfix
      simp only [replaceAllAux]
      rw [if_neg hpre, ih cs (fun hi => h (hi.trans (List.suffix_cons _ _).isInfix))]

theorem length_replaceAllAux_le (old new : Str) (hlen : old.length ≤ new.length) (fuel : Nat)
    (s : Str) : s.length ≤ (replaceAllAux old new fuel s).length := by
  induction fuel using Nat.strong_induction_on generalizing s with
  | _ fuel ih =>
    cases fuel with
    | zero => simp only [replaceAllAux, le_refl]
    | succ n =>
      cases s with
      | nil => simp only [replaceAllAux, le_refl]
      | cons c cs =>
        simp only [replaceAllAux]
        by_cases hpre : hasPrefix (c :: cs) old = true
        · rw [if_pos hpre]
          have h1 := ih n (Nat.lt_succ_self n) ((c :: cs).drop old.length)
          have h2 : old.length ≤ (c :: cs).length := ((hasPrefix_iff _ _).mp hpre).length_le
          rw [List.length_append]
          rw [List.length_drop] at h1
          omega
        · rw [if_neg hpre]
          have h1 := ih n (Nat.lt_succ_self n) cs
          simp only [List.length_cons]
          omega

theorem length_replaceAllAux_lt (old new : Str) (hne : old ≠ [])
    (hlen : old.length < new.length) (fuel : Nat) (s : Str) (hf : s.length ≤ fuel)
    (h : old <:+: s) :
    s.length < (replaceAllAux old new fuel s).length := by
  induction fuel generalizing s with
  | zero =>
    have hs : s = [] := List.length_eq_zero.mp (Nat.le_zero.mp hf)
    rw [hs] at h
    exact absurd (List.eq_nil_of_infix_nil h) hne
  | succ n ih =>
    cases s with
    | nil => exact absurd (List.eq_nil_of_infix_nil h) hne
    | cons c cs =>
      simp only [List.length_cons, Nat.add_le_add_iff_right] at hf
      simp only [replaceAllAux]
      by_cases hpre : hasPrefix (c :: cs) old = true
      · rw [if_pos hpre]
        have h1 := length_replaceAllAux_le old new (le_of_lt hlen) n ((c :: cs).drop old.length)
        have h2 : old.length ≤ (c :: cs).length := ((hasPrefix_iff _ _).mp hpre).length_le
        rw [List.length_append]
        rw [List.length_drop] at h1
        omega
      · rw [if_neg hpre]
        rcases List.infix_cons_iff.mp h with h3 | h3
        · exact absurd ((hasPrefix_iff _ _).mpr h3) hpre
        · have := ih cs hf h3
          simp only [List.length_cons]
          omega

theorem patched_eq (A content : Str) :
    patched A content = replaceAllAux placeholder ("prefix=".toList ++ A) content.length content := by
  unfold patched replaceAll
  rw [if_neg (by decide)]
  rfl

/-- The patch is idempotent on a content exactly when the patched content
holds no placeholder. -/
theorem patched_patched (Z content : Str) :
    (¬ placeholder <:+: "prefix=".toList ++ (Z ++ "python".toList) →
        patched (Z ++ "python".toList) (patched (Z ++ "python".toList) content)
          = patched (Z ++ "python".toList) content)
      ∧ (placeholder <:+: "prefix=".toList ++ (Z ++ "python".toList) →
          placeholder <:+: content →
          patched (Z ++ "python".toList) (patched (Z ++ "python".toList) content)
            ≠ patched (Z ++ "python".toList) content) := by
  constructor
  · intro hno
    have hclean : ¬ placeholder <:+: patched (Z ++ "python".toList) content := by
      by_cases hc : placeholder <:+: content
      · exact fun h => hno ((patched_placeholder Z content hc).2.mp h)
      · rw [patched_eq, replaceAllAux_of_not_infix _ _ _ _ hc]
        exact hc
    rw [patched_eq (Z ++ "python".toList) (patched (Z ++ "python".toList) content)]
    exact replaceAllAux_of_not_infix _ _ _ _ hclean
  · intro hin hc heq
    have h1 : placeholder <:+: patched (Z ++ "python".toList) content :=
      (patched_placeholder Z content hc).2.mpr hin
    have hlen : placeholder.length < ("prefix=".toList ++ (Z ++ "python".toList)).length := by
      have h15 : placeholder.length = 15 := rfl
      have := hin.length_le
      rcases (placeholder_infix_new _).mp hin with h2 | h2
      · obtain ⟨r, hr⟩ := h2
        have hr2 : r ≠ [] := by
          intro e
          rw [e, List.append_nil] at hr
          have h3 := congrArg List.getLast? hr
          simp at h3
        have hl := congrArg List.length hr
        have h8 : "/install".toList.length = 8 := rfl
        have hrl : 0 < r.length := List.length_pos.mpr hr2
        simp only [List.length_append] at hl ⊢
        have h7 : "prefix=".toList.length = 7 := rfl
        omega
      · have := h2.length_le
        simp only [List.length_append] at this ⊢
        have h7 : "prefix=".toList.length = 7 := rfl
        omega
    have h2 := length_replaceAllAux_lt placeholder ("prefix=".toList ++ (Z ++ "python".toList))
      (by decide) hlen _ (patched (Z ++ "python".toList) content) (le_refl _) h1
    rw [← patched_eq, heq] at h2
    exact lt_irrefl _ h2

/-- A run of the loop of `updatePkgConfig` over a directory in which every
descriptor is left as it is by the patch and every name written for it already
holds its content changes no entry. -/
theorem updateEntries_fixed (absPath : Str) (L : List (Str × Bool)) (d0 d d' : Directory)
    (hfix : ∀ n c, d0.lookup n = some (.file c) → hasSuffix n ".pc".toList = true →
      patched absPath c = c ∧ ∀ k ∈ writtenNames n, d0.lookup k = some (.file c))
    (hinv : ∀ k, d.lookup k = d0.lookup k)
    (h : updateEntries absPath L d = .ok d') : ∀ k, d'.lookup k = d0.lookup k := by
  induction L generalizing d with
  | nil =>
    simp only [updateEntries, Except.ok.injEq] at h
    subst h
    exact hinv
  | cons e rest ih =>
    simp only [updateEntries] at h
    cases h1 : updateEntry absPath d e with
    | error x => rw [h1] at h; cases h
    | ok d1 =>
      simp only [h1] at h
      refine ih d1 ?_ h
      by_cases hpc : isPcEntry e = true
      · obtain ⟨c, hc, hW⟩ := updateEntry_lookup absPath d d1 e hpc h1
        have hl : d0.lookup e.1 = some (.file c) := by
          rw [← hinv e.1]
          unfold Directory.readFile at hc
          cases hx : d.lookup e.1 with
          | none => simp [hx] at hc
          | some node =>
            cases node with
            | subdir => simp [hx] at hc
            | file c2 =>
              simp only [hx, Option.some.injEq] at hc
              rw [hc]
        have hs : hasSuffix e.1 ".pc".toList = true := by
          unfold isPcEntry at hpc
          simp only [Bool.and_eq_true] at hpc
          exact hpc.2
        obtain ⟨hp, hall⟩ := hfix e.1 c hl hs
        intro k
        rw [hW k, hp]
        by_cases hk : k ∈ writtenNames e.1
        · rw [if_pos hk, hall k hk]
        · rw [if_neg hk, hinv k]
      · rw [updateEntry_skip absPath d e (Bool.eq_false_iff.mpr hpc)] at h1
        simp only [Except.ok.injEq] at h1
        subst h1
        exact hinv

theorem writtenNames_alias (k : Str) (hn : normalPattern k = none) (he : embedPattern k = none) :
    writtenNames k = [k] := by
  simp only [writtenNames, patternNames, hn, he, List.append_nil]

theorem updatePkgConfig_fixed (absPath : Str) (d d' : Directory)
    (hfix : ∀ n c, d.lookup n = some (.file c) → hasSuffix n ".pc".toList = true →
      patched absPath c = c ∧ ∀ k ∈ writtenNames n, d.lookup k = some (.file c))
    (h : updatePkgConfig absPath (some d) = .ok d') : ∀ k, d'.lookup k = d.lookup k := by
  unfold updatePkgConfig at h
  exact updateEntries_fixed absPath (readDir d) d d d' hfix (fun _ => rfl) h

/-- The names written for each of the eight names the free-threaded
descriptors are written to are among the names of the same descriptor. -/
theorem writtenNames_closed (X Y : Str) (hv : isVersion X Y) :
    (∀ n ∈ writtenNames (pcName X Y "t.pc".toList),
        ∀ k ∈ writtenNames n, k ∈ writtenNames (pcName X Y "t.pc".toList))
      ∧ (∀ n ∈ writtenNames (pcName X Y "t-embed.pc".toList),
          ∀ k ∈ writtenNames n, k ∈ writtenNames (pcName X Y "t-embed.pc".toList)) := by
  obtain ⟨wN, wP, wE, wQ⟩ := writtenNames_pcName X Y hv
  have a1 : writtenNames "python3t.pc".toList = ["python3t.pc".toList] :=
    writtenNames_alias _ (by decide) (by decide)
  have a2 : writtenNames "python3.pc".toList = ["python3.pc".toList] :=
    writtenNames_alias _ (by decide) (by decide)
  have a3 : writtenNames "python3t-embed.pc".toList = ["python3t-embed.pc".toList] :=
    writtenNames_alias _ (by decide) (by decide)
  have a4 : writtenNames "python3-embed.pc".toList = ["python3-embed.pc".toList] :=
    writtenNames_alias _ (by decide) (by decide)
  constructor
  · intro n hn k hk
    rw [wN] at hn ⊢
    simp only [List.mem_cons, List.mem_singleton, List.not_mem_nil, or_false] at hn
    rcases hn with rfl | rfl | rfl | rfl
    · rw [wN] at hk
      exact hk
    · rw [wP] at hk
      simp only [List.mem_cons, List.mem_singleton, List.not_mem_nil, or_false] at hk ⊢
      tauto
    · rw [a1] at hk
      simp only [List.mem_cons, List.mem_singleton, List.not_mem_nil, or_false] at hk ⊢
      tauto
    · rw [a2] at hk
      simp only [List.mem_cons, List.mem_singleton, List.not_mem_nil, or_false] at hk ⊢
      tauto
  · intro n hn k hk
    rw [wE] at hn ⊢
    simp only [List.mem_cons, List.mem_singleton, List.not_mem_nil, or_false] at hn
    rcases hn with rfl | rfl | rfl | rfl
    · rw [wE] at hk
      exact hk
    · rw [wQ] at hk
      simp only [List.mem_cons, List.mem_singleton, List.not_mem_nil, or_false] at hk ⊢
      tauto
    · rw [a3] at hk
      simp only [List.mem_cons, List.mem_singleton, List.not_mem_nil, or_false] at hk ⊢
      tauto
    · rw [a4] at hk
      simp only [List.mem_cons, List.mem_singleton, List.not_mem_nil, or_false] at hk ⊢
      tauto

/-- C28, as amended: with `A` the absolute path of the Python root, the patch
is idempotent when `A` neither begins with `/install` nor holds the
placeholder: patching a patched content changes nothing, a run of
`updatePkgConfig` on a directory whose descriptors are patched and whose
aliases are in place changes no entry, and so does a second run after a first
one on the two free-threaded descriptors.  When `A` begins with `/install` or
holds the placeholder, patching a second time changes every content that held
the placeholder. -/
theorem updatePkgConfig_idempotent (wd : Option Str) (projectPath A : Str)
    (hA : pythonAbsPath wd projectPath = some A) :
    ((hasPrefix A "/install".toList = false ∧ contains A "prefix=/install".toList = false) →
        (∀ content, patched A (patched A content) = patched A content)
        ∧ (∀ d d' : Directory,
            (∀ n c, d.lookup n = some (.file c) → hasSuffix n ".pc".toList = true →
              patched A c = c ∧ ∀ k ∈ writtenNames n, d.lookup k = some (.file c)) →
            updatePkgConfig A (some d) = .ok d' → ∀ k, d'.lookup k = d.lookup k)
        ∧ (∀ (X Y cN cE : Str) (d d1 d2 : Directory), isVersion X Y →
            (d.map Prod.fst).Nodup →
            d.lookup (pcName X Y "t.pc".toList) = some (.file cN) →
            d.lookup (pcName X Y "t-embed.pc".toList) = some (.file cE) →
            (∀ n c, d.lookup n = some (.file c) → hasSuffix n ".pc".toList = true →
              n = pcName X Y "t.pc".toList ∨ n = pcName X Y "t-embed.pc".toList) →
            updatePkgConfig A (some d) = .ok d1 → updatePkgConfig A (some d1) = .ok d2 →
            ∀ k, d2.lookup k = d1.lookup k))
      ∧ ((hasPrefix A "/install".toList = true ∨ contains A "prefix=/install".toList = true) →
          ∀ content, contains content "prefix=/install".toList = true →
            patched A (patched A content) ≠ patched A content) := by
  obtain ⟨Z, hZ⟩ := pythonAbsPath_python wd projectPath A hA
  subst hZ
  constructor
  · rintro ⟨h1, h2⟩
    have hno : ¬ placeholder <:+: "prefix=".toList ++ (Z ++ "python".toList) := by
      rw [placeholder_infix_new]
      rintro (h | h)
      · rw [(hasPrefix_iff _ _).mpr h] at h1
        cases h1
      · have : contains (Z ++ "python".toList) "prefix=/install".toList = true := by
          simp only [contains, decide_eq_true_eq]
          exact h
        rw [this] at h2
        cases h2
    have hidem : ∀ content, patched (Z ++ "python".toList)
        (patched (Z ++ "python".toList) content) = patched (Z ++ "python".toList) content :=
      fun content => (patched_patched Z content).1 hno
    refine ⟨hidem, fun d d' hfix h => updatePkgConfig_fixed _ d d' hfix h, ?_⟩
    intro X Y cN cE d d1 d2 hv hnd hN hE hpc hok1 hok2
    obtain ⟨wN, -, wE, -⟩ := writtenNames_pcName X Y hv
    obtain ⟨hdis, -, -⟩ := pcNames_distinct X Y hv
    obtain ⟨cl1, cl2⟩ := writtenNames_closed X Y hv
    have hdisj : ∀ k, k ∈ writtenNames (pcName X Y "t.pc".toList) →
        k ∉ writtenNames (pcName X Y "t-embed.pc".toList) := by
      intro k h3 h4
      rw [wN] at h3
      rw [wE] at h4
      exact hdis k h3 k h4 rfl
    have key := updatePkgConfig_two _ d d1 _ _ cN cE hnd
      (hasSuffix_pcName X Y _ _ (by decide)) (hasSuffix_pcName X Y _ _ (by decide))
      hN hE hpc hdisj hok1
    apply updatePkgConfig_fixed _ d1 d2 _ hok2
    intro n c hl hs
    by_cases ha : n ∈ writtenNames (pcName X Y "t.pc".toList)
    · rw [key n, if_pos ha] at hl
      simp only [Option.some.injEq, DirNode.file.injEq] at hl
      subst hl
      refine ⟨hidem cN, fun k hk => ?_⟩
      rw [key k, if_pos (cl1 n ha k hk)]
    · by_cases hb : n ∈ writtenNames (pcName X Y "t-embed.pc".toList)
      · rw [key n, if_neg ha, if_pos hb] at hl
        simp only [Option.some.injEq, DirNode.file.injEq] at hl
        subst hl
        refine ⟨hidem cE, fun k hk => ?_⟩
        have hk2 := cl2 n hb k hk
        rw [key k, if_neg (fun h => hdisj k h hk2), if_pos hk2]
      · rw [key n, if_neg ha, if_neg hb] at hl
        rcases hpc n c hl hs with h | h
        · exact absurd (by rw [h]; unfold writtenNames; exact List.mem_cons_self _ _) ha
        · exact absurd (by rw [h]; unfold writtenNames; exact List.mem_cons_self _ _) hb
  · intro hor content hc
    have hin : placeholder <:+: "prefix=".toList ++ (Z ++ "python".toList) := by
      rw [placeholder_infix_new]
      rcases hor with h | h
      · exact Or.inl ((hasPrefix_iff _ _).mp h)
      · right
        simpa only [contains, decide_eq_true_eq] using h
    have hc2 : placeholder <:+: content := by
      simpa only [contains, decide_eq_true_eq] using hc
    exact (patched_patched Z content).2 hin hc2

set_option maxRecDepth 100000 in
/-- Witness of C28: for the project `/tmp/proj` the patch is idempotent, and a
second run of `updatePkgConfig` on the directory with the free-threaded
descriptors of Python 3.13 changes no entry. -/
theorem updatePkgConfig_idempotent_witness :
    pythonAbsPath (some "/".toList) "/tmp/proj".toList = some "/tmp/proj/.deps/python".toList
      ∧ patched "/tmp/proj/.deps/python".toList
          (patched "/tmp/proj/.deps/python".toList "prefix=/install\nlibdir=x\n".toList)
        = patched "/tmp/proj/.deps/python".toList "prefix=/install\nlibdir=x\n".toList
      ∧ ∃ d1 d2, updatePkgConfig "/tmp/proj/.deps/python".toList (some exampleThreadedDir) = .ok d1
          ∧ updatePkgConfig "/tmp/proj/.deps/python".toList (some d1) = .ok d2
          ∧ ∀ k, d2.lookup k = d1.lookup k := by
  have hok1 : updatePkgConfig "/tmp/proj/.deps/python".toList (some exampleThreadedDir)
      = .ok ((updatePkgConfig "/tmp/proj/.deps/python".toList
          (some exampleThreadedDir)).toOption.getD []) := by
    rfl
  have hok2 : updatePkgConfig "/tmp/proj/.deps/python".toList
        (some ((updatePkgConfig "/tmp/proj/.deps/python".toList
          (some exampleThreadedDir)).toOption.getD []))
      = .ok ((updatePkgConfig "/tmp/proj/.deps/python".toList
        (some ((updatePkgConfig "/tmp/proj/.deps/python".toList
          (some exampleThreadedDir)).toOption.getD []))).toOption.getD []) := by
    rfl
  have hpc : ∀ n c, exampleThreadedDir.lookup n = some (.file c) →
      hasSuffix n ".pc".toList = true →
      n = pcName "3".toList "13".toList "t.pc".toList
        ∨ n = pcName "3".toList "13".toList "t-embed.pc".toList := by
    intro n c h hs
    have hm := mem_of_lookup _ _ _ h
    simp only [exampleThreadedDir, List.mem_cons, Prod.mk.injEq, List.not_mem_nil,
      or_false] at hm
    rcases hm with ⟨rfl, -⟩ | ⟨rfl, -⟩ | ⟨rfl, -⟩
    · exact Or.inl (by decide)
    · exact Or.inr (by decide)
    · exact absurd hs (by decide)
  have h := (updatePkgConfig_idempotent (some "/".toList) "/tmp/proj".toList
    "/tmp/proj/.deps/python".toList (by decide)).1 ⟨by decide, by decide⟩
  exact ⟨by decide, h.1 _, _, _, hok1, hok2,
    h.2.2 "3".toList "13".toList "prefix=/install\nLibs: -lpython3t\n".toList
      "prefix=/install\nLibs: -lpython313t\n".toList exampleThreadedDir _ _
      (by decide) (by decide) (by decide) (by decide) hpc hok1 hok2⟩

set_option maxRecDepth 100000 in
/-- C28, counterexample: for the project `/install/proj` the absolute path of
the Python root begins with `/install`; patching the content
`prefix=/install` once gives `prefix=/install/proj/.deps/python`, patching it
twice gives `prefix=/install/proj/.deps/python/proj/.deps/python`, and a
second run of `updatePkgConfig` changes the content of `python-3.13t.pc`. -/
theorem updatePkgConfig_idempotent_fails :
    pythonAbsPath (some "/".toList) "/install/proj".toList
        = some "/install/proj/.deps/python".toList
      ∧ patched "/install/proj/.deps/python".toList "prefix=/install\n".toList
          = "prefix=/install/proj/.deps/python\n".toList
      ∧ patched "/install/proj/.deps/python".toList
          (patched "/install/proj/.deps/python".toList "prefix=/install\n".toList)
          = "prefix=/install/proj/.deps/python/proj/.deps/python\n".toList
      ∧ patched "/install/proj/.deps/python".toList
          (patched "/install/proj/.deps/python".toList "prefix=/install\n".toList)
          ≠ patched "/install/proj/.deps/python".toList "prefix=/install\n".toList
      ∧ (updatePkgConfig "/install/proj/.deps/python".toList (some exampleThreadedDir)).toOption.map
          (fun d => d.lookup "python-3.13t.pc".toList)
        = some (some (.file "prefix=/install/proj/.deps/python\nLibs: -lpython3t\n".toList))
      ∧ ((updatePkgConfig "/install/proj/.deps/python".toList
            (some exampleThreadedDir)).toOption.bind
          (fun d1 => (updatePkgConfig "/install/proj/.deps/python".toList
            (some d1)).toOption)).map (fun d => d.lookup "python-3.13t.pc".toList)
        = some (some (.file
            "prefix=/install/proj/.deps/python/proj/.deps/python\nLibs: -lpython3t\n".toList)) := by
  refine ⟨by decide, by decide, by decide, by decide, by decide, by decide⟩

/-! ## A directory with both descriptors of a version -/

/-- A match of one of the two patterns: the group is two runs of digits around
a dot, and the name is `python-`, the group, an optional `t` and the tail. -/
theorem matchVersioned_some (tail n v : Str) (h : matchVersioned tail n = some v) :
    ∃ major minor, minor ≠ [] ∧ (∀ c ∈ minor, c.isDigit = true)
      ∧ v = major ++ '.' :: minor
      ∧ (n = "python-".toList ++ v ++ 't' :: tail ∨ n = "python-".toList ++ v ++ tail) := by
  unfold matchVersioned at h
  cases hs : splitVersion n with
  | none => rw [hs] at h; cases h
  | some p =>
    obtain ⟨version, rest⟩ := p
    rw [hs] at h
    simp only at h
    by_cases hr : rest = 't' :: tail ∨ rest = tail
    · rw [if_pos hr] at h
      cases h
      unfold splitVersion at hs
      by_cases hp : hasPrefix n "python-".toList = true
      · rw [if_pos hp] at hs
        obtain ⟨u, hu⟩ := (hasPrefix_iff _ _).mp hp
        have hd : n.drop 7 = u := by
          rw [← hu]
          exact List.drop_left' rfl
        rw [hd] at hs
        have hu2 := List.takeWhile_append_dropWhile Char.isDigit u
        cases hdw : u.dropWhile Char.isDigit with
        | nil => rw [hdw] at hs; simp at hs
        | cons c r =>
          rw [hdw] at hs hu2
          by_cases hc : c = '.'
          · subst hc
            simp only at hs
            by_cases hne : u.takeWhile Char.isDigit ≠ [] ∧ r.takeWhile Char.isDigit ≠ []
            · rw [if_pos hne] at hs
              simp only [Option.some.injEq, Prod.mk.injEq] at hs
              obtain ⟨hv, hrest⟩ := hs
              have hr2 := List.takeWhile_append_dropWhile Char.isDigit r
              refine ⟨u.takeWhile Char.isDigit, r.takeWhile Char.isDigit, hne.2,
                fun c hc => List.mem_takeWhile_imp hc, hv.symm, ?_⟩
              have hn : n = "python-".toList ++ v ++ rest := by
                rw [← hu, ← hu2, ← hv, ← hrest]
                conv_lhs => rw [← hr2]
                simp
              rcases hr with h1 | h1
              · left
                rw [hn, h1]
              · right
                rw [hn, h1]
            · rw [if_neg hne] at hs
              cases hs
          · exfalso
            revert hs
            split
            · rename_i heq
              cases heq
              exact absurd rfl hc
            · intro hs
              cases hs
      · rw [if_neg hp] at hs
        cases hs
    · rw [if_neg hr] at h
      cases h

theorem mem_patternNames (k n : Str) (pat : Option Str) (marker noTTail aliasT aliasPlain : Str)
    (h : k ∈ patternNames n pat marker noTTail aliasT aliasPlain) :
    ∃ v, pat = some v ∧ (k = "python-".toList ++ v ++ noTTail ∨ k = aliasT ∨ k = aliasPlain) := by
  cases pat with
  | none => simp [patternNames] at h
  | some v =>
    refine ⟨v, rfl, ?_⟩
    unfold patternNames at h
    simp only at h
    by_cases hc : contains n marker = true
    · rw [if_pos hc] at h
      simpa only [List.mem_cons, List.mem_singleton, List.not_mem_nil, or_false] using h
    · rw [if_neg hc] at h
      simp only [List.mem_cons, List.mem_singleton, List.not_mem_nil, or_false] at h
      exact Or.inr (Or.inr h)

theorem pcName_ne_alias (X Y tail s : Str) :
    pcName X Y tail ≠ 'p' :: 'y' :: 't' :: 'h' :: 'o' :: 'n' :: '3' :: s := by
  intro h
  simp [pcName] at h

theorem pcName_cancel (X Y tail v noTTail : Str)
    (h : pcName X Y tail = "python-".toList ++ v ++ noTTail) :
    X ++ '.' :: Y ++ tail = v ++ noTTail := by
  unfold pcName at h
  rw [List.append_assoc, List.append_assoc, List.append_assoc] at h
  have := List.append_cancel_left h
  rw [← List.append_assoc] at this
  exact this

theorem snoc_of_ne_nil (Y : Str) (h : Y ≠ []) : ∃ Y0 y, Y = Y0 ++ [y] ∧ y ∈ Y :=
  ⟨Y.dropLast, Y.getLast h, (List.dropLast_append_getLast h).symm, List.getLast_mem h⟩

/-- The name `python-X.Yt.pc` is written for no other descriptor. -/
theorem mem_writtenNames_threaded (X Y n : Str)
    (h : pcName X Y "t.pc".toList ∈ writtenNames n) : n = pcName X Y "t.pc".toList := by
  unfold writtenNames at h
  rcases List.mem_cons.mp h with h | h
  · exact h.symm
  · exfalso
    rcases List.mem_append.mp h with h | h
    · obtain ⟨v, hp, h | h | h⟩ := mem_patternNames _ _ _ _ _ _ _ h
      · have e := pcName_cancel _ _ _ _ _ h
        have e2 : (X ++ '.' :: Y ++ ['t']) ++ ".pc".toList = v ++ ".pc".toList := by
          rw [← e]
          simp
        have e3 := List.append_cancel_right e2
        obtain ⟨major, minor, hne, hdig, hvv, -⟩ := matchVersioned_some _ _ _ hp
        obtain ⟨m0, m, hm, hmem⟩ := snoc_of_ne_nil minor hne
        rw [hvv, hm] at e3
        have e4 : (X ++ '.' :: Y) ++ ['t'] = (major ++ '.' :: m0) ++ [m] := by
          rw [e3]
          simp
        have e5 := (List.append_inj' e4 rfl).2
        simp only [List.cons.injEq, and_true] at e5
        have := hdig m hmem
        rw [← e5] at this
        exact absurd this (by decide)
      · exact pcName_ne_alias _ _ _ _ h
      · exact pcName_ne_alias _ _ _ _ h
    · obtain ⟨v, hp, h | h | h⟩ := mem_patternNames _ _ _ _ _ _ _ h
      · have e := pcName_cancel _ _ _ _ _ h
        have e2 : (X ++ '.' :: Y) ++ "t.pc".toList = (v ++ "-embe".toList) ++ "d.pc".toList := by
          rw [e]
          simp
        have e5 := (List.append_inj' e2 rfl).2
        exact absurd e5 (by decide)
      · exact pcName_ne_alias _ _ _ _ h
      · exact pcName_ne_alias _ _ _ _ h

/-- The name `python-X.Y.pc` is written for itself and for `python-X.Yt.pc` only. -/
theorem mem_writtenNames_plain (X Y n : Str) (hv : isVersion X Y)
    (h : pcName X Y ".pc".toList ∈ writtenNames n) :
    n = pcName X Y ".pc".toList ∨ n = pcName X Y "t.pc".toList := by
  unfold writtenNames at h
  rcases List.mem_cons.mp h with h | h
  · exact Or.inl h.symm
  · rcases List.mem_append.mp h with h | h
    · obtain ⟨v, hp, h | h | h⟩ := mem_patternNames _ _ _ _ _ _ _ h
      · have e := pcName_cancel _ _ _ _ _ h
        have e3 := List.append_cancel_right e
        obtain ⟨major, minor, -, -, -, hn | hn⟩ := matchVersioned_some _ _ _ hp
        · right
          rw [hn, ← e3]
          simp [pcName]
        · left
          rw [hn, ← e3]
          simp [pcName]
      · exact absurd h (pcName_ne_alias _ _ _ _)
      · exact absurd h (pcName_ne_alias _ _ _ _)
    · exfalso
      obtain ⟨v, hp, h | h | h⟩ := mem_patternNames _ _ _ _ _ _ _ h
      · have e := pcName_cancel _ _ _ _ _ h
        obtain ⟨Y0, y, hY, hmem⟩ := snoc_of_ne_nil Y hv.2.1
        have e2 : (X ++ '.' :: Y0) ++ [y, '.', 'p', 'c']
            = (v ++ "-embe".toList) ++ "d.pc".toList := by
          rw [hY] at e
          simpa using e
        have e5 := (List.append_inj' e2 rfl).2
        have hy : y = 'd' := by
          injection e5
        have := hv.2.2.2 y hmem
        rw [hy] at this
        exact absurd this (by decide)
      · exact pcName_ne_alias _ _ _ _ h
      · exact pcName_ne_alias _ _ _ _ h

/-- The alias `python3.pc` is written for itself and for the names that match
the normal pattern only. -/
theorem mem_writtenNames_alias (n : Str) (h : "python3.pc".toList ∈ writtenNames n) :
    n = "python3.pc".toList ∨ normalPattern n ≠ none := by
  unfold writtenNames at h
  rcases List.mem_cons.mp h with h | h
  · exact Or.inl h.symm
  · rcases List.mem_append.mp h with h | h
    · obtain ⟨v, hp, -⟩ := mem_patternNames _ _ _ _ _ _ _ h
      right
      rw [hp]
      exact Option.some_ne_none v
    · exfalso
      obtain ⟨v, hp, h | h | h⟩ := mem_patternNames _ _ _ _ _ _ _ h
      · simp at h
      · exact absurd h (by decide)
      · exact absurd h (by decide)

theorem updateEntries_append (absPath : Str) (L1 L2 : List (Str × Bool)) (d d' : Directory)
    (h : updateEntries absPath (L1 ++ L2) d = .ok d') :
    ∃ d1, updateEntries absPath L1 d = .ok d1 ∧ updateEntries absPath L2 d1 = .ok d' := by
  induction L1 generalizing d with
  | nil => exact ⟨d, rfl, h⟩
  | cons e rest ih =>
    simp only [List.cons_append, updateEntries] at h ⊢
    cases he : updateEntry absPath d e with
    | error x => rw [he] at h; cases h
    | ok d1 =>
      rw [he] at h
      exact ih d1 h

/-- An entry `k` with content `c` is kept by the loop when the only
descriptor written to `k` is `k` itself and the patch does not change `c`. -/
theorem updateEntries_keeps (absPath k c : Str) (L : List (Str × Bool)) (d d' : Directory)
    (hL : ∀ e ∈ L, isPcEntry e = true → k ∈ writtenNames e.1 →
      e.1 = k ∧ patched absPath c = c)
    (hk : d.lookup k = some (.file c))
    (h : updateEntries absPath L d = .ok d') : d'.lookup k = some (.file c) := by
  induction L generalizing d with
  | nil =>
    cases h
    exact hk
  | cons e rest ih =>
    simp only [updateEntries] at h
    cases he : updateEntry absPath d e with
    | error x => rw [he] at h; cases h
    | ok d1 =>
      rw [he] at h
      refine ih d1 (fun x hx => hL x (List.mem_cons_of_mem _ hx)) ?_ h
      by_cases hpc : isPcEntry e = true
      · obtain ⟨content, hr, hw⟩ := updateEntry_lookup absPath d d1 e hpc he
        by_cases hm : k ∈ writtenNames e.1
        · obtain ⟨hek, hfix⟩ := hL e (List.mem_cons_self _ _) hpc hm
          rw [hek] at hr
          unfold Directory.readFile at hr
          rw [hk] at hr
          simp only [Option.some.injEq] at hr
          rw [hw k, if_pos hm, ← hr, hfix]
        · rw [hw k, if_neg hm]
          exact hk
      · rw [updateEntry_skip absPath d e (Bool.eq_false_iff.mpr hpc)] at he
        cases he
        exact hk

theorem readDir_nodup (d : Directory) (hnd : (d.map Prod.fst).Nodup) :
    ((readDir d).map Prod.fst).Nodup := by
  have hp : (readDir d).Perm (d.map fun e => (e.1, decide (e.2 = DirNode.subdir))) :=
    List.perm_insertionSort _ _
  have hp2 := hp.map Prod.fst
  rw [List.map_map] at hp2
  exact hp2.nodup_iff.mpr hnd

theorem pcName_plain_lt (X Y : Str) :
    ¬ (pcName X Y "t.pc".toList ≤ pcName X Y ".pc".toList) := by
  rw [not_le]
  unfold pcName
  exact List.Lex.append_left _ (List.Lex.rel (by decide)) _

/-- The entries `os.ReadDir` returns, split at a file of the directory: the
names before it and after it are different from its name, and the names after
it are not before it in the order. -/
theorem readDir_split (d : Directory) (n c : Str) (hnd : (d.map Prod.fst).Nodup)
    (h : d.lookup n = some (.file c)) :
    ∃ L1 L2, readDir d = L1 ++ (n, false) :: L2
      ∧ (∀ e ∈ L1, e.1 ≠ n) ∧ (∀ e ∈ L2, e.1 ≠ n ∧ n ≤ e.1) := by
  have hm : (n, false) ∈ readDir d :=
    (mem_readDir d _).mpr ⟨n, .file c, mem_of_lookup _ _ _ h, rfl⟩
  obtain ⟨L1, L2, hL⟩ := List.append_of_mem hm
  have hs := readDir_sorted d
  have hn := readDir_nodup d hnd
  rw [hL] at hs hn
  refine ⟨L1, L2, hL, ?_, ?_⟩
  · intro e he hen
    rw [List.map_append, List.map_cons] at hn
    have := (List.nodup_append.mp hn).2.2
    exact this (List.mem_map_of_mem Prod.fst he) (by rw [hen]; exact List.mem_cons_self _ _)
  · intro e he
    have hs2 := (List.pairwise_append.mp hs).2.1
    have hn2 := (List.nodup_append.mp (by rw [List.map_append, List.map_cons] at hn; exact hn)).2.1
    rw [List.nodup_cons] at hn2
    refine ⟨fun hen => hn2.1 ?_, ?_⟩
    · have hmem := List.mem_map_of_mem Prod.fst he
      rw [hen] at hmem
      exact hmem
    exact (List.pairwise_cons.mp hs2).1 e he

/-- A descriptor entry of `os.ReadDir` is a file of the directory. -/
theorem file_of_mem_readDir (d : Directory) (e : Str × Bool) (hnd : (d.map Prod.fst).Nodup)
    (he : e ∈ readDir d) (hpc : isPcEntry e = true) : ∃ c, d.lookup e.1 = some (.file c) := by
  obtain ⟨n, node, hmem, rfl⟩ := (mem_readDir d e).mp he
  cases node with
  | subdir => simp [isPcEntry] at hpc
  | file c => exact ⟨c, lookup_of_mem d n _ hnd hmem⟩

/-- C29, as amended: when the pkg-config directory holds the free-threaded
descriptor `python-X.Yt.pc` with content `cT`, beside `python-X.Y.pc` or not,
a successful `updatePkgConfig` leaves `python-X.Y.pc` and `python-X.Yt.pc`
with the patched `cT`; it leaves `python3.pc` with the patched `cT` as well
when `python-X.Yt.pc` is the last file in name order that matches the normal
pattern and the directory either has no entry `python3.pc` or the patch does
not change the patched `cT`.  The content of `python-X.Y.pc` then survives
under none of the names it was written to. -/
theorem updatePkgConfig_both (absPath X Y cT : Str) (d d' : Directory)
    (hv : isVersion X Y) (hnd : (d.map Prod.fst).Nodup)
    (hT : d.lookup (pcName X Y "t.pc".toList) = some (.file cT))
    (hok : updatePkgConfig absPath (some d) = .ok d') :
    d'.lookup (pcName X Y ".pc".toList) = some (.file (patched absPath cT))
      ∧ d'.lookup (pcName X Y "t.pc".toList) = some (.file (patched absPath cT))
      ∧ ((∀ n c, d.lookup n = some (.file c) → normalPattern n ≠ none →
            n ≤ pcName X Y "t.pc".toList) →
          (d.lookup "python3.pc".toList = none
            ∨ patched absPath (patched absPath cT) = patched absPath cT) →
          d'.lookup "python3.pc".toList = some (.file (patched absPath cT))
            ∧ ∀ k ∈ writtenNames (pcName X Y ".pc".toList),
                d'.lookup k = some (.file (patched absPath cT))) := by
  unfold updatePkgConfig at hok
  simp only at hok
  obtain ⟨L1, L2, hL, h1, h2⟩ := readDir_split d _ cT hnd hT
  rw [hL] at hok
  obtain ⟨dA, hA, hrest⟩ := updateEntries_append _ L1 _ d d' hok
  simp only [updateEntries] at hrest
  cases hstep : updateEntry absPath dA (pcName X Y "t.pc".toList, false) with
  | error x => rw [hstep] at hrest; cases hrest
  | ok dB =>
    rw [hstep] at hrest
    simp only at hrest
    have hTA : dA.lookup (pcName X Y "t.pc".toList) = some (.file cT) :=
      updateEntries_keeps absPath _ cT L1 d dA
        (fun e he _ hm => absurd (mem_writtenNames_threaded X Y e.1 hm) (h1 e he)) hT hA
    have hpcT : isPcEntry (pcName X Y "t.pc".toList, false) = true := by
      unfold isPcEntry
      rw [hasSuffix_pcName X Y "t.pc".toList ".pc".toList (by decide)]
      rfl
    obtain ⟨content, hr, hw⟩ := updateEntry_lookup absPath dA dB _ hpcT hstep
    unfold Directory.readFile at hr
    simp only [hTA, Option.some.injEq] at hr
    subst hr
    obtain ⟨wT, wP, -, -⟩ := writtenNames_pcName X Y hv
    simp only at hw
    have hmemL : ∀ e ∈ L2, e ∈ readDir d := fun e he => by
      rw [hL]
      exact List.mem_append_right _ (List.mem_cons_of_mem _ he)
    have hTB : dB.lookup (pcName X Y "t.pc".toList) = some (.file (patched absPath cT)) := by
      rw [hw _, if_pos (by rw [wT]; simp)]
    have hPB : dB.lookup (pcName X Y ".pc".toList) = some (.file (patched absPath cT)) := by
      rw [hw _, if_pos (by rw [wT]; simp)]
    have h3B : dB.lookup "python3.pc".toList = some (.file (patched absPath cT)) := by
      rw [hw _, if_pos (by rw [wT]; simp)]
    have hPfin : d'.lookup (pcName X Y ".pc".toList) = some (.file (patched absPath cT)) := by
      refine updateEntries_keeps absPath _ _ L2 dB d' (fun e he _ hm => ?_) hPB hrest
      exfalso
      rcases mem_writtenNames_plain X Y e.1 hv hm with h | h
      · have := (h2 e he).2
        rw [h] at this
        exact pcName_plain_lt X Y this
      · exact (h2 e he).1 h
    have hTfin : d'.lookup (pcName X Y "t.pc".toList) = some (.file (patched absPath cT)) :=
      updateEntries_keeps absPath _ _ L2 dB d'
        (fun e he _ hm => absurd (mem_writtenNames_threaded X Y e.1 hm) (h2 e he).1) hTB hrest
    refine ⟨hPfin, hTfin, fun hlast hb => ?_⟩
    have h3fin : d'.lookup "python3.pc".toList = some (.file (patched absPath cT)) := by
      refine updateEntries_keeps absPath _ _ L2 dB d' (fun e he hpc hm => ?_) h3B hrest
      obtain ⟨c, hc⟩ := file_of_mem_readDir d e hnd (hmemL e he) hpc
      rcases mem_writtenNames_alias e.1 hm with h | h
      · refine ⟨h, ?_⟩
        rcases hb with hb | hb
        · rw [h, hb] at hc
          cases hc
        · exact hb
      · exact absurd (le_antisymm (hlast e.1 c hc h) (h2 e he).2) (h2 e he).1
    refine ⟨h3fin, fun k hk => ?_⟩
    rw [wP] at hk
    simp only [List.mem_cons, List.mem_singleton, List.not_mem_nil, or_false] at hk
    rcases hk with rfl | rfl
    · exact hPfin
    · exact h3fin

set_option maxRecDepth 100000 in
/-- Witness of C29: the directory with the four descriptors of Python 3.13. -/
theorem updatePkgConfig_both_witness :
    isVersion "3".toList "13".toList
      ∧ exampleBothDir.lookup "python-3.13.pc".toList
          = some (.file "prefix=/install\nLibs: -lpython3.13\n".toList)
      ∧ exampleBothDir.lookup "python-3.13t.pc".toList
          = some (.file "prefix=/install\nLibs: -lpython3.13t\n".toList)
      ∧ ∃ d', updatePkgConfig "/abs/py".toList (some exampleBothDir) = .ok d'
        ∧ d'.lookup "python-3.13.pc".toList
            = some (.file "prefix=/abs/py\nLibs: -lpython3.13t\n".toList)
        ∧ d'.lookup "python-3.13t.pc".toList
            = some (.file "prefix=/abs/py\nLibs: -lpython3.13t\n".toList)
        ∧ d'.lookup "python3.pc".toList
            = some (.file "prefix=/abs/py\nLibs: -lpython3.13t\n".toList) := by
  have hok : updatePkgConfig "/abs/py".toList (some exampleBothDir)
      = .ok ((updatePkgConfig "/abs/py".toList (some exampleBothDir)).toOption.getD []) := by
    rfl
  have hlast : ∀ n c, exampleBothDir.lookup n = some (.file c) → normalPattern n ≠ none →
      n ≤ pcName "3".toList "13".toList "t.pc".toList := by
    intro n c h hs
    have hm := mem_of_lookup _ _ _ h
    simp only [exampleBothDir, List.mem_cons, Prod.mk.injEq, List.not_mem_nil,
      or_false] at hm
    rcases hm with ⟨rfl, -⟩ | ⟨rfl, -⟩ | ⟨rfl, -⟩ | ⟨rfl, -⟩
    · decide
    · decide
    · exact absurd (by decide) hs
    · exact absurd (by decide) hs
  have h := updatePkgConfig_both "/abs/py".toList "3".toList "13".toList
    "prefix=/install\nLibs: -lpython3.13t\n".toList exampleBothDir _
    (by decide) (by decide) (by decide) hok
  exact ⟨by decide, by decide, by decide, _, hok, h.1, h.2.1,
    (h.2.2 hlast (Or.inl (by decide))).1⟩

set_option maxRecDepth 100000 in
/-- C29, counterexample: the directory holds `python-3.13.pc` and
`python-3.13t.pc` with different contents, and `python-3.14.pc`; after
`updatePkgConfig`, `python-3.13.pc` holds the patched free-threaded content
but `python3.pc` holds the patched content of `python-3.14.pc`. -/
theorem updatePkgConfig_both_later_version :
    exampleTwoVersionsDir.lookup "python-3.13.pc".toList
        = some (.file "prefix=/install\nLibs: -lpython3.13\n".toList)
      ∧ exampleTwoVersionsDir.lookup "python-3.13t.pc".toList
        = some (.file "prefix=/install\nLibs: -lpython3.13t\n".toList)
      ∧ patched "/abs/py".toList "prefix=/install\nLibs: -lpython3.13t\n".toList
        = "prefix=/abs/py\nLibs: -lpython3.13t\n".toList
      ∧ (updatePkgConfig "/abs/py".toList (some exampleTwoVersionsDir)).toOption.map
          (fun d => d.lookup "python-3.13.pc".toList)
        = some (some (.file "prefix=/abs/py\nLibs: -lpython3.13t\n".toList))
      ∧ (updatePkgConfig "/abs/py".toList (some exampleTwoVersionsDir)).toOption.map
          (fun d => d.lookup "python3.pc".toList)
        = some (some (.file "prefix=/abs/py\nLibs: -lpython3.14\n".toList))
      ∧ (updatePkgConfig "/abs/py".toList (some exampleTwoVersionsDir)).toOption.map
          (fun d => d.lookup "python3.pc".toList)
        ≠ some (some (.file (patched "/abs/py".toList
            "prefix=/install\nLibs: -lpython3.13t\n".toList))) := by
  refine ⟨by decide, by decide, by decide, by decide, by decide, by decide⟩

/-! ## The entries the extractors create -/

theorem run_append (os : OS σ) (a b : List Step) (s : σ) :
    run os (a ++ b) s
      = if (run os a s).2 = none then run os b (run os a s).1 else run os a s := by
  induction a generalizing s with
  | nil => simp [run]
  | cons st rest ih =>
    simp only [List.cons_append, run]
    rcases h : os st.call s with ⟨s1, _ | _⟩
    · by_cases hc : st.checked = true
      · simp [hc]
      · simp only [hc, Bool.false_eq_true, if_false]
        exact ih s1
    · exact ih s1

theorem run_invariant (os : OS σ) (P : σ → Prop) (steps : List Step)
    (hstep : ∀ st ∈ steps, ∀ s, P s → P (os st.call s).1) (s : σ) (h : P s) :
    P (run os steps s).1 := by
  induction steps generalizing s with
  | nil => exact h
  | cons st rest ih =>
    have h1 := hstep st (List.mem_cons_self _ _) s h
    have ih2 := ih (fun x hx => hstep x (List.mem_cons_of_mem _ hx))
    simp only [run]
    rcases hr : os st.call s with ⟨s1, _ | _⟩
    · rw [hr] at h1
      by_cases hc : st.checked = true
      · simp only [hc, if_true]
        exact h1
      · simp only [hc, Bool.false_eq_true, if_false]
        exact ih2 s1 h1
    · rw [hr] at h1
      exact ih2 s1 h1

theorem extractZip_append (os : OS σ) (a b : List ZipFile) (D : Str) (s : σ) :
    extractZip os (a ++ b) D s
      = if (extractZip os a D s).2 = none then extractZip os b D (extractZip os a D s).1
        else extractZip os a D s := by
  unfold extractZip
  rw [List.flatMap_append, run_append]

theorem extractTarGz_append (os : OS σ) (a b : List TarEntry) (D : Str) (s : σ) :
    extractTarGz os (a ++ b) D s
      = if (extractTarGz os a D s).2 = none then extractTarGz os b D (extractTarGz os a D s).1
        else extractTarGz os a D s := by
  unfold extractTarGz
  rw [List.flatMap_append, run_append]

theorem extractTarZst_append (os : OS σ) (a b : List TarEntry) (dst p : Str) (s : σ) :
    extractTarZst os (a ++ b) dst p s
      = if (extractTarZst os a dst p s).2 = none
        then extractTarZst os b dst p (extractTarZst os a dst p s).1
        else extractTarZst os a dst p s := by
  unfold extractTarZst
  rw [List.flatMap_append, run_append]

/-- An extraction that returns no error has returned none up to any entry, and
continues after the entry from the state reached there. -/
theorem run_split (os : OS σ) (a b : List Step) (s : σ) (h : (run os (a ++ b) s).2 = none) :
    (run os a s).2 = none ∧ run os (a ++ b) s = run os b (run os a s).1 := by
  rw [run_append] at h ⊢
  by_cases ha : (run os a s).2 = none
  · exact ⟨ha, by rw [if_pos ha]⟩
  · rw [if_neg ha] at h
    exact absurd h ha

/-- A checked call at the head of a run that returns no error has succeeded,
and the run continues from the state it left. -/
theorem run_cons_checked (os : OS σ) (c : FsCall) (rest : List Step) (s : σ)
    (h : (run os (⟨c, true⟩ :: rest) s).2 = none) :
    (os c s).2 = true ∧ run os (⟨c, true⟩ :: rest) s = run os rest (os c s).1 := by
  simp only [run] at h ⊢
  rcases hr : os c s with ⟨s1, _ | _⟩
  · rw [hr] at h
    simp at h
  · exact ⟨rfl, rfl⟩

theorem openFile_ok (fs : FS) (path : Str) (flags : OpenFlags) (mode : Nat)
    (h : (fsCall (.openFile path flags mode) fs).2 = true) :
    ∃ perm d0, (fsCall (.openFile path flags mode) fs).1 path = some (.file perm d0)
      ∧ (flags.trunc = true → d0 = []) := by
  cases hp : fs path with
  | none =>
    have e : fsCall (.openFile path flags mode) fs
        = if flags.create = true ∧ fs.isDir (dir path) = true
          then (Function.update fs path (some (.file mode [])), true) else (fs, false) := by
      simp only [fsCall, hp]
    rw [e] at h ⊢
    by_cases hc : flags.create = true ∧ fs.isDir (dir path) = true
    · rw [if_pos hc]
      exact ⟨mode, [], by simp, fun _ => rfl⟩
    · rw [if_neg hc] at h
      cases h
  | some n =>
    cases n with
    | dir m =>
      have e : fsCall (.openFile path flags mode) fs = (fs, false) := by
        simp only [fsCall, hp]
      rw [e] at h
      cases h
    | symlink t =>
      have e : fsCall (.openFile path flags mode) fs = (fs, false) := by
        simp only [fsCall, hp]
      rw [e] at h
      cases h
    | file p d =>
      have e : fsCall (.openFile path flags mode) fs
          = (Function.update fs path (some (.file p (if flags.trunc then [] else d))), true) := by
        simp only [fsCall, hp]
      rw [e]
      exact ⟨p, if flags.trunc then [] else d, by simp, fun ht => by simp [ht]⟩

/-- The three calls for a regular file: when none fails, the path holds a
regular file with the data, followed by what the opening left beyond the
length of the data, which is nothing under `O_TRUNC`. -/
theorem run_write (fs : FS) (path : Str) (flags : OpenFlags) (mode : Nat) (data : Bytes)
    (h : (run fsCall [⟨.mkdirAll (dir path) 0o755, true⟩, ⟨.openFile path flags mode, true⟩,
        ⟨.copy path data, true⟩] fs).2 = none) :
    ∃ perm d0, (run fsCall [⟨.mkdirAll (dir path) 0o755, true⟩,
        ⟨.openFile path flags mode, true⟩, ⟨.copy path data, true⟩] fs).1 path
          = some (.file perm (data ++ d0.drop data.length))
      ∧ (flags.trunc = true → d0 = []) := by
  obtain ⟨-, e1⟩ := run_cons_checked _ _ _ _ h
  rw [e1] at h ⊢
  obtain ⟨o2, e2⟩ := run_cons_checked _ _ _ _ h
  rw [e2] at h ⊢
  obtain ⟨perm, d0, hf, ht⟩ := openFile_ok _ _ _ _ o2
  refine ⟨perm, d0, ?_, ht⟩
  generalize (fsCall (.openFile path flags mode) (fsCall (.mkdirAll (dir path) 0o755) fs).1).1
    = fs2 at hf ⊢
  simp [run, fsCall, hf]

theorem mkdirAll_isDir (path : Str) (perm : Nat) (fs : FS)
    (h : (fsCall (.mkdirAll path perm) fs).2 = true) :
    FS.isDir (fsCall (.mkdirAll path perm) fs).1 path = true := by
  obtain ⟨m, hm⟩ := (mkdirAll_ok path perm fs _ (Prod.ext rfl h)).1 path (mem_ancestors_self path)
  simp [FS.isDir, hm]

theorem mkdirAll_keeps (path : Str) (perm : Nat) (fs : FS) (q : Str) (n : Node)
    (h : fs q = some n) : (fsCall (.mkdirAll path perm) fs).1 q = some n := by
  simp only [fsCall]
  by_cases hall : (ancestors path).all fs.dirOrAbsent = true
  · rw [if_pos hall]
    simp [h]
  · rw [if_neg hall]
    exact h

theorem openFile_other (path : Str) (flags : OpenFlags) (mode : Nat) (fs : FS) (q : Str)
    (hq : q ≠ path) : (fsCall (.openFile path flags mode) fs).1 q = fs q := by
  simp only [fsCall]
  split
  · exact Function.update_noteq hq _ _
  · rfl
  · split
    · exact Function.update_noteq hq _ _
    · rfl

theorem copy_other (path : Str) (data : Bytes) (fs : FS) (q : Str) (hq : q ≠ path) :
    (fsCall (.copy path data) fs).1 q = fs q := by
  simp only [fsCall]
  split
  · exact Function.update_noteq hq _ _
  · rfl

theorem openFile_keeps_dir (path : Str) (flags : OpenFlags) (mode : Nat) (fs : FS) (q : Str)
    (m : Nat) (h : fs q = some (.dir m)) :
    (fsCall (.openFile path flags mode) fs).1 q = some (.dir m) := by
  by_cases hq : q = path
  · subst hq
    simp only [fsCall, h]
  · rw [openFile_other _ _ _ _ _ hq, h]

theorem copy_keeps_dir (path : Str) (data : Bytes) (fs : FS) (q : Str) (m : Nat)
    (h : fs q = some (.dir m)) : (fsCall (.copy path data) fs).1 q = some (.dir m) := by
  by_cases hq : q = path
  · subst hq
    simp only [fsCall, h]
  · rw [copy_other _ _ _ _ hq, h]

theorem openFile_keeps_file (path : Str) (flags : OpenFlags) (mode : Nat) (fs : FS) (q : Str)
    (p : Nat) (d : Bytes) (h : fs q = some (.file p d)) :
    ∃ d1, (fsCall (.openFile path flags mode) fs).1 q = some (.file p d1) := by
  by_cases hq : q = path
  · subst hq
    simp only [fsCall, h]
    exact ⟨_, Function.update_same _ _ _⟩
  · exact ⟨d, by rw [openFile_other _ _ _ _ _ hq, h]⟩

theorem copy_keeps_file (path : Str) (data : Bytes) (fs : FS) (q : Str) (p : Nat) (d : Bytes)
    (h : fs q = some (.file p d)) :
    ∃ d1, (fsCall (.copy path data) fs).1 q = some (.file p d1) := by
  by_cases hq : q = path
  · subst hq
    simp only [fsCall, h]
    exact ⟨_, Function.update_same _ _ _⟩
  · exact ⟨d, by rw [copy_other _ _ _ _ hq, h]⟩

theorem removeAll_self (path : Str) (fs : FS) :
    (fsCall (.removeAll path) fs).2 = true ∧ (fsCall (.removeAll path) fs).1 path = none := by
  simp only [fsCall, mem_ancestors_self, if_true, and_self]

theorem symlink_ok (target path : Str) (fs : FS)
    (h : (fsCall (.symlink target path) fs).2 = true) :
    (fsCall (.symlink target path) fs).1 path = some (.symlink target) := by
  simp only [fsCall] at h ⊢
  by_cases hc : fs path = none ∧ fs.isDir (dir path) = true
  · rw [if_pos hc]
    exact Function.update_same _ _ _
  · rw [if_neg hc] at h
    cases h

/-- A successful `os.Link`: the target held a regular file and the new path
nothing, and afterwards both hold that file. -/
theorem link_ok (target path : Str) (fs : FS)
    (h : (fsCall (.link target path) fs).2 = true) :
    ∃ perm data, fs target = some (.file perm data) ∧ fs path = none
      ∧ (fsCall (.link target path) fs).1 path = some (.file perm data)
      ∧ (fsCall (.link target path) fs).1 target = some (.file perm data) := by
  cases ht : fs target with
  | none =>
    have e : fsCall (.link target path) fs = (fs, false) := by simp only [fsCall, ht]
    rw [e] at h
    cases h
  | some n =>
    cases n with
    | dir m =>
      have e : fsCall (.link target path) fs = (fs, false) := by simp only [fsCall, ht]
      rw [e] at h
      cases h
    | symlink t =>
      have e : fsCall (.link target path) fs = (fs, false) := by simp only [fsCall, ht]
      rw [e] at h
      cases h
    | file p d =>
      have e : fsCall (.link target path) fs
          = if fs path = none ∧ fs.isDir (dir path) = true
            then (Function.update fs path (some (.file p d)), true) else (fs, false) := by
        simp only [fsCall, ht]
      rw [e] at h ⊢
      by_cases hc : fs path = none ∧ fs.isDir (dir path) = true
      · rw [if_pos hc]
        refine ⟨p, d, rfl, hc.1, Function.update_same _ _ _, ?_⟩
        by_cases hq : target = path
        · rw [hq]
          exact Function.update_same _ _ _
        · exact (Function.update_noteq hq _ _).trans ht
      · rw [if_neg hc] at h
        cases h

/-- The calls that create directories and write files keep a node of the file
system as it is, unless they open or write the file at its path. -/
theorem plain_keeps (steps : List Step) (q : Str) (n : Node) (fs : FS)
    (hplain : ∀ st ∈ steps, (∃ p m, st.call = .mkdirAll p m)
      ∨ (∃ p fl m, st.call = .openFile p fl m ∧ p ≠ q) ∨ (∃ p data, st.call = .copy p data ∧ p ≠ q))
    (h : fs q = some n) : (run fsCall steps fs).1 q = some n := by
  refine run_invariant fsCall (fun s => s q = some n) steps (fun st hst s hs => ?_) fs h
  rcases hplain st hst with ⟨p, m, hc⟩ | ⟨p, fl, m, hc, hp⟩ | ⟨p, data, hc, hp⟩
  · rw [hc]
    exact mkdirAll_keeps _ _ _ _ _ hs
  · rw [hc, openFile_other _ _ _ _ _ (Ne.symm hp)]
    exact hs
  · rw [hc, copy_other _ _ _ _ (Ne.symm hp)]
    exact hs

theorem plain_keeps_dir (steps : List Step) (q : Str) (m : Nat) (fs : FS)
    (hplain : ∀ st ∈ steps, (∃ p m, st.call = .mkdirAll p m)
      ∨ (∃ p fl m, st.call = .openFile p fl m) ∨ (∃ p data, st.call = .copy p data))
    (h : fs q = some (.dir m)) : (run fsCall steps fs).1 q = some (.dir m) := by
  refine run_invariant fsCall (fun s => s q = some (.dir m)) steps (fun st hst s hs => ?_) fs h
  rcases hplain st hst with ⟨p, k, hc⟩ | ⟨p, fl, k, hc⟩ | ⟨p, data, hc⟩
  · rw [hc]
    exact mkdirAll_keeps _ _ _ _ _ hs
  · rw [hc]
    exact openFile_keeps_dir _ _ _ _ _ _ hs
  · rw [hc]
    exact copy_keeps_dir _ _ _ _ _ hs

theorem plain_keeps_file (steps : List Step) (q : Str) (p : Nat) (d : Bytes) (fs : FS)
    (hplain : ∀ st ∈ steps, (∃ p m, st.call = .mkdirAll p m)
      ∨ (∃ p fl m, st.call = .openFile p fl m) ∨ (∃ p data, st.call = .copy p data))
    (h : fs q = some (.file p d)) : ∃ d1, (run fsCall steps fs).1 q = some (.file p d1) := by
  refine run_invariant fsCall (fun s => ∃ d1, s q = some (.file p d1)) steps
    (fun st hst s hs => ?_) fs ⟨d, h⟩
  obtain ⟨d0, hs⟩ := hs
  rcases hplain st hst with ⟨x, k, hc⟩ | ⟨x, fl, k, hc⟩ | ⟨x, data, hc⟩
  · rw [hc]
    exact ⟨d0, mkdirAll_keeps _ _ _ _ _ hs⟩
  · rw [hc]
    exact openFile_keeps_file _ _ _ _ _ _ _ hs
  · rw [hc]
    exact copy_keeps_file _ _ _ _ _ _ hs

theorem mem_extractZipSteps (D : Str) (f : ZipFile) (st : Step) (h : st ∈ extractZipSteps D f) :
    (∃ p m, st.call = .mkdirAll p m)
      ∨ (f.isDir = false ∧ ∃ p, goDestPath D f.name = some p
          ∧ ((∃ fl m, st.call = .openFile p fl m) ∨ ∃ data, st.call = .copy p data)) := by
  unfold extractZipSteps at h
  cases hp : goDestPath D f.name with
  | none =>
    rw [hp] at h
    simp at h
  | some path =>
    rw [hp] at h
    simp only at h
    by_cases hd : f.isDir = true
    · rw [if_pos hd] at h
      simp only [List.mem_singleton] at h
      exact Or.inl ⟨_, _, by rw [h]⟩
    · rw [if_neg hd] at h
      simp only [List.mem_cons, List.mem_singleton, List.not_mem_nil, or_false] at h
      rcases h with h | h | h
      · exact Or.inl ⟨_, _, by rw [h]⟩
      · exact Or.inr ⟨by simpa using hd, path, rfl, Or.inl ⟨_, _, by rw [h]⟩⟩
      · exact Or.inr ⟨by simpa using hd, path, rfl, Or.inr ⟨_, by rw [h]⟩⟩

theorem mem_extractTarGzSteps (D : Str) (e : TarEntry) (st : Step)
    (h : st ∈ extractTarGzSteps D e) :
    (∃ p m, st.call = .mkdirAll p m)
      ∨ (e.typeflag = .reg ∧ ∃ p, goDestPath D e.name = some p
          ∧ ((∃ fl m, st.call = .openFile p fl m) ∨ ∃ data, st.call = .copy p data)) := by
  unfold extractTarGzSteps at h
  cases hp : goDestPath D e.name with
  | none =>
    rw [hp] at h
    simp at h
  | some path =>
    rw [hp] at h
    simp only at h
    cases ht : e.typeflag with
    | dir =>
      rw [ht] at h
      simp only [List.mem_singleton] at h
      exact Or.inl ⟨_, _, by rw [h]⟩
    | reg =>
      rw [ht] at h
      simp only [List.mem_cons, List.mem_singleton, List.not_mem_nil, or_false] at h
      rcases h with h | h | h
      · exact Or.inl ⟨_, _, by rw [h]⟩
      · exact Or.inr ⟨rfl, path, rfl, Or.inl ⟨_, _, by rw [h]⟩⟩
      · exact Or.inr ⟨rfl, path, rfl, Or.inr ⟨_, by rw [h]⟩⟩
    | symlink => rw [ht] at h; simp at h
    | link => rw [ht] at h; simp at h
    | other c => rw [ht] at h; simp at h

/-- What `extractZip` leaves of a node that was there before: a directory
stays as it is, a regular file stays a regular file, with its content unless a
later file of the archive has its path. -/
theorem extractZip_keeps (files : List ZipFile) (D q : Str) (fs : FS) :
    (∀ m, fs q = some (.dir m) → (extractZip fsCall files D fs).1 q = some (.dir m))
      ∧ (∀ p d, fs q = some (.file p d) →
          ∃ d1, (extractZip fsCall files D fs).1 q = some (.file p d1)
            ∧ ((∀ g ∈ files, g.isDir = true ∨ goDestPath D g.name ≠ some q) → d1 = d)) := by
  have hplain : ∀ st ∈ files.flatMap (extractZipSteps D), (∃ p m, st.call = .mkdirAll p m)
      ∨ (∃ p fl m, st.call = .openFile p fl m) ∨ (∃ p data, st.call = .copy p data) := by
    intro st hst
    obtain ⟨f, -, hf⟩ := List.mem_flatMap.mp hst
    rcases mem_extractZipSteps D f st hf with h | ⟨-, p, -, ⟨fl, m, h⟩ | ⟨data, h⟩⟩
    · exact Or.inl h
    · exact Or.inr (Or.inl ⟨p, fl, m, h⟩)
    · exact Or.inr (Or.inr ⟨p, data, h⟩)
  refine ⟨fun m h => plain_keeps_dir _ q m fs hplain h, fun p d h => ?_⟩
  obtain ⟨d1, h1⟩ := plain_keeps_file _ q p d fs hplain h
  refine ⟨d1, h1, fun hno => ?_⟩
  have h2 := plain_keeps (files.flatMap (extractZipSteps D)) q (.file p d) fs (fun st hst => ?_) h
  · rw [h2] at h1
    simp only [Option.some.injEq, Node.file.injEq, true_and] at h1
    exact h1.symm
  · obtain ⟨f, hfm, hf⟩ := List.mem_flatMap.mp hst
    rcases mem_extractZipSteps D f st hf with h | ⟨hd, p, hp, ⟨fl, m, h⟩ | ⟨data, h⟩⟩
    · exact Or.inl h
    · refine Or.inr (Or.inl ⟨p, fl, m, h, fun e => ?_⟩)
      rcases hno f hfm with h3 | h3
      · rw [hd] at h3
        cases h3
      · exact h3 (by rw [hp, e])
    · refine Or.inr (Or.inr ⟨p, data, h, fun e => ?_⟩)
      rcases hno f hfm with h3 | h3
      · rw [hd] at h3
        cases h3
      · exact h3 (by rw [hp, e])

/-- What `extractTarGz` leaves of a node that was there before. -/
theorem extractTarGz_keeps (entries : List TarEntry) (D q : Str) (fs : FS) :
    (∀ m, fs q = some (.dir m) → (extractTarGz fsCall entries D fs).1 q = some (.dir m))
      ∧ (∀ p d, fs q = some (.file p d) →
          ∃ d1, (extractTarGz fsCall entries D fs).1 q = some (.file p d1)
            ∧ ((∀ g ∈ entries, g.typeflag ≠ .reg ∨ goDestPath D g.name ≠ some q) → d1 = d)) := by
  have hplain : ∀ st ∈ entries.flatMap (extractTarGzSteps D), (∃ p m, st.call = .mkdirAll p m)
      ∨ (∃ p fl m, st.call = .openFile p fl m) ∨ (∃ p data, st.call = .copy p data) := by
    intro st hst
    obtain ⟨f, -, hf⟩ := List.mem_flatMap.mp hst
    rcases mem_extractTarGzSteps D f st hf with h | ⟨-, p, -, ⟨fl, m, h⟩ | ⟨data, h⟩⟩
    · exact Or.inl h
    · exact Or.inr (Or.inl ⟨p, fl, m, h⟩)
    · exact Or.inr (Or.inr ⟨p, data, h⟩)
  refine ⟨fun m h => plain_keeps_dir _ q m fs hplain h, fun p d h => ?_⟩
  obtain ⟨d1, h1⟩ := plain_keeps_file _ q p d fs hplain h
  refine ⟨d1, h1, fun hno => ?_⟩
  have h2 := plain_keeps (entries.flatMap (extractTarGzSteps D)) q (.file p d) fs
    (fun st hst => ?_) h
  · rw [h2] at h1
    simp only [Option.some.injEq, Node.file.injEq, true_and] at h1
    exact h1.symm
  · obtain ⟨f, hfm, hf⟩ := List.mem_flatMap.mp hst
    rcases mem_extractTarGzSteps D f st hf with h | ⟨hd, p, hp, ⟨fl, m, h⟩ | ⟨data, h⟩⟩
    · exact Or.inl h
    · refine Or.inr (Or.inl ⟨p, fl, m, h, fun e => ?_⟩)
      rcases hno f hfm with h3 | h3
      · exact h3 hd
      · exact h3 (by rw [hp, e])
    · refine Or.inr (Or.inr ⟨p, data, h, fun e => ?_⟩)
      rcases hno f hfm with h3 | h3
      · exact h3 hd
      · exact h3 (by rw [hp, e])

theorem isDir_iff (fs : FS) (q : Str) : FS.isDir fs q = true ↔ ∃ m, fs q = some (.dir m) := by
  unfold FS.isDir
  cases h : fs q with
  | none => simp
  | some n => cases n <;> simp

/-- An extraction that returns no error, split at one entry of the archive:
no error up to the entry and up to after it, the steps of the entry run in the
state the entries before it left, and the entries after it run in the state
the entry left. -/
theorem run_flatMap_split {α : Type} (os : OS σ) (steps : α → List Step) (pre post : List α)
    (x : α) (s : σ) (hok : (run os ((pre ++ x :: post).flatMap steps) s).2 = none) :
    (run os (pre.flatMap steps) s).2 = none
      ∧ (run os ((pre ++ [x]).flatMap steps) s).2 = none
      ∧ run os ((pre ++ [x]).flatMap steps) s
          = run os (steps x) (run os (pre.flatMap steps) s).1
      ∧ run os ((pre ++ x :: post).flatMap steps) s
          = run os (post.flatMap steps) (run os ((pre ++ [x]).flatMap steps) s).1 := by
  have e1 : (pre ++ x :: post).flatMap steps
      = (pre ++ [x]).flatMap steps ++ post.flatMap steps := by
    rw [← List.flatMap_append, List.append_assoc, List.singleton_append]
  have e2 : (pre ++ [x]).flatMap steps = pre.flatMap steps ++ steps x := by
    rw [List.flatMap_append]
    simp
  rw [e1] at hok ⊢
  obtain ⟨h1, h2⟩ := run_split os _ _ s hok
  have h1' := h1
  rw [e2] at h1'
  obtain ⟨h3, h4⟩ := run_split os _ _ s h1'
  refine ⟨h3, h1, ?_, h2⟩
  rw [e2]
  exact h4

/-- An entry without steps can be left out of the archive. -/
theorem run_flatMap_skip {α : Type} (os : OS σ) (steps : α → List Step) (pre post : List α)
    (x : α) (s : σ) (hx : steps x = []) :
    run os ((pre ++ x :: post).flatMap steps) s = run os ((pre ++ post).flatMap steps) s := by
  rw [List.flatMap_append, List.flatMap_append, List.flatMap_cons, hx, List.nil_append]

theorem extractZipSteps_go (D r : Str) (hr : r ≠ []) (f : ZipFile)
    (hn : f.name = "go/".toList ++ r) :
    extractZipSteps D f
      = if f.isDir then [⟨.mkdirAll (join [D, r]) f.mode, false⟩]
        else [⟨.mkdirAll (dir (join [D, r])) 0o755, true⟩,
          ⟨.openFile (join [D, r]) flagsCreateTrunc f.mode, true⟩,
          ⟨.copy (join [D, r]) f.data, true⟩] := by
  unfold extractZipSteps
  rw [hn, goDestPath_go D r hr]

theorem extractTarGzSteps_go (D r : Str) (hr : r ≠ []) (e : TarEntry)
    (hn : e.name = "go/".toList ++ r) :
    extractTarGzSteps D e
      = match e.typeflag with
        | .dir => [⟨.mkdirAll (join [D, r]) e.mode, true⟩]
        | .reg => [⟨.mkdirAll (dir (join [D, r])) 0o755, true⟩,
            ⟨.openFile (join [D, r]) flagsCreateTrunc e.mode, true⟩,
            ⟨.copy (join [D, r]) e.data, true⟩]
        | _ => [] := by
  unfold extractTarGzSteps
  rw [hn, goDestPath_go D r hr]

theorem run_cons_ok (os : OS σ) (st : Step) (rest : List Step) (s : σ)
    (h : (os st.call s).2 = true) : run os (st :: rest) s = run os rest (os st.call s).1 := by
  simp only [run]
  rcases hr : os st.call s with ⟨s1, _ | _⟩
  · rw [hr] at h
    cases h
  · rfl

theorem zstDestPath_kept (dst p name : Str) (h : p = [] ∨ (p <+: name ∧ name ≠ p)) :
    zstDestPath dst p name = some (join [dst, name.drop p.length]) := by
  by_cases hp : p = []
  · subst hp
    simp [zstDestPath]
  · rcases h with h | ⟨hpre, hn⟩
    · exact absurd h hp
    · have h1 : hasPrefix name p = true := (hasPrefix_iff _ _).mpr hpre
      have h3 : trimPrefix name p = name.drop p.length := by
        simp [trimPrefix, h1]
      have h4 : name.drop p.length ≠ [] := by
        obtain ⟨t, ht⟩ := hpre
        rw [← ht] at hn ⊢
        simp only [List.drop_left']
        intro h
        apply hn
        rw [h, List.append_nil]
      simp only [zstDestPath, hp, ne_eq, not_false_eq_true, if_true, h1, Bool.not_true,
        Bool.false_eq_true, if_false, h3, h4]

theorem zstDestPath_skipped (dst p name : Str) (hp : p ≠ []) (h : ¬ p <+: name ∨ name = p) :
    zstDestPath dst p name = none := by
  rcases h with hn | hn
  · have h1 : hasPrefix name p = false := by
      rw [Bool.eq_false_iff, Ne, hasPrefix_iff]
      exact hn
    simp only [zstDestPath, hp, ne_eq, not_false_eq_true, if_true, h1, Bool.not_false]
  · have h1 : hasPrefix name p = true := by
      rw [hasPrefix_iff, hn]
    have h3 : trimPrefix name p = [] := by
      unfold trimPrefix
      rw [if_pos h1, hn]
      simp
    simp only [zstDestPath, hp, ne_eq, not_false_eq_true, if_true, h1, Bool.not_true,
      Bool.false_eq_true, if_false, h3]

theorem extractTarZstSteps_kept (dst p : Str) (e : TarEntry)
    (h : p = [] ∨ (p <+: e.name ∧ e.name ≠ p)) :
    extractTarZstSteps dst p e
      = match e.typeflag with
        | .dir => [⟨.mkdirAll (join [dst, e.name.drop p.length]) e.mode, true⟩]
        | .reg =>
          [⟨.mkdirAll (dir (join [dst, e.name.drop p.length])) 0o755, true⟩,
           ⟨.openFile (join [dst, e.name.drop p.length]) flagsCreateRdwr e.mode, true⟩,
           ⟨.copy (join [dst, e.name.drop p.length]) e.data, true⟩]
        | .symlink =>
          [⟨.mkdirAll (dir (join [dst, e.name.drop p.length])) 0o755, true⟩,
           ⟨.removeAll (join [dst, e.name.drop p.length]), true⟩,
           ⟨.symlink e.linkname (join [dst, e.name.drop p.length]), true⟩]
        | .link =>
          [⟨.mkdirAll (dir (join [dst, e.name.drop p.length])) 0o755, true⟩,
           ⟨.removeAll (join [dst, e.name.drop p.length]), true⟩,
           ⟨.link (join [dst, trimPrefix e.linkname "python/install/".toList])
             (join [dst, e.name.drop p.length]), true⟩]
        | .other _ => [] := by
  unfold extractTarZstSteps
  rw [zstDestPath_kept dst p e.name h]

/-- The three calls for a link entry, symbolic or hard, that return no error:
each call succeeded, and nothing was at the path when the link was made. -/
theorem run_link_steps (fs : FS) (path : Str) (c : FsCall)
    (h : (run fsCall [⟨.mkdirAll (dir path) 0o755, true⟩, ⟨.removeAll path, true⟩, ⟨c, true⟩]
        fs).2 = none) :
    (fsCall (.mkdirAll (dir path) 0o755) fs).2 = true
      ∧ (fsCall (.removeAll path) (fsCall (.mkdirAll (dir path) 0o755) fs).1).1 path = none
      ∧ (fsCall c (fsCall (.removeAll path) (fsCall (.mkdirAll (dir path) 0o755) fs).1).1).2 = true
      ∧ run fsCall [⟨.mkdirAll (dir path) 0o755, true⟩, ⟨.removeAll path, true⟩, ⟨c, true⟩] fs
          = ((fsCall c (fsCall (.removeAll path)
              (fsCall (.mkdirAll (dir path) 0o755) fs).1).1).1, none)
      ∧ run fsCall [⟨.mkdirAll (dir path) 0o755, true⟩, ⟨.removeAll path, true⟩] fs
          = ((fsCall (.removeAll path) (fsCall (.mkdirAll (dir path) 0o755) fs).1).1, none) := by
  obtain ⟨o1, e1⟩ := run_cons_checked _ _ _ _ h
  rw [e1] at h
  obtain ⟨o2, e2⟩ := run_cons_checked _ _ _ _ h
  rw [e2] at h
  obtain ⟨o3, e3⟩ := run_cons_checked _ _ _ _ h
  refine ⟨o1, (removeAll_self _ _).2, o3, ?_, ?_⟩
  · rw [e1, e2, e3]
    rfl
  · rw [run_cons_ok fsCall ⟨.mkdirAll (dir path) 0o755, true⟩ _ _ o1,
      run_cons_ok fsCall ⟨.removeAll path, true⟩ _ _ o2]
    rfl

/-- C5, as amended: in `extractZip` and `extractTarGz`, for an entry named
`"go/" + r` with `r` not empty in an archive whose extraction returns no
error.  A regular file is created at `filepath.Join(D, r)` with the data of
the entry; after the whole extraction the path still holds a regular file,
with that data unless a later regular file of the archive has the same path.
A directory entry of a tar.gz archive is a directory at `filepath.Join(D, r)`
after the entry and after the whole extraction; so is a directory entry of a
zip archive when its `os.MkdirAll`, whose error `extractZip` does not look at,
succeeded.  A tar.gz entry of any other type makes no call: the extraction is
that of the archive without it.  So is the extraction of an archive with an
entry named `go` or `go/`, whatever the calls do. -/
theorem go_entry_materialised (D r : Str) (hr : r ≠ []) :
    (∀ (pre post : List ZipFile) (f : ZipFile) (fs : FS), f.name = "go/".toList ++ r →
        (extractZip fsCall (pre ++ f :: post) D fs).2 = none →
        (extractZip fsCall (pre ++ [f]) D fs).2 = none
          ∧ extractZip fsCall (pre ++ f :: post) D fs
              = extractZip fsCall post D (extractZip fsCall (pre ++ [f]) D fs).1
          ∧ (f.isDir = false →
              ∃ perm, (extractZip fsCall (pre ++ [f]) D fs).1 (join [D, r])
                  = some (.file perm f.data)
                ∧ ∃ data, (extractZip fsCall (pre ++ f :: post) D fs).1 (join [D, r])
                    = some (.file perm data)
                  ∧ ((∀ g ∈ post, g.isDir = true ∨ goDestPath D g.name ≠ some (join [D, r])) →
                      data = f.data))
          ∧ (f.isDir = true →
              (fsCall (.mkdirAll (join [D, r]) f.mode) (extractZip fsCall pre D fs).1).2 = true →
              FS.isDir (extractZip fsCall (pre ++ [f]) D fs).1 (join [D, r]) = true
                ∧ FS.isDir (extractZip fsCall (pre ++ f :: post) D fs).1 (join [D, r]) = true))
      ∧ (∀ (pre post : List TarEntry) (e : TarEntry) (fs : FS), e.name = "go/".toList ++ r →
          (extractTarGz fsCall (pre ++ e :: post) D fs).2 = none →
          (extractTarGz fsCall (pre ++ [e]) D fs).2 = none
            ∧ extractTarGz fsCall (pre ++ e :: post) D fs
                = extractTarGz fsCall post D (extractTarGz fsCall (pre ++ [e]) D fs).1
            ∧ (e.typeflag = .reg →
                ∃ perm, (extractTarGz fsCall (pre ++ [e]) D fs).1 (join [D, r])
                    = some (.file perm e.data)
                  ∧ ∃ data, (extractTarGz fsCall (pre ++ e :: post) D fs).1 (join [D, r])
                      = some (.file perm data)
                    ∧ ((∀ g ∈ post, g.typeflag ≠ .reg
                          ∨ goDestPath D g.name ≠ some (join [D, r])) → data = e.data))
            ∧ (e.typeflag = .dir →
                FS.isDir (extractTarGz fsCall (pre ++ [e]) D fs).1 (join [D, r]) = true
                  ∧ FS.isDir (extractTarGz fsCall (pre ++ e :: post) D fs).1 (join [D, r])
                      = true)
            ∧ (e.typeflag ≠ .reg → e.typeflag ≠ .dir →
                extractTarGz fsCall (pre ++ e :: post) D fs
                  = extractTarGz fsCall (pre ++ post) D fs))
      ∧ (∀ name, name = "go".toList ∨ name = "go/".toList →
          ∀ (σ : Type) (os : OS σ) (s : σ),
            (∀ (pre post : List ZipFile) (isDir : Bool) (mode : Nat) (data : Bytes),
                extractZip os (pre ++ ⟨name, isDir, mode, data⟩ :: post) D s
                  = extractZip os (pre ++ post) D s)
              ∧ ∀ (pre post : List TarEntry) (typeflag : TypeFlag) (mode : Nat)
                  (linkname : Str) (data : Bytes),
                  extractTarGz os (pre ++ ⟨name, typeflag, mode, linkname, data⟩ :: post) D s
                    = extractTarGz os (pre ++ post) D s) := by
  refine ⟨?_, ?_, ?_⟩
  · intro pre post f fs hn hok
    obtain ⟨-, h2, h3, h4⟩ := run_flatMap_split fsCall (extractZipSteps D) pre post f fs hok
    have h4' : extractZip fsCall (pre ++ f :: post) D fs
        = extractZip fsCall post D (extractZip fsCall (pre ++ [f]) D fs).1 := h4
    have hs := extractZipSteps_go D r hr f hn
    refine ⟨h2, h4, fun hd => ?_, fun hd hmk => ?_⟩
    · rw [hd] at hs
      simp only [Bool.false_eq_true, if_false] at hs
      have h2' : (run fsCall (extractZipSteps D f) (extractZip fsCall pre D fs).1).2 = none := by
        have := h2
        unfold extractZip at this ⊢
        rw [h3] at this
        exact this
      rw [hs] at h2'
      obtain ⟨perm, d0, hw, ht⟩ := run_write _ _ _ _ _ h2'
      have hd0 : d0 = [] := ht rfl
      subst hd0
      simp only [List.drop_nil, List.append_nil] at hw
      have h1 : (extractZip fsCall (pre ++ [f]) D fs).1 (join [D, r])
          = some (.file perm f.data) := by
        unfold extractZip
        rw [h3, hs]
        exact hw
      refine ⟨perm, h1, ?_⟩
      obtain ⟨d1, hk, hk2⟩ := (extractZip_keeps post D (join [D, r]) _).2 perm f.data h1
      exact ⟨d1, by rw [h4']; exact hk, hk2⟩
    · rw [hd] at hs
      simp only [if_true] at hs
      have h1 : FS.isDir (extractZip fsCall (pre ++ [f]) D fs).1 (join [D, r]) = true := by
        have e : (extractZip fsCall (pre ++ [f]) D fs).1
            = (fsCall (.mkdirAll (join [D, r]) f.mode) (extractZip fsCall pre D fs).1).1 := by
          unfold extractZip
          rw [h3, hs]
          simp only [run]
          rcases fsCall (.mkdirAll (join [D, r]) f.mode)
            (run fsCall (pre.flatMap (extractZipSteps D)) fs).1 with ⟨s1, _ | _⟩ <;> rfl
        rw [e]
        exact mkdirAll_isDir _ _ _ hmk
      refine ⟨h1, ?_⟩
      obtain ⟨m, hm⟩ := (isDir_iff _ _).mp h1
      rw [h4']
      exact (isDir_iff _ _).mpr ⟨m, (extractZip_keeps post D (join [D, r]) _).1 m hm⟩
  · intro pre post e fs hn hok
    obtain ⟨-, h2, h3, h4⟩ := run_flatMap_split fsCall (extractTarGzSteps D) pre post e fs hok
    have h4' : extractTarGz fsCall (pre ++ e :: post) D fs
        = extractTarGz fsCall post D (extractTarGz fsCall (pre ++ [e]) D fs).1 := h4
    have hs := extractTarGzSteps_go D r hr e hn
    have h2' : (run fsCall (extractTarGzSteps D e) (extractTarGz fsCall pre D fs).1).2 = none := by
      have := h2
      unfold extractTarGz at this ⊢
      rw [h3] at this
      exact this
    refine ⟨h2, h4, fun ht => ?_, fun ht => ?_, fun h1 h2 => ?_⟩
    · rw [ht] at hs
      simp only at hs
      rw [hs] at h2'
      obtain ⟨perm, d0, hw, ht0⟩ := run_write _ _ _ _ _ h2'
      have hd0 : d0 = [] := ht0 rfl
      subst hd0
      simp only [List.drop_nil, List.append_nil] at hw
      have h1 : (extractTarGz fsCall (pre ++ [e]) D fs).1 (join [D, r])
          = some (.file perm e.data) := by
        unfold extractTarGz
        rw [h3, hs]
        exact hw
      refine ⟨perm, h1, ?_⟩
      obtain ⟨d1, hk, hk2⟩ := (extractTarGz_keeps post D (join [D, r]) _).2 perm e.data h1
      exact ⟨d1, by rw [h4']; exact hk, hk2⟩
    · rw [ht] at hs
      simp only at hs
      rw [hs] at h2'
      obtain ⟨hmk, hrun⟩ := run_cons_checked _ _ _ _ h2'
      have h1 : FS.isDir (extractTarGz fsCall (pre ++ [e]) D fs).1 (join [D, r]) = true := by
        have e1 : (extractTarGz fsCall (pre ++ [e]) D fs).1
            = (fsCall (.mkdirAll (join [D, r]) e.mode) (extractTarGz fsCall pre D fs).1).1 := by
          unfold extractTarGz
          rw [h3, hs]
          exact congrArg Prod.fst hrun
        rw [e1]
        exact mkdirAll_isDir _ _ _ hmk
      refine ⟨h1, ?_⟩
      obtain ⟨m, hm⟩ := (isDir_iff _ _).mp h1
      rw [h4']
      exact (isDir_iff _ _).mpr ⟨m, (extractTarGz_keeps post D (join [D, r]) _).1 m hm⟩
    · apply run_flatMap_skip
      rw [hs]
      cases ht : e.typeflag with
      | dir => exact absurd ht h2
      | reg => exact absurd ht h1
      | symlink => rfl
      | link => rfl
      | other c => rfl
  · intro name hname σ os s
    have h0 := goDestPath_root D name hname
    refine ⟨fun pre post isDir mode data => ?_, fun pre post typeflag mode linkname data => ?_⟩
    · apply run_flatMap_skip
      simp only [extractZipSteps, h0]
    · apply run_flatMap_skip
      simp only [extractTarGzSteps, h0]

set_option maxRecDepth 100000 in
/-- Witness of C5: the regular file `go/bin/tool` extracted under `/d` from a
zip archive and from a tar.gz archive is the file `/d/bin/tool` with the data
of the entry. -/
theorem go_entry_materialised_witness :
    "bin/tool".toList ≠ []
      ∧ (∃ perm, (extractZip fsCall [⟨"go/bin/tool".toList, false, 0o755, [1, 2]⟩] "/d".toList
          exampleFS).1 "/d/bin/tool".toList = some (.file perm [1, 2]))
      ∧ (∃ perm, (extractTarGz fsCall [⟨"go/bin/tool".toList, .reg, 0o755, [], [1, 2]⟩]
          "/d".toList exampleFS).1 "/d/bin/tool".toList = some (.file perm [1, 2]))
      ∧ (extractZip fsCall [⟨"go/bin/tool".toList, false, 0o755, [1, 2]⟩] "/d".toList
          exampleFS).1 "/d/bin/tool".toList = some (.file 0o755 [1, 2])
      ∧ (extractZip fsCall [⟨"go/bin/tool".toList, false, 0o755, [1, 2]⟩] "/d".toList
          exampleFS).1 "/d/go/bin/tool".toList = none := by
  have hj : join ["/d".toList, "bin/tool".toList] = "/d/bin/tool".toList := by decide
  have h := go_entry_materialised "/d".toList "bin/tool".toList (by decide)
  obtain ⟨p1, h1, -⟩ := (h.1 [] [] ⟨"go/bin/tool".toList, false, 0o755, [1, 2]⟩ exampleFS rfl
    (by decide)).2.2.1 rfl
  obtain ⟨p2, h2, -⟩ := (h.2.1 [] [] ⟨"go/bin/tool".toList, .reg, 0o755, [], [1, 2]⟩ exampleFS
    rfl (by decide)).2.2.1 rfl
  rw [hj] at h1 h2
  exact ⟨by decide, ⟨p1, h1⟩, ⟨p2, h2⟩, by decide, by decide⟩

set_option maxRecDepth 100000 in
/-- C5, counterexample: the extraction of a tar.gz archive whose only entry is
the symbolic link `go/bin/tool` returns no error and leaves nothing at
`/d/bin/tool`; the extraction of a zip archive whose only entry is the
directory `go/f` returns no error and leaves the regular file that was at
`/d/f`, no directory. -/
theorem go_entry_not_materialised :
    (extractTarGz fsCall [⟨"go/bin/tool".toList, .symlink, 0o777, "x".toList, []⟩] "/d".toList
        exampleFS).2 = none
      ∧ (extractTarGz fsCall [⟨"go/bin/tool".toList, .symlink, 0o777, "x".toList, []⟩]
          "/d".toList exampleFS).1 "/d/bin/tool".toList = none
      ∧ (extractZip fsCall [⟨"go/f".toList, true, 0o755, []⟩] "/d".toList exampleFS).2 = none
      ∧ (extractZip fsCall [⟨"go/f".toList, true, 0o755, []⟩] "/d".toList exampleFS).1
          "/d/f".toList = some (.file 0o644 [1, 2, 3, 4, 5]) := by
  decide
/-- C6, as amended: in `extractTarZst` with a non-empty `trimPrefix` an entry
whose name does not begin with the prefix, or equals it, is skipped: the
extraction is that of the archive without the entry, whatever the calls do.
Any other entry, and every entry when `trimPrefix` is empty, has the path
`filepath.Join(dst, name without the prefix)`; in an extraction that returns
no error, after the entry the path holds a directory for a directory entry, a
regular file beginning with the data for a regular file, a symbolic link with
the recorded target for a symbolic link, the regular file of the retargeted
link name for a hard link; an entry of another type makes no call. -/
theorem zst_entry_materialised (dst p : Str) (pre post : List TarEntry) (e : TarEntry) :
    (p ≠ [] → (¬ p <+: e.name ∨ e.name = p) →
        ∀ (σ : Type) (os : OS σ) (s : σ),
          extractTarZst os (pre ++ e :: post) dst p s = extractTarZst os (pre ++ post) dst p s)
      ∧ ((p = [] ∨ (p <+: e.name ∧ e.name ≠ p)) → ∀ fs : FS,
          (extractTarZst fsCall (pre ++ e :: post) dst p fs).2 = none →
          (extractTarZst fsCall (pre ++ [e]) dst p fs).2 = none
            ∧ extractTarZst fsCall (pre ++ e :: post) dst p fs
                = extractTarZst fsCall post dst p (extractTarZst fsCall (pre ++ [e]) dst p fs).1
            ∧ (e.typeflag = .dir →
                FS.isDir (extractTarZst fsCall (pre ++ [e]) dst p fs).1
                  (join [dst, e.name.drop p.length]) = true)
            ∧ (e.typeflag = .reg →
                ∃ perm tail, (extractTarZst fsCall (pre ++ [e]) dst p fs).1
                  (join [dst, e.name.drop p.length]) = some (.file perm (e.data ++ tail)))
            ∧ (e.typeflag = .symlink →
                (extractTarZst fsCall (pre ++ [e]) dst p fs).1
                  (join [dst, e.name.drop p.length]) = some (.symlink e.linkname))
            ∧ (e.typeflag = .link →
                ∃ perm data, (extractTarZst fsCall (pre ++ [e]) dst p fs).1
                    (join [dst, e.name.drop p.length]) = some (.file perm data)
                  ∧ (extractTarZst fsCall (pre ++ [e]) dst p fs).1
                    (join [dst, trimPrefix e.linkname "python/install/".toList])
                      = some (.file perm data))
            ∧ (∀ c, e.typeflag = .other c →
                extractTarZst fsCall (pre ++ e :: post) dst p fs
                  = extractTarZst fsCall (pre ++ post) dst p fs)) := by
  refine ⟨fun hp hskip σ os s => ?_, fun hkept fs hok => ?_⟩
  · apply run_flatMap_skip
    simp only [extractTarZstSteps, zstDestPath_skipped dst p e.name hp hskip]
  · obtain ⟨-, h2, h3, h4⟩ :=
      run_flatMap_split fsCall (extractTarZstSteps dst p) pre post e fs hok
    have hs := extractTarZstSteps_kept dst p e hkept
    have h2' : (run fsCall (extractTarZstSteps dst p e)
        (extractTarZst fsCall pre dst p fs).1).2 = none := by
      have := h2
      unfold extractTarZst at this ⊢
      rw [h3] at this
      exact this
    have h3' : extractTarZst fsCall (pre ++ [e]) dst p fs
        = run fsCall (extractTarZstSteps dst p e) (extractTarZst fsCall pre dst p fs).1 := h3
    refine ⟨h2, h4, fun ht => ?_, fun ht => ?_, fun ht => ?_, fun ht => ?_, fun c ht => ?_⟩
    · rw [ht] at hs
      simp only at hs
      rw [hs] at h2'
      obtain ⟨hmk, hrun⟩ := run_cons_checked _ _ _ _ h2'
      rw [h3', hs, hrun]
      exact mkdirAll_isDir _ _ _ hmk
    · rw [ht] at hs
      simp only at hs
      rw [hs] at h2'
      obtain ⟨perm, d0, hw, -⟩ := run_write _ _ _ _ _ h2'
      rw [h3', hs]
      exact ⟨perm, _, hw⟩
    · rw [ht] at hs
      simp only at hs
      rw [hs] at h2'
      obtain ⟨-, -, o3, hrun, -⟩ := run_link_steps _ _ _ h2'
      rw [h3', hs, hrun]
      exact symlink_ok _ _ _ o3
    · rw [ht] at hs
      simp only at hs
      rw [hs] at h2'
      obtain ⟨-, -, o3, hrun, -⟩ := run_link_steps _ _ _ h2'
      obtain ⟨perm, data, -, -, hp, htg⟩ := link_ok _ _ _ o3
      rw [h3', hs, hrun]
      exact ⟨perm, data, hp, htg⟩
    · apply run_flatMap_skip
      rw [hs, ht]

set_option maxRecDepth 100000 in
/-- Witness of C6: the prefix `python/install/`; the entry `python/build/x` is
left out, the regular file `python/install/bin/x` is the file `/d/bin/x` after
the extraction, and with the empty prefix it is `/d/python/install/bin/x`. -/
theorem zst_entry_materialised_witness :
    extractTarZst fsCall [⟨"python/build/x".toList, .reg, 0o644, [], [7]⟩] "/d".toList
        "python/install/".toList exampleFS
      = extractTarZst fsCall [] "/d".toList "python/install/".toList exampleFS
      ∧ (∃ perm tail, (extractTarZst fsCall [⟨"python/install/bin/x".toList, .reg, 0o644, [], [7]⟩]
          "/d".toList "python/install/".toList exampleFS).1 "/d/bin/x".toList
            = some (.file perm ([7] ++ tail)))
      ∧ ∃ perm tail, (extractTarZst fsCall [⟨"python/install/bin/x".toList, .reg, 0o644, [], [7]⟩]
          "/d".toList [] exampleFS).1 "/d/python/install/bin/x".toList
            = some (.file perm ([7] ++ tail)) := by
  have h1 := (zst_entry_materialised "/d".toList "python/install/".toList [] []
    ⟨"python/build/x".toList, .reg, 0o644, [], [7]⟩).1 (by decide) (Or.inl (by decide))
    FS fsCall exampleFS
  obtain ⟨p2, t2, h2⟩ := ((zst_entry_materialised "/d".toList "python/install/".toList [] []
    ⟨"python/install/bin/x".toList, .reg, 0o644, [], [7]⟩).2 (Or.inr ⟨by decide, by decide⟩)
    exampleFS (by decide)).2.2.2.1 rfl
  obtain ⟨p3, t3, h3⟩ := ((zst_entry_materialised "/d".toList [] [] []
    ⟨"python/install/bin/x".toList, .reg, 0o644, [], [7]⟩).2 (Or.inl rfl)
    exampleFS (by decide)).2.2.2.1 rfl
  have hj2 : join ["/d".toList, "python/install/bin/x".toList.drop "python/install/".toList.length]
      = "/d/bin/x".toList := by decide
  have hj3 : join ["/d".toList, "python/install/bin/x".toList.drop ([] : Str).length]
      = "/d/python/install/bin/x".toList := by decide
  rw [hj2] at h2
  rw [hj3] at h3
  exact ⟨h1, ⟨p2, t2, h2⟩, ⟨p3, t3, h3⟩⟩

set_option maxRecDepth 100000 in
/-- C6, counterexample: the extraction of an archive whose only entry is the
FIFO `python/install/x` returns no error and leaves nothing at `/d/x`, with
the prefix `python/install/`, and nothing at `/d/python/install/x` with the
empty prefix. -/
theorem zst_entry_not_materialised :
    (extractTarZst fsCall [⟨"python/install/x".toList, .other '6', 0o644, [], []⟩] "/d".toList
        "python/install/".toList exampleFS).2 = none
      ∧ (extractTarZst fsCall [⟨"python/install/x".toList, .other '6', 0o644, [], []⟩]
          "/d".toList "python/install/".toList exampleFS).1 "/d/x".toList = none
      ∧ (extractTarZst fsCall [⟨"python/install/x".toList, .other '6', 0o644, [], []⟩]
          "/d".toList [] exampleFS).2 = none
      ∧ (extractTarZst fsCall [⟨"python/install/x".toList, .other '6', 0o644, [], []⟩]
          "/d".toList [] exampleFS).1 "/d/python/install/x".toList = none := by
  decide

/-- C7, as amended: a hard-link entry of `extractTarZst` that is not skipped
and whose recorded link target is `"python/install/" + r`, in an archive whose
extraction returns no error.  Whatever the calls do, the calls for the entry
are `MkdirAll` of the directory of its path, `RemoveAll` of its path and
`Link(filepath.Join(dst, r), path)`, in this order, between those of the
entries before and after it.  On the file system the path holds nothing when
`Link` is called, the call succeeds, and after the entry the path and
`filepath.Join(dst, r)` hold the same regular file, which was at
`filepath.Join(dst, r)` before the call. -/
theorem zst_hardlink_created (dst p r : Str) (pre post : List TarEntry) (e : TarEntry)
    (fs : FS) (ht : e.typeflag = .link) (hl : e.linkname = "python/install/".toList ++ r)
    (hname : p = [] ∨ (p <+: e.name ∧ e.name ≠ p))
    (hok : (extractTarZst fsCall (pre ++ e :: post) dst p fs).2 = none) :
    (∀ (σ : Type) (os : OS σ) (s : σ),
        extractTarZst os (pre ++ e :: post) dst p s
          = run os (pre.flatMap (extractTarZstSteps dst p)
              ++ ([⟨.mkdirAll (dir (join [dst, e.name.drop p.length])) 0o755, true⟩,
                   ⟨.removeAll (join [dst, e.name.drop p.length]), true⟩,
                   ⟨.link (join [dst, r]) (join [dst, e.name.drop p.length]), true⟩]
                ++ post.flatMap (extractTarZstSteps dst p))) s)
      ∧ ∃ fs0 : FS,
          run fsCall (pre.flatMap (extractTarZstSteps dst p)
              ++ [⟨.mkdirAll (dir (join [dst, e.name.drop p.length])) 0o755, true⟩,
                  ⟨.removeAll (join [dst, e.name.drop p.length]), true⟩]) fs = (fs0, none)
            ∧ fs0 (join [dst, e.name.drop p.length]) = none
            ∧ (fsCall (.link (join [dst, r]) (join [dst, e.name.drop p.length])) fs0).2 = true
            ∧ extractTarZst fsCall (pre ++ [e]) dst p fs
                = ((fsCall (.link (join [dst, r]) (join [dst, e.name.drop p.length])) fs0).1,
                    none)
            ∧ (∃ perm data, fs0 (join [dst, r]) = some (.file perm data)
                ∧ (extractTarZst fsCall (pre ++ [e]) dst p fs).1
                    (join [dst, e.name.drop p.length]) = some (.file perm data)
                ∧ (extractTarZst fsCall (pre ++ [e]) dst p fs).1 (join [dst, r])
                    = some (.file perm data))
            ∧ extractTarZst fsCall (pre ++ e :: post) dst p fs
                = extractTarZst fsCall post dst p
                    (extractTarZst fsCall (pre ++ [e]) dst p fs).1 := by
  have hs := extractTarZstSteps_kept dst p e hname
  rw [ht, hl, trimPrefix_append] at hs
  simp only at hs
  refine ⟨fun σ os s => ?_, ?_⟩
  · unfold extractTarZst
    rw [List.flatMap_append, List.flatMap_cons, hs]
  · obtain ⟨h1, h2, h3, h4⟩ :=
      run_flatMap_split fsCall (extractTarZstSteps dst p) pre post e fs hok
    have h2' := h2
    rw [h3, hs] at h2'
    obtain ⟨-, hnone, o3, hrun, hrun2⟩ := run_link_steps _ _ _ h2'
    obtain ⟨perm, data, htg, -, hp1, hp2⟩ := link_ok _ _ _ o3
    have h3' : extractTarZst fsCall (pre ++ [e]) dst p fs
        = ((fsCall (.link (join [dst, r]) (join [dst, e.name.drop p.length]))
            (fsCall (.removeAll (join [dst, e.name.drop p.length]))
              (fsCall (.mkdirAll (dir (join [dst, e.name.drop p.length])) 0o755)
                (run fsCall (pre.flatMap (extractTarZstSteps dst p)) fs).1).1).1).1, none) := by
      unfold extractTarZst
      rw [h3, hs, hrun]
    refine ⟨_, ?_, hnone, o3, h3', ⟨perm, data, htg, ?_, ?_⟩, h4⟩
    · rw [run_append, if_pos h1, hrun2]
    · rw [h3']
      exact hp1
    · rw [h3']
      exact hp2

set_option maxRecDepth 100000 in
/-- Witness of C7: after the regular file `python/install/lib/x.so`, the hard
link `python/install/lib/y.so` to it, extracted under `/d` with the prefix
`python/install`: `/d/lib/y.so` and `/d/lib/x.so` hold the same file, which
has the two bytes of the entry `x.so`. -/
theorem zst_hardlink_created_witness :
    (∃ perm data,
      (extractTarZst fsCall
          [⟨"python/install/lib/x.so".toList, .reg, 0o644, [], [1, 2]⟩,
           ⟨"python/install/lib/y.so".toList, .link, 0o644, "python/install/lib/x.so".toList, []⟩]
          "/d".toList "python/install".toList exampleFS).1 "/d/lib/y.so".toList
        = some (.file perm data)
      ∧ (extractTarZst fsCall
          [⟨"python/install/lib/x.so".toList, .reg, 0o644, [], [1, 2]⟩,
           ⟨"python/install/lib/y.so".toList, .link, 0o644, "python/install/lib/x.so".toList, []⟩]
          "/d".toList "python/install".toList exampleFS).1 "/d/lib/x.so".toList
        = some (.file perm data))
      ∧ (extractTarZst fsCall
          [⟨"python/install/lib/x.so".toList, .reg, 0o644, [], [1, 2]⟩,
           ⟨"python/install/lib/y.so".toList, .link, 0o644, "python/install/lib/x.so".toList, []⟩]
          "/d".toList "python/install".toList exampleFS).1 "/d/lib/y.so".toList
        = some (.file 0o644 [1, 2]) := by
  refine ⟨?_, by decide⟩
  obtain ⟨-, fs0, -, -, -, -, ⟨perm, data, -, h1, h2⟩, -⟩ :=
    zst_hardlink_created "/d".toList "python/install".toList "lib/x.so".toList
      [⟨"python/install/lib/x.so".toList, .reg, 0o644, [], [1, 2]⟩] []
      ⟨"python/install/lib/y.so".toList, .link, 0o644, "python/install/lib/x.so".toList, []⟩
      exampleFS rfl (by decide) (Or.inr ⟨by decide, by decide⟩) (by decide)
  have hj1 : join ["/d".toList,
      "python/install/lib/y.so".toList.drop "python/install".toList.length]
        = "/d/lib/y.so".toList := by decide
  have hj2 : join ["/d".toList, "lib/x.so".toList] = "/d/lib/x.so".toList := by decide
  rw [hj1] at h1
  rw [hj2] at h2
  exact ⟨perm, data, h1, h2⟩

set_option maxRecDepth 100000 in
/-- C7, counterexample: the same archive extracted with the empty prefix.  The
file goes to `/d/python/install/lib/x.so`, the link is asked for to
`/d/lib/x.so`, where nothing is: `os.Link` fails, `extractTarZst` returns its
error and no link exists at `/d/python/install/lib/y.so`. -/
theorem zst_hardlink_not_created :
    (extractTarZst fsCall
        [⟨"python/install/lib/x.so".toList, .reg, 0o644, [], [1, 2]⟩,
         ⟨"python/install/lib/y.so".toList, .link, 0o644, "python/install/lib/x.so".toList, []⟩]
        "/d".toList [] exampleFS).2
      = some (.link "/d/lib/x.so".toList "/d/python/install/lib/y.so".toList)
      ∧ (extractTarZst fsCall
          [⟨"python/install/lib/x.so".toList, .reg, 0o644, [], [1, 2]⟩,
           ⟨"python/install/lib/y.so".toList, .link, 0o644, "python/install/lib/x.so".toList, []⟩]
          "/d".toList [] exampleFS).1 "/d/python/install/lib/x.so".toList
        = some (.file 0o644 [1, 2])
      ∧ (extractTarZst fsCall
          [⟨"python/install/lib/x.so".toList, .reg, 0o644, [], [1, 2]⟩,
           ⟨"python/install/lib/y.so".toList, .link, 0o644, "python/install/lib/x.so".toList, []⟩]
          "/d".toList [] exampleFS).1 "/d/lib/x.so".toList = none
      ∧ (extractTarZst fsCall
          [⟨"python/install/lib/x.so".toList, .reg, 0o644, [], [1, 2]⟩,
           ⟨"python/install/lib/y.so".toList, .link, 0o644, "python/install/lib/x.so".toList, []⟩]
          "/d".toList [] exampleFS).1 "/d/python/install/lib/y.so".toList = none := by
  decide

/-! ## The placeholder in the descriptors `updatePkgConfig` leaves -/

/-- The names the loop writes for a descriptor beside its own: the four aliases
and, for a free-threaded descriptor, its name without `t`. -/
theorem mem_writtenNames_other (m n : Str) (h : n ∈ writtenNames m) (hne : n ≠ m) :
    n ∈ ["python3.pc".toList, "python3t.pc".toList, "python3-embed.pc".toList,
        "python3t-embed.pc".toList]
      ∨ ∃ v, (m = "python-".toList ++ v ++ "t.pc".toList
            ∧ n = "python-".toList ++ v ++ ".pc".toList)
          ∨ (m = "python-".toList ++ v ++ "t-embed.pc".toList
            ∧ n = "python-".toList ++ v ++ "-embed.pc".toList) := by
  unfold writtenNames at h
  rcases List.mem_cons.mp h with h | h
  · exact absurd h hne
  · rcases List.mem_append.mp h with h | h
    · obtain ⟨v, hp, h | h | h⟩ := mem_patternNames _ _ _ _ _ _ _ h
      · obtain ⟨-, -, -, -, -, hm | hm⟩ := matchVersioned_some _ _ _ hp
        · exact Or.inr ⟨v, Or.inl ⟨hm, h⟩⟩
        · exact absurd (h.trans hm.symm) hne
      · left
        rw [h]
        simp
      · left
        rw [h]
        simp
    · obtain ⟨v, hp, h | h | h⟩ := mem_patternNames _ _ _ _ _ _ _ h
      · obtain ⟨-, -, -, -, -, hm | hm⟩ := matchVersioned_some _ _ _ hp
        · exact Or.inr ⟨v, Or.inr ⟨hm, h⟩⟩
        · exact absurd (h.trans hm.symm) hne
      · left
        rw [h]
        simp
      · left
        rw [h]
        simp

/-- A descriptor that no other descriptor of the directory is written to holds
its own content, patched, after `updatePkgConfig`. -/
theorem updatePkgConfig_own (absPath content n : Str) (d d' : Directory)
    (hnd : (d.map Prod.fst).Nodup) (hn : d.lookup n = some (.file content))
    (hs : hasSuffix n ".pc".toList = true)
    (hsolo : ∀ m c, d.lookup m = some (.file c) → hasSuffix m ".pc".toList = true → m ≠ n →
      n ∉ writtenNames m)
    (hok : updatePkgConfig absPath (some d) = .ok d') :
    d'.lookup n = some (.file (patched absPath content)) := by
  unfold updatePkgConfig at hok
  simp only at hok
  obtain ⟨L1, L2, hL, h1, h2⟩ := readDir_split d n content hnd hn
  rw [hL] at hok
  obtain ⟨dA, hA, hrest⟩ := updateEntries_append _ L1 _ d d' hok
  simp only [updateEntries] at hrest
  have hno : ∀ e ∈ readDir d, isPcEntry e = true → e.1 ≠ n → n ∉ writtenNames e.1 := by
    intro e he hpc hen
    obtain ⟨c, hc⟩ := file_of_mem_readDir d e hnd he hpc
    have hsuf : hasSuffix e.1 ".pc".toList = true := by
      unfold isPcEntry at hpc
      simp only [Bool.and_eq_true] at hpc
      exact hpc.2
    exact hsolo e.1 c hc hsuf hen
  cases hstep : updateEntry absPath dA (n, false) with
  | error x => rw [hstep] at hrest; cases hrest
  | ok dB =>
    rw [hstep] at hrest
    simp only at hrest
    have hnA : dA.lookup n = some (.file content) :=
      updateEntries_keeps absPath n content L1 d dA
        (fun e he hpc hm => absurd hm (hno e (by rw [hL]; exact List.mem_append_left _ he) hpc
          (h1 e he))) hn hA
    have hpcn : isPcEntry (n, false) = true := by
      unfold isPcEntry
      rw [hs]
      rfl
    obtain ⟨c2, hr, hw⟩ := updateEntry_lookup absPath dA dB _ hpcn hstep
    unfold Directory.readFile at hr
    simp only [hnA, Option.some.injEq] at hr
    subst hr
    have hnB : dB.lookup n = some (.file (patched absPath content)) := by
      rw [hw n, if_pos (by unfold writtenNames; exact List.mem_cons_self _ _)]
    exact updateEntries_keeps absPath n _ L2 dB d'
      (fun e he hpc hm => absurd hm (hno e (by
        rw [hL]
        exact List.mem_append_right _ (List.mem_cons_of_mem _ he)) hpc (h2 e he).1)) hnB hrest

/-- The patch of a content that holds the placeholder, or that holds the new
prefix and the placeholder only if the new prefix holds it: the result holds
the new prefix, and the placeholder only if the new prefix holds it. -/
theorem patched_written (Z x : Str)
    (h : placeholder <:+: x
      ∨ ("prefix=".toList ++ (Z ++ "python".toList) <:+: x
        ∧ (¬ placeholder <:+: "prefix=".toList ++ (Z ++ "python".toList) →
            ¬ placeholder <:+: x))) :
    "prefix=".toList ++ (Z ++ "python".toList) <:+: patched (Z ++ "python".toList) x
      ∧ (¬ placeholder <:+: "prefix=".toList ++ (Z ++ "python".toList) →
          ¬ placeholder <:+: patched (Z ++ "python".toList) x) := by
  by_cases hx : placeholder <:+: x
  · obtain ⟨h1, h2⟩ := patched_placeholder Z x hx
    exact ⟨h1, fun hno hp => hno (h2.mp hp)⟩
  · rcases h with h | h
    · exact absurd h hx
    · rw [patched_eq, replaceAllAux_of_not_infix _ _ _ _ hx]
      exact h

/-- The loop of `updatePkgConfig` on a directory in which every `.pc` file
either is as a written file is, or holds the placeholder and is still to be
handled: in the end every `.pc` file is as a written file is. -/
theorem updateEntries_written (Z : Str) (L : List (Str × Bool)) (d d' : Directory)
    (hinv : ∀ k c, hasSuffix k ".pc".toList = true → d.lookup k = some (.file c) →
      ("prefix=".toList ++ (Z ++ "python".toList) <:+: c
        ∧ (¬ placeholder <:+: "prefix=".toList ++ (Z ++ "python".toList) →
            ¬ placeholder <:+: c))
      ∨ (placeholder <:+: c ∧ (k, false) ∈ L))
    (h : updateEntries (Z ++ "python".toList) L d = .ok d') :
    ∀ k c, hasSuffix k ".pc".toList = true → d'.lookup k = some (.file c) →
      "prefix=".toList ++ (Z ++ "python".toList) <:+: c
        ∧ (¬ placeholder <:+: "prefix=".toList ++ (Z ++ "python".toList) →
            ¬ placeholder <:+: c) := by
  induction L generalizing d with
  | nil =>
    cases h
    intro k c hs hl
    rcases hinv k c hs hl with hw | ⟨-, hm⟩
    · exact hw
    · simp at hm
  | cons e rest ih =>
    simp only [updateEntries] at h
    cases he : updateEntry (Z ++ "python".toList) d e with
    | error x => rw [he] at h; cases h
    | ok d1 =>
      rw [he] at h
      refine ih d1 (fun k c hs hl => ?_) h
      by_cases hpc : isPcEntry e = true
      · obtain ⟨c0, hr, hw⟩ := updateEntry_lookup _ d d1 e hpc he
        have hsuf : hasSuffix e.1 ".pc".toList = true := by
          unfold isPcEntry at hpc
          simp only [Bool.and_eq_true] at hpc
          exact hpc.2
        have hr2 : d.lookup e.1 = some (.file c0) := by
          unfold Directory.readFile at hr
          cases hl0 : d.lookup e.1 with
          | none => rw [hl0] at hr; simp at hr
          | some node =>
            rw [hl0] at hr
            cases node with
            | subdir => simp at hr
            | file c1 =>
              simp only [Option.some.injEq] at hr
              rw [hr]
        have hgood : placeholder <:+: c0
            ∨ ("prefix=".toList ++ (Z ++ "python".toList) <:+: c0
              ∧ (¬ placeholder <:+: "prefix=".toList ++ (Z ++ "python".toList) →
                  ¬ placeholder <:+: c0)) := by
          rcases hinv e.1 c0 hsuf hr2 with h1 | ⟨h1, -⟩
          · exact Or.inr h1
          · exact Or.inl h1
        by_cases hm : k ∈ writtenNames e.1
        · rw [hw k, if_pos hm] at hl
          simp only [Option.some.injEq, DirNode.file.injEq] at hl
          rw [← hl]
          exact Or.inl (patched_written Z c0 hgood)
        · rw [hw k, if_neg hm] at hl
          rcases hinv k c hs hl with h1 | ⟨h1, h2⟩
          · exact Or.inl h1
          · rcases List.mem_cons.mp h2 with h3 | h3
            · exfalso
              apply hm
              rw [← h3]
              unfold writtenNames
              exact List.mem_cons_self _ _
            · exact Or.inr ⟨h1, h3⟩
      · rw [updateEntry_skip _ d e (Bool.eq_false_iff.mpr hpc)] at he
        cases he
        rcases hinv k c hs hl with h1 | ⟨h1, h2⟩
        · exact Or.inl h1
        · rcases List.mem_cons.mp h2 with h3 | h3
          · exfalso
            apply hpc
            rw [← h3]
            unfold isPcEntry
            rw [hs]
            rfl
          · exact Or.inr ⟨h1, h3⟩

/-- C11, as amended: with `A` the absolute path of the Python root of the
project and a content that holds the placeholder `prefix=/install`.  The
patched content holds `prefix=` followed by `A`, and the placeholder is left
in it exactly when `A` begins with `/install` or holds the placeholder itself.
In every directory with distinct names, a `.pc` file with this content to which
no other `.pc` file of the directory is written holds the patched content after
a successful `updatePkgConfig`.  The files another descriptor is written to are
the four aliases and, beside a free-threaded descriptor, the descriptor without
`t`.  When every `.pc` file of a directory holds the placeholder, every `.pc`
file, alias or not, holds `prefix=` followed by `A` after a successful
`updatePkgConfig`, and the placeholder under the same condition on `A`. -/
theorem updatePkgConfig_placeholder (wd : Option Str) (projectPath A content : Str)
    (hA : pythonAbsPath wd projectPath = some A)
    (hc : contains content "prefix=/install".toList = true) :
    contains (patched A content) ("prefix=".toList ++ A) = true
      ∧ (contains (patched A content) "prefix=/install".toList = true
          ↔ (hasPrefix A "/install".toList = true ∨ contains A "prefix=/install".toList = true))
      ∧ (∀ (d d' : Directory) (n : Str), (d.map Prod.fst).Nodup →
          d.lookup n = some (.file content) → hasSuffix n ".pc".toList = true →
          (∀ m c, d.lookup m = some (.file c) → hasSuffix m ".pc".toList = true → m ≠ n →
            n ∉ writtenNames m) →
          updatePkgConfig A (some d) = .ok d' →
          d'.lookup n = some (.file (patched A content)))
      ∧ (∀ m n, n ∈ writtenNames m → n ≠ m →
          n ∈ ["python3.pc".toList, "python3t.pc".toList, "python3-embed.pc".toList,
              "python3t-embed.pc".toList]
            ∨ ∃ v, (m = "python-".toList ++ v ++ "t.pc".toList
                  ∧ n = "python-".toList ++ v ++ ".pc".toList)
                ∨ (m = "python-".toList ++ v ++ "t-embed.pc".toList
                  ∧ n = "python-".toList ++ v ++ "-embed.pc".toList))
      ∧ (∀ (d d' : Directory),
          (∀ k c, hasSuffix k ".pc".toList = true → d.lookup k = some (.file c) →
            contains c "prefix=/install".toList = true) →
          updatePkgConfig A (some d) = .ok d' →
          ∀ k c, hasSuffix k ".pc".toList = true → d'.lookup k = some (.file c) →
            contains c ("prefix=".toList ++ A) = true
              ∧ (contains c "prefix=/install".toList = true
                  ↔ (hasPrefix A "/install".toList = true
                    ∨ contains A "prefix=/install".toList = true))) := by
  obtain ⟨Z, hZ⟩ := pythonAbsPath_python wd projectPath A hA
  subst hZ
  have hc2 : placeholder <:+: content := by
    simpa only [contains, decide_eq_true_eq] using hc
  obtain ⟨h1, h2⟩ := patched_placeholder Z content hc2
  refine ⟨?_, ?_, ?_, ?_, ?_⟩
  · simp only [contains, decide_eq_true_eq]
    exact h1
  · simp only [contains, decide_eq_true_eq, hasPrefix_iff]
    exact h2.trans (placeholder_infix_new _)
  · intro d d' n hnd hn hs hsolo hok
    exact updatePkgConfig_own _ content n d d' hnd hn hs hsolo hok
  · intro m n h hne
    exact mem_writtenNames_other m n h hne
  · intro d d' hall hok k c hs hl
    unfold updatePkgConfig at hok
    simp only at hok
    obtain ⟨hw1, hw2⟩ := updateEntries_written Z (readDir d) d d' (fun k c hs hl => by
      right
      refine ⟨by simpa only [contains, decide_eq_true_eq] using hall k c hs hl, ?_⟩
      exact (mem_readDir d _).mpr ⟨k, .file c, mem_of_lookup _ _ _ hl, by simp⟩) hok k c hs hl
    refine ⟨by simp only [contains, decide_eq_true_eq]; exact hw1, ?_⟩
    simp only [contains, decide_eq_true_eq, hasPrefix_iff]
    have hnew := placeholder_infix_new (Z ++ "python".toList)
    constructor
    · intro hp
      by_contra hno
      exact hw2 (fun h => hno (hnew.mp h)) hp
    · intro hp
      exact (hnew.mpr hp).trans hw1

set_option maxRecDepth 100000 in
/-- Witness of C11 as amended: the project `/tmp/proj` and the directory with
the two free-threaded descriptors of Python 3.13; after `updatePkgConfig` the
descriptor `python-3.13t.pc` holds the new prefix and no placeholder. -/
theorem updatePkgConfig_placeholder_witness :
    pythonAbsPath (some "/".toList) "/tmp/proj".toList = some "/tmp/proj/.deps/python".toList
      ∧ contains "prefix=/install\nLibs: -lpython3t\n".toList "prefix=/install".toList = true
      ∧ ∃ d', updatePkgConfig "/tmp/proj/.deps/python".toList (some exampleThreadedDir) = .ok d'
        ∧ d'.lookup "python-3.13t.pc".toList
            = some (.file (patched "/tmp/proj/.deps/python".toList
                "prefix=/install\nLibs: -lpython3t\n".toList))
        ∧ patched "/tmp/proj/.deps/python".toList "prefix=/install\nLibs: -lpython3t\n".toList
            = "prefix=/tmp/proj/.deps/python\nLibs: -lpython3t\n".toList
        ∧ contains (patched "/tmp/proj/.deps/python".toList
            "prefix=/install\nLibs: -lpython3t\n".toList)
            "prefix=/tmp/proj/.deps/python".toList = true
        ∧ contains (patched "/tmp/proj/.deps/python".toList
            "prefix=/install\nLibs: -lpython3t\n".toList) "prefix=/install".toList = false
        ∧ ∀ k c, hasSuffix k ".pc".toList = true → d'.lookup k = some (.file c) →
            contains c "prefix=/tmp/proj/.deps/python".toList = true := by
  have hok : updatePkgConfig "/tmp/proj/.deps/python".toList (some exampleThreadedDir)
      = .ok ((updatePkgConfig "/tmp/proj/.deps/python".toList
          (some exampleThreadedDir)).toOption.getD []) := by
    rfl
  have hsolo : ∀ m c, exampleThreadedDir.lookup m = some (.file c) →
      hasSuffix m ".pc".toList = true → m ≠ "python-3.13t.pc".toList →
      "python-3.13t.pc".toList ∉ writtenNames m := by
    intro m c h hs hne
    have hm := mem_of_lookup _ _ _ h
    simp only [exampleThreadedDir, List.mem_cons, Prod.mk.injEq, List.not_mem_nil,
      or_false] at hm
    rcases hm with ⟨rfl, -⟩ | ⟨rfl, -⟩ | ⟨rfl, -⟩
    · exact absurd rfl hne
    · decide
    · exact absurd hs (by decide)
  have h := updatePkgConfig_placeholder (some "/".toList) "/tmp/proj".toList
    "/tmp/proj/.deps/python".toList "prefix=/install\nLibs: -lpython3t\n".toList
    (by decide) (by decide)
  have hall : ∀ k c, hasSuffix k ".pc".toList = true →
      exampleThreadedDir.lookup k = some (.file c) →
      contains c "prefix=/install".toList = true := by
    intro k c hs hl
    have hm := mem_of_lookup _ _ _ hl
    simp only [exampleThreadedDir, List.mem_cons, Prod.mk.injEq, List.not_mem_nil,
      or_false, DirNode.file.injEq] at hm
    rcases hm with ⟨-, rfl⟩ | ⟨-, rfl⟩ | ⟨rfl, -⟩
    · decide
    · decide
    · exact absurd hs (by decide)
  refine ⟨by decide, by decide, _, hok,
    h.2.2.1 exampleThreadedDir _ "python-3.13t.pc".toList (by decide) (by decide) (by decide)
      hsolo hok, by decide, h.1, ?_, ?_⟩
  · exact Bool.eq_false_iff.mpr (fun hp => absurd (h.2.1.mp hp) (by decide))
  · intro k c hs hl
    exact (h.2.2.2.2 exampleThreadedDir _ hall hok k c hs hl).1

end Got
